import Mathlib

/-!
Red de enrutadores: topology store and shortest-path engine

Shallow embedding of `src/enrutador0.cpp` and `src/enrutador1.cpp`.

* `std::unordered_map<string, β>` is an association list `List (String × β)`;
  the list order stands for the (unspecified) enumeration order of the map.
  A well-formed map never holds two entries with the same key (`clavesUnicas`).
* `int` is `Int`; the only arithmetic of the program, `dist + costo` inside the
  search, is wrapped to 32 bits by `envolver`.
* A C++ exception is a value of `Excepcion`; a mutating method returns the
  outcome of the call together with the store as the call leaves it.
* The two `while` loops of `encontrarRutaMasCorta` and the loop of
  `esRedConectada` take a fuel argument that counts evaluations of the loop
  condition; `none` means that the fuel ran out.
* A predecessor walk that comes back to a router it has pushed never leaves its
  loop in the program: `ruta` grows until `push_back` fails with
  `std::bad_alloc`. The walks report that outcome at the first router they meet
  twice.
* The change log and the clock stamps of `enrutador1.cpp` (`registrarCambio`,
  `ultimaActualizacion`) are not part of the topology and are left out.
-/

set_option autoImplicit false

/-! ## Association lists standing for `unordered_map` -/

/-- Key lookup, `m.find(k)`: the value stored under `k`, if any. -/
def buscar {β : Type} : List (String × β) → String → Option β
  | [], _ => none
  | (k', v) :: m, k => if k' = k then some v else buscar m k

/-- Assignment `m[k] = v`: overwrites the entry of `k` in place, or adds one. -/
def asignar {β : Type} : List (String × β) → String → β → List (String × β)
  | [], k, v => [(k, v)]
  | (k', v') :: m, k, v => if k' = k then (k, v) :: m else (k', v') :: asignar m k v

/-- Removal `m.erase(k)`: no entry of `k` is left. -/
def borrar {β : Type} (m : List (String × β)) (k : String) : List (String × β) :=
  m.filter (fun e => decide (e.1 ≠ k))

/-- The keys of a map, in enumeration order. -/
def claves {β : Type} (m : List (String × β)) : List String := m.map Prod.fst

/-- Representation invariant of `unordered_map`: one entry per key. -/
def clavesUnicas {β : Type} (m : List (String × β)) : Prop := (claves m).Nodup

/-- Update of a total function at one point (a map read through `operator[]`). -/
def poner {β : Type} (f : String → β) (k : String) (v : β) : String → β :=
  fun x => if x = k then v else f x

/-! ## Machine integers and exceptions -/

/-- Value of `numeric_limits<int>::max()`. -/
def INT_MAX : Int := 2147483647

/-- Two's-complement wrap of a 32-bit `int` result. -/
def envolver (x : Int) : Int := (x + 2147483648) % 4294967296 - 2147483648

/-- The exceptions the program throws. -/
inductive Excepcion where
  | invalid_argument (what : String)
  | out_of_range
  | runtime_error (what : String)
  | bad_alloc
deriving DecidableEq, Repr

def msgNombreVacio : String := "El nombre del enrutador no puede estar vacío"
def msgDuplicado : String := "Ya existe un enrutador con ese nombre"
def msgNoEncontrado : String := "Enrutador no encontrado"
def msgNoExiste : String := "Enrutador origen o destino no existe"
def msgCostoNegativo : String := "El costo no puede ser negativo"

/-! ## `class Enrutador` -/

structure Enrutador where
  tablaEnrutamiento : List (String × Int)
  nombre : String
deriving DecidableEq, Repr

/-- `Enrutador::actualizarRuta`. -/
def Enrutador.actualizarRuta (e : Enrutador) (destino : String) (costo : Int) :
    Except Excepcion Unit × Enrutador :=
  if costo < 0 then
    (.error (.invalid_argument msgCostoNegativo), e)
  else
    (.ok (), { e with tablaEnrutamiento := asignar e.tablaEnrutamiento destino costo })

/-- `Enrutador::eliminarRuta`. -/
def Enrutador.eliminarRuta (e : Enrutador) (destino : String) : Enrutador :=
  match buscar e.tablaEnrutamiento destino with
  | some _ => { e with tablaEnrutamiento := borrar e.tablaEnrutamiento destino }
  | none => e

/-- `Enrutador::obtenerCosto`. -/
def Enrutador.obtenerCosto (e : Enrutador) (destino : String) : Int :=
  match buscar e.tablaEnrutamiento destino with
  | some c => c
  | none => INT_MAX

/-! ## `class Red`: the topology store -/

structure Red where
  enrutadores : List (String × Enrutador)
deriving DecidableEq, Repr

/-- The network a default-constructed `Red` holds. -/
def Red.vacia : Red := ⟨[]⟩

/-- `Red::existeEnrutador`. -/
def Red.existeEnrutador (r : Red) (nombre : String) : Bool :=
  (buscar r.enrutadores nombre).isSome

/-- `Red::agregarEnrutador`. -/
def Red.agregarEnrutador (r : Red) (nombre : String) : Except Excepcion Unit × Red :=
  if nombre = "" then
    (.error (.invalid_argument msgNombreVacio), r)
  else if r.existeEnrutador nombre then
    (.error (.invalid_argument msgDuplicado), r)
  else
    (.ok (), ⟨r.enrutadores ++ [(nombre, ⟨[], nombre⟩)]⟩)

/-- `Red::eliminarEnrutador`. -/
def Red.eliminarEnrutador (r : Red) (nombre : String) : Except Excepcion Unit × Red :=
  if !r.existeEnrutador nombre then
    (.error (.invalid_argument msgNoEncontrado), r)
  else
    (.ok (), ⟨(borrar r.enrutadores nombre).map (fun p => (p.1, p.2.eliminarRuta nombre))⟩)

/-- `Red::actualizarEnlace`. The two `at(..).actualizarRuta(..)` calls mutate the
    stored routers one after the other. -/
def Red.actualizarEnlace (r : Red) (origen destino : String) (costo : Int) :
    Except Excepcion Unit × Red :=
  if !r.existeEnrutador origen || !r.existeEnrutador destino then
    (.error (.invalid_argument msgNoExiste), r)
  else if costo < 0 then
    (.error (.invalid_argument msgCostoNegativo), r)
  else
    match buscar r.enrutadores origen with
    | none => (.error .out_of_range, r)
    | some eo =>
      match eo.actualizarRuta destino costo with
      | (.error x, eo') => (.error x, ⟨asignar r.enrutadores origen eo'⟩)
      | (.ok _, eo') =>
        let r1 : Red := ⟨asignar r.enrutadores origen eo'⟩
        match buscar r1.enrutadores destino with
        | none => (.error .out_of_range, r1)
        | some ed =>
          match ed.actualizarRuta origen costo with
          | (res, ed') => (res, ⟨asignar r1.enrutadores destino ed'⟩)

/-! ## Links, routes and the store invariant -/

/-- Cost that router `a` lists for neighbour `b`, when `a` exists and lists `b`. -/
def Red.costoEnlace (r : Red) (a b : String) : Option Int :=
  match buscar r.enrutadores a with
  | some e => buscar e.tablaEnrutamiento b
  | none => none

/-- Sum of the link costs along a router sequence; `none` when two consecutive
    routers of the sequence are not linked. -/
def Red.costoRuta (r : Red) : List String → Option Int
  | [] => some 0
  | [_] => some 0
  | a :: b :: resto =>
    match r.costoEnlace a b, r.costoRuta (b :: resto) with
    | some c, some t => some (c + t)
    | _, _ => none

/-- Every map of the store has one entry per key. -/
def Red.bienFormada (r : Red) : Prop :=
  clavesUnicas r.enrutadores ∧ ∀ p ∈ r.enrutadores, clavesUnicas p.2.tablaEnrutamiento

/-- The adjacency relation is symmetric. -/
def Red.simetrica (r : Red) : Prop :=
  ∀ a b : String, ∀ c : Int, r.costoEnlace a b = some c ↔ r.costoEnlace b a = some c

/-- No routing table names a router that is not in the store. -/
def Red.sinColgantes (r : Red) : Prop :=
  ∀ p ∈ r.enrutadores, ∀ q ∈ p.2.tablaEnrutamiento, r.existeEnrutador q.1 = true

/-- Every stored cost is non-negative. -/
def Red.costosNoNegativos (r : Red) : Prop :=
  ∀ p ∈ r.enrutadores, ∀ q ∈ p.2.tablaEnrutamiento, 0 ≤ q.2

/-- The mutating calls of the public interface. -/
inductive Operacion where
  | agregar (nombre : String)
  | eliminar (nombre : String)
  | enlazar (origen destino : String) (costo : Int)
deriving DecidableEq, Repr

/-- The store after one call, whether the call succeeded or threw. -/
def Red.aplicar (r : Red) : Operacion → Red
  | .agregar n => (r.agregarEnrutador n).2
  | .eliminar n => (r.eliminarEnrutador n).2
  | .enlazar a b c => (r.actualizarEnlace a b c).2

/-- The store after a sequence of calls on the empty network. -/
def Red.tras (ops : List Operacion) : Red := ops.foldl Red.aplicar Red.vacia

/-! ## Shortest-path search: state shared by both source files -/

/-- Local variables of `encontrarRutaMasCorta`. `distancias` is only ever read
    through `operator[]`, which yields `0` for a key never written; `anterior`
    holds the predecessor links; `nodosActivos` is the frontier (the ordered set
    of `enrutador0.cpp`, the priority queue `cola` of `enrutador1.cpp`). -/
structure Estado where
  distancias : String → Int
  anterior : String → Option String
  nodosActivos : List (Int × String)

/-- Outcome of one evaluation of the loop condition followed by the body. -/
inductive Paso where
  | fin (st : Estado)
  | sigue (st : Estado)
  | falla (e : Excepcion)

/-- A `while` loop run with fuel. -/
def iterar (paso : Estado → Paso) : Nat → Estado → Option (Except Excepcion Estado)
  | 0, _ => none
  | n + 1, st =>
    match paso st with
    | .fin st' => some (.ok st')
    | .sigue st' => iterar paso n st'
    | .falla e => some (.error e)

/-- Comparison `operator<` of `std::pair<int, string>`: by distance, then by name. -/
def menorPar (a b : Int × String) : Bool :=
  decide (a.1 < b.1) || (!decide (b.1 < a.1) && decide (a.2.data < b.2.data))

/-- Least element of the frontier (`*nodosActivos.begin()`, `cola.top()`). -/
def minimo : List (Int × String) → Option (Int × String)
  | [] => none
  | e :: q =>
    match minimo q with
    | none => some e
    | some m => if menorPar m e then some m else some e

/-- Start state: every router at `INT_MAX`, the origin at `0` and in the frontier. -/
def estadoInicial (r : Red) (origen : String) : Estado where
  distancias :=
    poner (r.enrutadores.foldl (fun d p => poner d p.1 INT_MAX) (fun _ => 0)) origen 0
  anterior := fun _ => none
  nodosActivos := [(0, origen)]

namespace E0

/-- `set::erase(key)`. -/
def quitar (e : Int × String) (q : List (Int × String)) : List (Int × String) :=
  q.filter (fun x => decide (x ≠ e))

/-- `set::insert(key)`. -/
def insertar (e : Int × String) (q : List (Int × String)) : List (Int × String) :=
  if e ∈ q then q else e :: q

/-- Body of the `for` over the routing table of `actual` (enrutador0.cpp, 158-166). -/
def relajar (dist : Int) (actual : String) (st : Estado) (p : String × Int) : Estado :=
  let nuevaDist := envolver (dist + p.2)
  if nuevaDist < st.distancias p.1 then
    { distancias := poner st.distancias p.1 nuevaDist
      anterior := poner st.anterior p.1 (some actual)
      nodosActivos := insertar (nuevaDist, p.1) (quitar (st.distancias p.1, p.1) st.nodosActivos) }
  else st

/-- One turn of the `while` loop (enrutador0.cpp, 151-167). -/
def paso (r : Red) (destino : String) (st : Estado) : Paso :=
  match minimo st.nodosActivos with
  | none => .fin st
  | some (dist, actual) =>
    let st1 : Estado := { st with nodosActivos := quitar (dist, actual) st.nodosActivos }
    if actual = destino then .fin st1
    else
      match buscar r.enrutadores actual with
      | none => .falla .out_of_range
      | some e => .sigue (e.tablaEnrutamiento.foldl (relajar dist actual) st1)

/-- The predecessor walk (enrutador0.cpp, 175-177); `anterior[actual]` yields the
    empty string for a router without predecessor. The loop has no exit but
    `actual == origen`: once the walk comes back to a router it has pushed it
    repeats for ever, `ruta` grows by one element every turn and the allocation of
    `push_back` fails in the end (`std::bad_alloc`); that outcome is reported at
    the first router met twice. -/
def reconstruir (anterior : String → Option String) (origen : String) :
    Nat → String → List String → Option (Except Excepcion (List String))
  | 0, _, _ => none
  | n + 1, actual, ruta =>
    if actual = origen then some (.ok ruta)
    else if actual ∈ ruta then some (.error .bad_alloc)
    else reconstruir anterior origen n ((anterior actual).getD "") (ruta ++ [actual])

/-- `Red::encontrarRutaMasCorta` of enrutador0.cpp. -/
def encontrarRutaMasCorta (fuel : Nat) (r : Red) (origen destino : String) :
    Option (Except Excepcion (Int × List String)) :=
  if !r.existeEnrutador origen || !r.existeEnrutador destino then
    some (.error (.invalid_argument msgNoExiste))
  else
    match iterar (paso r destino) fuel (estadoInicial r origen) with
    | none => none
    | some (.error e) => some (.error e)
    | some (.ok st) =>
      if st.distancias destino = INT_MAX then some (.ok (-1, []))
      else
        match reconstruir st.anterior origen fuel destino [] with
        | none => none
        | some (.error e) => some (.error e)
        | some (.ok ruta) => some (.ok (st.distancias destino, (ruta ++ [origen]).reverse))

end E0

namespace E1

/-- Body of the `for` over the routing table of `actual` (enrutador1.cpp, 211-218). -/
def relajar (dist : Int) (actual : String) (st : Estado) (p : String × Int) : Estado :=
  let nuevaDist := envolver (dist + p.2)
  if nuevaDist < st.distancias p.1 then
    { distancias := poner st.distancias p.1 nuevaDist
      anterior := poner st.anterior p.1 (some actual)
      nodosActivos := (nuevaDist, p.1) :: st.nodosActivos }
  else st

/-- One turn of the `while` loop (enrutador1.cpp, 203-219). -/
def paso (r : Red) (destino : String) (st : Estado) : Paso :=
  match minimo st.nodosActivos with
  | none => .fin st
  | some (dist, actual) =>
    let st1 : Estado := { st with nodosActivos := st.nodosActivos.erase (dist, actual) }
    if actual = destino then .fin st1
    else if dist > st1.distancias actual then .sigue st1
    else
      match buscar r.enrutadores actual with
      | none => .falla .out_of_range
      | some e => .sigue (e.tablaEnrutamiento.foldl (relajar dist actual) st1)

/-- The predecessor walk (enrutador1.cpp, 226-228); `anterior.at(actual)` throws
    for a router without predecessor. As in enrutador0.cpp, a walk that comes
    back to a router it has pushed repeats for ever and ends when the allocation
    of `push_back` fails (`std::bad_alloc`), reported at the first router met
    twice. -/
def reconstruir (anterior : String → Option String) (origen : String) :
    Nat → String → List String → Option (Except Excepcion (List String))
  | 0, _, _ => none
  | n + 1, actual, ruta =>
    if actual = origen then some (.ok ruta)
    else if actual ∈ ruta then some (.error .bad_alloc)
    else
      match anterior actual with
      | none => some (.error .out_of_range)
      | some a => reconstruir anterior origen n a (ruta ++ [actual])

/-- `Red::encontrarRutaMasCorta` of enrutador1.cpp. -/
def encontrarRutaMasCorta (fuel : Nat) (r : Red) (origen destino : String) :
    Option (Except Excepcion (Int × List String)) :=
  if !r.existeEnrutador origen || !r.existeEnrutador destino then
    some (.error (.invalid_argument msgNoExiste))
  else
    match iterar (paso r destino) fuel (estadoInicial r origen) with
    | none => none
    | some (.error e) => some (.error e)
    | some (.ok st) =>
      if st.distancias destino = INT_MAX then some (.ok (-1, []))
      else
        match reconstruir st.anterior origen fuel destino [] with
        | none => none
        | some (.error e) => some (.error e)
        | some (.ok ruta) => some (.ok (st.distancias destino, (ruta ++ [origen]).reverse))

end E1

/-! ## Connectivity check (enrutador0.cpp) -/

/-- Local variables of `esRedConectada`: the set `visitados` and the stack `pila`
    (its head is `pila.back()`). -/
structure Recorrido where
  visitados : List String
  pila : List String

/-- One turn of the `while` loop of `esRedConectada` (enrutador0.cpp, 234-246):
    `none` when the stack is empty. -/
def Red.pasoConexion (r : Red) (st : Recorrido) : Option (Except Excepcion Recorrido) :=
  match st.pila with
  | [] => none
  | actual :: pila =>
    if actual ∈ st.visitados then some (.ok ⟨st.visitados, pila⟩)
    else
      let visitados := actual :: st.visitados
      match buscar r.enrutadores actual with
      | none => some (.error .out_of_range)
      | some e =>
        some (.ok ⟨visitados,
          e.tablaEnrutamiento.foldl
            (fun pl q => if q.1 ∈ visitados then pl else q.1 :: pl) pila⟩)

/-- The `while` loop of `esRedConectada`, run with fuel. -/
def Red.recorrer (r : Red) : Nat → Recorrido → Option (Except Excepcion Recorrido)
  | 0, _ => none
  | n + 1, st =>
    match r.pasoConexion st with
    | none => some (.ok st)
    | some (.error e) => some (.error e)
    | some (.ok st') => r.recorrer n st'

/-- `Red::esRedConectada`. -/
def Red.esRedConectada (fuel : Nat) (r : Red) : Option (Except Excepcion Bool) :=
  match r.enrutadores with
  | [] => some (.ok true)
  | (primero, _) :: _ =>
    match r.recorrer fuel ⟨[], [primero]⟩ with
    | none => none
    | some (.error e) => some (.error e)
    | some (.ok st) => some (.ok (decide (st.visitados.length = r.enrutadores.length)))

/-- The store invariant: well-formed maps, symmetric links, no dangling name. -/
def Red.invariante (r : Red) : Prop :=
  r.bienFormada ∧ r.simetrica ∧ r.sinColgantes

/-! ## Measures and reachability used by the proofs -/

/-- Every name of the store: the routers and the neighbours they list. -/
def Red.nombres (r : Red) : List String :=
  r.enrutadores.flatMap (fun p => p.1 :: claves p.2.tablaEnrutamiento)

/-- Distance of an `int` value from the least `int`. -/
def peso (d : Int) : Nat := (d + 2147483648).toNat

/-- Termination measure of the search loop: twice the room left for the
    tentative distances to fall, plus the size of the frontier. -/
def potencial (r : Red) (st : Estado) : Nat :=
  2 * (r.nombres.map (fun x => peso (st.distancias x))).sum + st.nodosActivos.length

/-- Fuel that suffices for every query on `r`. -/
def cotaBusqueda (r : Red) : Nat := 2 * (r.nombres.length * 4294967296) + 2

/-- Some sequence of links leads from `a` to `b`. -/
def Red.conectados (r : Red) (a b : String) : Prop :=
  Relation.ReflTransGen (fun u v => (r.costoEnlace u v).isSome = true) a b

/-- What the search keeps true on any store without dangling names: the frontier
    holds only routers joined to the origin, and the distance of a name not joined
    to the origin is the one it started with. -/
def Alcance (r : Red) (o : String) (st : Estado) : Prop :=
  (∀ e ∈ st.nodosActivos, r.conectados o e.2 ∧ r.existeEnrutador e.2 = true) ∧
  (∀ v, ¬ r.conectados o v → st.distancias v = (estadoInicial r o).distancias v)

/-- One unit and one unit per table entry for every router not yet visited. -/
def pendiente : List (String × Enrutador) → List String → Nat
  | [], _ => 0
  | p :: m, V => (if p.1 ∈ V then 0 else p.2.tablaEnrutamiento.length + 1) + pendiente m V

/-- Termination measure of the traversal: the stack plus what is still pending. -/
def potencialConexion (r : Red) (st : Recorrido) : Nat :=
  st.pila.length + pendiente r.enrutadores st.visitados

/-- Fuel that suffices for `esRedConectada` on `r`. -/
def cotaConexion (r : Red) : Nat := r.nombres.length + 2

/-- What the traversal from `s` keeps true on a store without dangling names. -/
def Explorado (r : Red) (s : String) (st : Recorrido) : Prop :=
  st.visitados.Nodup ∧
  (∀ x, x ∈ st.visitados ∨ x ∈ st.pila → r.conectados s x ∧ r.existeEnrutador x = true) ∧
  (s ∈ st.visitados ∨ s ∈ st.pila) ∧
  (∀ x ∈ st.visitados, ∀ y, (r.costoEnlace x y).isSome = true →
    y ∈ st.visitados ∨ y ∈ st.pila)

/-! ## Routes, overflow freedom and the invariants of the search -/

/-- The sequence `p` leads from `o` to `d` along links whose costs add up to `t`. -/
def Red.esRuta (r : Red) (o d : String) (p : List String) (t : Int) : Prop :=
  p.head? = some o ∧ p.getLast? = some d ∧ r.costoRuta p = some t

/-- No sum the query from `o` to `dest` can form reaches `INT_MAX`. The search
    adds the cost of a link to the distance of a router it has taken from the
    frontier, and it stops when it takes `dest`, so the sums it forms are the
    totals of the routes that start at `o`, visit no router twice before their
    last hop and do not pass through `dest` before their last hop. The last hop
    may lead anywhere, also back to a router of the route. -/
def Red.sinDesborde (r : Red) (o dest : String) : Prop :=
  ∀ (p : List String) (t : Int), p.head? = some o → p.dropLast.Nodup →
    dest ∉ p.dropLast → r.costoRuta p = some t → t < INT_MAX

/-- The overflow condition in the words of the specification: every path, a
    route that visits no router twice, totals less than `INT_MAX`. -/
def Red.totalesAcotados (r : Red) : Prop :=
  ∀ (p : List String) (t : Int), p.Nodup → r.costoRuta p = some t → t < INT_MAX

/-- An upper bound for every stored cost. -/
def Red.costosHasta (r : Red) (M : Int) : Prop :=
  ∀ p ∈ r.enrutadores, ∀ q ∈ p.2.tablaEnrutamiento, q.2 ≤ M

/-- A walk from `a` to `b` of total cost `t`. -/
inductive Camino (r : Red) : String → String → Int → Prop where
  | aqui (a : String) : Camino r a a 0
  | enlace {a x b : String} {c t : Int} :
      r.costoEnlace a x = some c → Camino r x b t → Camino r a b (c + t)

/-- The router `x` has a final distance: it was reached and has left the frontier. -/
def asentado (st : Estado) (x : String) : Prop :=
  st.distancias x < INT_MAX ∧ (st.distancias x, x) ∉ st.nodosActivos

/-- The predecessor links lead from `v` back to the origin along the route `p`,
    whose inner routers are settled and whose costs account for the distances. -/
inductive Cadena (r : Red) (o : String) (st : Estado) : List String → String → Prop where
  | base : Cadena r o st [o] o
  | paso {p : List String} {u v : String} {c : Int} :
      Cadena r o st p u → asentado st u → st.anterior v = some u →
      r.costoEnlace u v = some c → st.distancias v = st.distancias u + c → v ∉ p →
      Cadena r o st (p ++ [v]) v

/-- Relaxing the links of `x` would change nothing. -/
def Cerrado (r : Red) (st : Estado) (x : String) : Prop :=
  ∀ v c, r.costoEnlace x v = some c → st.distancias v ≤ st.distancias x + c

/-- Invariant of the search that holds at every point of the loop. -/
structure InvBusqueda (r : Red) (o : String) (st : Estado) : Prop where
  origen : st.distancias o = 0
  ajenos : ∀ v, r.existeEnrutador v = false → st.distancias v = 0
  techo : ∀ v, st.distancias v ≤ INT_MAX
  piso : ∀ v, 0 ≤ st.distancias v
  cadena : ∀ v, r.existeEnrutador v = true → st.distancias v < INT_MAX →
    ∃ p, Cadena r o st p v
  cola : ∀ e ∈ st.nodosActivos,
    r.existeEnrutador e.2 = true ∧ st.distancias e.2 ≤ e.1 ∧ e.1 < INT_MAX
  frontera : ∀ x, asentado st x → ∀ e ∈ st.nodosActivos, st.distancias x ≤ e.1

/-- Invariant at the loop test: every settled router is closed. -/
structure InvCabeza (r : Red) (o : String) (st : Estado) : Prop where
  base : InvBusqueda r o st
  cerrado : ∀ x, asentado st x → Cerrado r st x

/-- Invariant while the links of `u`, taken from the frontier at distance `d`,
    are being relaxed. -/
structure InvMedio (r : Red) (o u : String) (d : Int) (st : Estado) : Prop where
  base : InvBusqueda r o st
  cerrado : ∀ x, asentado st x → x ≠ u → Cerrado r st x
  actual : asentado st u ∧ st.distancias u = d ∧ r.existeEnrutador u = true
  previos : ∀ x, asentado st x → st.distancias x ≤ d

/-- Effect of one turn of the `for` loop on the state, for either source file. -/
def Relajado (d : Int) (u : String) (p : String × Int) (st st' : Estado) : Prop :=
  (¬ envolver (d + p.2) < st.distancias p.1 ∧ st' = st) ∨
  (envolver (d + p.2) < st.distancias p.1 ∧
    st'.distancias = poner st.distancias p.1 (envolver (d + p.2)) ∧
    st'.anterior = poner st.anterior p.1 (some u) ∧
    (∀ e ∈ st'.nodosActivos, e = (envolver (d + p.2), p.1) ∨ e ∈ st.nodosActivos) ∧
    (envolver (d + p.2), p.1) ∈ st'.nodosActivos ∧
    (∀ e ∈ st.nodosActivos, e.2 ≠ p.1 → e ∈ st'.nodosActivos))

/-- Frontier of enrutador0.cpp: every entry carries the current distance of its router. -/
def Exacto (st : Estado) : Prop :=
  ∀ e ∈ st.nodosActivos, e.1 = st.distancias e.2

/-- Frontier of enrutador1.cpp: no entry twice, none below the current distance
    of its router. -/
def Ordenada (st : Estado) : Prop :=
  st.nodosActivos.Nodup ∧ ∀ e ∈ st.nodosActivos, st.distancias e.2 ≤ e.1

/-- What a finished query may answer: no path when none exists, or else a route
    from `o` to `dest` together with its cost, which no other route undercuts. -/
def Red.respuestaCorrecta (r : Red) (o dest : String)
    (res : Except Excepcion (Int × List String)) : Prop :=
  (res = .ok (-1, []) ∧ ¬ r.conectados o dest) ∨
  (∃ c p, res = .ok (c, p) ∧ r.esRuta o dest p c ∧ ∀ q t, r.esRuta o dest q t → c ≤ t)

/-! ## Example networks -/

/-- Routers `A` and `B` joined by one link of cost 4, router `C` on its own. -/
def redSeparada : Red :=
  Red.tras [.agregar "A", .agregar "B", .agregar "C", .enlazar "A" "B" 4]

/-- The cycle A-B-C-D-A with every cost 1. -/
def ciclo4 : Red :=
  Red.tras [.agregar "A", .agregar "B", .agregar "C", .agregar "D",
    .enlazar "A" "B" 1, .enlazar "B" "C" 1, .enlazar "C" "D" 1, .enlazar "D" "A" 1]

/-- The chain A-B-D whose second link costs `INT_MAX`. -/
def redDesborde : Red :=
  Red.tras [.agregar "A", .agregar "B", .agregar "D",
    .enlazar "A" "B" 1, .enlazar "B" "D" 2147483647]

/-! ## One-sided route removal -/

/-- The store after `Enrutador::eliminarRuta(destino)` has run on the stored router
    `nombre` alone (the table of `destino` is left as it is). -/
def Red.eliminarRutaEn (r : Red) (nombre destino : String) : Red :=
  match buscar r.enrutadores nombre with
  | some e => ⟨asignar r.enrutadores nombre (e.eliminarRuta destino)⟩
  | none => r

/-- Routers `A` and `B` joined by one link of cost 3. -/
def redPar : Red := Red.tras [.agregar "A", .agregar "B", .enlazar "A" "B" 3]

/-- The chain A-B-C-D with costs 1, `INT_MAX` and 0. -/
def redCiclica : Red :=
  Red.tras [.agregar "A", .agregar "B", .agregar "C", .agregar "D",
    .enlazar "A" "B" 1, .enlazar "B" "C" 2147483647, .enlazar "C" "D" 0]

/-! ## Bulk load (`cargarTopologiaDesdeArchivo`)

The file system is a function from file names to the lines `getline` yields
(`none` when the file cannot be opened). The stream extraction
`ss >> origen >> destino >> costo` belongs to the standard library; it is the
parameter `extraer`, which yields the two names and the cost, or `none` when the
extraction fails. -/

/-- Text of `exception::what()`; the texts of `out_of_range` and `bad_alloc` are
    the library's. -/
def Excepcion.what : Excepcion → String
  | .invalid_argument w => w
  | .out_of_range => "unordered_map::at"
  | .runtime_error w => w
  | .bad_alloc => "std::bad_alloc"

/-- The `try` block of the load loop for one extracted line, with its `catch`. -/
def Red.cargarEnlace (r : Red) (numLinea : Nat) (origen destino : String) (costo : Int) :
    Except Excepcion Unit × Red :=
  match (if !r.existeEnrutador origen then r.agregarEnrutador origen else (.ok (), r)) with
  | (.error e, r1) =>
    (.error (.runtime_error ("Error en línea " ++ toString numLinea ++ ": " ++ e.what)), r1)
  | (.ok _, r1) =>
    match (if !r1.existeEnrutador destino then r1.agregarEnrutador destino
      else (.ok (), r1)) with
    | (.error e, r2) =>
      (.error (.runtime_error ("Error en línea " ++ toString numLinea ++ ": " ++ e.what)), r2)
    | (.ok _, r2) =>
      match r2.actualizarEnlace origen destino costo with
      | (.error e, r3) =>
        (.error (.runtime_error ("Error en línea " ++ toString numLinea ++ ": " ++ e.what)),
          r3)
      | (.ok _, r3) => (.ok (), r3)

/-- The `while (getline(archivo, linea))` loop of both files; `saltar` tells which
    lines the loop passes over after counting them. -/
def Red.cargarLineas (extraer : String → Option (String × String × Int))
    (saltar : String → Bool) : Red → Nat → List String → Except Excepcion Unit × Red
  | r, _, [] => (.ok (), r)
  | r, numLinea, linea :: resto =>
    if saltar linea then Red.cargarLineas extraer saltar r (numLinea + 1) resto
    else
      match extraer linea with
      | none =>
        (.error (.runtime_error ("Error en formato de línea " ++ toString (numLinea + 1))), r)
      | some (origen, destino, costo) =>
        match r.cargarEnlace (numLinea + 1) origen destino costo with
        | (.error e, r') => (.error e, r')
        | (.ok _, r') => Red.cargarLineas extraer saltar r' (numLinea + 1) resto

/-- Test `linea.empty() || linea[0] == '#'` of enrutador1.cpp. -/
def esComentario (linea : String) : Bool :=
  match linea.data with
  | [] => true
  | c :: _ => decide (c = '#')

/-- `Red::cargarTopologiaDesdeArchivo` of enrutador0.cpp: every line is extracted. -/
def E0.cargarTopologiaDesdeArchivo (extraer : String → Option (String × String × Int))
    (archivos : String → Option (List String)) (r : Red) (nombreArchivo : String) :
    Except Excepcion Unit × Red :=
  match archivos nombreArchivo with
  | none => (.error (.runtime_error ("No se pudo abrir el archivo: " ++ nombreArchivo)), r)
  | some lineas => Red.cargarLineas extraer (fun _ => false) r 0 lineas

/-- `Red::cargarTopologiaDesdeArchivo` of enrutador1.cpp: the network is cleared,
    empty lines and lines that start with `#` are passed over. -/
def E1.cargarTopologiaDesdeArchivo (extraer : String → Option (String × String × Int))
    (archivos : String → Option (List String)) (r : Red) (nombreArchivo : String) :
    Except Excepcion Unit × Red :=
  match archivos nombreArchivo with
  | none => (.error (.runtime_error ("No se pudo abrir el archivo: " ++ nombreArchivo)), r)
  | some lineas => Red.cargarLineas extraer esComentario ⟨[]⟩ 0 lineas

/-- The ordered pair `(x, y)` is the link `a`-`b` in one of its two directions. -/
abbrev mismoPar (a b x y : String) : Prop := (x = a ∧ y = b) ∨ (x = b ∧ y = a)

/-- The load loop gets through `linea`: it passes over it, or extracts two
    non-empty names and a cost that is not negative. -/
def lineaBuena (extraer : String → Option (String × String × Int)) (saltar : String → Bool)
    (linea : String) : Prop :=
  saltar linea = true ∨ ∃ a b c, extraer linea = some (a, b, c) ∧ 0 ≤ c

/-- The load loop stops at `linea`: it does not pass over it, and the extraction
    fails or yields a negative cost. -/
def lineaMala (extraer : String → Option (String × String × Int)) (saltar : String → Bool)
    (linea : String) : Prop :=
  saltar linea = false ∧ (extraer linea = none ∨ ∃ a b c, extraer linea = some (a, b, c) ∧ c < 0)

/-- No line of `lineas` that the loop extracts names the link `x`-`y`. -/
def sinPar (extraer : String → Option (String × String × Int)) (saltar : String → Bool)
    (lineas : List String) (x y : String) : Prop :=
  ∀ l ∈ lineas, saltar l = false → ∀ a b c, extraer l = some (a, b, c) → ¬ mismoPar a b x y

/-- Message of the error raised at line `k`. -/
def mensajeLinea (extraer : String → Option (String × String × Int)) (k : Nat)
    (linea : String) : String :=
  match extraer linea with
  | none => "Error en formato de línea " ++ toString k
  | some _ => "Error en línea " ++ toString k ++ ": " ++ msgCostoNegativo

/-- A stand-in for the stream extraction on three sample lines. -/
def extraerMuestra (linea : String) : Option (String × String × Int) :=
  if linea = "A B 5" then some ("A", "B", 5)
  else if linea = "B C -2" then some ("B", "C", -2)
  else if linea = "A C 7" then some ("A", "C", 7)
  else none

/-! ## Stores that differ in enumeration order -/

/-- Two stores hold the same routers and the same links, whatever the order in
    which their maps enumerate them. -/
def Red.mismaTopologia (r r' : Red) : Prop :=
  (∀ a, r.existeEnrutador a = r'.existeEnrutador a) ∧
    ∀ a b, r.costoEnlace a b = r'.costoEnlace a b

/-- The entries of `r` are those of `r'` listed in another order: as many
    routers, and every router of `r` is in `r'` with a permutation of its table. -/
def Red.reordenada (r r' : Red) : Prop :=
  r.enrutadores.length = r'.enrutadores.length ∧
    ∀ p ∈ r.enrutadores, ∃ p' ∈ r'.enrutadores,
      p'.1 = p.1 ∧ p'.2.tablaEnrutamiento.Perm p.2.tablaEnrutamiento

instance (r r' : Red) : Decidable (r.reordenada r') := by
  unfold Red.reordenada
  infer_instance

/-- Search states of enrutador0.cpp that differ only in the order in which the
    frontier is listed. -/
def E0.mismoEstado (s t : Estado) : Prop :=
  s.distancias = t.distancias ∧ s.anterior = t.anterior ∧
    ∀ e, e ∈ s.nodosActivos ↔ e ∈ t.nodosActivos

/-- Search states of enrutador1.cpp that differ only in the order in which the
    queue is listed. -/
def E1.mismoEstado (s t : Estado) : Prop :=
  s.distancias = t.distancias ∧ s.anterior = t.anterior ∧
    s.nodosActivos.Perm t.nodosActivos

/-- Two loop turns with the same outcome up to a relation on the states. -/
def mismoPaso (R : Estado → Estado → Prop) : Paso → Paso → Prop
  | .fin s, .fin t => R s t
  | .sigue s, .sigue t => R s t
  | .falla e, .falla e' => e = e'
  | _, _ => False

/-- Two loop runs with the same outcome up to a relation on the states. -/
def mismoFinal (R : Estado → Estado → Prop) :
    Option (Except Excepcion Estado) → Option (Except Excepcion Estado) → Prop
  | none, none => True
  | some (.error e), some (.error e') => e = e'
  | some (.ok s), some (.ok t) => R s t
  | _, _ => False

/-- The four-router ring of `ciclo4`, built in another order. -/
def ciclo4Inverso : Red :=
  Red.tras [.agregar "D", .agregar "C", .agregar "B", .agregar "A",
    .enlazar "D" "A" 1, .enlazar "C" "D" 1, .enlazar "B" "C" 1, .enlazar "A" "B" 1]

/-! ## Random topology generator (enrutador1.cpp) -/

/-- The name `"E" + to_string(i)` of the `i`-th generated router; the index is
    never negative where the generator builds a name. -/
def nombreE (i : Nat) : String := "E" ++ toString i

/-- Value of `RAND_MAX` (the value of glibc). -/
def RAND_MAX : Nat := 2147483647

/-- The `k`-th value `rand()` returns from the call of the generator on. The
    process-wide generator is the stream `azar`; a value lies in `[0, RAND_MAX]`. -/
def rand (azar : Nat → Nat) (k : Nat) : Nat := azar k % (RAND_MAX + 1)

/-- The cost `rand() % costoMaximo + 1` drawn at position `k`. -/
def costoAleatorio (costoMaximo : Int) (azar : Nat → Nat) (k : Nat) : Int :=
  envolver (Int.tmod (rand azar k) costoMaximo + 1)

/-- What `generarRedAleatoria` does with its `double` parameter: the range test
    `densidad <= 0 || densidad > 1`, and the target `static_cast<int>(m * densidad)`
    as a function of the `int` `m`. -/
structure Densidad where
  fueraDeRango : Bool
  escalar : Int → Int

/-- The density `1.0`: in range, and `m * 1.0` is `m` for every `int` `m`. -/
def Densidad.uno : Densidad := ⟨false, fun m => m⟩

def msgParametros : String := "Parámetros inválidos para generación de red"

/-- The subscript `enrutadores[nombre]`: a router with the empty name is stored
    under a key that is not there yet. -/
def Red.indexar (r : Red) (nombre : String) : Enrutador × Red :=
  match buscar r.enrutadores nombre with
  | some e => (e, r)
  | none => (⟨[], ""⟩, ⟨r.enrutadores ++ [(nombre, ⟨[], ""⟩)]⟩)

/-- The first `for` of `generarRedAleatoria` (enrutador1.cpp, 244-246): `k` turns
    are left and the index is `i`. -/
def Red.crearEnrutadores : Nat → Nat → Red → Except Excepcion Unit × Red
  | 0, _, r => (.ok (), r)
  | k + 1, i, r =>
    match r.agregarEnrutador (nombreE i) with
    | (.error e, r1) => (.error e, r1)
    | (.ok _, r1) => Red.crearEnrutadores k (i + 1) r1

/-- The second `for` of `generarRedAleatoria` (enrutador1.cpp, 249-252): the
    spanning chain. The turn of index `i` takes the `i`-th draw. -/
def Red.encadenar (costoMaximo : Int) (azar : Nat → Nat) :
    Nat → Nat → Red → Except Excepcion Unit × Red
  | 0, _, r => (.ok (), r)
  | k + 1, i, r =>
    match r.actualizarEnlace (nombreE i) (nombreE (i + 1)) (costoAleatorio costoMaximo azar i) with
    | (.error e, r1) => (.error e, r1)
    | (.ok _, r1) => Red.encadenar costoMaximo azar k (i + 1) r1

/-- The `while` of `generarRedAleatoria` (enrutador1.cpp, 259-270), run with
    fuel; `pos` counts the draws taken so far. -/
def Red.completar (n : Nat) (costoMaximo enlacesObjetivo : Int) (azar : Nat → Nat) :
    Nat → Int → Nat → Red → Option (Except Excepcion Unit × Red)
  | 0, _, _, _ => none
  | fuel + 1, enlacesActuales, pos, r =>
    if enlacesActuales < enlacesObjetivo then
      let i := rand azar pos % n
      let j := rand azar (pos + 1) % n
      if i ≠ j then
        let (e, r1) := r.indexar (nombreE i)
        if e.obtenerCosto (nombreE j) = INT_MAX then
          match r1.actualizarEnlace (nombreE i) (nombreE j)
              (costoAleatorio costoMaximo azar (pos + 2)) with
          | (.error x, r2) => some (.error x, r2)
          | (.ok _, r2) =>
            Red.completar n costoMaximo enlacesObjetivo azar fuel
              (envolver (enlacesActuales + 1)) (pos + 3) r2
        else Red.completar n costoMaximo enlacesObjetivo azar fuel enlacesActuales (pos + 2) r1
      else Red.completar n costoMaximo enlacesObjetivo azar fuel enlacesActuales (pos + 2) r
    else some (.ok (), r)

/-- `Red::generarRedAleatoria` of enrutador1.cpp. The store is cleared first, so
    the outcome does not depend on the store the call starts from; `none` when
    the fuel does not reach the end of the `while`. -/
def Red.generarRedAleatoria (fuel : Nat) (r : Red) (numEnrutadores costoMaximo : Int)
    (densidad : Densidad) (azar : Nat → Nat) : Option (Except Excepcion Unit × Red) :=
  if numEnrutadores ≤ 0 ∨ costoMaximo ≤ 0 ∨ densidad.fueraDeRango = true then
    some (.error (.invalid_argument msgParametros), r)
  else
    match Red.crearEnrutadores numEnrutadores.toNat 0 Red.vacia with
    | (.error e, r1) => some (.error e, r1)
    | (.ok _, r1) =>
      match Red.encadenar costoMaximo azar (numEnrutadores.toNat - 1) 0 r1 with
      | (.error e, r2) => some (.error e, r2)
      | (.ok _, r2) =>
        let enlacesMaximos := Int.tdiv (envolver (numEnrutadores * (numEnrutadores - 1))) 2
        let enlacesObjetivo := densidad.escalar enlacesMaximos
        Red.completar numEnrutadores.toNat costoMaximo enlacesObjetivo azar fuel
          (numEnrutadores - 1) (numEnrutadores.toNat - 1) r2

/-- `stats.totalEnlaces` of `Red::obtenerEstadisticas` (enrutador1.cpp, 291-316):
    the table entries counted one by one, then halved. -/
def Red.totalEnlaces (r : Red) : Int :=
  Int.tdiv (r.enrutadores.foldl
    (fun total p => p.2.tablaEnrutamiento.foldl (fun t _ => envolver (t + 1)) total) 0) 2

/-- A draw stream that starts with the values of `l` and goes on with `0`. -/
def azarDe (l : List Nat) : Nat → Nat := fun k => l.getD k 0

/-! ## Notions used in the proofs about the generator -/

/-- Value of a decimal digit string read from the left, starting from `acc`. -/
def valorDigitos (acc : Nat) (cs : List Char) : Nat :=
  cs.foldl (fun a c => 10 * a + (c.toNat - 48)) acc

/-- What every store of a run of the generator on `n` routers satisfies once the
    routers are created: the store invariant, the routers are `E0..E(n-1)`,
    and no router is linked to itself. -/
def Generada (n : Nat) (r : Red) : Prop :=
  r.invariante ∧ (∀ x, r.existeEnrutador x = true ↔ ∃ i, i < n ∧ x = nombreE i) ∧
    ∀ x, r.costoEnlace x x = none

/-- The ordered pairs of indices below `n` whose routers are directly linked. -/
def enlacesDirigidos (n : Nat) (r : Red) : Finset (Nat × Nat) :=
  (Finset.range n ×ˢ Finset.range n).filter
    (fun p => (r.costoEnlace (nombreE p.1) (nombreE p.2)).isSome = true)

/-- The store a run of the generator on three routers leaves when the first
    chain cost is the sentinel: `E0` and `E2` are not linked. -/
def redIncompleta : Red :=
  ⟨[("E0", ⟨[("E1", 5)], "E0"⟩), ("E1", ⟨[("E0", 5), ("E2", 1)], "E1"⟩),
    ("E2", ⟨[("E1", 1)], "E2"⟩)]⟩

/-- The chain `E0-E1-E2` a run of the generator at a low density leaves. -/
def redCadena : Red :=
  ⟨[("E0", ⟨[("E1", 4)], "E0"⟩), ("E1", ⟨[("E0", 4), ("E2", 1)], "E1"⟩),
    ("E2", ⟨[("E1", 1)], "E2"⟩)]⟩

/-- The triangle a run of the generator at density `1.0` leaves. -/
def redCompleta : Red :=
  ⟨[("E0", ⟨[("E1", 4), ("E2", 8)], "E0"⟩), ("E1", ⟨[("E0", 4), ("E2", 1)], "E1"⟩),
    ("E2", ⟨[("E1", 1), ("E0", 8)], "E2"⟩)]⟩

/-! ## Predecessor links that can be walked -/

/-- What the search keeps true of its predecessor map on any store: every router
    of the frontier other than the origin has a predecessor, every predecessor is
    the origin or has a predecessor itself and is linked to its successor, and a
    router without predecessor has the distance it started with. -/
def Rastreable (r : Red) (o : String) (st : Estado) : Prop :=
  (∀ e ∈ st.nodosActivos, e.2 = o ∨ (st.anterior e.2).isSome = true) ∧
  (∀ v u, st.anterior v = some u →
    (u = o ∨ (st.anterior u).isSome = true) ∧ (r.costoEnlace u v).isSome = true) ∧
  (∀ v, st.distancias v = (estadoInicial r o).distancias v ∨ (st.anterior v).isSome = true)

/-- Routers `A`, `B`, `C` with a self-link of cost 0 on `A`, a link `A`-`B` of
    cost 0 and a link `B`-`C` of cost 2. -/
def redLazo : Red :=
  Red.tras [.agregar "A", .agregar "B", .agregar "C",
    .enlazar "A" "A" 0, .enlazar "A" "B" 0, .enlazar "B" "C" 2]

/-- Routers `A` and `B` right after `actualizarEnlace("A", "B", INT_MAX)`. -/
def redTope : Red :=
  ((Red.tras [.agregar "A", .agregar "B"]).actualizarEnlace "A" "B" 2147483647).2

/-- The chain `redCiclica` right after `actualizarEnlace("A", "D", 5)`. -/
def redAtajo : Red := (redCiclica.actualizarEnlace "A" "D" 5).2

/-! ## The two searches side by side -/

/-- A state of enrutador0.cpp and a state of enrutador1.cpp that stand for each
    other: same distances, same predecessors, and the ordered set holds exactly
    the entries of the queue that are not stale. -/
def Simulado (s0 s1 : Estado) : Prop :=
  s0.distancias = s1.distancias ∧ s0.anterior = s1.anterior ∧
    ∀ e, e ∈ s0.nodosActivos ↔ (e ∈ s1.nodosActivos ∧ e.1 = s1.distancias e.2)

/-- While the queue of enrutador1.cpp holds an entry of the destination, it holds
    the one that carries the current distance of the destination. -/
def DestinoVivo (dest : String) (st : Estado) : Prop :=
  ∀ e ∈ st.nodosActivos, e.2 = dest → (st.distancias dest, dest) ∈ st.nodosActivos

/-! ## Stores whose paths stay below `INT_MAX` while a sum of the search wraps -/

/-- Routers `A`, `B`, `C` with a link `A`-`B` of cost `2^30` and a link `B`-`C` of
    cost 1: no path of this store costs more than `2^30 + 1`. -/
def redVuelta : Red :=
  Red.tras [.agregar "A", .agregar "B", .agregar "C",
    .enlazar "A" "B" 1073741824, .enlazar "B" "C" 1]

/-- Routers `O`, `A`, `B`, `X` with links `O`-`A` of cost 0, `A`-`B` of cost `2^30`
    and `B`-`X` of cost 0: no path of this store costs more than `2^30`. -/
def redRebote : Red :=
  Red.tras [.agregar "O", .agregar "A", .agregar "B", .agregar "X",
    .enlazar "O" "A" 0, .enlazar "A" "B" 1073741824, .enlazar "B" "X" 0]

/-! # Proofs -/

/-! ## Association lists -/

theorem buscar_asignar {β : Type} (m : List (String × β)) (k k' : String) (v : β) :
    buscar (asignar m k v) k' = if k' = k then some v else buscar m k' := by
  induction m with
  | nil =>
    by_cases h : k' = k
    · simp [asignar, buscar, h]
    · have h' : ¬ k = k' := fun e => h e.symm
      simp [asignar, buscar, h, h']
  | cons p m ih =>
    obtain ⟨a, w⟩ := p
    by_cases ha : a = k
    · subst ha
      by_cases h : k' = a
      · simp [asignar, buscar, h]
      · have h' : ¬ a = k' := fun e => h e.symm
        simp [asignar, buscar, h, h']
    · by_cases h : k' = k
      · subst h
        simp [asignar, buscar, ha, ih]
      · by_cases hak : a = k'
        · simp [asignar, buscar, ha, h, hak]
        · simp [asignar, buscar, ha, h, hak, ih]

theorem buscar_borrar {β : Type} (m : List (String × β)) (k k' : String) :
    buscar (borrar m k) k' = if k' = k then none else buscar m k' := by
  induction m with
  | nil => simp [borrar, buscar]
  | cons p m ih =>
    obtain ⟨a, w⟩ := p
    unfold borrar at ih ⊢
    by_cases ha : a = k
    · subst ha
      rw [List.filter_cons_of_neg (by simp), ih]
      by_cases h : k' = a
      · simp [h]
      · have h' : ¬ a = k' := fun e => h e.symm
        simp [buscar, h, h']
    · rw [List.filter_cons_of_pos (by simpa using ha)]
      by_cases hak : a = k'
      · subst hak
        simp [buscar, ha]
      · simpa [buscar, hak] using ih

theorem buscar_isSome_iff {β : Type} (m : List (String × β)) (k : String) :
    (buscar m k).isSome = true ↔ k ∈ claves m := by
  induction m with
  | nil => simp [buscar, claves]
  | cons p m ih =>
    obtain ⟨a, w⟩ := p
    by_cases ha : a = k
    · simp [buscar, claves, ha]
    · have h' : ¬ k = a := fun e => ha e.symm
      simpa [buscar, claves, ha, h'] using ih

theorem buscar_eq_none_iff {β : Type} (m : List (String × β)) (k : String) :
    buscar m k = none ↔ k ∉ claves m := by
  rw [← buscar_isSome_iff]
  cases buscar m k <;> simp

theorem mem_of_buscar {β : Type} (m : List (String × β)) (k : String) (v : β)
    (h : buscar m k = some v) : (k, v) ∈ m := by
  induction m with
  | nil => simp [buscar] at h
  | cons p m ih =>
    obtain ⟨a, w⟩ := p
    by_cases ha : a = k
    · simp [buscar, ha] at h
      simp [ha, h]
    · simp [buscar, ha] at h
      exact List.mem_cons_of_mem _ (ih h)

theorem buscar_of_mem {β : Type} (m : List (String × β)) (k : String) (v : β)
    (hu : clavesUnicas m) (h : (k, v) ∈ m) : buscar m k = some v := by
  induction m with
  | nil => simp at h
  | cons p m ih =>
    obtain ⟨a, w⟩ := p
    unfold clavesUnicas claves at hu ih
    rw [List.map_cons, List.nodup_cons] at hu
    rcases List.mem_cons.1 h with h1 | h1
    · have h2 : k = a ∧ v = w := by simpa using h1
      simp [buscar, h2.1, h2.2]
    · have hk : k ∈ m.map Prod.fst := List.mem_map.2 ⟨(k, v), h1, rfl⟩
      have ha : ¬ a = k := fun e => hu.1 (e ▸ hk)
      simp [buscar, ha]
      exact ih hu.2 h1

theorem buscar_map {β γ : Type} (m : List (String × β)) (f : String → β → γ) (k : String) :
    buscar (m.map (fun p => (p.1, f p.1 p.2))) k = (buscar m k).map (f k) := by
  induction m with
  | nil => simp [buscar]
  | cons p m ih =>
    obtain ⟨a, w⟩ := p
    by_cases ha : a = k
    · simp [buscar, ha]
    · simp [buscar, ha, ih]

theorem buscar_append {β : Type} (m n : List (String × β)) (k : String) :
    buscar (m ++ n) k = (buscar m k).orElse (fun _ => buscar n k) := by
  induction m with
  | nil => simp [buscar]
  | cons p m ih =>
    obtain ⟨a, w⟩ := p
    by_cases ha : a = k
    · simp [buscar, ha]
    · simp [buscar, ha, ih]

theorem claves_asignar {β : Type} (m : List (String × β)) (k : String) (v : β) :
    claves (asignar m k v) = if k ∈ claves m then claves m else claves m ++ [k] := by
  induction m with
  | nil => simp [asignar, claves]
  | cons p m ih =>
    obtain ⟨a, w⟩ := p
    unfold claves at ih ⊢
    by_cases ha : a = k
    · simp [asignar, ha]
    · have h' : ¬ k = a := fun e => ha e.symm
      by_cases hk : k ∈ m.map Prod.fst
      · rw [if_pos hk] at ih
        have hk' : ∃ x, (k, x) ∈ m := by simpa using hk
        simp [asignar, ha, h', ih, hk']
      · rw [if_neg hk] at ih
        have hk' : ¬ ∃ x, (k, x) ∈ m := by simpa using hk
        have hk2 : ∀ x, (k, x) ∉ m := fun x hx => hk' ⟨x, hx⟩
        simp [asignar, ha, h', ih, hk2]

theorem clavesUnicas_asignar {β : Type} (m : List (String × β)) (k : String) (v : β)
    (hu : clavesUnicas m) : clavesUnicas (asignar m k v) := by
  unfold clavesUnicas at hu ⊢
  rw [claves_asignar]
  by_cases hk : k ∈ claves m
  · simpa [hk] using hu
  · rw [if_neg hk]
    exact List.Nodup.append hu (List.nodup_singleton k) (by simpa using hk)

theorem clavesUnicas_borrar {β : Type} (m : List (String × β)) (k : String)
    (hu : clavesUnicas m) : clavesUnicas (borrar m k) := by
  unfold clavesUnicas claves borrar at *
  exact (List.Nodup.sublist (List.Sublist.map _ (List.filter_sublist _)) hu)

theorem mem_asignar {β : Type} (m : List (String × β)) (k : String) (v : β)
    (p : String × β) (h : p ∈ asignar m k v) : p = (k, v) ∨ p ∈ m := by
  induction m with
  | nil => left; simpa [asignar] using h
  | cons q m ih =>
    obtain ⟨a, w⟩ := q
    by_cases ha : a = k
    · subst ha
      simp only [asignar, if_true] at h
      rcases List.mem_cons.1 h with h1 | h1
      · exact Or.inl h1
      · exact Or.inr (List.mem_cons_of_mem _ h1)
    · simp only [asignar, if_neg ha] at h
      rcases List.mem_cons.1 h with h1 | h1
      · exact Or.inr (h1 ▸ List.mem_cons_self _ _)
      · rcases ih h1 with h2 | h2
        · exact Or.inl h2
        · exact Or.inr (List.mem_cons_of_mem _ h2)

/-! ## Store operations -/

theorem existe_iff (r : Red) (n : String) :
    r.existeEnrutador n = true ↔ ∃ e, buscar r.enrutadores n = some e := by
  unfold Red.existeEnrutador
  cases buscar r.enrutadores n <;> simp

theorem existe_iff_claves (r : Red) (n : String) :
    r.existeEnrutador n = true ↔ n ∈ claves r.enrutadores := by
  unfold Red.existeEnrutador
  exact buscar_isSome_iff _ _

theorem actualizarEnlace_ok (r : Red) (a b : String) (c : Int)
    (ha : r.existeEnrutador a = true) (hb : r.existeEnrutador b = true) (hc : 0 ≤ c) :
    ∃ ea eb, buscar r.enrutadores a = some ea ∧
      buscar (asignar r.enrutadores a ⟨asignar ea.tablaEnrutamiento b c, ea.nombre⟩) b
        = some eb ∧
      r.actualizarEnlace a b c =
        (.ok (), ⟨asignar (asignar r.enrutadores a ⟨asignar ea.tablaEnrutamiento b c, ea.nombre⟩)
          b ⟨asignar eb.tablaEnrutamiento a c, eb.nombre⟩⟩) := by
  obtain ⟨ea, hea⟩ := (existe_iff r a).1 ha
  obtain ⟨eb0, heb0⟩ := (existe_iff r b).1 hb
  have hnc : ¬ c < 0 := not_lt.2 hc
  have heb : ∃ eb, buscar (asignar r.enrutadores a
      ⟨asignar ea.tablaEnrutamiento b c, ea.nombre⟩) b = some eb := by
    rw [buscar_asignar]
    by_cases hab : b = a
    · exact ⟨⟨asignar ea.tablaEnrutamiento b c, ea.nombre⟩, by simp [hab]⟩
    · exact ⟨eb0, by simp [hab, heb0]⟩
  obtain ⟨eb, heb⟩ := heb
  refine ⟨ea, eb, hea, heb, ?_⟩
  unfold Red.actualizarEnlace
  simp only [ha, hb, Bool.not_true, Bool.or_self, Bool.false_eq_true, if_false, hnc, hea,
    Enrutador.actualizarRuta, heb]

theorem costoEnlace_actualizarEnlace (r : Red) (a b : String) (c : Int)
    (ha : r.existeEnrutador a = true) (hb : r.existeEnrutador b = true) (hc : 0 ≤ c)
    (x y : String) :
    (r.actualizarEnlace a b c).2.costoEnlace x y =
      if (x = a ∧ y = b) ∨ (x = b ∧ y = a) then some c else r.costoEnlace x y := by
  obtain ⟨ea, eb, hea, heb, h⟩ := actualizarEnlace_ok r a b c ha hb hc
  rw [h]
  unfold Red.costoEnlace
  simp only [buscar_asignar]
  rw [buscar_asignar] at heb
  by_cases hxb : x = b
  · subst hxb
    simp only [if_true]
    by_cases hxa : x = a
    · subst hxa
      simp only [if_true, Option.some.injEq] at heb
      subst heb
      simp only [buscar_asignar, hea]
      by_cases hy : y = x <;> simp [hy]
    · simp only [hxa, if_false] at heb
      simp only [heb, buscar_asignar, hxa, false_and, true_and, false_or]
  · simp only [hxb, if_false, false_and, or_false]
    by_cases hxa : x = a
    · subst hxa
      simp only [if_true, buscar_asignar, hea, true_and]
    · simp only [hxa, if_false, false_and, if_false]

theorem existe_actualizarEnlace (r : Red) (a b : String) (c : Int) (x : String) :
    (r.actualizarEnlace a b c).2.existeEnrutador x = r.existeEnrutador x := by
  by_cases ha : r.existeEnrutador a = true
  · by_cases hb : r.existeEnrutador b = true
    · by_cases hc : 0 ≤ c
      · obtain ⟨ea, eb, hea, heb, h⟩ := actualizarEnlace_ok r a b c ha hb hc
        rw [h]
        unfold Red.existeEnrutador at ha hb ⊢
        simp only [buscar_asignar]
        by_cases hxb : x = b
        · simp [hxb, hb]
        · by_cases hxa : x = a
          · subst hxa
            simp [hxb, ha]
          · simp [hxb, hxa]
      · have : c < 0 := not_le.1 hc
        simp [Red.actualizarEnlace, ha, hb, this]
    · simp [Red.actualizarEnlace, ha, hb]
  · simp [Red.actualizarEnlace, ha]

theorem obtenerCosto_eq (r : Red) (a b : String) (e : Enrutador)
    (h : buscar r.enrutadores a = some e) :
    e.obtenerCosto b = (r.costoEnlace a b).getD INT_MAX := by
  unfold Enrutador.obtenerCosto Red.costoEnlace
  rw [h]
  cases hb : buscar e.tablaEnrutamiento b <;> simp [hb]

/-- C4. Link symmetry: for existing routers `a`, `b` and a cost `c ≥ 0`,
    `actualizarEnlace a b c` succeeds, and right afterwards `obtenerCosto` of `b`
    in the table of `a` and `obtenerCosto` of `a` in the table of `b` are both `c`. -/
theorem C4_enlace_simetrico (r : Red) (a b : String) (c : Int)
    (ha : r.existeEnrutador a = true) (hb : r.existeEnrutador b = true) (hc : 0 ≤ c) :
    (r.actualizarEnlace a b c).1 = .ok () ∧
    ∃ ea eb, buscar (r.actualizarEnlace a b c).2.enrutadores a = some ea ∧
      buscar (r.actualizarEnlace a b c).2.enrutadores b = some eb ∧
      ea.obtenerCosto b = c ∧ eb.obtenerCosto a = c := by
  have hok : (r.actualizarEnlace a b c).1 = .ok () := by
    obtain ⟨ea, eb, _, _, h⟩ := actualizarEnlace_ok r a b c ha hb hc
    rw [h]
  have ha' := ha
  have hb' := hb
  rw [← existe_actualizarEnlace r a b c a] at ha'
  rw [← existe_actualizarEnlace r a b c b] at hb'
  obtain ⟨ea, hea⟩ := (existe_iff _ a).1 ha'
  obtain ⟨eb, heb⟩ := (existe_iff _ b).1 hb'
  refine ⟨hok, ea, eb, hea, heb, ?_, ?_⟩
  · rw [obtenerCosto_eq _ a b ea hea, costoEnlace_actualizarEnlace r a b c ha hb hc]
    simp
  · rw [obtenerCosto_eq _ b a eb heb, costoEnlace_actualizarEnlace r a b c ha hb hc]
    simp

theorem C4_enlace_simetrico_witness :
    ((Red.tras [.agregar "A", .agregar "B"]).actualizarEnlace "A" "B" 5).1 = .ok () ∧
    ∃ ea eb,
      buscar ((Red.tras [.agregar "A", .agregar "B"]).actualizarEnlace "A" "B" 5).2.enrutadores
        "A" = some ea ∧
      buscar ((Red.tras [.agregar "A", .agregar "B"]).actualizarEnlace "A" "B" 5).2.enrutadores
        "B" = some eb ∧
      ea.obtenerCosto "B" = 5 ∧ eb.obtenerCosto "A" = 5 :=
  C4_enlace_simetrico (Red.tras [.agregar "A", .agregar "B"]) "A" "B" 5
    (by decide) (by decide) (by decide)

theorem eliminarRuta_mem (e : Enrutador) (x : String) (q : String × Int)
    (h : q ∈ (e.eliminarRuta x).tablaEnrutamiento) : q ∈ e.tablaEnrutamiento ∧ q.1 ≠ x := by
  unfold Enrutador.eliminarRuta at h
  cases hb : buscar e.tablaEnrutamiento x with
  | none =>
    rw [hb] at h
    refine ⟨h, fun hq => ?_⟩
    have : x ∈ claves e.tablaEnrutamiento := List.mem_map.2 ⟨q, h, hq⟩
    exact (buscar_eq_none_iff _ _).1 hb this
  | some c =>
    rw [hb] at h
    have h' : q ∈ e.tablaEnrutamiento ∧ decide (q.1 ≠ x) = true := by
      simpa [borrar, List.mem_filter] using h
    exact ⟨h'.1, by simpa using h'.2⟩

theorem eliminarEnrutador_ok (r : Red) (x : String) (hx : r.existeEnrutador x = true) :
    r.eliminarEnrutador x =
      (.ok (), ⟨(borrar r.enrutadores x).map (fun p => (p.1, p.2.eliminarRuta x))⟩) := by
  simp [Red.eliminarEnrutador, hx]

/-- C5. Cascading delete: after `eliminarEnrutador x` on a store that holds `x`, the
    router `x` is no longer present and no remaining routing table has an entry
    for `x`. -/
theorem C5_eliminacion_en_cascada (r : Red) (x : String)
    (hx : r.existeEnrutador x = true) :
    (r.eliminarEnrutador x).1 = .ok () ∧
    (r.eliminarEnrutador x).2.existeEnrutador x = false ∧
    ∀ p ∈ (r.eliminarEnrutador x).2.enrutadores, ∀ q ∈ p.2.tablaEnrutamiento, q.1 ≠ x := by
  rw [eliminarEnrutador_ok r x hx]
  refine ⟨rfl, ?_, ?_⟩
  · unfold Red.existeEnrutador
    have := buscar_map (borrar r.enrutadores x) (fun _ e => e.eliminarRuta x) x
    simp only at this ⊢
    rw [this, buscar_borrar]
    simp
  · intro p hp q hq
    obtain ⟨p0, _, hp0⟩ := List.mem_map.1 hp
    subst hp0
    exact (eliminarRuta_mem _ _ _ hq).2

theorem C5_eliminacion_en_cascada_witness :
    ((Red.tras [.agregar "A", .agregar "B", .enlazar "A" "B" 3]).eliminarEnrutador "B").1
      = .ok () ∧
    ((Red.tras [.agregar "A", .agregar "B", .enlazar "A" "B" 3]).eliminarEnrutador
      "B").2.existeEnrutador "B" = false ∧
    ∀ p ∈ ((Red.tras [.agregar "A", .agregar "B", .enlazar "A" "B" 3]).eliminarEnrutador
      "B").2.enrutadores, ∀ q ∈ p.2.tablaEnrutamiento, q.1 ≠ "B" :=
  C5_eliminacion_en_cascada (Red.tras [.agregar "A", .agregar "B", .enlazar "A" "B" 3]) "B"
    (by decide)

/-- C9. A failing `agregarEnrutador` is atomic: an empty name is rejected with the
    invalid-name error, a (non-empty) name already present with the duplicate-router
    error, and in both cases the store the call leaves is the store it received. -/
theorem C9_agregar_falla_atomico (r : Red) (nombre : String) :
    (nombre = "" →
      r.agregarEnrutador nombre = (.error (.invalid_argument msgNombreVacio), r)) ∧
    (nombre ≠ "" → r.existeEnrutador nombre = true →
      r.agregarEnrutador nombre = (.error (.invalid_argument msgDuplicado), r)) := by
  constructor
  · intro h
    simp [Red.agregarEnrutador, h]
  · intro h1 h2
    simp [Red.agregarEnrutador, h1, h2]

theorem C9_agregar_falla_atomico_witness :
    (Red.tras [.agregar "A"]).agregarEnrutador "" =
      (.error (.invalid_argument msgNombreVacio), Red.tras [.agregar "A"]) ∧
    (Red.tras [.agregar "A"]).agregarEnrutador "A" =
      (.error (.invalid_argument msgDuplicado), Red.tras [.agregar "A"]) :=
  ⟨(C9_agregar_falla_atomico (Red.tras [.agregar "A"]) "").1 rfl,
   (C9_agregar_falla_atomico (Red.tras [.agregar "A"]) "A").2 (by decide) (by decide)⟩

/-- C10. A failing `actualizarEnlace` is atomic: a missing endpoint gives the
    router-not-found error, two present endpoints with a negative cost give the
    invalid-cost error, in both cases the store is left as received, and the call
    succeeds exactly when both routers are present and the cost is not negative. -/
theorem C10_enlace_falla_atomico (r : Red) (a b : String) (c : Int) :
    ((r.existeEnrutador a = false ∨ r.existeEnrutador b = false) →
      r.actualizarEnlace a b c = (.error (.invalid_argument msgNoExiste), r)) ∧
    (r.existeEnrutador a = true → r.existeEnrutador b = true → c < 0 →
      r.actualizarEnlace a b c = (.error (.invalid_argument msgCostoNegativo), r)) ∧
    ((r.actualizarEnlace a b c).1 = .ok () ↔
      (r.existeEnrutador a = true ∧ r.existeEnrutador b = true ∧ 0 ≤ c)) := by
  have h1 : (r.existeEnrutador a = false ∨ r.existeEnrutador b = false) →
      r.actualizarEnlace a b c = (.error (.invalid_argument msgNoExiste), r) := by
    rintro (h | h)
    · simp [Red.actualizarEnlace, h]
    · simp [Red.actualizarEnlace, h]
  have h2 : r.existeEnrutador a = true → r.existeEnrutador b = true → c < 0 →
      r.actualizarEnlace a b c = (.error (.invalid_argument msgCostoNegativo), r) := by
    intro ha hb hc
    simp [Red.actualizarEnlace, ha, hb, hc]
  refine ⟨h1, h2, ?_, ?_⟩
  · intro hok
    by_cases ha : r.existeEnrutador a = true
    · by_cases hb : r.existeEnrutador b = true
      · by_cases hc : 0 ≤ c
        · exact ⟨ha, hb, hc⟩
        · rw [h2 ha hb (not_le.1 hc)] at hok
          simp at hok
      · rw [h1 (Or.inr (by simpa using hb))] at hok
        simp at hok
    · rw [h1 (Or.inl (by simpa using ha))] at hok
      simp at hok
  · rintro ⟨ha, hb, hc⟩
    obtain ⟨ea, eb, _, _, h⟩ := actualizarEnlace_ok r a b c ha hb hc
    rw [h]

theorem C10_enlace_falla_atomico_witness :
    (Red.tras [.agregar "A", .agregar "B"]).actualizarEnlace "A" "Z" 1 =
      (.error (.invalid_argument msgNoExiste), Red.tras [.agregar "A", .agregar "B"]) ∧
    (Red.tras [.agregar "A", .agregar "B"]).actualizarEnlace "A" "B" (-1) =
      (.error (.invalid_argument msgCostoNegativo), Red.tras [.agregar "A", .agregar "B"]) ∧
    ((Red.tras [.agregar "A", .agregar "B"]).actualizarEnlace "A" "B" 1).1 = .ok () :=
  ⟨(C10_enlace_falla_atomico (Red.tras [.agregar "A", .agregar "B"]) "A" "Z" 1).1
      (Or.inr (by decide)),
   (C10_enlace_falla_atomico (Red.tras [.agregar "A", .agregar "B"]) "A" "B" (-1)).2.1
      (by decide) (by decide) (by decide),
   (C10_enlace_falla_atomico (Red.tras [.agregar "A", .agregar "B"]) "A" "B" 1).2.2.2
      ⟨by decide, by decide, by decide⟩⟩

/-! ## The trivial query -/

theorem distancias_inicial_origen (r : Red) (o : String) :
    (estadoInicial r o).distancias o = 0 := by
  simp [estadoInicial, poner]

/-- C8. Trivial query: for a router `x` of the store, `encontrarRutaMasCorta x x`
    returns cost `0` and the one-element path `[x]`, whatever the links of `x`
    are; both source files, any fuel of at least one loop test. -/
theorem C8_consulta_trivial (r : Red) (x : String) (fuel : Nat)
    (hx : r.existeEnrutador x = true) (hf : 1 ≤ fuel) :
    E0.encontrarRutaMasCorta fuel r x x = some (.ok (0, [x])) ∧
    E1.encontrarRutaMasCorta fuel r x x = some (.ok (0, [x])) := by
  obtain ⟨n, rfl⟩ : ∃ n, fuel = n + 1 := ⟨fuel - 1, by omega⟩
  have hmin : minimo (estadoInicial r x).nodosActivos = some (0, x) := by
    simp [estadoInicial, minimo]
  have hd := distancias_inicial_origen r x
  have hne : (0 : Int) ≠ INT_MAX := by decide
  constructor
  · have hp : E0.paso r x (estadoInicial r x) =
        .fin { estadoInicial r x with
          nodosActivos := E0.quitar (0, x) (estadoInicial r x).nodosActivos } := by
      simp [E0.paso, hmin]
    simp [E0.encontrarRutaMasCorta, hx, iterar, hp, hd, hne, E0.reconstruir]
  · have hp : E1.paso r x (estadoInicial r x) =
        .fin { estadoInicial r x with
          nodosActivos := (estadoInicial r x).nodosActivos.erase (0, x) } := by
      simp [E1.paso, hmin]
    simp [E1.encontrarRutaMasCorta, hx, iterar, hp, hd, hne, E1.reconstruir]

theorem C8_consulta_trivial_witness :
    E0.encontrarRutaMasCorta 1 (Red.tras [.agregar "A", .enlazar "A" "A" 7]) "A" "A"
      = some (.ok (0, ["A"])) ∧
    E1.encontrarRutaMasCorta 1 (Red.tras [.agregar "A", .enlazar "A" "A" 7]) "A" "A"
      = some (.ok (0, ["A"])) :=
  C8_consulta_trivial (Red.tras [.agregar "A", .enlazar "A" "A" 7]) "A" 1
    (by decide) (by decide)

/-! ## The store invariant -/

theorem existe_of_costoEnlace (r : Red) (a b : String) (c : Int)
    (hs : r.sinColgantes) (h : r.costoEnlace a b = some c) : r.existeEnrutador b = true := by
  unfold Red.costoEnlace at h
  cases he : buscar r.enrutadores a with
  | none => simp [he] at h
  | some e =>
    rw [he] at h
    exact hs (a, e) (mem_of_buscar _ _ _ he) (b, c) (mem_of_buscar _ _ _ h)

theorem agregarEnrutador_ok (r : Red) (n : String) (h1 : n ≠ "")
    (h2 : r.existeEnrutador n = false) :
    r.agregarEnrutador n = (.ok (), ⟨r.enrutadores ++ [(n, ⟨[], n⟩)]⟩) := by
  simp [Red.agregarEnrutador, h1, h2]

theorem agregarEnrutador_cases (r : Red) (n : String) :
    (r.agregarEnrutador n).2 = r ∨
    (r.existeEnrutador n = false ∧
      (r.agregarEnrutador n).2 = ⟨r.enrutadores ++ [(n, ⟨[], n⟩)]⟩) := by
  by_cases h1 : n = ""
  · left; simp [Red.agregarEnrutador, h1]
  · by_cases h2 : r.existeEnrutador n = true
    · left; simp [Red.agregarEnrutador, h1, h2]
    · right
      have h2' : r.existeEnrutador n = false := by simpa using h2
      exact ⟨h2', by rw [agregarEnrutador_ok r n h1 h2']⟩

theorem buscar_agregado (r : Red) (n a : String) (h : r.existeEnrutador n = false) :
    buscar (r.enrutadores ++ [(n, (⟨[], n⟩ : Enrutador))]) a =
      if a = n then some ⟨[], n⟩ else buscar r.enrutadores a := by
  rw [buscar_append]
  by_cases han : a = n
  · subst han
    have : buscar r.enrutadores a = none := by
      unfold Red.existeEnrutador at h
      cases hb : buscar r.enrutadores a with
      | none => rfl
      | some e => simp [hb] at h
    simp [this, buscar]
  · have han' : ¬ n = a := fun e => han e.symm
    cases hb : buscar r.enrutadores a <;> simp [buscar, han, han']

theorem invariante_agregar (r : Red) (n : String) (hi : r.invariante) :
    (r.agregarEnrutador n).2.invariante := by
  rcases agregarEnrutador_cases r n with h | ⟨hn, h⟩
  · rw [h]; exact hi
  rw [h]
  obtain ⟨⟨hu, ht⟩, hsim, hcol⟩ := hi
  have hce : ∀ a b, (⟨r.enrutadores ++ [(n, ⟨[], n⟩)]⟩ : Red).costoEnlace a b =
      if a = n then none else r.costoEnlace a b := by
    intro a b
    unfold Red.costoEnlace
    simp only [buscar_agregado r n a hn]
    by_cases han : a = n <;> simp [han, buscar]
  have hex : ∀ a, r.existeEnrutador a = true →
      (⟨r.enrutadores ++ [(n, ⟨[], n⟩)]⟩ : Red).existeEnrutador a = true := by
    intro a ha
    rw [existe_iff_claves] at ha ⊢
    simp only [claves, List.map_append, List.mem_append] at ha ⊢
    exact Or.inl ha
  refine ⟨⟨?_, ?_⟩, ?_, ?_⟩
  · unfold clavesUnicas claves at hu ⊢
    rw [List.map_append]
    refine List.Nodup.append hu (by simp) ?_
    have hn' : n ∉ claves r.enrutadores := by
      rw [← existe_iff_claves]; simp [hn]
    simpa [claves] using hn'
  · intro p hp
    rcases List.mem_append.1 hp with h1 | h1
    · exact ht p h1
    · have : p = (n, ⟨[], n⟩) := by simpa using h1
      subst this
      simp [clavesUnicas, claves]
  · intro a b c
    rw [hce, hce]
    by_cases han : a = n
    · subst han
      by_cases hbn : b = a
      · simp [hbn]
      · simp only [if_true, hbn, if_false]
        constructor
        · intro hc
          simp at hc
        · intro hc
          have := existe_of_costoEnlace r b a c hcol hc
          simp [hn] at this
    · by_cases hbn : b = n
      · subst hbn
        simp only [han, if_false, if_true]
        constructor
        · intro hc
          have := existe_of_costoEnlace r a b c hcol hc
          simp [hn] at this
        · intro hc
          simp at hc
      · simp only [han, hbn, if_false]
        exact hsim a b c
  · intro p hp q hq
    rcases List.mem_append.1 hp with h1 | h1
    · exact hex _ (hcol p h1 q hq)
    · have : p = (n, ⟨[], n⟩) := by simpa using h1
      subst this
      simp at hq

theorem buscar_eliminarRuta (e : Enrutador) (x b : String) :
    buscar (e.eliminarRuta x).tablaEnrutamiento b =
      if b = x then none else buscar e.tablaEnrutamiento b := by
  unfold Enrutador.eliminarRuta
  cases hb : buscar e.tablaEnrutamiento x with
  | none =>
    by_cases hbx : b = x
    · subst hbx; simp [hb]
    · simp [hbx]
  | some c => simp [buscar_borrar]

theorem clavesUnicas_eliminarRuta (e : Enrutador) (x : String)
    (h : clavesUnicas e.tablaEnrutamiento) :
    clavesUnicas (e.eliminarRuta x).tablaEnrutamiento := by
  unfold Enrutador.eliminarRuta
  cases hb : buscar e.tablaEnrutamiento x with
  | none => simpa using h
  | some c => simpa using clavesUnicas_borrar _ _ h

theorem buscar_eliminado (m : List (String × Enrutador)) (x a : String) :
    buscar ((borrar m x).map (fun p => (p.1, p.2.eliminarRuta x))) a =
      if a = x then none else (buscar m a).map (fun e => e.eliminarRuta x) := by
  have := buscar_map (borrar m x) (fun _ e => e.eliminarRuta x) a
  simp only at this
  rw [this, buscar_borrar]
  by_cases h : a = x <;> simp [h]

theorem invariante_eliminar (r : Red) (x : String) (hi : r.invariante) :
    (r.eliminarEnrutador x).2.invariante := by
  by_cases hx : r.existeEnrutador x = true
  swap
  · have : (r.eliminarEnrutador x).2 = r := by simp [Red.eliminarEnrutador, hx]
    rw [this]; exact hi
  rw [eliminarEnrutador_ok r x hx]
  obtain ⟨⟨hu, ht⟩, hsim, hcol⟩ := hi
  have hce : ∀ a b,
      (⟨(borrar r.enrutadores x).map (fun p => (p.1, p.2.eliminarRuta x))⟩ : Red).costoEnlace a b
        = if a = x ∨ b = x then none else r.costoEnlace a b := by
    intro a b
    unfold Red.costoEnlace
    simp only [buscar_eliminado]
    by_cases hax : a = x
    · simp [hax]
    · cases hb : buscar r.enrutadores a with
      | none => simp [hax]
      | some e =>
        simp only [hax, if_false, Option.map_some', buscar_eliminarRuta, false_or]
  refine ⟨⟨?_, ?_⟩, ?_, ?_⟩
  · have h1 := clavesUnicas_borrar _ x hu
    unfold clavesUnicas claves at h1 ⊢
    simpa [List.map_map, Function.comp_def] using h1
  · intro p hp
    obtain ⟨p0, hp0, rfl⟩ := List.mem_map.1 hp
    have hp1 : p0 ∈ r.enrutadores := (List.mem_filter.1 hp0).1
    exact clavesUnicas_eliminarRuta _ _ (ht p0 hp1)
  · intro a b c
    rw [hce, hce]
    by_cases hax : a = x
    · simp [hax]
    · by_cases hbx : b = x
      · simp [hbx]
      · simp only [hax, hbx, or_self, if_false]
        exact hsim a b c
  · intro p hp q hq
    obtain ⟨p0, hp0, rfl⟩ := List.mem_map.1 hp
    have hp1 : p0 ∈ r.enrutadores := (List.mem_filter.1 hp0).1
    obtain ⟨hq1, hq2⟩ := eliminarRuta_mem _ _ _ hq
    have hex := hcol p0 hp1 q hq1
    unfold Red.existeEnrutador at hex ⊢
    simp only [buscar_eliminado, hq2, if_false]
    cases hb : buscar r.enrutadores q.1 with
    | none => simp [hb] at hex
    | some e => simp

theorem actualizarEnlace_falla (r : Red) (a b : String) (c : Int)
    (h : ¬ (r.existeEnrutador a = true ∧ r.existeEnrutador b = true ∧ 0 ≤ c)) :
    (r.actualizarEnlace a b c).2 = r := by
  by_cases ha : r.existeEnrutador a = true
  · by_cases hb : r.existeEnrutador b = true
    · have hc : c < 0 := by
        by_contra hc
        exact h ⟨ha, hb, not_lt.1 hc⟩
      simp [Red.actualizarEnlace, ha, hb, hc]
    · simp [Red.actualizarEnlace, ha, hb]
  · simp [Red.actualizarEnlace, ha]

theorem invariante_enlazar (r : Red) (a b : String) (c : Int) (hi : r.invariante) :
    (r.actualizarEnlace a b c).2.invariante := by
  by_cases hok : r.existeEnrutador a = true ∧ r.existeEnrutador b = true ∧ 0 ≤ c
  swap
  · rw [actualizarEnlace_falla r a b c hok]; exact hi
  obtain ⟨ha, hb, hc⟩ := hok
  obtain ⟨⟨hu, ht⟩, hsim, hcol⟩ := hi
  have hce := costoEnlace_actualizarEnlace r a b c ha hb hc
  have hex := existe_actualizarEnlace r a b c
  obtain ⟨ea, eb, hea, heb, h⟩ := actualizarEnlace_ok r a b c ha hb hc
  have hmea : (a, ea) ∈ r.enrutadores := mem_of_buscar _ _ _ hea
  have hmeb : eb = ⟨asignar ea.tablaEnrutamiento b c, ea.nombre⟩ ∨ (b, eb) ∈ r.enrutadores := by
    rcases mem_asignar _ _ _ _ (mem_of_buscar _ _ _ heb) with h1 | h1
    · left
      exact (Prod.mk.inj h1).2
    · exact Or.inr h1
  have hmem : ∀ p ∈ (r.actualizarEnlace a b c).2.enrutadores,
      p = (b, ⟨asignar eb.tablaEnrutamiento a c, eb.nombre⟩) ∨
      p = (a, ⟨asignar ea.tablaEnrutamiento b c, ea.nombre⟩) ∨ p ∈ r.enrutadores := by
    intro p hp
    rw [h] at hp
    rcases mem_asignar _ _ _ _ hp with h1 | h1
    · exact Or.inl h1
    · exact Or.inr (mem_asignar _ _ _ _ h1)
  refine ⟨⟨?_, ?_⟩, ?_, ?_⟩
  · rw [h]
    exact clavesUnicas_asignar _ _ _ (clavesUnicas_asignar _ _ _ hu)
  · intro p hp
    have huea : clavesUnicas (asignar ea.tablaEnrutamiento b c) :=
      clavesUnicas_asignar _ _ _ (ht _ hmea)
    rcases hmem p hp with h1 | h1 | h1
    · subst h1
      refine clavesUnicas_asignar _ _ _ ?_
      rcases hmeb with h2 | h2
      · rw [h2]; exact huea
      · exact ht _ h2
    · subst h1
      exact huea
    · exact ht p h1
  · intro x y k
    rw [hce, hce]
    by_cases h1 : (x = a ∧ y = b) ∨ (x = b ∧ y = a)
    · have h2 : (y = a ∧ x = b) ∨ (y = b ∧ x = a) := by tauto
      simp only [h1, h2, if_true]
    · have h2 : ¬ ((y = a ∧ x = b) ∨ (y = b ∧ x = a)) := by tauto
      simp only [h1, h2, if_false]
      exact hsim x y k
  · intro p hp q hq
    rw [hex]
    have hqea : ∀ q ∈ asignar ea.tablaEnrutamiento b c, r.existeEnrutador q.1 = true := by
      intro q hq
      rcases mem_asignar _ _ _ _ hq with h2 | h2
      · rw [h2]; exact hb
      · exact hcol _ hmea q h2
    rcases hmem p hp with h1 | h1 | h1
    · subst h1
      rcases mem_asignar _ _ _ _ hq with h2 | h2
      · rw [h2]; exact ha
      · rcases hmeb with h3 | h3
        · rw [h3] at h2
          exact hqea q h2
        · exact hcol _ h3 q h2
    · subst h1
      exact hqea q hq
    · exact hcol p h1 q hq

theorem invariante_vacia : Red.vacia.invariante := by
  refine ⟨⟨?_, ?_⟩, ?_, ?_⟩
  · simp [Red.vacia, clavesUnicas, claves]
  · intro p hp; simp [Red.vacia] at hp
  · intro a b c; simp [Red.vacia, Red.costoEnlace, buscar]
  · intro p hp; simp [Red.vacia] at hp

theorem invariante_aplicar (r : Red) (op : Operacion) (hi : r.invariante) :
    (r.aplicar op).invariante := by
  cases op with
  | agregar n => exact invariante_agregar r n hi
  | eliminar n => exact invariante_eliminar r n hi
  | enlazar a b c => exact invariante_enlazar r a b c hi

theorem invariante_foldl (ops : List Operacion) (r : Red) (hi : r.invariante) :
    (ops.foldl Red.aplicar r).invariante := by
  induction ops generalizing r with
  | nil => exact hi
  | cons op ops ih => exact ih _ (invariante_aplicar r op hi)

theorem invariante_tras (ops : List Operacion) : (Red.tras ops).invariante :=
  invariante_foldl ops Red.vacia invariante_vacia

/-- C3. Store invariant: in every state reached from the empty network by a
    sequence of `agregarEnrutador`, `eliminarEnrutador` and `actualizarEnlace`
    calls, successful or failing, router `a` lists `b` with cost `c` exactly when
    `b` lists `a` with cost `c`, and every name listed in a routing table is the
    name of a router of the network. -/
theorem C3_invariante_del_almacen (ops : List Operacion) :
    (∀ a b : String, ∀ c : Int,
      (Red.tras ops).costoEnlace a b = some c ↔ (Red.tras ops).costoEnlace b a = some c) ∧
    (∀ p ∈ (Red.tras ops).enrutadores, ∀ q ∈ p.2.tablaEnrutamiento,
      (Red.tras ops).existeEnrutador q.1 = true) :=
  ⟨(invariante_tras ops).2.1, (invariante_tras ops).2.2⟩

/-! ## Termination of the search loop -/

theorem envolver_rango (x : Int) :
    -2147483648 ≤ envolver x ∧ envolver x < 2147483648 := by
  unfold envolver
  omega

theorem envolver_id (x : Int) (h1 : -2147483648 ≤ x) (h2 : x < 2147483648) :
    envolver x = x := by
  unfold envolver
  omega

theorem peso_lt (a b : Int) (h1 : -2147483648 ≤ a) (h2 : a < b) : peso a < peso b := by
  unfold peso
  omega

theorem iterar_termina (paso : Estado → Paso) (μ : Estado → Nat) (I : Estado → Prop)
    (hdec : ∀ st st', I st → paso st = .sigue st' → I st' ∧ μ st' < μ st) :
    ∀ (n : Nat) (st : Estado), I st → μ st < n →
      (∃ st1 st2, I st1 ∧ paso st1 = .fin st2 ∧ iterar paso n st = some (.ok st2)) ∨
      (∃ st1 e, I st1 ∧ paso st1 = .falla e ∧ iterar paso n st = some (.error e)) := by
  intro n
  induction n with
  | zero => intro st _ h; omega
  | succ n ih =>
    intro st hI hμ
    cases hp : paso st with
    | fin st2 =>
      left
      exact ⟨st, st2, hI, hp, by simp [iterar, hp]⟩
    | falla e =>
      right
      exact ⟨st, e, hI, hp, by simp [iterar, hp]⟩
    | sigue st' =>
      obtain ⟨hI', hlt⟩ := hdec st st' hI hp
      have : iterar paso (n + 1) st = iterar paso n st' := by simp [iterar, hp]
      rw [this]
      exact ih st' hI' (by omega)

theorem minimo_mem (q : List (Int × String)) (m : Int × String) (h : minimo q = some m) :
    m ∈ q := by
  induction q generalizing m with
  | nil => simp [minimo] at h
  | cons e q ih =>
    unfold minimo at h
    cases hq : minimo q with
    | none =>
      rw [hq] at h
      simp only [Option.some.injEq] at h
      simp [← h]
    | some m' =>
      rw [hq] at h
      simp only at h
      by_cases hm : menorPar m' e = true
      · simp only [hm, if_true, Option.some.injEq] at h
        exact List.mem_cons_of_mem _ (h ▸ ih m' hq)
      · simp only [hm, Option.some.injEq] at h
        simp at h
        simp [← h]

theorem minimo_none (q : List (Int × String)) (h : minimo q = none) : q = [] := by
  cases q with
  | nil => rfl
  | cons e q =>
    unfold minimo at h
    cases hq : minimo q with
    | none => simp [hq] at h
    | some m' =>
      rw [hq] at h
      simp only at h
      by_cases hm : menorPar m' e = true <;> simp [hm] at h

theorem mem_nombres_clave (r : Red) (k : String) (e : Enrutador)
    (h : (k, e) ∈ r.enrutadores) : k ∈ r.nombres := by
  unfold Red.nombres
  exact List.mem_flatMap.2 ⟨(k, e), h, by simp⟩

theorem mem_nombres_vecino (r : Red) (k : String) (e : Enrutador) (q : String × Int)
    (h : (k, e) ∈ r.enrutadores) (hq : q ∈ e.tablaEnrutamiento) : q.1 ∈ r.nombres := by
  unfold Red.nombres
  refine List.mem_flatMap.2 ⟨(k, e), h, ?_⟩
  exact List.mem_cons_of_mem _ (List.mem_map.2 ⟨q, hq, rfl⟩)

theorem suma_pesos_baja (l : List String) (f g : String → Int) (v : String) (hv : v ∈ l)
    (hle : ∀ x, x ≠ v → g x = f x) (hlo : -2147483648 ≤ g v) (hlt : g v < f v) :
    (l.map (fun x => peso (g x))).sum + 1 ≤ (l.map (fun x => peso (f x))).sum := by
  have := List.sum_lt_sum (fun x => peso (g x)) (fun x => peso (f x)) (l := l)
    (fun i _ => by
      by_cases hi : i = v
      · subst hi; exact le_of_lt (peso_lt _ _ hlo hlt)
      · simp [hle i hi])
    ⟨v, hv, peso_lt _ _ hlo hlt⟩
  omega

theorem quitar_length (e : Int × String) (q : List (Int × String)) :
    (E0.quitar e q).length ≤ q.length := by
  unfold E0.quitar
  exact List.length_filter_le _ _

theorem quitar_length_mem (e : Int × String) (q : List (Int × String)) (h : e ∈ q) :
    (E0.quitar e q).length < q.length := by
  unfold E0.quitar
  induction q with
  | nil => simp at h
  | cons x q ih =>
    by_cases hx : x = e
    · subst hx
      rw [List.filter_cons_of_neg (by simp)]
      have := List.length_filter_le (fun y => decide (y ≠ x)) q
      simp only [List.length_cons]
      omega
    · have he : e ∈ q := by
        rcases List.mem_cons.1 h with h1 | h1
        · exact absurd h1.symm hx
        · exact h1
      rw [List.filter_cons_of_pos (by simpa using hx)]
      simp only [List.length_cons]
      have := ih he
      omega

theorem insertar_length (e : Int × String) (q : List (Int × String)) :
    (E0.insertar e q).length ≤ q.length + 1 := by
  unfold E0.insertar
  by_cases h : e ∈ q <;> simp [h]

theorem potencial_relajar0 (r : Red) (d : Int) (u : String) (st : Estado)
    (p : String × Int) (hp : p.1 ∈ r.nombres) :
    potencial r (E0.relajar d u st p) ≤ potencial r st := by
  unfold E0.relajar
  by_cases h : envolver (d + p.2) < st.distancias p.1
  · simp only [h, if_true]
    unfold potencial
    have hs := suma_pesos_baja r.nombres st.distancias
      (poner st.distancias p.1 (envolver (d + p.2))) p.1 hp
      (fun x hx => by simp [poner, hx]) (by simpa [poner] using (envolver_rango _).1)
      (by simpa [poner] using h)
    have h1 := insertar_length (envolver (d + p.2), p.1)
      (E0.quitar (st.distancias p.1, p.1) st.nodosActivos)
    have h2 := quitar_length (st.distancias p.1, p.1) st.nodosActivos
    simp only
    omega
  · simp only [h, if_false]
    exact le_refl _

theorem potencial_relajar1 (r : Red) (d : Int) (u : String) (st : Estado)
    (p : String × Int) (hp : p.1 ∈ r.nombres) :
    potencial r (E1.relajar d u st p) ≤ potencial r st := by
  unfold E1.relajar
  by_cases h : envolver (d + p.2) < st.distancias p.1
  · simp only [h, if_true]
    unfold potencial
    have hs := suma_pesos_baja r.nombres st.distancias
      (poner st.distancias p.1 (envolver (d + p.2))) p.1 hp
      (fun x hx => by simp [poner, hx]) (by simpa [poner] using (envolver_rango _).1)
      (by simpa [poner] using h)
    simp only [List.length_cons]
    omega
  · simp only [h, if_false]
    exact le_refl _

theorem potencial_foldl (r : Red) (f : Estado → String × Int → Estado)
    (hf : ∀ st p, p.1 ∈ r.nombres → potencial r (f st p) ≤ potencial r st)
    (t : List (String × Int)) (ht : ∀ p ∈ t, p.1 ∈ r.nombres) (st : Estado) :
    potencial r (t.foldl f st) ≤ potencial r st := by
  induction t generalizing st with
  | nil => exact le_refl _
  | cons p t ih =>
    simp only [List.foldl_cons]
    exact le_trans (ih (fun q hq => ht q (List.mem_cons_of_mem _ hq)) _)
      (hf st p (ht p (List.mem_cons_self _ _)))

theorem paso0_sigue (r : Red) (dest : String) (st st' : Estado)
    (h : E0.paso r dest st = .sigue st') :
    ∃ d u e, minimo st.nodosActivos = some (d, u) ∧ u ≠ dest ∧
      buscar r.enrutadores u = some e ∧
      st' = e.tablaEnrutamiento.foldl (E0.relajar d u)
        { st with nodosActivos := E0.quitar (d, u) st.nodosActivos } := by
  unfold E0.paso at h
  cases hm : minimo st.nodosActivos with
  | none => simp [hm] at h
  | some m =>
    obtain ⟨d, u⟩ := m
    rw [hm] at h
    simp only at h
    by_cases hu : u = dest
    · simp [hu] at h
    · simp only [hu, if_false] at h
      cases hb : buscar r.enrutadores u with
      | none => simp [hb] at h
      | some e =>
        rw [hb] at h
        simp only [Paso.sigue.injEq] at h
        exact ⟨d, u, e, rfl, hu, hb, h.symm⟩

theorem paso0_fin (r : Red) (dest : String) (st st' : Estado)
    (h : E0.paso r dest st = .fin st') :
    (minimo st.nodosActivos = none ∧ st' = st) ∨
    (∃ d, minimo st.nodosActivos = some (d, dest) ∧
      st' = { st with nodosActivos := E0.quitar (d, dest) st.nodosActivos }) := by
  unfold E0.paso at h
  cases hm : minimo st.nodosActivos with
  | none =>
    rw [hm] at h
    simp only [Paso.fin.injEq] at h
    exact Or.inl ⟨rfl, h.symm⟩
  | some m =>
    obtain ⟨d, u⟩ := m
    rw [hm] at h
    simp only at h
    by_cases hu : u = dest
    · subst hu
      simp only [if_true, Paso.fin.injEq] at h
      exact Or.inr ⟨d, rfl, h.symm⟩
    · simp only [hu, if_false] at h
      cases hb : buscar r.enrutadores u with
      | none => simp [hb] at h
      | some e => simp [hb] at h

theorem paso0_falla (r : Red) (dest : String) (st : Estado) (x : Excepcion)
    (h : E0.paso r dest st = .falla x) :
    ∃ d u, minimo st.nodosActivos = some (d, u) ∧ buscar r.enrutadores u = none := by
  unfold E0.paso at h
  cases hm : minimo st.nodosActivos with
  | none => simp [hm] at h
  | some m =>
    obtain ⟨d, u⟩ := m
    rw [hm] at h
    simp only at h
    by_cases hu : u = dest
    · simp [hu] at h
    · simp only [hu, if_false] at h
      cases hb : buscar r.enrutadores u with
      | none => exact ⟨d, u, rfl, hb⟩
      | some e => simp [hb] at h

theorem paso1_sigue (r : Red) (dest : String) (st st' : Estado)
    (h : E1.paso r dest st = .sigue st') :
    ∃ d u, minimo st.nodosActivos = some (d, u) ∧ u ≠ dest ∧
      ((d > st.distancias u ∧
          st' = { st with nodosActivos := st.nodosActivos.erase (d, u) }) ∨
       (¬ d > st.distancias u ∧ ∃ e, buscar r.enrutadores u = some e ∧
          st' = e.tablaEnrutamiento.foldl (E1.relajar d u)
            { st with nodosActivos := st.nodosActivos.erase (d, u) })) := by
  unfold E1.paso at h
  cases hm : minimo st.nodosActivos with
  | none => simp [hm] at h
  | some m =>
    obtain ⟨d, u⟩ := m
    rw [hm] at h
    simp only at h
    by_cases hu : u = dest
    · simp [hu] at h
    · simp only [hu, if_false] at h
      by_cases hd : d > st.distancias u
      · simp only [hd, if_true, Paso.sigue.injEq] at h
        exact ⟨d, u, rfl, hu, Or.inl ⟨hd, h.symm⟩⟩
      · simp only [hd, if_false] at h
        cases hb : buscar r.enrutadores u with
        | none => simp [hb] at h
        | some e =>
          rw [hb] at h
          simp only [Paso.sigue.injEq] at h
          exact ⟨d, u, rfl, hu, Or.inr ⟨hd, e, hb, h.symm⟩⟩

theorem paso1_fin (r : Red) (dest : String) (st st' : Estado)
    (h : E1.paso r dest st = .fin st') :
    (minimo st.nodosActivos = none ∧ st' = st) ∨
    (∃ d, minimo st.nodosActivos = some (d, dest) ∧
      st' = { st with nodosActivos := st.nodosActivos.erase (d, dest) }) := by
  unfold E1.paso at h
  cases hm : minimo st.nodosActivos with
  | none =>
    rw [hm] at h
    simp only [Paso.fin.injEq] at h
    exact Or.inl ⟨rfl, h.symm⟩
  | some m =>
    obtain ⟨d, u⟩ := m
    rw [hm] at h
    simp only at h
    by_cases hu : u = dest
    · subst hu
      simp only [if_true, Paso.fin.injEq] at h
      exact Or.inr ⟨d, rfl, h.symm⟩
    · simp only [hu, if_false] at h
      by_cases hd : d > st.distancias u
      · simp [hd] at h
      · simp only [hd, if_false] at h
        cases hb : buscar r.enrutadores u with
        | none => simp [hb] at h
        | some e => simp [hb] at h

theorem paso1_falla (r : Red) (dest : String) (st : Estado) (x : Excepcion)
    (h : E1.paso r dest st = .falla x) :
    ∃ d u, minimo st.nodosActivos = some (d, u) ∧ buscar r.enrutadores u = none := by
  unfold E1.paso at h
  cases hm : minimo st.nodosActivos with
  | none => simp [hm] at h
  | some m =>
    obtain ⟨d, u⟩ := m
    rw [hm] at h
    simp only at h
    by_cases hu : u = dest
    · simp [hu] at h
    · simp only [hu, if_false] at h
      by_cases hd : d > st.distancias u
      · simp [hd] at h
      · simp only [hd, if_false] at h
        cases hb : buscar r.enrutadores u with
        | none => exact ⟨d, u, rfl, hb⟩
        | some e => simp [hb] at h

theorem potencial_paso0 (r : Red) (dest : String) (st st' : Estado)
    (h : E0.paso r dest st = .sigue st') : potencial r st' < potencial r st := by
  obtain ⟨d, u, e, hm, _, hb, rfl⟩ := paso0_sigue r dest st st' h
  have hmem : (u, e) ∈ r.enrutadores := mem_of_buscar _ _ _ hb
  have h1 := potencial_foldl r (E0.relajar d u)
    (fun st p hp => potencial_relajar0 r d u st p hp) e.tablaEnrutamiento
    (fun p hp => mem_nombres_vecino r u e p hmem hp)
    { st with nodosActivos := E0.quitar (d, u) st.nodosActivos }
  have h2 := quitar_length_mem (d, u) st.nodosActivos (minimo_mem _ _ hm)
  have h3 : potencial r { st with nodosActivos := E0.quitar (d, u) st.nodosActivos }
      < potencial r st := by
    unfold potencial
    simp only
    omega
  omega

theorem erase_length_mem (e : Int × String) (q : List (Int × String)) (h : e ∈ q) :
    (q.erase e).length < q.length := by
  rw [List.length_erase_of_mem h]
  have : 0 < q.length := List.length_pos_of_mem h
  omega

theorem potencial_paso1 (r : Red) (dest : String) (st st' : Estado)
    (h : E1.paso r dest st = .sigue st') : potencial r st' < potencial r st := by
  obtain ⟨d, u, hm, _, hc⟩ := paso1_sigue r dest st st' h
  have h2 := erase_length_mem (d, u) st.nodosActivos (minimo_mem _ _ hm)
  have h3 : potencial r { st with nodosActivos := st.nodosActivos.erase (d, u) }
      < potencial r st := by
    unfold potencial
    simp only
    omega
  rcases hc with ⟨_, rfl⟩ | ⟨_, e, hb, rfl⟩
  · exact h3
  · have hmem : (u, e) ∈ r.enrutadores := mem_of_buscar _ _ _ hb
    have h1 := potencial_foldl r (E1.relajar d u)
      (fun st p hp => potencial_relajar1 r d u st p hp) e.tablaEnrutamiento
      (fun p hp => mem_nombres_vecino r u e p hmem hp)
      { st with nodosActivos := st.nodosActivos.erase (d, u) }
    omega

theorem foldl_poner_max (m : List (String × Enrutador)) (f : String → Int) (v : String) :
    (m.foldl (fun d p => poner d p.1 INT_MAX) f) v =
      if v ∈ claves m then INT_MAX else f v := by
  induction m generalizing f with
  | nil => simp [claves]
  | cons p m ih =>
    simp only [List.foldl_cons, ih, claves, List.map_cons, List.mem_cons]
    by_cases h1 : v ∈ List.map Prod.fst m
    · simp [h1]
    · by_cases h2 : v = p.1
      · simp [h1, h2, poner]
      · simp [h1, h2, poner]

theorem distancias_inicial (r : Red) (o v : String) :
    (estadoInicial r o).distancias v =
      if v = o then 0 else if v ∈ claves r.enrutadores then INT_MAX else 0 := by
  unfold estadoInicial
  simp only [poner, foldl_poner_max]

theorem potencial_inicial (r : Red) (o : String) :
    potencial r (estadoInicial r o) < cotaBusqueda r := by
  unfold potencial cotaBusqueda
  have h1 : ∀ x ∈ r.nombres.map (fun x => peso ((estadoInicial r o).distancias x)),
      x ≤ 4294967296 := by
    intro x hx
    obtain ⟨y, _, rfl⟩ := List.mem_map.1 hx
    rw [distancias_inicial]
    unfold peso INT_MAX
    split_ifs <;> simp
  have h2 := List.sum_le_card_nsmul _ _ h1
  simp only [List.length_map, smul_eq_mul] at h2
  have h3 : (estadoInicial r o).nodosActivos.length = 1 := by simp [estadoInicial]
  omega

theorem foldl_preserva {α β : Type} (P : α → Prop) (f : α → β → α) (t : List β)
    (hf : ∀ s p, p ∈ t → P s → P (f s p)) (s : α) (hs : P s) : P (t.foldl f s) := by
  induction t generalizing s with
  | nil => exact hs
  | cons p t ih =>
    simp only [List.foldl_cons]
    exact ih (fun s q hq => hf s q (List.mem_cons_of_mem _ hq)) _
      (hf s p (List.mem_cons_self _ _) hs)

theorem conectados_paso (r : Red) (o u : String) (e : Enrutador) (p : String × Int)
    (hu : r.conectados o u) (hb : buscar r.enrutadores u = some e)
    (hp : p ∈ e.tablaEnrutamiento) : r.conectados o p.1 := by
  refine Relation.ReflTransGen.tail hu ?_
  unfold Red.costoEnlace
  rw [hb]
  exact (buscar_isSome_iff _ _).2 (List.mem_map.2 ⟨p, hp, rfl⟩)

theorem mem_quitar (e x : Int × String) (q : List (Int × String)) :
    x ∈ E0.quitar e q ↔ x ∈ q ∧ x ≠ e := by
  simp [E0.quitar, List.mem_filter]

theorem mem_insertar (e x : Int × String) (q : List (Int × String)) :
    x ∈ E0.insertar e q ↔ x = e ∨ x ∈ q := by
  unfold E0.insertar
  by_cases h : e ∈ q
  · simp only [h, if_true]
    constructor
    · exact Or.inr
    · rintro (h1 | h1)
      · exact h1 ▸ h
      · exact h1
  · simp [h]

theorem alcance_relajar0 (r : Red) (o u : String) (d : Int) (e : Enrutador)
    (hcol : r.sinColgantes) (hu : r.conectados o u) (hb : buscar r.enrutadores u = some e)
    (st : Estado) (p : String × Int) (hp : p ∈ e.tablaEnrutamiento)
    (h : Alcance r o st) : Alcance r o (E0.relajar d u st p) := by
  unfold E0.relajar
  by_cases hlt : envolver (d + p.2) < st.distancias p.1
  swap
  · simpa [hlt] using h
  simp only [hlt, if_true]
  have hc := conectados_paso r o u e p hu hb hp
  have hex := hcol (u, e) (mem_of_buscar _ _ _ hb) p hp
  refine ⟨?_, ?_⟩
  · intro x hx
    simp only [mem_insertar, mem_quitar] at hx
    rcases hx with rfl | ⟨hx, _⟩
    · exact ⟨hc, hex⟩
    · exact h.1 x hx
  · intro v hv
    have hne : v ≠ p.1 := fun e => hv (e ▸ hc)
    simp only [poner, hne, if_false]
    exact h.2 v hv

theorem alcance_relajar1 (r : Red) (o u : String) (d : Int) (e : Enrutador)
    (hcol : r.sinColgantes) (hu : r.conectados o u) (hb : buscar r.enrutadores u = some e)
    (st : Estado) (p : String × Int) (hp : p ∈ e.tablaEnrutamiento)
    (h : Alcance r o st) : Alcance r o (E1.relajar d u st p) := by
  unfold E1.relajar
  by_cases hlt : envolver (d + p.2) < st.distancias p.1
  swap
  · simpa [hlt] using h
  simp only [hlt, if_true]
  have hc := conectados_paso r o u e p hu hb hp
  have hex := hcol (u, e) (mem_of_buscar _ _ _ hb) p hp
  refine ⟨?_, ?_⟩
  · intro x hx
    rcases List.mem_cons.1 hx with rfl | hx
    · exact ⟨hc, hex⟩
    · exact h.1 x hx
  · intro v hv
    have hne : v ≠ p.1 := fun e => hv (e ▸ hc)
    simp only [poner, hne, if_false]
    exact h.2 v hv

theorem alcance_paso0 (r : Red) (o dest : String) (hcol : r.sinColgantes)
    (st st' : Estado) (h : Alcance r o st) (hp : E0.paso r dest st = .sigue st') :
    Alcance r o st' := by
  obtain ⟨d, u, e, hm, _, hb, rfl⟩ := paso0_sigue r dest st st' hp
  have hu := (h.1 _ (minimo_mem _ _ hm)).1
  refine foldl_preserva (Alcance r o) _ _
    (fun s p hp hs => alcance_relajar0 r o u d e hcol hu hb s p hp hs) _ ?_
  exact ⟨fun x hx => h.1 x ((mem_quitar _ _ _).1 hx).1, h.2⟩

theorem alcance_paso1 (r : Red) (o dest : String) (hcol : r.sinColgantes)
    (st st' : Estado) (h : Alcance r o st) (hp : E1.paso r dest st = .sigue st') :
    Alcance r o st' := by
  obtain ⟨d, u, hm, _, hc⟩ := paso1_sigue r dest st st' hp
  have hu := (h.1 _ (minimo_mem _ _ hm)).1
  have h0 : Alcance r o { st with nodosActivos := st.nodosActivos.erase (d, u) } :=
    ⟨fun x hx => h.1 x (List.mem_of_mem_erase hx), h.2⟩
  rcases hc with ⟨_, rfl⟩ | ⟨_, e, hb, rfl⟩
  · exact h0
  · exact foldl_preserva (Alcance r o) _ _
      (fun s p hp hs => alcance_relajar1 r o u d e hcol hu hb s p hp hs) _ h0

theorem alcance_inicial (r : Red) (o : String) (ho : r.existeEnrutador o = true) :
    Alcance r o (estadoInicial r o) := by
  refine ⟨?_, fun v _ => rfl⟩
  intro e he
  have : e = (0, o) := by simpa [estadoInicial] using he
  subst this
  exact ⟨Relation.ReflTransGen.refl, ho⟩

theorem sin_ruta0 (r : Red) (o dest : String) (fuel : Nat) (hcol : r.sinColgantes)
    (ho : r.existeEnrutador o = true) (hd : r.existeEnrutador dest = true)
    (hsep : ¬ r.conectados o dest) (hf : cotaBusqueda r ≤ fuel) :
    E0.encontrarRutaMasCorta fuel r o dest = some (.ok (-1, [])) := by
  have hterm := iterar_termina (E0.paso r dest) (potencial r) (Alcance r o)
    (fun st st' hI hp => ⟨alcance_paso0 r o dest hcol st st' hI hp,
      potencial_paso0 r dest st st' hp⟩)
    fuel (estadoInicial r o) (alcance_inicial r o ho)
    (lt_of_lt_of_le (potencial_inicial r o) hf)
  have hne : dest ≠ o := fun e => hsep (e ▸ Relation.ReflTransGen.refl)
  have hdist : (estadoInicial r o).distancias dest = INT_MAX := by
    rw [distancias_inicial]
    simp [hne, (existe_iff_claves r dest).1 hd]
  rcases hterm with ⟨st1, st2, hI, hp, hit⟩ | ⟨st1, x, hI, hp, hit⟩
  · have hd2 : st2.distancias dest = INT_MAX := by
      have : st2.distancias = st1.distancias := by
        rcases paso0_fin r dest st1 st2 hp with ⟨_, rfl⟩ | ⟨d, _, rfl⟩ <;> rfl
      rw [this, hI.2 dest hsep, hdist]
    simp [E0.encontrarRutaMasCorta, ho, hd, hit, hd2]
  · exfalso
    obtain ⟨d, u, hm, hb⟩ := paso0_falla r dest st1 x hp
    have := (hI.1 _ (minimo_mem _ _ hm)).2
    simp [Red.existeEnrutador, hb] at this

theorem sin_ruta1 (r : Red) (o dest : String) (fuel : Nat) (hcol : r.sinColgantes)
    (ho : r.existeEnrutador o = true) (hd : r.existeEnrutador dest = true)
    (hsep : ¬ r.conectados o dest) (hf : cotaBusqueda r ≤ fuel) :
    E1.encontrarRutaMasCorta fuel r o dest = some (.ok (-1, [])) := by
  have hterm := iterar_termina (E1.paso r dest) (potencial r) (Alcance r o)
    (fun st st' hI hp => ⟨alcance_paso1 r o dest hcol st st' hI hp,
      potencial_paso1 r dest st st' hp⟩)
    fuel (estadoInicial r o) (alcance_inicial r o ho)
    (lt_of_lt_of_le (potencial_inicial r o) hf)
  have hne : dest ≠ o := fun e => hsep (e ▸ Relation.ReflTransGen.refl)
  have hdist : (estadoInicial r o).distancias dest = INT_MAX := by
    rw [distancias_inicial]
    simp [hne, (existe_iff_claves r dest).1 hd]
  rcases hterm with ⟨st1, st2, hI, hp, hit⟩ | ⟨st1, x, hI, hp, hit⟩
  · have hd2 : st2.distancias dest = INT_MAX := by
      have : st2.distancias = st1.distancias := by
        rcases paso1_fin r dest st1 st2 hp with ⟨_, rfl⟩ | ⟨d, _, rfl⟩ <;> rfl
      rw [this, hI.2 dest hsep, hdist]
    simp [E1.encontrarRutaMasCorta, ho, hd, hit, hd2]
  · exfalso
    obtain ⟨d, u, hm, hb⟩ := paso1_falla r dest st1 x hp
    have := (hI.1 _ (minimo_mem _ _ hm)).2
    simp [Red.existeEnrutador, hb] at this

/-- C7. Unreachable case: on a store that satisfies the store invariant, for
    existing routers `o` and `dest` that no sequence of links joins, the query
    returns the no-path result (cost `-1`, empty sequence) and does not fail;
    both source files, any fuel from `cotaBusqueda r` on. -/
theorem C7_sin_ruta (r : Red) (o dest : String) (fuel : Nat) (hinv : r.invariante)
    (ho : r.existeEnrutador o = true) (hd : r.existeEnrutador dest = true)
    (hsep : ¬ r.conectados o dest) (hf : cotaBusqueda r ≤ fuel) :
    E0.encontrarRutaMasCorta fuel r o dest = some (.ok (-1, [])) ∧
    E1.encontrarRutaMasCorta fuel r o dest = some (.ok (-1, [])) :=
  ⟨sin_ruta0 r o dest fuel hinv.2.2 ho hd hsep hf,
   sin_ruta1 r o dest fuel hinv.2.2 ho hd hsep hf⟩

theorem conectados_cerrado (r : Red) (P : String → Prop) (o : String) (ho : P o)
    (hcl : ∀ u v, P u → (r.costoEnlace u v).isSome = true → P v) :
    ∀ d, r.conectados o d → P d := by
  intro d hd
  induction hd with
  | refl => exact ho
  | tail _ hstep ih => exact hcl _ _ ih hstep

theorem redSeparada_valor : redSeparada =
    ⟨[("A", ⟨[("B", 4)], "A"⟩), ("B", ⟨[("A", 4)], "B"⟩), ("C", ⟨[], "C"⟩)]⟩ := by
  decide

theorem redSeparada_no_conectados : ¬ redSeparada.conectados "A" "C" := by
  intro h
  have := conectados_cerrado redSeparada (fun x => x = "A" ∨ x = "B") "A" (Or.inl rfl)
    (by
      intro u v hu hl
      rw [redSeparada_valor] at hl
      rcases hu with rfl | rfl
      · by_cases hv : v = "B"
        · exact Or.inr hv
        · have hv' : ¬ "B" = v := fun e => hv e.symm
          simp [Red.costoEnlace, buscar, hv'] at hl
      · by_cases hv : v = "A"
        · exact Or.inl hv
        · have hv' : ¬ "A" = v := fun e => hv e.symm
          simp [Red.costoEnlace, buscar, hv'] at hl)
    "C" h
  revert this
  decide

theorem C7_sin_ruta_witness :
    E0.encontrarRutaMasCorta (cotaBusqueda redSeparada) redSeparada "A" "C"
      = some (.ok (-1, [])) ∧
    E1.encontrarRutaMasCorta (cotaBusqueda redSeparada) redSeparada "A" "C"
      = some (.ok (-1, [])) :=
  C7_sin_ruta redSeparada "A" "C" (cotaBusqueda redSeparada)
    (invariante_tras _) (by decide) (by decide) redSeparada_no_conectados (le_refl _)

/-! ## The connectivity check -/

theorem recorrer_termina (r : Red) (μ : Recorrido → Nat) (I : Recorrido → Prop)
    (hdec : ∀ st st', I st → r.pasoConexion st = some (.ok st') → I st' ∧ μ st' < μ st) :
    ∀ (n : Nat) (st : Recorrido), I st → μ st < n →
      (∃ st1, I st1 ∧ r.pasoConexion st1 = none ∧ r.recorrer n st = some (.ok st1)) ∨
      (∃ st1 e, I st1 ∧ r.pasoConexion st1 = some (.error e) ∧
        r.recorrer n st = some (.error e)) := by
  intro n
  induction n with
  | zero => intro st _ h; omega
  | succ n ih =>
    intro st hI hμ
    cases hp : r.pasoConexion st with
    | none =>
      left
      exact ⟨st, hI, hp, by simp [Red.recorrer, hp]⟩
    | some res =>
      cases res with
      | error e =>
        right
        exact ⟨st, e, hI, hp, by simp [Red.recorrer, hp]⟩
      | ok st' =>
        obtain ⟨hI', hlt⟩ := hdec st st' hI hp
        have : r.recorrer (n + 1) st = r.recorrer n st' := by simp [Red.recorrer, hp]
        rw [this]
        exact ih st' hI' (by omega)

theorem apilar_length (V : List String) (t : List (String × Int)) (pila : List String) :
    (t.foldl (fun pl q => if q.1 ∈ V then pl else q.1 :: pl) pila).length
      ≤ pila.length + t.length := by
  induction t generalizing pila with
  | nil => simp
  | cons q t ih =>
    simp only [List.foldl_cons, List.length_cons]
    by_cases h : q.1 ∈ V
    · simp only [h, if_true]
      have := ih pila
      omega
    · simp only [h, if_false]
      have := ih (q.1 :: pila)
      simp only [List.length_cons] at this
      omega

theorem apilar_mem (V : List String) (t : List (String × Int)) (pila : List String)
    (x : String) :
    x ∈ t.foldl (fun pl q => if q.1 ∈ V then pl else q.1 :: pl) pila ↔
      x ∈ pila ∨ (x ∈ claves t ∧ x ∉ V) := by
  induction t generalizing pila with
  | nil => simp [claves]
  | cons q t ih =>
    simp only [List.foldl_cons, claves, List.map_cons, List.mem_cons]
    unfold claves at ih
    by_cases h : q.1 ∈ V
    · simp only [h, if_true, ih]
      constructor
      · rintro (h1 | ⟨h1, h2⟩)
        · exact Or.inl h1
        · exact Or.inr ⟨Or.inr h1, h2⟩
      · rintro (h1 | ⟨h1 | h1, h2⟩)
        · exact Or.inl h1
        · exact absurd (h1 ▸ h) h2
        · exact Or.inr ⟨h1, h2⟩
    · simp only [h, if_false, ih, List.mem_cons]
      constructor
      · rintro ((h1 | h1) | ⟨h1, h2⟩)
        · exact Or.inr ⟨Or.inl h1, h1 ▸ h⟩
        · exact Or.inl h1
        · exact Or.inr ⟨Or.inr h1, h2⟩
      · rintro (h1 | ⟨h1 | h1, h2⟩)
        · exact Or.inl (Or.inr h1)
        · exact Or.inl (Or.inl h1)
        · exact Or.inr ⟨h1, h2⟩

theorem pasoConexion_ok (r : Red) (st st' : Recorrido)
    (h : r.pasoConexion st = some (.ok st')) :
    ∃ actual resto, st.pila = actual :: resto ∧
      ((actual ∈ st.visitados ∧ st' = ⟨st.visitados, resto⟩) ∨
       (actual ∉ st.visitados ∧ ∃ e, buscar r.enrutadores actual = some e ∧
          st' = ⟨actual :: st.visitados,
            e.tablaEnrutamiento.foldl
              (fun pl q => if q.1 ∈ actual :: st.visitados then pl else q.1 :: pl) resto⟩)) := by
  unfold Red.pasoConexion at h
  cases hp : st.pila with
  | nil => simp [hp] at h
  | cons actual resto =>
    rw [hp] at h
    simp only at h
    refine ⟨actual, resto, rfl, ?_⟩
    by_cases hv : actual ∈ st.visitados
    · simp only [hv, if_true, Option.some.injEq, Except.ok.injEq] at h
      exact Or.inl ⟨hv, h.symm⟩
    · simp only [hv, if_false] at h
      cases hb : buscar r.enrutadores actual with
      | none => simp [hb] at h
      | some e =>
        rw [hb] at h
        simp only [Option.some.injEq, Except.ok.injEq] at h
        exact Or.inr ⟨hv, e, rfl, h.symm⟩

theorem pasoConexion_error (r : Red) (st : Recorrido) (x : Excepcion)
    (h : r.pasoConexion st = some (.error x)) :
    ∃ actual resto, st.pila = actual :: resto ∧ buscar r.enrutadores actual = none := by
  unfold Red.pasoConexion at h
  cases hp : st.pila with
  | nil => simp [hp] at h
  | cons actual resto =>
    rw [hp] at h
    simp only at h
    refine ⟨actual, resto, rfl, ?_⟩
    by_cases hv : actual ∈ st.visitados
    · simp [hv] at h
    · simp only [hv, if_false] at h
      cases hb : buscar r.enrutadores actual with
      | none => rfl
      | some e => simp [hb] at h

theorem pasoConexion_none (r : Red) (st : Recorrido) (h : r.pasoConexion st = none) :
    st.pila = [] := by
  unfold Red.pasoConexion at h
  cases hp : st.pila with
  | nil => rfl
  | cons actual resto =>
    rw [hp] at h
    simp only at h
    by_cases hv : actual ∈ st.visitados
    · simp [hv] at h
    · simp only [hv, if_false] at h
      cases hb : buscar r.enrutadores actual with
      | none => simp [hb] at h
      | some e => simp [hb] at h

theorem pendiente_mono (m : List (String × Enrutador)) (a : String) (V : List String) :
    pendiente m (a :: V) ≤ pendiente m V := by
  induction m with
  | nil => simp [pendiente]
  | cons p m ih =>
    simp only [pendiente, List.mem_cons]
    by_cases h1 : p.1 ∈ V <;> by_cases h2 : p.1 = a <;> simp [h1, h2] <;> omega

theorem pendiente_baja (m : List (String × Enrutador)) (a : String) (e : Enrutador)
    (V : List String) (hm : (a, e) ∈ m) (ha : a ∉ V) :
    pendiente m (a :: V) + (e.tablaEnrutamiento.length + 1) ≤ pendiente m V := by
  induction m with
  | nil => simp at hm
  | cons p m ih =>
    simp only [pendiente, List.mem_cons]
    rcases List.mem_cons.1 hm with h0 | h0
    · subst h0
      have := pendiente_mono m a V
      simp [ha]
      omega
    · have ih' := ih h0
      by_cases h1 : p.1 ∈ V <;> by_cases h2 : p.1 = a <;> simp [h1, h2] <;> omega

theorem potencialConexion_baja (r : Red) (st st' : Recorrido)
    (h : r.pasoConexion st = some (.ok st')) :
    potencialConexion r st' < potencialConexion r st := by
  obtain ⟨actual, resto, hp, hc⟩ := pasoConexion_ok r st st' h
  unfold potencialConexion
  rcases hc with ⟨_, rfl⟩ | ⟨hv, e, hb, rfl⟩
  · simp only [hp, List.length_cons]
    omega
  · have h1 := pendiente_baja r.enrutadores actual e st.visitados (mem_of_buscar _ _ _ hb) hv
    have h2 := apilar_length (actual :: st.visitados) e.tablaEnrutamiento resto
    simp only [hp, List.length_cons]
    omega

theorem flatMap_length_pendiente (m : List (String × Enrutador)) :
    (m.flatMap (fun p => p.1 :: claves p.2.tablaEnrutamiento)).length = pendiente m [] := by
  induction m with
  | nil => simp [pendiente]
  | cons p m ih =>
    unfold claves at ih
    simp only [List.flatMap_cons, List.length_append, List.length_cons, ih, pendiente,
      claves, List.length_map, List.not_mem_nil, if_false]

theorem nombres_length (r : Red) : r.nombres.length = pendiente r.enrutadores [] :=
  flatMap_length_pendiente r.enrutadores

theorem potencialConexion_inicial (r : Red) (s : String) :
    potencialConexion r ⟨[], [s]⟩ < cotaConexion r := by
  unfold potencialConexion cotaConexion
  rw [nombres_length]
  simp only [List.length_cons, List.length_nil]
  omega

theorem costoEnlace_isSome_iff (r : Red) (u v : String) (e : Enrutador)
    (hb : buscar r.enrutadores u = some e) :
    (r.costoEnlace u v).isSome = true ↔ v ∈ claves e.tablaEnrutamiento := by
  unfold Red.costoEnlace
  rw [hb]
  exact buscar_isSome_iff _ _

theorem explorado_paso (r : Red) (s : String) (hcol : r.sinColgantes) (st st' : Recorrido)
    (hI : Explorado r s st) (h : r.pasoConexion st = some (.ok st')) : Explorado r s st' := by
  obtain ⟨actual, resto, hp, hc⟩ := pasoConexion_ok r st st' h
  obtain ⟨h1, h2, h3, h4⟩ := hI
  rw [hp] at h2 h3 h4
  rcases hc with ⟨hv, rfl⟩ | ⟨hv, e, hb, rfl⟩
  · refine ⟨h1, ?_, ?_, ?_⟩
    · intro x hx
      rcases hx with hx | hx
      · exact h2 x (Or.inl hx)
      · exact h2 x (Or.inr (List.mem_cons_of_mem _ hx))
    · rcases h3 with h3 | h3
      · exact Or.inl h3
      · rcases List.mem_cons.1 h3 with h5 | h5
        · exact Or.inl (h5 ▸ hv)
        · exact Or.inr h5
    · intro x hx y hy
      rcases h4 x hx y hy with h5 | h5
      · exact Or.inl h5
      · rcases List.mem_cons.1 h5 with h6 | h6
        · exact Or.inl (h6 ▸ hv)
        · exact Or.inr h6
  · have hact := h2 actual (Or.inr (List.mem_cons_self _ _))
    refine ⟨List.nodup_cons.2 ⟨hv, h1⟩, ?_, ?_, ?_⟩
    · intro x hx
      rcases hx with hx | hx
      · rcases List.mem_cons.1 hx with hx | hx
        · exact hx ▸ hact
        · exact h2 x (Or.inl hx)
      · rcases (apilar_mem _ _ _ _).1 hx with hx | ⟨hx, _⟩
        · exact h2 x (Or.inr (List.mem_cons_of_mem _ hx))
        · obtain ⟨q, hq, rfl⟩ := List.mem_map.1 hx
          exact ⟨conectados_paso r s actual e q hact.1 hb hq,
            hcol (actual, e) (mem_of_buscar _ _ _ hb) q hq⟩
    · rcases h3 with h3 | h3
      · exact Or.inl (List.mem_cons_of_mem _ h3)
      · rcases List.mem_cons.1 h3 with h5 | h5
        · exact Or.inl (h5 ▸ List.mem_cons_self _ _)
        · exact Or.inr ((apilar_mem _ _ _ _).2 (Or.inl h5))
    · intro x hx y hy
      by_cases hy0 : y ∈ actual :: st.visitados
      · exact Or.inl hy0
      right
      refine (apilar_mem _ _ _ _).2 ?_
      rcases List.mem_cons.1 hx with hx | hx
      · subst hx
        exact Or.inr ⟨(costoEnlace_isSome_iff r x y e hb).1 hy, hy0⟩
      · rcases h4 x hx y hy with h5 | h5
        · exact absurd (List.mem_cons_of_mem _ h5) hy0
        · rcases List.mem_cons.1 h5 with h6 | h6
          · exact absurd (h6 ▸ List.mem_cons_self _ _) hy0
          · exact Or.inl h6

theorem explorado_inicial (r : Red) (s : String) (hs : r.existeEnrutador s = true) :
    Explorado r s ⟨[], [s]⟩ := by
  refine ⟨List.nodup_nil, ?_, Or.inr (List.mem_singleton_self s), ?_⟩
  · intro x hx
    have : x = s := by simpa using hx
    subst this
    exact ⟨Relation.ReflTransGen.refl, hs⟩
  · intro x hx
    simp at hx

theorem conectados_simetrico (r : Red) (hs : r.simetrica) (a b : String)
    (h : r.conectados a b) : r.conectados b a := by
  refine Relation.ReflTransGen.symmetric ?_ h
  intro u v huv
  cases hc : r.costoEnlace u v with
  | none => simp [hc] at huv
  | some c => simp [(hs u v c).1 hc]

theorem recorrido_final (r : Red) (s : String) (hinv : r.invariante) (st : Recorrido)
    (hI : Explorado r s st) (hp : st.pila = []) :
    st.visitados.length = r.enrutadores.length ↔
      ∀ x, r.existeEnrutador x = true → r.conectados s x := by
  obtain ⟨h1, h2, h3, h4⟩ := hI
  rw [hp] at h2 h3 h4
  simp only [List.not_mem_nil, or_false] at h2 h3 h4
  have hsub : st.visitados ⊆ claves r.enrutadores := fun x hx =>
    (existe_iff_claves r x).1 (h2 x hx).2
  have hsp := List.subperm_of_subset h1 hsub
  have hlen : (claves r.enrutadores).length = r.enrutadores.length := by simp [claves]
  constructor
  · intro hl x hx
    have hperm := hsp.perm_of_length_le (by omega)
    exact (h2 x (hperm.mem_iff.2 ((existe_iff_claves r x).1 hx))).1
  · intro hall
    have hsub2 : claves r.enrutadores ⊆ st.visitados := by
      intro x hx
      exact conectados_cerrado r (fun y => y ∈ st.visitados) s h3 (fun u v hu hl => h4 u hu v hl)
        x (hall x ((existe_iff_claves r x).2 hx))
    have hsp2 := List.subperm_of_subset hinv.1.1 hsub2
    have := hsp.length_le
    have := hsp2.length_le
    omega

theorem veredicto (r : Red) (fuel : Nat) (hinv : r.invariante) (hf : cotaConexion r ≤ fuel) :
    ∃ b, r.esRedConectada fuel = some (.ok b) ∧
      (b = true ↔ ∀ x y, r.existeEnrutador x = true → r.existeEnrutador y = true →
        r.conectados x y) := by
  unfold Red.esRedConectada
  cases hm : r.enrutadores with
  | nil =>
    refine ⟨true, rfl, ?_⟩
    simp [Red.existeEnrutador, hm, buscar]
  | cons p0 m =>
    obtain ⟨s, e0⟩ := p0
    simp only
    have hs : r.existeEnrutador s = true := by
      simp [Red.existeEnrutador, hm, buscar]
    have hterm := recorrer_termina r (potencialConexion r) (Explorado r s)
      (fun st st' hI hp => ⟨explorado_paso r s hinv.2.2 st st' hI hp,
        potencialConexion_baja r st st' hp⟩)
      fuel ⟨[], [s]⟩ (explorado_inicial r s hs)
      (lt_of_lt_of_le (potencialConexion_inicial r s) hf)
    rcases hterm with ⟨st1, hI, hp, hrec⟩ | ⟨st1, x, hI, hp, hrec⟩
    · rw [hrec]
      refine ⟨_, rfl, ?_⟩
      have hfin := recorrido_final r s hinv st1 hI (pasoConexion_none r st1 hp)
      rw [hm] at hfin
      simp only [decide_eq_true_eq]
      rw [hfin]
      constructor
      · intro hall x y hx hy
        exact Relation.ReflTransGen.trans
          (conectados_simetrico r hinv.2.1 s x (hall x hx)) (hall y hy)
      · intro hall x hx
        exact hall s x hs hx
    · exfalso
      obtain ⟨actual, resto, hpila, hb⟩ := pasoConexion_error r st1 x hp
      have := (hI.2.1 actual (Or.inr (hpila ▸ List.mem_cons_self _ _))).2
      simp [Red.existeEnrutador, hb] at this

theorem aislado_no_conectado (r : Red) (n x : String) (hn1 : n ≠ "")
    (hn : r.existeEnrutador n = false) (hx : r.existeEnrutador x = true) :
    ¬ (r.agregarEnrutador n).2.conectados n x := by
  rw [agregarEnrutador_ok r n hn1 hn]
  intro h
  rcases Relation.ReflTransGen.cases_head h with h1 | ⟨c, hc, _⟩
  · rw [h1, hx] at hn
    simp at hn
  · unfold Red.costoEnlace at hc
    simp only [buscar_agregado r n n hn, if_true, buscar] at hc
    simp at hc

/-- C6. Connectivity verdict: on a store that satisfies the store invariant,
    `esRedConectada` returns `true` exactly when every router is joined to every
    other router by some sequence of links; it returns `true` on the empty store,
    and `false` once a router without links has been added to a non-empty store. -/
theorem C6_veredicto_de_conexion (r : Red) (fuel : Nat) (hinv : r.invariante)
    (hf : cotaConexion r ≤ fuel) :
    (∃ b, r.esRedConectada fuel = some (.ok b) ∧
      (b = true ↔ ∀ x y, r.existeEnrutador x = true → r.existeEnrutador y = true →
        r.conectados x y)) ∧
    Red.vacia.esRedConectada fuel = some (.ok true) ∧
    (∀ n x fuel', n ≠ "" → r.existeEnrutador n = false → r.existeEnrutador x = true →
      cotaConexion (r.agregarEnrutador n).2 ≤ fuel' →
      (r.agregarEnrutador n).2.esRedConectada fuel' = some (.ok false)) := by
  refine ⟨veredicto r fuel hinv hf, rfl, ?_⟩
  intro n x fuel' hn1 hn hx hf'
  obtain ⟨b, hb, hiff⟩ := veredicto (r.agregarEnrutador n).2 fuel'
    (invariante_agregar r n hinv) hf'
  have hb' : b = false := by
    cases b with
    | false => rfl
    | true =>
      exfalso
      refine aislado_no_conectado r n x hn1 hn hx (hiff.1 rfl n x ?_ ?_)
      · rw [agregarEnrutador_ok r n hn1 hn]
        simp [Red.existeEnrutador, buscar_agregado r n n hn]
      · rw [agregarEnrutador_ok r n hn1 hn]
        have hxn : x ≠ n := fun e => by rw [e, hn] at hx; simp at hx
        simpa [Red.existeEnrutador, buscar_agregado r n x hn, hxn] using hx
  rw [hb, hb']

theorem C6_veredicto_de_conexion_witness :
    (∃ b, redSeparada.esRedConectada (cotaConexion redSeparada) = some (.ok b) ∧
      (b = true ↔ ∀ x y, redSeparada.existeEnrutador x = true →
        redSeparada.existeEnrutador y = true → redSeparada.conectados x y)) ∧
    Red.vacia.esRedConectada (cotaConexion redSeparada) = some (.ok true) ∧
    (∀ n x fuel', n ≠ "" → redSeparada.existeEnrutador n = false →
      redSeparada.existeEnrutador x = true →
      cotaConexion (redSeparada.agregarEnrutador n).2 ≤ fuel' →
      (redSeparada.agregarEnrutador n).2.esRedConectada fuel' = some (.ok false)) :=
  C6_veredicto_de_conexion redSeparada (cotaConexion redSeparada) (invariante_tras _)
    (le_refl _)

/-! ## Routes and predecessor chains -/

theorem costoRuta_cons_iff (r : Red) (a b : String) (l : List String) (t : Int) :
    r.costoRuta (a :: b :: l) = some t ↔
      ∃ c t', r.costoEnlace a b = some c ∧ r.costoRuta (b :: l) = some t' ∧ t = c + t' := by
  rw [Red.costoRuta]
  cases h1 : r.costoEnlace a b <;> cases h2 : r.costoRuta (b :: l) <;> simp [eq_comm]

theorem costoRuta_uno (r : Red) (a : String) : r.costoRuta [a] = some 0 := by
  rw [Red.costoRuta]

theorem costoRuta_snoc_iff (r : Red) (p : List String) (u v : String) (t : Int) :
    r.costoRuta (p ++ [u, v]) = some t ↔
      ∃ t' c, r.costoRuta (p ++ [u]) = some t' ∧ r.costoEnlace u v = some c ∧ t = t' + c := by
  induction p generalizing t with
  | nil =>
    simp only [List.nil_append]
    rw [costoRuta_cons_iff, costoRuta_uno, costoRuta_uno]
    constructor
    · rintro ⟨c, t', hc, ht', rfl⟩
      simp only [Option.some.injEq] at ht'
      exact ⟨0, c, rfl, hc, by omega⟩
    · rintro ⟨t', c, ht', hc, rfl⟩
      simp only [Option.some.injEq] at ht'
      exact ⟨c, 0, hc, rfl, by omega⟩
  | cons a p ih =>
    cases p with
    | nil =>
      simp only [List.cons_append, List.nil_append]
      rw [costoRuta_cons_iff]
      constructor
      · rintro ⟨c, t', hc, ht', rfl⟩
        rw [costoRuta_cons_iff, costoRuta_uno] at ht'
        obtain ⟨c2, t2, hc2, ht2, rfl⟩ := ht'
        simp only [Option.some.injEq] at ht2
        refine ⟨c, c2, ?_, hc2, by omega⟩
        rw [costoRuta_cons_iff, costoRuta_uno]
        exact ⟨c, 0, hc, rfl, by omega⟩
      · rintro ⟨t', c2, h1, hc2, rfl⟩
        rw [costoRuta_cons_iff, costoRuta_uno] at h1
        obtain ⟨c, t3, hc, ht3, rfl⟩ := h1
        simp only [Option.some.injEq] at ht3
        refine ⟨c, c2, hc, ?_, by omega⟩
        rw [costoRuta_cons_iff, costoRuta_uno]
        exact ⟨c2, 0, hc2, rfl, by omega⟩
    | cons b p =>
      simp only [List.cons_append] at ih ⊢
      rw [costoRuta_cons_iff]
      constructor
      · rintro ⟨c, t', hc, ht', rfl⟩
        obtain ⟨t2, c2, h1, h2, rfl⟩ := (ih t').1 ht'
        exact ⟨c + t2, c2, (costoRuta_cons_iff _ _ _ _ _).2 ⟨c, t2, hc, h1, rfl⟩, h2, by omega⟩
      · rintro ⟨t', c2, h1, h2, rfl⟩
        obtain ⟨c, t3, hc, h3, rfl⟩ := (costoRuta_cons_iff _ _ _ _ _).1 h1
        exact ⟨c, t3 + c2, hc, (ih _).2 ⟨t3, c2, h3, h2, rfl⟩, by omega⟩

theorem cadena_ne_nil (r : Red) (o : String) (st : Estado) (p : List String) (v : String)
    (h : Cadena r o st p v) : p ≠ [] := by
  cases h <;> simp

theorem cadena_last (r : Red) (o : String) (st : Estado) (p : List String) (v : String)
    (h : Cadena r o st p v) : p.getLast? = some v := by
  cases h <;> simp

theorem cadena_split (r : Red) (o : String) (st : Estado) (p : List String) (v : String)
    (h : Cadena r o st p v) : ∃ q, p = q ++ [v] := by
  cases h with
  | base => exact ⟨[], rfl⟩
  | paso => exact ⟨_, rfl⟩

theorem cadena_head (r : Red) (o : String) (st : Estado) (p : List String) (v : String)
    (h : Cadena r o st p v) : p.head? = some o := by
  induction h with
  | base => rfl
  | @paso p u v c hp _ _ _ _ _ ih =>
    cases p with
    | nil => exact absurd rfl (cadena_ne_nil _ _ _ _ _ hp)
    | cons a p => simpa using ih

theorem cadena_nodup (r : Red) (o : String) (st : Estado) (p : List String) (v : String)
    (h : Cadena r o st p v) : p.Nodup := by
  induction h with
  | base => simp
  | @paso p u v c _ _ _ _ _ hv ih =>
    exact List.Nodup.append ih (List.nodup_singleton _) (by simpa using hv)

theorem cadena_asentados (r : Red) (o : String) (st : Estado) (p : List String) (v : String)
    (h : Cadena r o st p v) : ∀ x ∈ p, x = v ∨ asentado st x := by
  induction h with
  | base => intro x hx; left; simpa using hx
  | @paso p u v c hp hu _ _ _ _ ih =>
    intro x hx
    rcases List.mem_append.1 hx with h1 | h1
    · right
      rcases ih x h1 with h2 | h2
      · exact h2 ▸ hu
      · exact h2
    · left; simpa using h1

theorem existe_of_costoEnlace_izq (r : Red) (u v : String) (c : Int)
    (h : r.costoEnlace u v = some c) : r.existeEnrutador u = true := by
  unfold Red.costoEnlace at h
  cases hb : buscar r.enrutadores u with
  | none => simp [hb] at h
  | some e => simp [Red.existeEnrutador, hb]

theorem cadena_existe (r : Red) (o : String) (st : Estado) (p : List String) (v : String)
    (h : Cadena r o st p v) (hv : r.existeEnrutador v = true) :
    ∀ x ∈ p, r.existeEnrutador x = true := by
  induction h with
  | base =>
    intro x hx
    have : x = o := by simpa using hx
    exact this ▸ hv
  | @paso p u v c hp _ _ hc _ _ ih =>
    intro x hx
    rcases List.mem_append.1 hx with h1 | h1
    · exact ih (existe_of_costoEnlace_izq r u v c hc) x h1
    · have : x = v := by simpa using h1
      exact this ▸ hv

theorem cadena_costo (r : Red) (o : String) (st : Estado) (p : List String) (v : String)
    (h0 : st.distancias o = 0) (h : Cadena r o st p v) :
    r.costoRuta p = some (st.distancias v) := by
  induction h with
  | base => simp [Red.costoRuta, h0]
  | @paso p u v c hp _ _ hc hd _ ih =>
    obtain ⟨q, rfl⟩ := cadena_split _ _ _ _ _ hp
    rw [List.append_assoc]
    simp only [List.singleton_append]
    exact (costoRuta_snoc_iff _ _ _ _ _).2 ⟨_, c, ih, hc, hd⟩

theorem cadena_estable (r : Red) (o : String) (st st' : Estado) (p : List String) (v : String)
    (h : Cadena r o st p v)
    (hs : ∀ x ∈ p, st'.distancias x = st.distancias x ∧ st'.anterior x = st.anterior x ∧
      (asentado st x → asentado st' x)) : Cadena r o st' p v := by
  induction h with
  | base => exact Cadena.base
  | @paso p u v c hp hu ha hc hd hv ih =>
    have hup : u ∈ p := by
      obtain ⟨q, rfl⟩ := cadena_split _ _ _ _ _ hp
      simp
    have h1 := hs u (List.mem_append_left _ hup)
    have h2 := hs v (List.mem_append_right _ (List.mem_singleton_self v))
    refine Cadena.paso (ih (fun x hx => hs x (List.mem_append_left _ hx))) (h1.2.2 hu)
      (by rw [h2.2.1]; exact ha) hc (by rw [h2.1, h1.1]; exact hd) hv

/-! ## One relaxation keeps the invariant -/

theorem enlace_de_tabla (r : Red) (u v : String) (c : Int) (e : Enrutador)
    (hbf : r.bienFormada) (hb : buscar r.enrutadores u = some e)
    (hq : (v, c) ∈ e.tablaEnrutamiento) : r.costoEnlace u v = some c := by
  unfold Red.costoEnlace
  rw [hb]
  exact buscar_of_mem _ _ _ (hbf.2 (u, e) (mem_of_buscar _ _ _ hb)) hq

theorem costo_no_negativo (r : Red) (u v : String) (c : Int) (hnn : r.costosNoNegativos)
    (h : r.costoEnlace u v = some c) : 0 ≤ c := by
  unfold Red.costoEnlace at h
  cases hb : buscar r.enrutadores u with
  | none => simp [hb] at h
  | some e =>
    rw [hb] at h
    exact hnn (u, e) (mem_of_buscar _ _ _ hb) (v, c) (mem_of_buscar _ _ _ h)

theorem suma_sin_desborde (r : Red) (o dest u v : String) (c : Int) (st : Estado)
    (hnn : r.costosNoNegativos) (hso : r.sinDesborde o dest)
    (hl : r.costoEnlace u v = some c) (hB : InvBusqueda r o st)
    (hu : asentado st u) (hD : ¬ asentado st dest) :
    0 ≤ c ∧ 0 ≤ st.distancias u ∧ st.distancias u + c < INT_MAX ∧
      envolver (st.distancias u + c) = st.distancias u + c := by
  have hc0 := costo_no_negativo r u v c hnn hl
  have hex := existe_of_costoEnlace_izq r u v c hl
  have hd0 : 0 ≤ st.distancias u := hB.piso u
  have hlt := hu.1
  obtain ⟨pu, hpu⟩ := hB.cadena u hex hlt
  have hdest : dest ∉ pu := fun hm => by
    rcases cadena_asentados r o st pu u hpu dest hm with h | h
    · exact hD (h ▸ hu)
    · exact hD h
  have hcost := cadena_costo r o st pu u hB.origen hpu
  obtain ⟨q, rfl⟩ := cadena_split _ _ _ _ _ hpu
  have hcost2 : r.costoRuta (q ++ [u] ++ [v]) = some (st.distancias u + c) := by
    rw [List.append_assoc]
    simp only [List.singleton_append]
    exact (costoRuta_snoc_iff _ _ _ _ _).2 ⟨_, c, hcost, hl, rfl⟩
  have hlt2 : st.distancias u + c < INT_MAX := by
    refine hso (q ++ [u] ++ [v]) _ ?_ ?_ ?_ hcost2
    · have := cadena_head _ _ _ _ _ hpu
      cases q with
      | nil => simpa using this
      | cons a q => simpa using this
    · rw [List.dropLast_concat]
      exact cadena_nodup _ _ _ _ _ hpu
    · rw [List.dropLast_concat]
      exact hdest
  refine ⟨hc0, hd0, hlt2, envolver_id _ (by omega) ?_⟩
  unfold INT_MAX at hlt2
  omega

theorem invMedio_relajado (r : Red) (o dest u : String) (d : Int)
    (hnn : r.costosNoNegativos) (hso : r.sinDesborde o dest)
    (st st' : Estado) (v : String) (c : Int)
    (hl : r.costoEnlace u v = some c)
    (hI : InvMedio r o u d st) (hD : ¬ asentado st dest)
    (hR : Relajado d u (v, c) st st') :
    InvMedio r o u d st' ∧ (∀ w, st'.distancias w ≤ st.distancias w) ∧
      st'.distancias v ≤ d + c ∧ ¬ asentado st' dest := by
  obtain ⟨hcu, hdu, hex⟩ := hI.actual
  have hB := hI.base
  obtain ⟨hc0, hd0, hlt, henv⟩ := suma_sin_desborde r o dest u v c st hnn hso hl hB hcu hD
  rw [hdu] at hd0 hlt henv
  unfold Relajado at hR
  simp only [henv] at hR
  rcases hR with ⟨hno, rfl⟩ | ⟨hsi, hdist, hant, hq1, hq2, hq3⟩
  · exact ⟨hI, fun w => le_refl _, not_lt.1 hno, hD⟩
  -- the relaxed neighbour is a router that is not settled
  have hvex : r.existeEnrutador v = true := by
    by_contra hne
    have := hB.ajenos v (by simpa using hne)
    omega
  have hvns : ¬ asentado st v := fun h => by
    have := hI.previos v h
    omega
  have hvu : v ≠ u := fun e => hvns (e ▸ hcu)
  have hvo : v ≠ o := fun e => by
    have := hB.origen
    rw [← e] at this
    omega
  have hd' : ∀ x, st'.distancias x = if x = v then d + c else st.distancias x := by
    intro x; rw [hdist]; rfl
  have ha' : ∀ x, st'.anterior x = if x = v then some u else st.anterior x := by
    intro x; rw [hant]; rfl
  have hdv : st'.distancias v = d + c := by simp [hd']
  have hdx : ∀ x, x ≠ v → st'.distancias x = st.distancias x := by
    intro x hx; simp [hd', hx]
  have hmono : ∀ w, st'.distancias w ≤ st.distancias w := by
    intro w
    by_cases hw : w = v
    · subst hw; rw [hdv]; exact le_of_lt hsi
    · rw [hdx w hw]
  have has : ∀ x, asentado st' x ↔ asentado st x := by
    intro x
    by_cases hx : x = v
    · subst hx
      constructor
      · intro h
        exact absurd (hdv ▸ hq2) h.2
      · intro h; exact absurd h hvns
    · unfold asentado
      rw [hdx x hx]
      constructor
      · rintro ⟨h1, h2⟩
        exact ⟨h1, fun hm => h2 (hq3 _ hm hx)⟩
      · rintro ⟨h1, h2⟩
        refine ⟨h1, fun hm => ?_⟩
        rcases hq1 _ hm with h3 | h3
        · exact hx (Prod.mk.inj h3).2
        · exact h2 h3
  have hchain : ∀ (p : List String) (w : String), Cadena r o st p w → v ∉ p →
      Cadena r o st' p w := by
    intro p w hp hvp
    refine cadena_estable r o st st' p w hp (fun x hx => ?_)
    have hxv : x ≠ v := fun e => hvp (e ▸ hx)
    exact ⟨hdx x hxv, by simp [ha', hxv], (has x).2⟩
  have hnotin : ∀ (p : List String) (w : String), Cadena r o st p w → w ≠ v → v ∉ p := by
    intro p w hp hwv hvp
    rcases cadena_asentados r o st p w hp v hvp with h | h
    · exact hwv h.symm
    · exact hvns h
  refine ⟨⟨⟨?_, ?_, ?_, ?_, ?_, ?_, ?_⟩, ?_, ?_, ?_⟩, hmono, le_of_eq hdv,
    fun h => hD ((has dest).1 h)⟩
  · rw [hdx o (Ne.symm hvo)]; exact hB.origen
  · intro w hw
    have hwv : w ≠ v := fun e => by rw [e, hvex] at hw; simp at hw
    rw [hdx w hwv]; exact hB.ajenos w hw
  · intro w; exact le_trans (hmono w) (hB.techo w)
  · intro w
    by_cases hw : w = v
    · subst hw; rw [hdv]; omega
    · rw [hdx w hw]; exact hB.piso w
  · intro w hwex hwlt
    by_cases hw : w = v
    · subst hw
      obtain ⟨pu, hpu⟩ := hB.cadena u hex hcu.1
      have hvpu := hnotin pu u hpu (Ne.symm hvu)
      refine ⟨pu ++ [w], Cadena.paso (hchain pu u hpu hvpu) ((has u).2 hcu) ?_ hl ?_ hvpu⟩
      · simp [ha']
      · rw [hdv, hdx u (Ne.symm hvu), hdu]
    · rw [hdx w hw] at hwlt
      obtain ⟨p, hp⟩ := hB.cadena w hwex hwlt
      exact ⟨p, hchain p w hp (hnotin p w hp hw)⟩
  · intro e he
    rcases hq1 e he with h | h
    · subst h
      exact ⟨hvex, le_of_eq hdv, hlt⟩
    · obtain ⟨h1, h2, h3⟩ := hB.cola e h
      exact ⟨h1, le_trans (hmono _) h2, h3⟩
  · intro x hx e he
    have hx0 := (has x).1 hx
    have hxv : x ≠ v := fun e => hvns (e ▸ hx0)
    rw [hdx x hxv]
    rcases hq1 e he with h | h
    · subst h
      have := hI.previos x hx0
      show st.distancias x ≤ d + c
      omega
    · exact hB.frontera x hx0 e h
  · intro x hx hxu w k hk
    have hx0 := (has x).1 hx
    have hxv : x ≠ v := fun e => hvns (e ▸ hx0)
    rw [hdx x hxv]
    exact le_trans (hmono w) (hI.cerrado x hx0 hxu w k hk)
  · exact ⟨(has u).2 hcu, by rw [hdx u (Ne.symm hvu)]; exact hdu, hex⟩
  · intro x hx
    have hx0 := (has x).1 hx
    have hxv : x ≠ v := fun e => hvns (e ▸ hx0)
    rw [hdx x hxv]
    exact hI.previos x hx0

/-! ## One turn of the loop keeps the invariant -/

theorem relajado0 (d : Int) (u : String) (st : Estado) (p : String × Int) :
    Relajado d u p st (E0.relajar d u st p) := by
  unfold Relajado E0.relajar
  by_cases h : envolver (d + p.2) < st.distancias p.1
  · right
    simp only [h, if_true, true_and]
    refine ⟨?_, ?_, ?_⟩
    · intro e he
      rcases (mem_insertar _ _ _).1 he with h1 | h1
      · exact Or.inl h1
      · exact Or.inr ((mem_quitar _ _ _).1 h1).1
    · exact (mem_insertar _ _ _).2 (Or.inl rfl)
    · intro e he hne
      refine (mem_insertar _ _ _).2 (Or.inr ((mem_quitar _ _ _).2 ⟨he, ?_⟩))
      intro heq
      exact hne (by rw [heq])
  · left
    simp [h]

theorem relajado1 (d : Int) (u : String) (st : Estado) (p : String × Int) :
    Relajado d u p st (E1.relajar d u st p) := by
  unfold Relajado E1.relajar
  by_cases h : envolver (d + p.2) < st.distancias p.1
  · right
    simp only [h, if_true, true_and]
    refine ⟨?_, ?_, ?_⟩
    · intro e he
      rcases List.mem_cons.1 he with h1 | h1
      · exact Or.inl h1
      · exact Or.inr h1
    · exact List.mem_cons_self _ _
    · intro e he _
      exact List.mem_cons_of_mem _ he
  · left
    simp [h]

theorem invMedio_foldl (r : Red) (o dest u : String) (d : Int) (e : Enrutador)
    (hbf : r.bienFormada) (hnn : r.costosNoNegativos) (hso : r.sinDesborde o dest)
    (hb : buscar r.enrutadores u = some e)
    (f : Estado → String × Int → Estado) (hf : ∀ st p, Relajado d u p st (f st p))
    (t : List (String × Int)) (ht : ∀ q ∈ t, q ∈ e.tablaEnrutamiento)
    (st : Estado) (hI : InvMedio r o u d st) (hD : ¬ asentado st dest) :
    InvMedio r o u d (t.foldl f st) ∧
    (∀ w, (t.foldl f st).distancias w ≤ st.distancias w) ∧
    (∀ q ∈ t, (t.foldl f st).distancias q.1 ≤ d + q.2) ∧
    ¬ asentado (t.foldl f st) dest := by
  induction t generalizing st with
  | nil => exact ⟨hI, fun w => le_refl _, fun q hq => by simp at hq, hD⟩
  | cons q t ih =>
    simp only [List.foldl_cons]
    have hq : q ∈ e.tablaEnrutamiento := ht q (List.mem_cons_self _ _)
    have hl := enlace_de_tabla r u q.1 q.2 e hbf hb hq
    obtain ⟨h1, h2, h3, hD1⟩ :=
      invMedio_relajado r o dest u d hnn hso st (f st q) q.1 q.2 hl hI hD (hf st q)
    obtain ⟨h4, h5, h6, hD2⟩ :=
      ih (fun x hx => ht x (List.mem_cons_of_mem _ hx)) (f st q) h1 hD1
    refine ⟨h4, fun w => le_trans (h5 w) (h2 w), ?_, hD2⟩
    intro x hx
    rcases List.mem_cons.1 hx with h7 | h7
    · subst h7
      exact le_trans (h5 _) h3
    · exact h6 x h7

theorem minimo_le (q : List (Int × String)) (m : Int × String) (h : minimo q = some m) :
    ∀ e ∈ q, m.1 ≤ e.1 := by
  induction q generalizing m with
  | nil => simp [minimo] at h
  | cons x q ih =>
    unfold minimo at h
    cases hq : minimo q with
    | none =>
      rw [hq] at h
      simp only [Option.some.injEq] at h
      have hnil := minimo_none q hq
      subst hnil
      intro e he
      have : e = x := by simpa using he
      rw [this, ← h]
    | some m' =>
      rw [hq] at h
      simp only at h
      have ih' := ih m' hq
      by_cases hm : menorPar m' x = true
      · simp only [hm, if_true, Option.some.injEq] at h
        subst h
        intro e he
        rcases List.mem_cons.1 he with h1 | h1
        · subst h1
          unfold menorPar at hm
          simp only [Bool.or_eq_true, decide_eq_true_eq, Bool.and_eq_true,
            Bool.not_eq_true', decide_eq_false_iff_not] at hm
          rcases hm with h2 | ⟨h2, _⟩ <;> omega
        · exact ih' e h1
      · simp only [hm, Option.some.injEq] at h
        simp only [Bool.false_eq_true, if_false, Option.some.injEq] at h
        subst h
        intro e he
        have hxm : x.1 ≤ m'.1 := by
          unfold menorPar at hm
          simp only [Bool.or_eq_true, decide_eq_true_eq, Bool.and_eq_true,
            Bool.not_eq_true', decide_eq_false_iff_not, not_or] at hm
          omega
        rcases List.mem_cons.1 he with h1 | h1
        · subst h1; exact le_refl _
        · exact le_trans hxm (ih' e h1)

theorem invMedio_de_cabeza (r : Red) (o u : String) (d : Int) (st : Estado)
    (q1 : List (Int × String)) (hI : InvCabeza r o st)
    (hmem : (d, u) ∈ st.nodosActivos) (hmin : ∀ e ∈ st.nodosActivos, d ≤ e.1)
    (hd : d = st.distancias u)
    (hq1 : ∀ e, e ∈ q1 ↔ e ∈ st.nodosActivos ∧ e ≠ (d, u)) :
    InvMedio r o u d { st with nodosActivos := q1 } := by
  have hB := hI.base
  obtain ⟨huex, _, hdlt⟩ := hB.cola _ hmem
  have has : ∀ x, asentado { st with nodosActivos := q1 } x ↔ asentado st x ∨ x = u := by
    intro x
    unfold asentado
    simp only [hq1]
    constructor
    · rintro ⟨h1, h2⟩
      by_cases hx : x = u
      · exact Or.inr hx
      · left
        refine ⟨h1, fun hm => h2 ⟨hm, ?_⟩⟩
        intro heq
        exact hx (Prod.mk.inj heq).2
    · rintro (⟨h1, h2⟩ | rfl)
      · exact ⟨h1, fun hm => h2 hm.1⟩
      · refine ⟨by rw [← hd]; exact hdlt, fun hm => hm.2 ?_⟩
        rw [hd]
  refine ⟨⟨hB.origen, hB.ajenos, hB.techo, hB.piso, ?_, ?_, ?_⟩, ?_, ?_, ?_⟩
  · intro v hv hlt
    obtain ⟨p, hp⟩ := hB.cadena v hv hlt
    exact ⟨p, cadena_estable r o st _ p v hp
      (fun x _ => ⟨rfl, rfl, fun h => (has x).2 (Or.inl h)⟩)⟩
  · intro e he
    exact hB.cola e ((hq1 e).1 he).1
  · intro x hx e he
    have he' := ((hq1 e).1 he).1
    rcases (has x).1 hx with h | rfl
    · exact hB.frontera x h e he'
    · show st.distancias x ≤ e.1
      rw [← hd]; exact hmin e he'
  · intro x hx hxu
    rcases (has x).1 hx with h | h
    · exact hI.cerrado x h
    · exact absurd h hxu
  · exact ⟨(has u).2 (Or.inr rfl), hd.symm, huex⟩
  · intro x hx
    rcases (has x).1 hx with h | rfl
    · exact hB.frontera x h _ hmem
    · exact le_of_eq hd.symm

theorem invCabeza_de_medio (r : Red) (o u : String) (d : Int) (e : Enrutador) (st : Estado)
    (hb : buscar r.enrutadores u = some e) (hI : InvMedio r o u d st)
    (hrel : ∀ q ∈ e.tablaEnrutamiento, st.distancias q.1 ≤ d + q.2) :
    InvCabeza r o st := by
  refine ⟨hI.base, ?_⟩
  intro x hx
  by_cases hxu : x = u
  · subst hxu
    intro v c hl
    unfold Red.costoEnlace at hl
    rw [hb] at hl
    have := hrel (v, c) (mem_of_buscar _ _ _ hl)
    rw [hI.actual.2.1]
    exact this
  · exact hI.cerrado x hx hxu

theorem exacto_relajar (d : Int) (u : String) (st : Estado) (p : String × Int)
    (h : Exacto st) : Exacto (E0.relajar d u st p) := by
  unfold E0.relajar
  by_cases hlt : envolver (d + p.2) < st.distancias p.1
  swap
  · simpa [hlt] using h
  simp only [hlt, if_true]
  intro e he
  simp only [mem_insertar, mem_quitar] at he
  rcases he with rfl | ⟨he, hne⟩
  · simp [poner]
  · have h1 := h e he
    have hv : e.2 ≠ p.1 := by
      intro heq
      apply hne
      rw [← heq, ← h1]
    simp only [poner, hv, if_false]
    exact h1

theorem ordenada_relajar (d : Int) (u : String) (st : Estado) (p : String × Int)
    (h : Ordenada st) : Ordenada (E1.relajar d u st p) := by
  unfold E1.relajar
  by_cases hlt : envolver (d + p.2) < st.distancias p.1
  swap
  · simpa [hlt] using h
  simp only [hlt, if_true]
  refine ⟨List.nodup_cons.2 ⟨fun hm => ?_, h.1⟩, ?_⟩
  · have := h.2 _ hm
    simp only at this
    omega
  · intro e he
    rcases List.mem_cons.1 he with rfl | he
    · simp [poner]
    · have h1 := h.2 e he
      by_cases hv : e.2 = p.1
      · simp only [poner, hv, if_true]
        rw [hv] at h1
        omega
      · simp only [poner, hv, if_false]
        exact h1

theorem abierto_sin_cabeza (st : Estado) (dest u : String) (d : Int)
    (q1 : List (Int × String)) (hne : u ≠ dest) (hD : ¬ asentado st dest)
    (hq1 : ∀ e, e ∈ st.nodosActivos → e ≠ (d, u) → e ∈ q1) :
    ¬ asentado { st with nodosActivos := q1 } dest := by
  intro h
  refine hD ⟨h.1, fun hm => h.2 (hq1 _ hm ?_)⟩
  intro heq
  exact hne (Prod.mk.inj heq).2.symm

theorem inv_paso0 (r : Red) (o dest : String)
    (hbf : r.bienFormada) (hnn : r.costosNoNegativos) (hso : r.sinDesborde o dest)
    (st st' : Estado) (hI : InvCabeza r o st ∧ Exacto st ∧ ¬ asentado st dest)
    (hp : E0.paso r dest st = .sigue st') :
    InvCabeza r o st' ∧ Exacto st' ∧ ¬ asentado st' dest := by
  obtain ⟨d, u, e, hm, hne, hb, rfl⟩ := paso0_sigue r dest st st' hp
  have hmem := minimo_mem _ _ hm
  have hmed := invMedio_de_cabeza r o u d st (E0.quitar (d, u) st.nodosActivos) hI.1 hmem
    (minimo_le _ _ hm) (hI.2.1 _ hmem) (fun x => mem_quitar _ _ _)
  have hD0 := abierto_sin_cabeza st dest u d (E0.quitar (d, u) st.nodosActivos) hne hI.2.2
    (fun x hx hxne => (mem_quitar _ _ _).2 ⟨hx, hxne⟩)
  obtain ⟨h1, _, h3, hD1⟩ := invMedio_foldl r o dest u d e hbf hnn hso hb (E0.relajar d u)
    (relajado0 d u) e.tablaEnrutamiento (fun q hq => hq) _ hmed hD0
  refine ⟨invCabeza_de_medio r o u d e _ hb h1 h3, ?_, hD1⟩
  refine foldl_preserva Exacto _ _ (fun s p _ hs => exacto_relajar d u s p hs) _ ?_
  intro x hx
  exact hI.2.1 x ((mem_quitar _ _ _).1 hx).1

theorem inv_paso1 (r : Red) (o dest : String)
    (hbf : r.bienFormada) (hnn : r.costosNoNegativos) (hso : r.sinDesborde o dest)
    (st st' : Estado) (hI : InvCabeza r o st ∧ Ordenada st ∧ ¬ asentado st dest)
    (hp : E1.paso r dest st = .sigue st') :
    InvCabeza r o st' ∧ Ordenada st' ∧ ¬ asentado st' dest := by
  obtain ⟨d, u, hm, hne, hc⟩ := paso1_sigue r dest st st' hp
  have hmem := minimo_mem _ _ hm
  have hD0 := abierto_sin_cabeza st dest u d (st.nodosActivos.erase (d, u)) hne hI.2.2
    (fun x hx hxne => (List.mem_erase_of_ne hxne).2 hx)
  obtain ⟨hI1, hI2, _⟩ := hI
  have hI : InvCabeza r o st ∧ Ordenada st := ⟨hI1, hI2⟩
  have hord : Ordenada { st with nodosActivos := st.nodosActivos.erase (d, u) } :=
    ⟨hI.2.1.erase _, fun x hx => hI.2.2 x (List.mem_of_mem_erase hx)⟩
  rcases hc with ⟨hgt, rfl⟩ | ⟨hle, e, hb, rfl⟩
  · refine ⟨?_, hord, hD0⟩
    have hB := hI.1.base
    have has : ∀ x, asentado { st with nodosActivos := st.nodosActivos.erase (d, u) } x ↔
        asentado st x := by
      intro x
      unfold asentado
      have hne : (st.distancias x, x) ≠ (d, u) := by
        intro heq
        have h1 := (Prod.mk.inj heq).1
        have h2 := (Prod.mk.inj heq).2
        rw [h2] at h1
        omega
      simp only [List.mem_erase_of_ne hne]
    refine ⟨⟨hB.origen, hB.ajenos, hB.techo, hB.piso, ?_, ?_, ?_⟩, ?_⟩
    · intro v hv hlt
      obtain ⟨p, hp⟩ := hB.cadena v hv hlt
      exact ⟨p, cadena_estable r o st _ p v hp (fun x _ => ⟨rfl, rfl, (has x).2⟩)⟩
    · intro x hx
      exact hB.cola x (List.mem_of_mem_erase hx)
    · intro x hx y hy
      exact hB.frontera x ((has x).1 hx) y (List.mem_of_mem_erase hy)
    · intro x hx
      exact hI.1.cerrado x ((has x).1 hx)
  · have hd : d = st.distancias u := by
      have := hI.2.2 _ hmem
      simp only at this
      omega
    have hmed := invMedio_de_cabeza r o u d st (st.nodosActivos.erase (d, u)) hI.1 hmem
      (minimo_le _ _ hm) hd
      (fun x => by rw [hI.2.1.mem_erase_iff]; exact and_comm)
    obtain ⟨h1, _, h3, hD1⟩ := invMedio_foldl r o dest u d e hbf hnn hso hb (E1.relajar d u)
      (relajado1 d u) e.tablaEnrutamiento (fun q hq => hq) _ hmed hD0
    exact ⟨invCabeza_de_medio r o u d e _ hb h1 h3,
      foldl_preserva Ordenada _ _ (fun s p _ hs => ordenada_relajar d u s p hs) _ hord, hD1⟩

/-! ## The start state, lower bounds and the final state -/

theorem invCabeza_inicial (r : Red) (o : String) (ho : r.existeEnrutador o = true) :
    InvCabeza r o (estadoInicial r o) ∧ Exacto (estadoInicial r o) ∧
      Ordenada (estadoInicial r o) := by
  have hd := distancias_inicial r o
  have hq : (estadoInicial r o).nodosActivos = [(0, o)] := rfl
  have hval : ∀ v, (estadoInicial r o).distancias v = 0 ∨
      ((estadoInicial r o).distancias v = INT_MAX ∧ v ≠ o ∧ r.existeEnrutador v = true) := by
    intro v
    rw [hd]
    by_cases h1 : v = o
    · simp [h1]
    · by_cases h2 : v ∈ claves r.enrutadores
      · right; simp [h1, h2, (existe_iff_claves r v).2 h2]
      · left; simp [h1, h2]
  have hfin : ∀ v, r.existeEnrutador v = true → (estadoInicial r o).distancias v < INT_MAX →
      v = o := by
    intro v hv hlt
    by_contra hne
    rw [hd] at hlt
    simp [hne, (existe_iff_claves r v).1 hv] at hlt
  have hmax : (0 : Int) < INT_MAX := by decide
  refine ⟨⟨⟨?_, ?_, ?_, ?_, ?_, ?_, ?_⟩, ?_⟩, ?_, ?_⟩
  · simp [hd]
  · intro v hv
    rcases hval v with h | ⟨_, _, h⟩
    · exact h
    · rw [hv] at h; simp at h
  · intro v
    rcases hval v with h | ⟨h, _⟩
    · rw [h]; exact le_of_lt hmax
    · rw [h]
  · intro v
    rcases hval v with h | ⟨h, _⟩
    · rw [h]
    · rw [h]; exact le_of_lt hmax
  · intro v hv hlt
    have := hfin v hv hlt
    subst this
    exact ⟨[v], Cadena.base⟩
  · intro e he
    rw [hq] at he
    have : e = (0, o) := by simpa using he
    subst this
    exact ⟨ho, by simp [hd], hmax⟩
  · intro x hx e he
    rw [hq] at he
    have : e = (0, o) := by simpa using he
    subst this
    rcases hval x with h | ⟨h, _⟩
    · rw [h]
    · have := hx.1; omega
  · intro x hx v c hl
    exfalso
    have hex := existe_of_costoEnlace_izq r x v c hl
    have hxo := hfin x hex hx.1
    subst hxo
    apply hx.2
    rw [hq]
    simp [hd]
  · intro e he
    rw [hq] at he
    have : e = (0, o) := by simpa using he
    subst this
    simp [hd]
  · rw [Ordenada, hq]
    refine ⟨by simp, ?_⟩
    intro e he
    have : e = (0, o) := by simpa using he
    subst this
    simp [hd]

theorem abierto_inicial (r : Red) (o dest : String)
    (hd : r.existeEnrutador dest = true) : ¬ asentado (estadoInicial r o) dest := by
  intro h
  have hdist := distancias_inicial r o dest
  by_cases h1 : dest = o
  · subst h1
    apply h.2
    show (_, dest) ∈ [(0, dest)]
    simp [hdist]
  · have := h.1
    rw [hdist] at this
    simp [h1, (existe_iff_claves r dest).1 hd] at this

theorem camino_no_negativo (r : Red) (hnn : r.costosNoNegativos) (a b : String) (t : Int)
    (h : Camino r a b t) : 0 ≤ t := by
  induction h with
  | aqui => exact le_refl _
  | enlace hl _ ih =>
    have := costo_no_negativo r _ _ _ hnn hl
    omega

theorem camino_de_ruta (r : Red) (p : List String) (a b : String) (t : Int)
    (h1 : p.head? = some a) (h2 : p.getLast? = some b) (h3 : r.costoRuta p = some t) :
    Camino r a b t := by
  induction p generalizing a t with
  | nil => simp at h1
  | cons x p ih =>
    have hxa : x = a := by simpa using h1
    subst hxa
    cases p with
    | nil =>
      have hb : x = b := by simpa using h2
      rw [costoRuta_uno] at h3
      have ht : t = 0 := by simpa using h3.symm
      subst hb; subst ht
      exact Camino.aqui x
    | cons y l =>
      obtain ⟨c, t', hc, ht', rfl⟩ := (costoRuta_cons_iff _ _ _ _ _).1 h3
      have h2' : (y :: l).getLast? = some b := by
        rw [List.getLast?_cons_cons] at h2
        exact h2
      exact Camino.enlace hc (ih y t' rfl h2' ht')

theorem cota_inferior (r : Red) (o : String) (st : Estado) (hnn : r.costosNoNegativos)
    (hI : InvCabeza r o st) (a b : String) (t : Int) (h : Camino r a b t) :
    ∀ s, st.distancias a ≤ s →
      st.distancias b ≤ s + t ∨ ∃ e ∈ st.nodosActivos, e.1 ≤ s + t := by
  induction h with
  | aqui a => intro s hs; left; omega
  | @enlace a x b c t' hl hw ih =>
    intro s hs
    have hc0 := costo_no_negativo r a x c hnn hl
    have ht0 := camino_no_negativo r hnn x b t' hw
    by_cases hfin : st.distancias a < INT_MAX
    · by_cases hq : (st.distancias a, a) ∈ st.nodosActivos
      · right
        exact ⟨_, hq, by simp only; omega⟩
      · have hcl := hI.cerrado a ⟨hfin, hq⟩ x c hl
        rcases ih (s + c) (by omega) with h1 | ⟨e, he, h1⟩
        · left; omega
        · right; exact ⟨e, he, by omega⟩
    · left
      have h1 := hI.base.techo a
      have h2 := hI.base.techo b
      omega

theorem alcanzados_finitos (r : Red) (o dest : String) (st : Estado)
    (hnn : r.costosNoNegativos) (hso : r.sinDesborde o dest) (hI : InvCabeza r o st)
    (hD : ¬ asentado st dest)
    (hq : st.nodosActivos = []) (v : String) (hc : r.conectados o v) :
    st.distancias v < INT_MAX := by
  refine conectados_cerrado r (fun x => st.distancias x < INT_MAX) o ?_ ?_ v hc
  · show st.distancias o < INT_MAX
    rw [hI.base.origen]; decide
  · intro x y hx hl
    cases hk : r.costoEnlace x y with
    | none => simp [hk] at hl
    | some c =>
      have h1 := suma_sin_desborde r o dest x y c st hnn hso hk hI.base
        ⟨hx, by simp [hq]⟩ hD
      have h2 := hI.cerrado x ⟨hx, by simp [hq]⟩ y c hk
      show st.distancias y < INT_MAX
      omega

theorem estado_final (r : Red) (o dest : String) (st1 st2 : Estado)
    (hnn : r.costosNoNegativos) (hso : r.sinDesborde o dest) (hI : InvCabeza r o st1)
    (hD : ¬ asentado st1 dest)
    (hd : r.existeEnrutador dest = true)
    (hfin : (minimo st1.nodosActivos = none ∧ st2 = st1) ∨
      (∃ d q, minimo st1.nodosActivos = some (d, dest) ∧
        (∀ e ∈ q, e ∈ st1.nodosActivos) ∧ st2 = { st1 with nodosActivos := q })) :
    (∀ t, Camino r o dest t → st2.distancias dest ≤ t) ∧
    st2.distancias dest ≤ INT_MAX ∧
    (st2.distancias dest < INT_MAX → ∃ p, Cadena r o st2 p dest) ∧
    (r.conectados o dest → st2.distancias dest < INT_MAX) ∧
    st2.distancias o = 0 := by
  have hB := hI.base
  have hdist : st2.distancias = st1.distancias := by
    rcases hfin with ⟨_, rfl⟩ | ⟨d, q, _, _, rfl⟩ <;> rfl
  have hant : st2.anterior = st1.anterior := by
    rcases hfin with ⟨_, rfl⟩ | ⟨d, q, _, _, rfl⟩ <;> rfl
  have hsub : ∀ e ∈ st2.nodosActivos, e ∈ st1.nodosActivos := by
    rcases hfin with ⟨_, rfl⟩ | ⟨d, q, _, hq, rfl⟩
    · exact fun e he => he
    · exact hq
  have has : ∀ x, asentado st1 x → asentado st2 x := by
    intro x hx
    unfold asentado at hx ⊢
    rw [hdist]
    exact ⟨hx.1, fun hm => hx.2 (hsub _ hm)⟩
  rw [hdist]
  refine ⟨?_, hB.techo dest, ?_, ?_, hB.origen⟩
  · intro t ht
    have h0 : st1.distancias o ≤ 0 := le_of_eq hB.origen
    rcases cota_inferior r o st1 hnn hI o dest t ht 0 h0 with h1 | ⟨e, he, h1⟩
    · omega
    · rcases hfin with ⟨hnone, _⟩ | ⟨d, q, hmin, _, _⟩
      · rw [minimo_none _ hnone] at he
        simp at he
      · have h2 := minimo_le _ _ hmin e he
        have h3 := (hB.cola _ (minimo_mem _ _ hmin)).2.1
        simp only at h2 h3
        omega
  · intro hlt
    obtain ⟨p, hp⟩ := hB.cadena dest hd hlt
    refine ⟨p, cadena_estable r o st1 st2 p dest hp (fun x _ => ⟨?_, ?_, has x⟩)⟩
    · rw [hdist]
    · rw [hant]
  · intro hc
    rcases hfin with ⟨hnone, _⟩ | ⟨d, q, hmin, _, _⟩
    · exact alcanzados_finitos r o dest st1 hnn hso hI hD (minimo_none _ hnone) dest hc
    · have h3 := (hB.cola _ (minimo_mem _ _ hmin)).2
      simp only at h3
      omega

/-! ## The predecessor walk -/

theorem reverso_sin_ultimo (p : List String) (o : String) (h : p.head? = some o) :
    (p.reverse.dropLast ++ [o]).reverse = p := by
  cases p with
  | nil => simp at h
  | cons a l =>
    have : a = o := by simpa using h
    subst this
    simp

theorem reconstruir0_cadena (r : Red) (o : String) (st : Estado) (p : List String)
    (v : String) (h : Cadena r o st p v) :
    ∀ (n : Nat) (acc : List String), (∀ x ∈ acc, x ∉ p) →
      (p.length ≤ n →
        E0.reconstruir st.anterior o n v acc = some (.ok (acc ++ p.reverse.dropLast))) ∧
      (∀ res, E0.reconstruir st.anterior o n v acc = some res →
        res = .ok (acc ++ p.reverse.dropLast)) := by
  induction h with
  | base =>
    intro n acc _
    cases n with
    | zero => simp [E0.reconstruir]
    | succ n =>
      simp only [E0.reconstruir, if_true, List.reverse_singleton, List.dropLast_single,
        List.append_nil, Option.some.injEq]
      exact ⟨fun _ => trivial, fun res h => h.symm⟩
  | @paso p u v c hp _ ha _ _ hv ih =>
    intro n acc hacc
    have hvacc : v ∉ acc := fun hm => hacc v hm (by simp)
    have hacc2 : ∀ x ∈ acc ++ [v], x ∉ p := by
      intro x hx
      rcases List.mem_append.1 hx with h1 | h1
      · exact fun h2 => hacc x h1 (List.mem_append_left _ h2)
      · rw [List.mem_singleton] at h1
        rw [h1]
        exact hv
    have hvo : v ≠ o := by
      intro e
      apply hv
      have := cadena_head _ _ _ _ _ hp
      cases p with
      | nil => simp at this
      | cons a l =>
        have : a = o := by simpa using this
        simp [e, this]
    have hne : p.reverse ≠ [] := by
      simpa using cadena_ne_nil _ _ _ _ _ hp
    have hlist : acc ++ (p ++ [v]).reverse.dropLast = (acc ++ [v]) ++ p.reverse.dropLast := by
      rw [List.reverse_append, List.reverse_singleton, List.singleton_append,
        List.dropLast_cons_of_ne_nil hne]
      simp
    cases n with
    | zero => simp [E0.reconstruir]
    | succ n =>
      have hstep : E0.reconstruir st.anterior o (n + 1) v acc =
          E0.reconstruir st.anterior o n u (acc ++ [v]) := by
        simp [E0.reconstruir, hvo, hvacc, ha]
      rw [hstep, hlist]
      obtain ⟨h1, h2⟩ := ih n (acc ++ [v]) hacc2
      refine ⟨fun hlen => h1 ?_, h2⟩
      simp only [List.length_append, List.length_singleton] at hlen
      omega

theorem reconstruir1_cadena (r : Red) (o : String) (st : Estado) (p : List String)
    (v : String) (h : Cadena r o st p v) :
    ∀ (n : Nat) (acc : List String), (∀ x ∈ acc, x ∉ p) →
      (p.length ≤ n →
        E1.reconstruir st.anterior o n v acc = some (.ok (acc ++ p.reverse.dropLast))) ∧
      (∀ res, E1.reconstruir st.anterior o n v acc = some res →
        res = .ok (acc ++ p.reverse.dropLast)) := by
  induction h with
  | base =>
    intro n acc _
    cases n with
    | zero => simp [E1.reconstruir]
    | succ n =>
      simp only [E1.reconstruir, if_true, List.reverse_singleton, List.dropLast_single,
        List.append_nil, Option.some.injEq]
      exact ⟨fun _ => trivial, fun res h => h.symm⟩
  | @paso p u v c hp _ ha _ _ hv ih =>
    intro n acc hacc
    have hvacc : v ∉ acc := fun hm => hacc v hm (by simp)
    have hacc2 : ∀ x ∈ acc ++ [v], x ∉ p := by
      intro x hx
      rcases List.mem_append.1 hx with h1 | h1
      · exact fun h2 => hacc x h1 (List.mem_append_left _ h2)
      · rw [List.mem_singleton] at h1
        rw [h1]
        exact hv
    have hvo : v ≠ o := by
      intro e
      apply hv
      have := cadena_head _ _ _ _ _ hp
      cases p with
      | nil => simp at this
      | cons a l =>
        have : a = o := by simpa using this
        simp [e, this]
    have hne : p.reverse ≠ [] := by
      simpa using cadena_ne_nil _ _ _ _ _ hp
    have hlist : acc ++ (p ++ [v]).reverse.dropLast = (acc ++ [v]) ++ p.reverse.dropLast := by
      rw [List.reverse_append, List.reverse_singleton, List.singleton_append,
        List.dropLast_cons_of_ne_nil hne]
      simp
    cases n with
    | zero => simp [E1.reconstruir]
    | succ n =>
      have hstep : E1.reconstruir st.anterior o (n + 1) v acc =
          E1.reconstruir st.anterior o n u (acc ++ [v]) := by
        simp [E1.reconstruir, hvo, hvacc, ha]
      rw [hstep, hlist]
      obtain ⟨h1, h2⟩ := ih n (acc ++ [v]) hacc2
      refine ⟨fun hlen => h1 ?_, h2⟩
      simp only [List.length_append, List.length_singleton] at hlen
      omega

theorem cadena_length (r : Red) (o : String) (st : Estado) (p : List String) (v : String)
    (h : Cadena r o st p v) (hv : r.existeEnrutador v = true) :
    p.length ≤ cotaBusqueda r := by
  have hsub : p ⊆ r.nombres := by
    intro x hx
    obtain ⟨e, he⟩ := (existe_iff r x).1 (cadena_existe r o st p v h hv x hx)
    exact mem_nombres_clave r x e (mem_of_buscar _ _ _ he)
  have := (List.subperm_of_subset (cadena_nodup _ _ _ _ _ h) hsub).length_le
  unfold cotaBusqueda
  omega

theorem iterar_parcial (paso : Estado → Paso) (I : Estado → Prop)
    (hstep : ∀ st st', I st → paso st = .sigue st' → I st') :
    ∀ (n : Nat) (st : Estado) (res : Except Excepcion Estado), I st →
      iterar paso n st = some res →
      (∃ st1 st2, I st1 ∧ paso st1 = .fin st2 ∧ res = .ok st2) ∨
      (∃ st1 e, I st1 ∧ paso st1 = .falla e ∧ res = .error e) := by
  intro n
  induction n with
  | zero => intro st res _ h; simp [iterar] at h
  | succ n ih =>
    intro st res hI h
    cases hp : paso st with
    | fin st2 =>
      simp only [iterar, hp, Option.some.injEq] at h
      exact Or.inl ⟨st, st2, hI, hp, h.symm⟩
    | falla e =>
      simp only [iterar, hp, Option.some.injEq] at h
      exact Or.inr ⟨st, e, hI, hp, h.symm⟩
    | sigue st' =>
      simp only [iterar, hp] at h
      exact ih st' res (hstep st st' hI hp) h

/-! ## Correctness of both searches -/

theorem final0 (r : Red) (o dest : String)
    (hbf : r.bienFormada) (hnn : r.costosNoNegativos) (hso : r.sinDesborde o dest)
    (ho : r.existeEnrutador o = true) (hd : r.existeEnrutador dest = true)
    (fuel : Nat) (resI : Except Excepcion Estado)
    (h : iterar (E0.paso r dest) fuel (estadoInicial r o) = some resI) :
    ∃ st2, resI = .ok st2 ∧
      (∀ t, Camino r o dest t → st2.distancias dest ≤ t) ∧
      st2.distancias dest ≤ INT_MAX ∧
      (st2.distancias dest < INT_MAX → ∃ p, Cadena r o st2 p dest) ∧
      (r.conectados o dest → st2.distancias dest < INT_MAX) ∧
      st2.distancias o = 0 := by
  have h0 := invCabeza_inicial r o ho
  have hD0 := abierto_inicial r o dest hd
  rcases iterar_parcial (E0.paso r dest)
    (fun st => InvCabeza r o st ∧ Exacto st ∧ ¬ asentado st dest)
    (fun st st' hI hp => inv_paso0 r o dest hbf hnn hso st st' hI hp)
    fuel _ resI ⟨h0.1, h0.2.1, hD0⟩ h with ⟨st1, st2, hI, hp, rfl⟩ | ⟨st1, e, hI, hp, rfl⟩
  · refine ⟨st2, rfl, estado_final r o dest st1 st2 hnn hso hI.1 hI.2.2 hd ?_⟩
    rcases paso0_fin r dest st1 st2 hp with h1 | ⟨d, hm, h2⟩
    · exact Or.inl h1
    · exact Or.inr ⟨d, _, hm, fun e he => ((mem_quitar _ _ _).1 he).1, h2⟩
  · exfalso
    obtain ⟨d, u, hm, hb⟩ := paso0_falla r dest st1 e hp
    have := (hI.1.base.cola _ (minimo_mem _ _ hm)).1
    simp [Red.existeEnrutador, hb] at this

theorem final1 (r : Red) (o dest : String)
    (hbf : r.bienFormada) (hnn : r.costosNoNegativos) (hso : r.sinDesborde o dest)
    (ho : r.existeEnrutador o = true) (hd : r.existeEnrutador dest = true)
    (fuel : Nat) (resI : Except Excepcion Estado)
    (h : iterar (E1.paso r dest) fuel (estadoInicial r o) = some resI) :
    ∃ st2, resI = .ok st2 ∧
      (∀ t, Camino r o dest t → st2.distancias dest ≤ t) ∧
      st2.distancias dest ≤ INT_MAX ∧
      (st2.distancias dest < INT_MAX → ∃ p, Cadena r o st2 p dest) ∧
      (r.conectados o dest → st2.distancias dest < INT_MAX) ∧
      st2.distancias o = 0 := by
  have h0 := invCabeza_inicial r o ho
  have hD0 := abierto_inicial r o dest hd
  rcases iterar_parcial (E1.paso r dest)
    (fun st => InvCabeza r o st ∧ Ordenada st ∧ ¬ asentado st dest)
    (fun st st' hI hp => inv_paso1 r o dest hbf hnn hso st st' hI hp)
    fuel _ resI ⟨h0.1, h0.2.2, hD0⟩ h with ⟨st1, st2, hI, hp, rfl⟩ | ⟨st1, e, hI, hp, rfl⟩
  · refine ⟨st2, rfl, estado_final r o dest st1 st2 hnn hso hI.1 hI.2.2 hd ?_⟩
    rcases paso1_fin r dest st1 st2 hp with h1 | ⟨d, hm, h2⟩
    · exact Or.inl h1
    · exact Or.inr ⟨d, _, hm, fun e he => List.mem_of_mem_erase he, h2⟩
  · exfalso
    obtain ⟨d, u, hm, hb⟩ := paso1_falla r dest st1 e hp
    have := (hI.1.base.cola _ (minimo_mem _ _ hm)).1
    simp [Red.existeEnrutador, hb] at this

theorem respuesta_de_cadena (r : Red) (o dest : String) (st2 : Estado) (p : List String)
    (h1 : ∀ t, Camino r o dest t → st2.distancias dest ≤ t)
    (h0 : st2.distancias o = 0) (hp : Cadena r o st2 p dest) :
    r.respuestaCorrecta o dest (.ok (st2.distancias dest, p)) := by
  right
  refine ⟨_, p, rfl, ⟨cadena_head _ _ _ _ _ hp, cadena_last _ _ _ _ _ hp,
    cadena_costo r o st2 p dest h0 hp⟩, ?_⟩
  intro q t hq
  exact h1 t (camino_de_ruta r q o dest t hq.1 hq.2.1 hq.2.2)

theorem busqueda0 (r : Red) (o dest : String)
    (hbf : r.bienFormada) (hnn : r.costosNoNegativos) (hso : r.sinDesborde o dest)
    (ho : r.existeEnrutador o = true) (hd : r.existeEnrutador dest = true) :
    (∀ fuel res, E0.encontrarRutaMasCorta fuel r o dest = some res →
      r.respuestaCorrecta o dest res) ∧
    (∀ fuel, cotaBusqueda r ≤ fuel →
      ∃ res, E0.encontrarRutaMasCorta fuel r o dest = some res) := by
  have h0 := invCabeza_inicial r o ho
  constructor
  · intro fuel res h
    unfold E0.encontrarRutaMasCorta at h
    simp only [ho, hd, Bool.not_true, Bool.or_self, Bool.false_eq_true, if_false] at h
    cases hit : iterar (E0.paso r dest) fuel (estadoInicial r o) with
    | none => simp [hit] at h
    | some resI =>
      obtain ⟨st2, rfl, h1, h2, h3, h4, h5⟩ := final0 r o dest hbf hnn hso ho hd fuel resI hit
      rw [hit] at h
      simp only at h
      by_cases hmax : st2.distancias dest = INT_MAX
      · simp only [hmax, if_true, Option.some.injEq] at h
        left
        exact ⟨h.symm, fun hc => by have := h4 hc; omega⟩
      · simp only [hmax, if_false] at h
        obtain ⟨p, hp⟩ := h3 (lt_of_le_of_ne h2 hmax)
        cases hr : E0.reconstruir st2.anterior o fuel dest [] with
        | none => simp [hr] at h
        | some rr =>
          have := (reconstruir0_cadena r o st2 p dest hp fuel [] (by simp)).2 rr hr
          subst this
          rw [hr] at h
          simp only [Option.some.injEq] at h
          rw [List.nil_append, reverso_sin_ultimo p o (cadena_head _ _ _ _ _ hp)] at h
          rw [← h]
          exact respuesta_de_cadena r o dest st2 p h1 h5 hp
  · intro fuel hf
    rcases iterar_termina (E0.paso r dest) (potencial r) (fun _ => True)
      (fun st st' _ hp => ⟨trivial, potencial_paso0 r dest st st' hp⟩)
      fuel (estadoInicial r o) trivial (lt_of_lt_of_le (potencial_inicial r o) hf)
      with ⟨_, st2, _, _, hit⟩ | ⟨_, e, _, _, hit⟩
    · obtain ⟨st2', heq, h1, h2, h3, h4, h5⟩ := final0 r o dest hbf hnn hso ho hd fuel _ hit
      have hst : st2' = st2 := by
        simp only [Except.ok.injEq] at heq
        exact heq.symm
      subst hst
      unfold E0.encontrarRutaMasCorta
      simp only [ho, hd, Bool.not_true, Bool.or_self, Bool.false_eq_true, if_false, hit]
      by_cases hmax : st2'.distancias dest = INT_MAX
      · exact ⟨.ok (-1, []), by simp only [hmax, if_true]⟩
      · simp only [hmax, if_false]
        obtain ⟨p, hp⟩ := h3 (lt_of_le_of_ne h2 hmax)
        have hlen := le_trans (cadena_length r o st2' p dest hp hd) hf
        rw [(reconstruir0_cadena r o st2' p dest hp fuel [] (by simp)).1 hlen]
        exact ⟨_, rfl⟩
    · obtain ⟨st2', heq, _⟩ := final0 r o dest hbf hnn hso ho hd fuel _ hit
      simp at heq

theorem busqueda1 (r : Red) (o dest : String)
    (hbf : r.bienFormada) (hnn : r.costosNoNegativos) (hso : r.sinDesborde o dest)
    (ho : r.existeEnrutador o = true) (hd : r.existeEnrutador dest = true) :
    (∀ fuel res, E1.encontrarRutaMasCorta fuel r o dest = some res →
      r.respuestaCorrecta o dest res) ∧
    (∀ fuel, cotaBusqueda r ≤ fuel →
      ∃ res, E1.encontrarRutaMasCorta fuel r o dest = some res) := by
  have h0 := invCabeza_inicial r o ho
  constructor
  · intro fuel res h
    unfold E1.encontrarRutaMasCorta at h
    simp only [ho, hd, Bool.not_true, Bool.or_self, Bool.false_eq_true, if_false] at h
    cases hit : iterar (E1.paso r dest) fuel (estadoInicial r o) with
    | none => simp [hit] at h
    | some resI =>
      obtain ⟨st2, rfl, h1, h2, h3, h4, h5⟩ := final1 r o dest hbf hnn hso ho hd fuel resI hit
      rw [hit] at h
      simp only at h
      by_cases hmax : st2.distancias dest = INT_MAX
      · simp only [hmax, if_true, Option.some.injEq] at h
        left
        exact ⟨h.symm, fun hc => by have := h4 hc; omega⟩
      · simp only [hmax, if_false] at h
        obtain ⟨p, hp⟩ := h3 (lt_of_le_of_ne h2 hmax)
        cases hr : E1.reconstruir st2.anterior o fuel dest [] with
        | none => simp [hr] at h
        | some rr =>
          have := (reconstruir1_cadena r o st2 p dest hp fuel [] (by simp)).2 rr hr
          subst this
          rw [hr] at h
          simp only [Option.some.injEq] at h
          rw [List.nil_append, reverso_sin_ultimo p o (cadena_head _ _ _ _ _ hp)] at h
          rw [← h]
          exact respuesta_de_cadena r o dest st2 p h1 h5 hp
  · intro fuel hf
    rcases iterar_termina (E1.paso r dest) (potencial r) (fun _ => True)
      (fun st st' _ hp => ⟨trivial, potencial_paso1 r dest st st' hp⟩)
      fuel (estadoInicial r o) trivial (lt_of_lt_of_le (potencial_inicial r o) hf)
      with ⟨_, st2, _, _, hit⟩ | ⟨_, e, _, _, hit⟩
    · obtain ⟨st2', heq, h1, h2, h3, h4, h5⟩ := final1 r o dest hbf hnn hso ho hd fuel _ hit
      have hst : st2' = st2 := by
        simp only [Except.ok.injEq] at heq
        exact heq.symm
      subst hst
      unfold E1.encontrarRutaMasCorta
      simp only [ho, hd, Bool.not_true, Bool.or_self, Bool.false_eq_true, if_false, hit]
      by_cases hmax : st2'.distancias dest = INT_MAX
      · exact ⟨.ok (-1, []), by simp only [hmax, if_true]⟩
      · simp only [hmax, if_false]
        obtain ⟨p, hp⟩ := h3 (lt_of_le_of_ne h2 hmax)
        have hlen := le_trans (cadena_length r o st2' p dest hp hd) hf
        rw [(reconstruir1_cadena r o st2' p dest hp fuel [] (by simp)).1 hlen]
        exact ⟨_, rfl⟩
    · obtain ⟨st2', heq, _⟩ := final1 r o dest hbf hnn hso ho hd fuel _ hit
      simp at heq

/-! ## Stores on which no sum overflows -/

theorem ruta_acotada (r : Red) (M : Int) (hc : r.costosHasta M) (p : List String) (t : Int)
    (h : r.costoRuta p = some t) :
    t ≤ (p.dropLast.length : Int) * M ∧ ∀ x ∈ p.dropLast, r.existeEnrutador x = true := by
  induction p generalizing t with
  | nil =>
    have : t = 0 := by simpa [Red.costoRuta] using h.symm
    simp [this]
  | cons x p ih =>
    cases p with
    | nil =>
      rw [costoRuta_uno] at h
      have : t = 0 := by simpa using h.symm
      simp [this]
    | cons y l =>
      obtain ⟨c, t', hl, ht', rfl⟩ := (costoRuta_cons_iff _ _ _ _ _).1 h
      obtain ⟨h1, h2⟩ := ih t' ht'
      have hcM : c ≤ M := by
        unfold Red.costoEnlace at hl
        cases hb : buscar r.enrutadores x with
        | none => simp [hb] at hl
        | some e =>
          rw [hb] at hl
          exact hc (x, e) (mem_of_buscar _ _ _ hb) (y, c) (mem_of_buscar _ _ _ hl)
      rw [List.dropLast_cons₂]
      constructor
      · simp only [List.length_cons]
        push_cast
        linarith
      · intro z hz
        rcases List.mem_cons.1 hz with rfl | hz
        · exact existe_of_costoEnlace_izq r _ y c hl
        · exact h2 z hz

theorem sinDesborde_de_cota (r : Red) (o dest : String) (M : Int) (hM : 0 ≤ M)
    (hc : r.costosHasta M) (hlen : (r.enrutadores.length : Int) * M < INT_MAX) :
    r.sinDesborde o dest := by
  intro p t _ hnd _ ht
  obtain ⟨h1, h2⟩ := ruta_acotada r M hc p t ht
  have hsub : p.dropLast ⊆ claves r.enrutadores := fun x hx =>
    (existe_iff_claves r x).1 (h2 x hx)
  have h3 := (List.subperm_of_subset hnd hsub).length_le
  have h4 : (claves r.enrutadores).length = r.enrutadores.length := by simp [claves]
  have h5 : (p.dropLast.length : Int) ≤ (r.enrutadores.length : Int) := by
    rw [h4] at h3
    exact_mod_cast h3
  have h6 := mul_le_mul_of_nonneg_right h5 hM
  linarith

theorem ciclo4_conectados : ciclo4.conectados "A" "C" :=
  Relation.ReflTransGen.tail
    (Relation.ReflTransGen.single (show (ciclo4.costoEnlace "A" "B").isSome = true by decide))
    (show (ciclo4.costoEnlace "B" "C").isSome = true by decide)

theorem ciclo4_sinDesborde (o dest : String) : ciclo4.sinDesborde o dest :=
  sinDesborde_de_cota ciclo4 o dest 1 (by decide)
    (by unfold Red.costosHasta; decide) (by decide)

/-! ## Adding and removing routers, repeating a link update -/

/-- C11. `agregarEnrutador` success: for a non-empty name that is not in the store
    the call succeeds; afterwards the name is present, its routing table is empty,
    and every router that was present is still present, unchanged. -/
theorem C11_agregar_exito (r : Red) (nombre : String) (h1 : nombre ≠ "")
    (h2 : r.existeEnrutador nombre = false) :
    (r.agregarEnrutador nombre).1 = .ok () ∧
    (r.agregarEnrutador nombre).2.existeEnrutador nombre = true ∧
    (∃ e, buscar (r.agregarEnrutador nombre).2.enrutadores nombre = some e ∧
      e.tablaEnrutamiento = []) ∧
    (∀ k e, buscar r.enrutadores k = some e →
      buscar (r.agregarEnrutador nombre).2.enrutadores k = some e) ∧
    (r.agregarEnrutador nombre).2.enrutadores.length = r.enrutadores.length + 1 := by
  rw [agregarEnrutador_ok r nombre h1 h2]
  refine ⟨rfl, ?_, ⟨⟨[], nombre⟩, ?_, rfl⟩, ?_, ?_⟩
  · simp [Red.existeEnrutador, buscar_agregado r nombre nombre h2]
  · simp [buscar_agregado r nombre nombre h2]
  · intro k e hk
    have hkn : k ≠ nombre := by
      intro heq
      rw [heq] at hk
      simp [Red.existeEnrutador, hk] at h2
    simp only [buscar_agregado r nombre k h2, hkn, if_false]
    exact hk
  · simp

theorem C11_agregar_exito_witness :
    (redPar.agregarEnrutador "C").1 = .ok () ∧
    (redPar.agregarEnrutador "C").2.existeEnrutador "C" = true ∧
    (∃ e, buscar (redPar.agregarEnrutador "C").2.enrutadores "C" = some e ∧
      e.tablaEnrutamiento = []) ∧
    (∀ k e, buscar redPar.enrutadores k = some e →
      buscar (redPar.agregarEnrutador "C").2.enrutadores k = some e) ∧
    (redPar.agregarEnrutador "C").2.enrutadores.length = redPar.enrutadores.length + 1 :=
  C11_agregar_exito redPar "C" (by decide) (by decide)

/-- C12. `eliminarEnrutador` fails exactly when the named router is absent: it
    then raises the router-not-found error and leaves the store as it was; on a
    present router it succeeds. -/
theorem C12_eliminar_falla (r : Red) (nombre : String) :
    ((∃ x, (r.eliminarEnrutador nombre).1 = .error x) ↔ r.existeEnrutador nombre = false) ∧
    (r.existeEnrutador nombre = false →
      r.eliminarEnrutador nombre = (.error (.invalid_argument msgNoEncontrado), r)) ∧
    (r.existeEnrutador nombre = true → (r.eliminarEnrutador nombre).1 = .ok ()) := by
  have hno : r.existeEnrutador nombre = false →
      r.eliminarEnrutador nombre = (.error (.invalid_argument msgNoEncontrado), r) := by
    intro h
    simp [Red.eliminarEnrutador, h]
  have hsi : r.existeEnrutador nombre = true → (r.eliminarEnrutador nombre).1 = .ok () := by
    intro h
    rw [eliminarEnrutador_ok r nombre h]
  refine ⟨⟨?_, ?_⟩, hno, hsi⟩
  · rintro ⟨x, hx⟩
    by_contra hne
    rw [hsi (by simpa using hne)] at hx
    simp at hx
  · intro h
    exact ⟨_, by rw [hno h]⟩

theorem C12_eliminar_falla_witness :
    redPar.eliminarEnrutador "Z" = (.error (.invalid_argument msgNoEncontrado), redPar) ∧
    (redPar.eliminarEnrutador "A").1 = .ok () :=
  ⟨(C12_eliminar_falla redPar "Z").2.1 (by decide),
   (C12_eliminar_falla redPar "A").2.2 (by decide)⟩

theorem asignar_de_buscar {β : Type} (m : List (String × β)) (k : String) (v : β)
    (h : buscar m k = some v) : asignar m k v = m := by
  induction m with
  | nil => simp [buscar] at h
  | cons p m ih =>
    obtain ⟨a, w⟩ := p
    by_cases ha : a = k
    · subst ha
      simp only [buscar, if_true, Option.some.injEq] at h
      simp [asignar, h]
    · simp only [buscar, ha, if_false] at h
      simp [asignar, ha, ih h]

theorem actualizarEnlace_repetido (r : Red) (a b : String) (c : Int)
    (ha : r.existeEnrutador a = true) (hb : r.existeEnrutador b = true) (hc : 0 ≤ c)
    (hab : r.costoEnlace a b = some c) (hba : r.costoEnlace b a = some c) :
    r.actualizarEnlace a b c = (.ok (), r) := by
  obtain ⟨ea, eb, hea, heb, h⟩ := actualizarEnlace_ok r a b c ha hb hc
  have h1 : buscar ea.tablaEnrutamiento b = some c := by
    unfold Red.costoEnlace at hab
    rw [hea] at hab
    exact hab
  have h2 : (⟨asignar ea.tablaEnrutamiento b c, ea.nombre⟩ : Enrutador) = ea := by
    rw [asignar_de_buscar _ _ _ h1]
  rw [h2, asignar_de_buscar _ _ _ hea] at heb h
  have h3 : buscar eb.tablaEnrutamiento a = some c := by
    unfold Red.costoEnlace at hba
    rw [heb] at hba
    exact hba
  have h4 : (⟨asignar eb.tablaEnrutamiento a c, eb.nombre⟩ : Enrutador) = eb := by
    rw [asignar_de_buscar _ _ _ h3]
  rw [h4, asignar_de_buscar _ _ _ heb] at h
  exact h

/-- C14. Idempotence of `actualizarEnlace`: for existing routers `a`, `b` and a cost
    `c ≥ 0`, a second call with the same arguments succeeds and leaves exactly the
    store the first call left. -/
theorem C14_enlace_idempotente (r : Red) (a b : String) (c : Int)
    (ha : r.existeEnrutador a = true) (hb : r.existeEnrutador b = true) (hc : 0 ≤ c) :
    (r.actualizarEnlace a b c).2.actualizarEnlace a b c =
      (.ok (), (r.actualizarEnlace a b c).2) := by
  have hce := costoEnlace_actualizarEnlace r a b c ha hb hc
  refine actualizarEnlace_repetido _ a b c ?_ ?_ hc ?_ ?_
  · rw [existe_actualizarEnlace]; exact ha
  · rw [existe_actualizarEnlace]; exact hb
  · rw [hce]; simp
  · rw [hce]; simp

theorem C14_enlace_idempotente_witness :
    (redPar.actualizarEnlace "A" "B" 5).2.actualizarEnlace "A" "B" 5 =
      (.ok (), (redPar.actualizarEnlace "A" "B" 5).2) :=
  C14_enlace_idempotente redPar "A" "B" 5 (by decide) (by decide) (by decide)

/-! ## Stored costs are never negative -/

theorem noNegativos_agregar (r : Red) (n : String) (h : r.costosNoNegativos) :
    (r.agregarEnrutador n).2.costosNoNegativos := by
  rcases agregarEnrutador_cases r n with h1 | ⟨_, h1⟩
  · rw [h1]; exact h
  · rw [h1]
    intro p hp q hq
    rcases List.mem_append.1 hp with h2 | h2
    · exact h p h2 q hq
    · have : p = (n, ⟨[], n⟩) := by simpa using h2
      subst this
      simp at hq

theorem noNegativos_eliminar (r : Red) (x : String) (h : r.costosNoNegativos) :
    (r.eliminarEnrutador x).2.costosNoNegativos := by
  by_cases hx : r.existeEnrutador x = true
  swap
  · have : (r.eliminarEnrutador x).2 = r := by simp [Red.eliminarEnrutador, hx]
    rw [this]; exact h
  rw [eliminarEnrutador_ok r x hx]
  intro p hp q hq
  obtain ⟨p0, hp0, rfl⟩ := List.mem_map.1 hp
  have hp1 : p0 ∈ r.enrutadores := (List.mem_filter.1 hp0).1
  exact h p0 hp1 q (eliminarRuta_mem _ _ _ hq).1

theorem noNegativos_enlazar (r : Red) (a b : String) (c : Int) (h : r.costosNoNegativos) :
    (r.actualizarEnlace a b c).2.costosNoNegativos := by
  by_cases hok : r.existeEnrutador a = true ∧ r.existeEnrutador b = true ∧ 0 ≤ c
  swap
  · rw [actualizarEnlace_falla r a b c hok]; exact h
  obtain ⟨ha, hb, hc⟩ := hok
  obtain ⟨ea, eb, hea, heb, heq⟩ := actualizarEnlace_ok r a b c ha hb hc
  have hmea : (a, ea) ∈ r.enrutadores := mem_of_buscar _ _ _ hea
  have hqea : ∀ q ∈ asignar ea.tablaEnrutamiento b c, 0 ≤ q.2 := by
    intro q hq
    rcases mem_asignar _ _ _ _ hq with h2 | h2
    · rw [h2]; exact hc
    · exact h _ hmea q h2
  have hqeb : ∀ q ∈ eb.tablaEnrutamiento, 0 ≤ q.2 := by
    intro q hq
    rcases mem_asignar _ _ _ _ (mem_of_buscar _ _ _ heb) with h1 | h1
    · have : eb = ⟨asignar ea.tablaEnrutamiento b c, ea.nombre⟩ := (Prod.mk.inj h1).2
      rw [this] at hq
      exact hqea q hq
    · exact h _ h1 q hq
  rw [heq]
  intro p hp q hq
  rcases mem_asignar _ _ _ _ hp with h1 | h1
  · subst h1
    rcases mem_asignar _ _ _ _ hq with h2 | h2
    · rw [h2]; exact hc
    · exact hqeb q h2
  · rcases mem_asignar _ _ _ _ h1 with h2 | h2
    · subst h2
      exact hqea q hq
    · exact h p h2 q hq

theorem noNegativos_foldl (ops : List Operacion) (r : Red) (h : r.costosNoNegativos) :
    (ops.foldl Red.aplicar r).costosNoNegativos := by
  induction ops generalizing r with
  | nil => exact h
  | cons op ops ih =>
    refine ih _ ?_
    cases op with
    | agregar n => exact noNegativos_agregar r n h
    | eliminar n => exact noNegativos_eliminar r n h
    | enlazar a b c => exact noNegativos_enlazar r a b c h

theorem noNegativos_tras (ops : List Operacion) : (Red.tras ops).costosNoNegativos :=
  noNegativos_foldl ops Red.vacia (fun p hp => by simp [Red.vacia] at hp)

/-- C19. Non-negative costs: in every state reached from the empty network by a
    sequence of `agregarEnrutador`, `eliminarEnrutador` and `actualizarEnlace` calls,
    every cost stored in every routing table is at least 0. -/
theorem C19_costos_no_negativos (ops : List Operacion) :
    ∀ p ∈ (Red.tras ops).enrutadores, ∀ q ∈ p.2.tablaEnrutamiento, 0 ≤ q.2 :=
  noNegativos_tras ops

theorem C19_costos_no_negativos_witness :
    ("A", (⟨[("B", 3)], "A"⟩ : Enrutador)) ∈ redPar.enrutadores ∧
      (0 : Int) ≤ (("B", 3) : String × Int).2 :=
  ⟨by decide,
    C19_costos_no_negativos [.agregar "A", .agregar "B", .enlazar "A" "B" 3]
      ("A", ⟨[("B", 3)], "A"⟩) (by decide) ("B", 3) (by decide)⟩

/-! ## One-sided route removal -/

/-- C20. One-sided route removal breaks symmetry: the store `redPar` is symmetric
    and links `A` and `B`; after `Enrutador::eliminarRuta("B")` on router `A` alone,
    `B` still lists `A` while `A` no longer lists `B`, so the store is not symmetric. -/
theorem C20_eliminarRuta_rompe_simetria :
    redPar.simetrica ∧ redPar.costoEnlace "A" "B" = some 3 ∧
    redPar.costoEnlace "B" "A" = some 3 ∧
    (redPar.eliminarRutaEn "A" "B").costoEnlace "B" "A" = some 3 ∧
    (redPar.eliminarRutaEn "A" "B").costoEnlace "A" "B" = none ∧
    ¬ (redPar.eliminarRutaEn "A" "B").simetrica := by
  refine ⟨(invariante_tras _).2.1, by decide, by decide, by decide, by decide, ?_⟩
  intro h
  have := (h "B" "A" 3).1 (by decide)
  revert this
  decide

/-! ## Fuel and the outcome of the loop -/

theorem iterar_mono (paso : Estado → Paso) (n : Nat) (st : Estado)
    (x : Except Excepcion Estado) (h : iterar paso n st = some x) (k : Nat) :
    iterar paso (n + k) st = some x := by
  induction n generalizing st with
  | zero => simp [iterar] at h
  | succ n ih =>
    have hnk : n + 1 + k = (n + k) + 1 := by omega
    rw [hnk]
    cases hp : paso st with
    | fin st2 =>
      simp only [iterar, hp] at h ⊢
      exact h
    | falla e =>
      simp only [iterar, hp] at h ⊢
      exact h
    | sigue st' =>
      simp only [iterar, hp] at h ⊢
      exact ih st' h

theorem iterar_unico (paso : Estado → Paso) (n m : Nat) (st : Estado)
    (x y : Except Excepcion Estado) (hx : iterar paso n st = some x)
    (hy : iterar paso m st = some y) : x = y := by
  have h1 := iterar_mono paso n st x hx m
  have h2 := iterar_mono paso m st y hy n
  rw [Nat.add_comm] at h2
  rw [h1] at h2
  exact Option.some.inj h2

theorem paso0_falla_tipo (r : Red) (dest : String) (st : Estado) (x : Excepcion)
    (h : E0.paso r dest st = .falla x) : x = .out_of_range := by
  unfold E0.paso at h
  cases hm : minimo st.nodosActivos with
  | none => simp [hm] at h
  | some m =>
    obtain ⟨d, u⟩ := m
    rw [hm] at h
    simp only at h
    by_cases hu : u = dest
    · simp [hu] at h
    · simp only [hu, if_false] at h
      cases hb : buscar r.enrutadores u with
      | none =>
        rw [hb] at h
        simp only [Paso.falla.injEq] at h
        exact h.symm
      | some e => simp [hb] at h

theorem paso1_falla_tipo (r : Red) (dest : String) (st : Estado) (x : Excepcion)
    (h : E1.paso r dest st = .falla x) : x = .out_of_range := by
  unfold E1.paso at h
  cases hm : minimo st.nodosActivos with
  | none => simp [hm] at h
  | some m =>
    obtain ⟨d, u⟩ := m
    rw [hm] at h
    simp only at h
    by_cases hu : u = dest
    · simp [hu] at h
    · simp only [hu, if_false] at h
      by_cases hd : d > st.distancias u
      · simp [hd] at h
      · simp only [hd, if_false] at h
        cases hb : buscar r.enrutadores u with
        | none =>
          rw [hb] at h
          simp only [Paso.falla.injEq] at h
          exact h.symm
        | some e => simp [hb] at h

theorem no_existe_busqueda (r : Red) (o dest : String) (fuel : Nat)
    (h : r.existeEnrutador o = false ∨ r.existeEnrutador dest = false) :
    E0.encontrarRutaMasCorta fuel r o dest = some (.error (.invalid_argument msgNoExiste)) ∧
    E1.encontrarRutaMasCorta fuel r o dest = some (.error (.invalid_argument msgNoExiste)) := by
  rcases h with h | h
  · simp [E0.encontrarRutaMasCorta, E1.encontrarRutaMasCorta, h]
  · simp [E0.encontrarRutaMasCorta, E1.encontrarRutaMasCorta, h]

/-! ## Bulk load -/

theorem asegurar_enrutador (r : Red) (n : String) (hn : n ≠ "") :
    ∃ r1, (if !r.existeEnrutador n then r.agregarEnrutador n else (.ok (), r)) = (.ok (), r1) ∧
      r1.existeEnrutador n = true ∧
      (∀ x, r.existeEnrutador x = true → r1.existeEnrutador x = true) ∧
      (∀ x y, r1.costoEnlace x y = r.costoEnlace x y) := by
  by_cases h : r.existeEnrutador n = true
  · exact ⟨r, by simp [h], h, fun x hx => hx, fun x y => rfl⟩
  · have h' : r.existeEnrutador n = false := by simpa using h
    refine ⟨⟨r.enrutadores ++ [(n, ⟨[], n⟩)]⟩, ?_, ?_, ?_, ?_⟩
    · simp [h', agregarEnrutador_ok r n hn h']
    · simp [Red.existeEnrutador, buscar_agregado r n n h']
    · intro x hx
      have hxn : x ≠ n := fun e => by rw [e, h'] at hx; simp at hx
      simpa [Red.existeEnrutador, buscar_agregado r n x h', hxn] using hx
    · intro x y
      unfold Red.costoEnlace
      rw [buscar_agregado r n x h']
      by_cases hxn : x = n
      · subst hxn
        have : buscar r.enrutadores x = none := by
          cases hb : buscar r.enrutadores x with
          | none => rfl
          | some e => simp [Red.existeEnrutador, hb] at h'
        simp [this, buscar]
      · simp [hxn]

theorem cargarEnlace_ok (r : Red) (k : Nat) (a b : String) (c : Int)
    (ha : a ≠ "") (hb : b ≠ "") (hc : 0 ≤ c) :
    ∃ r', r.cargarEnlace k a b c = (.ok (), r') ∧
      ∀ x y, r'.costoEnlace x y = if mismoPar a b x y then some c else r.costoEnlace x y := by
  obtain ⟨r1, h1, he1, hk1, hc1⟩ := asegurar_enrutador r a ha
  obtain ⟨r2, h2, he2, hk2, hc2⟩ := asegurar_enrutador r1 b hb
  have hea := hk2 a he1
  obtain ⟨ea, eb, _, _, h3⟩ := actualizarEnlace_ok r2 a b c hea he2 hc
  refine ⟨(r2.actualizarEnlace a b c).2, ?_, ?_⟩
  · unfold Red.cargarEnlace
    rw [h1]
    simp only
    rw [h2]
    simp only
    rw [h3]
  · intro x y
    rw [costoEnlace_actualizarEnlace r2 a b c hea he2 hc, hc2, hc1]

theorem cargarEnlace_negativo (r : Red) (k : Nat) (a b : String) (c : Int)
    (ha : a ≠ "") (hb : b ≠ "") (hc : c < 0) :
    ∃ r', r.cargarEnlace k a b c =
        (.error (.runtime_error ("Error en línea " ++ toString k ++ ": " ++ msgCostoNegativo)),
          r') ∧
      ∀ x y, r'.costoEnlace x y = r.costoEnlace x y := by
  obtain ⟨r1, h1, he1, hk1, hc1⟩ := asegurar_enrutador r a ha
  obtain ⟨r2, h2, he2, hk2, hc2⟩ := asegurar_enrutador r1 b hb
  have hea := hk2 a he1
  have h3 : r2.actualizarEnlace a b c = (.error (.invalid_argument msgCostoNegativo), r2) := by
    simp [Red.actualizarEnlace, hea, he2, hc]
  refine ⟨r2, ?_, fun x y => by rw [hc2, hc1]⟩
  unfold Red.cargarEnlace
  rw [h1]
  simp only
  rw [h2]
  simp only
  rw [h3]
  rfl

theorem cargarLineas_falla (extraer : String → Option (String × String × Int))
    (saltar : String → Bool)
    (hext : ∀ l a b c, extraer l = some (a, b, c) → a ≠ "" ∧ b ≠ "")
    (mala : String) (despues : List String) (hmala : lineaMala extraer saltar mala)
    (antes : List String) :
    ∀ (r : Red) (n : Nat), (∀ l ∈ antes, lineaBuena extraer saltar l) →
      ∃ r', Red.cargarLineas extraer saltar r n (antes ++ mala :: despues) =
          (.error (.runtime_error (mensajeLinea extraer (n + antes.length + 1) mala)), r') ∧
        (∀ x y c, r.costoEnlace x y = some c → sinPar extraer saltar antes x y →
          r'.costoEnlace x y = some c) ∧
        (∀ p1 l p2 a b c, antes = p1 ++ l :: p2 → saltar l = false →
          extraer l = some (a, b, c) → sinPar extraer saltar p2 a b →
          r'.costoEnlace a b = some c ∧ r'.costoEnlace b a = some c) := by
  induction antes with
  | nil =>
    intro r n _
    obtain ⟨hs, hm⟩ := hmala
    simp only [List.nil_append, List.length_nil, Nat.add_zero]
    rcases hm with hnone | ⟨a, b, c, hsome, hneg⟩
    · refine ⟨r, ?_, fun x y c h _ => h, ?_⟩
      · simp [Red.cargarLineas, hs, hnone, mensajeLinea]
      · intro p1 l p2 a b c h
        simp at h
    · obtain ⟨ha, hb⟩ := hext _ _ _ _ hsome
      obtain ⟨r', h1, h2⟩ := cargarEnlace_negativo r (n + 1) a b c ha hb hneg
      refine ⟨r', ?_, fun x y c h _ => by rw [h2]; exact h, ?_⟩
      · simp [Red.cargarLineas, hs, hsome, mensajeLinea, h1]
      · intro p1 l p2 a b c h
        simp at h
  | cons l0 resto ih =>
    intro r n hbuenas
    have hresto : ∀ l ∈ resto, lineaBuena extraer saltar l :=
      fun l hl => hbuenas l (List.mem_cons_of_mem _ hl)
    have hlen : n + (l0 :: resto).length + 1 = (n + 1) + resto.length + 1 := by
      simp only [List.length_cons]; omega
    rw [hlen]
    by_cases hs : saltar l0 = true
    · obtain ⟨r', h1, h2, h3⟩ := ih r (n + 1) hresto
      refine ⟨r', ?_, ?_, ?_⟩
      · simp only [List.cons_append, Red.cargarLineas, hs, if_true]
        exact h1
      · intro x y c hxy hsp
        exact h2 x y c hxy (fun l hl => hsp l (List.mem_cons_of_mem _ hl))
      · intro p1 l p2 a b c hsplit hsl hel hsp
        cases p1 with
        | nil =>
          simp only [List.nil_append, List.cons.injEq] at hsplit
          rw [hsplit.1, hsl] at hs
          simp at hs
        | cons q p1' =>
          simp only [List.cons_append, List.cons.injEq] at hsplit
          exact h3 p1' l p2 a b c hsplit.2 hsl hel hsp
    · have hs' : saltar l0 = false := by simpa using hs
      rcases hbuenas l0 (List.mem_cons_self _ _) with hsk | ⟨a0, b0, c0, he0, hc0⟩
      · exact absurd hsk hs
      obtain ⟨ha0, hb0⟩ := hext _ _ _ _ he0
      obtain ⟨r0, hr0, hce0⟩ := cargarEnlace_ok r (n + 1) a0 b0 c0 ha0 hb0 hc0
      obtain ⟨r', h1, h2, h3⟩ := ih r0 (n + 1) hresto
      refine ⟨r', ?_, ?_, ?_⟩
      · simp only [List.cons_append, Red.cargarLineas, hs', Bool.false_eq_true, if_false, he0,
          hr0]
        exact h1
      · intro x y c hxy hsp
        refine h2 x y c ?_ (fun l hl => hsp l (List.mem_cons_of_mem _ hl))
        rw [hce0, if_neg (hsp l0 (List.mem_cons_self _ _) hs' a0 b0 c0 he0)]
        exact hxy
      · intro p1 l p2 a b c hsplit hsl hel hsp
        cases p1 with
        | nil =>
          simp only [List.nil_append, List.cons.injEq] at hsplit
          rw [← hsplit.1] at hel
          rw [← hsplit.2] at hsp
          rw [he0] at hel
          simp only [Option.some.injEq, Prod.mk.injEq] at hel
          obtain ⟨h5, h6, h7⟩ := hel
          rw [← h5, ← h6, ← h7]
          rw [← h5, ← h6] at hsp
          have hsp' : sinPar extraer saltar resto b0 a0 := by
            intro l hl hsl2 a b c hel2 hmp
            apply hsp l hl hsl2 a b c hel2
            unfold mismoPar at hmp ⊢
            tauto
          constructor
          · refine h2 a0 b0 c0 ?_ hsp
            rw [hce0, if_pos (Or.inl ⟨rfl, rfl⟩)]
          · refine h2 b0 a0 c0 ?_ hsp'
            rw [hce0, if_pos (Or.inr ⟨rfl, rfl⟩)]
        | cons q p1' =>
          simp only [List.cons_append, List.cons.injEq] at hsplit
          exact h3 p1' l p2 a b c hsplit.2 hsl hel hsp

/-- C18. Bulk-load failure reporting: when line `k` of the batch is the first line
    at which the load loop stops (the extraction of name, name, cost fails or the
    cost is negative; in enrutador1.cpp empty lines and `#` lines are passed over,
    in enrutador0.cpp every line is extracted; all lines count), the call fails with
    an error whose text carries the number `k`, and every link set by an earlier
    line that no later line before `k` sets again is in the store, in both
    directions, with the cost of that line. -/
theorem C18_carga_falla (extraer : String → Option (String × String × Int))
    (archivos : String → Option (List String)) (r : Red) (nombre : String)
    (antes despues : List String) (mala : String)
    (hext : ∀ l a b c, extraer l = some (a, b, c) → a ≠ "" ∧ b ≠ "")
    (harch : archivos nombre = some (antes ++ mala :: despues)) :
    ((∀ l ∈ antes, lineaBuena extraer esComentario l) → lineaMala extraer esComentario mala →
      ∃ r', E1.cargarTopologiaDesdeArchivo extraer archivos r nombre =
          (.error (.runtime_error (mensajeLinea extraer (antes.length + 1) mala)), r') ∧
        ∀ p1 l p2 a b c, antes = p1 ++ l :: p2 → esComentario l = false →
          extraer l = some (a, b, c) → sinPar extraer esComentario p2 a b →
          r'.costoEnlace a b = some c ∧ r'.costoEnlace b a = some c) ∧
    ((∀ l ∈ antes, lineaBuena extraer (fun _ => false) l) →
      lineaMala extraer (fun _ => false) mala →
      ∃ r', E0.cargarTopologiaDesdeArchivo extraer archivos r nombre =
          (.error (.runtime_error (mensajeLinea extraer (antes.length + 1) mala)), r') ∧
        ∀ p1 l p2 a b c, antes = p1 ++ l :: p2 →
          extraer l = some (a, b, c) → sinPar extraer (fun _ => false) p2 a b →
          r'.costoEnlace a b = some c ∧ r'.costoEnlace b a = some c) := by
  constructor
  · intro hb hm
    obtain ⟨r', h1, _, h3⟩ :=
      cargarLineas_falla extraer esComentario hext mala despues hm antes ⟨[]⟩ 0 hb
    refine ⟨r', ?_, h3⟩
    unfold E1.cargarTopologiaDesdeArchivo
    rw [harch]
    simp only
    rw [h1, Nat.zero_add]
  · intro hb hm
    obtain ⟨r', h1, _, h3⟩ :=
      cargarLineas_falla extraer (fun _ => false) hext mala despues hm antes r 0 hb
    refine ⟨r', ?_, fun p1 l p2 a b c hs he hp => h3 p1 l p2 a b c hs rfl he hp⟩
    unfold E0.cargarTopologiaDesdeArchivo
    rw [harch]
    simp only
    rw [h1, Nat.zero_add]

theorem extraerMuestra_nombres (l a b : String) (c : Int)
    (h : extraerMuestra l = some (a, b, c)) : a ≠ "" ∧ b ≠ "" := by
  unfold extraerMuestra at h
  split_ifs at h <;>
    simp only [Option.some.injEq, Prod.mk.injEq, reduceCtorEq] at h <;>
    obtain ⟨rfl, rfl, _⟩ := h <;> decide

theorem C18_carga_falla_witness :
    (∃ r', E1.cargarTopologiaDesdeArchivo extraerMuestra
        (fun _ => some (["A B 5", ""] ++ "B C -2" :: ["A C 7"])) Red.vacia "red.txt" =
          (.error (.runtime_error
            (mensajeLinea extraerMuestra (["A B 5", ""].length + 1) "B C -2")), r') ∧
        ∀ p1 l p2 a b c, ["A B 5", ""] = p1 ++ l :: p2 → esComentario l = false →
          extraerMuestra l = some (a, b, c) → sinPar extraerMuestra esComentario p2 a b →
          r'.costoEnlace a b = some c ∧ r'.costoEnlace b a = some c) ∧
    (∃ r', E0.cargarTopologiaDesdeArchivo extraerMuestra
        (fun _ => some (["A B 5"] ++ "" :: ["A C 7"])) Red.vacia "red.txt" =
          (.error (.runtime_error (mensajeLinea extraerMuestra (["A B 5"].length + 1) "")), r') ∧
        ∀ p1 l p2 a b c, ["A B 5"] = p1 ++ l :: p2 →
          extraerMuestra l = some (a, b, c) → sinPar extraerMuestra (fun _ => false) p2 a b →
          r'.costoEnlace a b = some c ∧ r'.costoEnlace b a = some c) :=
  ⟨(C18_carga_falla extraerMuestra (fun _ => some (["A B 5", ""] ++ "B C -2" :: ["A C 7"]))
      Red.vacia "red.txt" ["A B 5", ""] ["A C 7"] "B C -2" extraerMuestra_nombres rfl).1
      (by
        intro l hl
        simp only [List.mem_cons, List.mem_singleton, List.not_mem_nil, or_false] at hl
        rcases hl with rfl | rfl
        · exact Or.inr ⟨"A", "B", 5, by decide, by decide⟩
        · exact Or.inl (by decide))
      ⟨by decide, Or.inr ⟨"B", "C", -2, by decide, by decide⟩⟩,
   (C18_carga_falla extraerMuestra (fun _ => some (["A B 5"] ++ "" :: ["A C 7"]))
      Red.vacia "red.txt" ["A B 5"] ["A C 7"] "" extraerMuestra_nombres rfl).2
      (by
        intro l hl
        simp only [List.mem_singleton] at hl
        subst hl
        exact Or.inr ⟨"A", "B", 5, by decide, by decide⟩)
      ⟨rfl, Or.inl (by decide)⟩⟩

/-! ## Independence of the enumeration order -/

theorem menorPar_iff (a b : Int × String) :
    menorPar a b = true ↔ a.1 < b.1 ∨ (a.1 = b.1 ∧ a.2.data < b.2.data) := by
  unfold menorPar
  simp only [Bool.or_eq_true, decide_eq_true_eq, Bool.and_eq_true, Bool.not_eq_true',
    decide_eq_false_iff_not]
  constructor
  · rintro (h | ⟨h1, h2⟩)
    · exact Or.inl h
    · rcases lt_or_eq_of_le (not_lt.1 h1) with h3 | h3
      · exact Or.inl h3
      · exact Or.inr ⟨h3, h2⟩
  · rintro (h | ⟨h1, h2⟩)
    · exact Or.inl h
    · exact Or.inr ⟨by omega, h2⟩

theorem menorPar_asimetrico (a b : Int × String) (h : menorPar a b = true) :
    ¬ menorPar b a = true := by
  rw [menorPar_iff] at h ⊢
  rintro (h1 | ⟨h1, h2⟩)
  · rcases h with h3 | ⟨h3, _⟩ <;> omega
  · rcases h with h3 | ⟨_, h4⟩
    · omega
    · exact lt_asymm h2 h4

theorem menorPar_transitivo (a b c : Int × String) (h1 : menorPar a b = true)
    (h2 : menorPar b c = true) : menorPar a c = true := by
  rw [menorPar_iff] at h1 h2 ⊢
  rcases h1 with h1 | ⟨h1, h1'⟩ <;> rcases h2 with h2 | ⟨h2, h2'⟩
  · left; omega
  · left; omega
  · left; omega
  · right; exact ⟨by omega, lt_trans h1' h2'⟩

theorem menorPar_total (a b : Int × String) (h1 : ¬ menorPar a b = true)
    (h2 : ¬ menorPar b a = true) : a = b := by
  rw [menorPar_iff] at h1 h2
  simp only [not_or, not_and] at h1 h2
  have h3 : a.1 = b.1 := by omega
  have h4 : a.2.data = b.2.data := by
    rcases lt_trichotomy a.2.data b.2.data with h | h | h
    · exact absurd h (h1.2 h3)
    · exact h
    · exact absurd h (h2.2 h3.symm)
  exact Prod.ext h3 (String.ext h4)

theorem minimo_cota (q : List (Int × String)) (m : Int × String) (h : minimo q = some m) :
    ∀ e ∈ q, ¬ menorPar e m = true := by
  induction q generalizing m with
  | nil => intro e he; cases he
  | cons x q ih =>
    unfold minimo at h
    cases hq : minimo q with
    | none =>
      rw [hq] at h
      simp only [Option.some.injEq] at h
      have hnil := minimo_none q hq
      subst hnil
      intro e he
      rw [List.mem_singleton] at he
      rw [he, ← h]
      exact fun hc => menorPar_asimetrico x x hc hc
    | some m' =>
      rw [hq] at h
      simp only at h
      by_cases hm : menorPar m' x = true
      · simp only [hm, if_true, Option.some.injEq] at h
        subst h
        intro e he
        rcases List.mem_cons.1 he with he | he
        · rw [he]; exact menorPar_asimetrico _ _ hm
        · exact ih m' hq e he
      · simp only [hm, Option.some.injEq] at h
        have h' : x = m := by simpa using h
        subst h'
        intro e he hc
        rcases List.mem_cons.1 he with he | he
        · rw [he] at hc; exact menorPar_asimetrico x x hc hc
        · by_cases hx : menorPar x m' = true
          · exact ih m' hq e he (menorPar_transitivo _ _ _ hc hx)
          · have := menorPar_total _ _ hm hx
            rw [← this] at hc
            exact ih m' hq e he hc

/-- The least pair of a frontier depends only on which pairs it holds. -/
theorem minimo_congr (q q' : List (Int × String)) (h : ∀ e, e ∈ q ↔ e ∈ q') :
    minimo q = minimo q' := by
  cases hq : minimo q with
  | none =>
    have hnil := minimo_none q hq
    subst hnil
    cases hq' : minimo q' with
    | none => rfl
    | some m' => exact absurd ((h m').2 (minimo_mem _ _ hq')) (List.not_mem_nil _)
  | some m =>
    cases hq' : minimo q' with
    | none =>
      have hnil := minimo_none q' hq'
      subst hnil
      exact absurd ((h m).1 (minimo_mem _ _ hq)) (List.not_mem_nil _)
    | some m' =>
      have h1 := minimo_cota q m hq m' ((h m').2 (minimo_mem _ _ hq'))
      have h2 := minimo_cota q' m' hq' m ((h m).1 (minimo_mem _ _ hq))
      rw [menorPar_total _ _ h1 h2]

theorem foldl_reordenado {σ : Type} (R : σ → σ → Prop) (f : σ → String × Int → σ)
    (hrefl : ∀ s, R s s) (htrans : ∀ a b c, R a b → R b c → R a c)
    (hresp : ∀ s t p, R s t → R (f s p) (f t p))
    (hconm : ∀ s p q, p.1 ≠ q.1 → R (f (f s p) q) (f (f s q) p))
    (t t' : List (String × Int)) (hp : t.Perm t') (hu : clavesUnicas t) :
    ∀ s s', R s s' → R (t.foldl f s) (t'.foldl f s') := by
  have hfold : ∀ (l : List (String × Int)) s s', R s s' → R (l.foldl f s) (l.foldl f s') := by
    intro l
    induction l with
    | nil => intro s s' h; exact h
    | cons p l ih => intro s s' h; exact ih _ _ (hresp _ _ p h)
  induction hp with
  | nil => intro s s' h; exact h
  | cons x _ ih =>
    intro s s' h
    unfold clavesUnicas claves at hu ih
    rw [List.map_cons, List.nodup_cons] at hu
    exact ih hu.2 _ _ (hresp _ _ x h)
  | swap x y l =>
    intro s s' h
    unfold clavesUnicas claves at hu
    rw [List.map_cons, List.map_cons, List.nodup_cons] at hu
    have hne : y.1 ≠ x.1 := fun e => hu.1 (by rw [e]; exact List.mem_cons_self _ _)
    simp only [List.foldl_cons]
    exact hfold l _ _ (htrans _ _ _ (hconm s y x hne) (hresp _ _ y (hresp _ _ x h)))
  | trans h1 _ ih1 ih2 =>
    intro s s' h
    have hu2 : clavesUnicas _ := (List.Perm.nodup_iff (List.Perm.map Prod.fst h1)).1 hu
    exact htrans _ _ _ (ih1 hu s s' h) (ih2 hu2 s' s' (hrefl s'))

theorem perm_de_buscar (m m' : List (String × Int)) (hu : clavesUnicas m)
    (hu' : clavesUnicas m') (h : ∀ k, buscar m k = buscar m' k) : m.Perm m' := by
  refine (List.perm_ext_iff_of_nodup (List.Nodup.of_map _ hu) (List.Nodup.of_map _ hu')).2 ?_
  rintro ⟨k, v⟩
  constructor
  · intro hm
    exact mem_of_buscar _ _ _ ((h k) ▸ buscar_of_mem _ _ _ hu hm)
  · intro hm
    exact mem_of_buscar _ _ _ ((h k).symm ▸ buscar_of_mem _ _ _ hu' hm)

theorem buscar_perm (m m' : List (String × Int)) (hu : clavesUnicas m)
    (hp : m.Perm m') (k : String) : buscar m k = buscar m' k := by
  have hu' : clavesUnicas m' := (List.Perm.nodup_iff (List.Perm.map Prod.fst hp)).1 hu
  cases h : buscar m k with
  | some v => exact (buscar_of_mem _ _ _ hu' (hp.mem_iff.1 (mem_of_buscar _ _ _ h))).symm
  | none =>
    cases h' : buscar m' k with
    | none => rfl
    | some v =>
      rw [buscar_of_mem _ _ _ hu (hp.mem_iff.2 (mem_of_buscar _ _ _ h'))] at h
      cases h

theorem tablas_de_mismaTopologia (r r' : Red) (hbf : r.bienFormada) (hbf' : r'.bienFormada)
    (h : r.mismaTopologia r') (u : String) :
    (buscar r.enrutadores u = none ∧ buscar r'.enrutadores u = none) ∨
      ∃ e e', buscar r.enrutadores u = some e ∧ buscar r'.enrutadores u = some e' ∧
        e.tablaEnrutamiento.Perm e'.tablaEnrutamiento ∧ clavesUnicas e.tablaEnrutamiento := by
  have hex := h.1 u
  have hco := h.2 u
  unfold Red.existeEnrutador at hex
  unfold Red.costoEnlace at hco
  cases hb : buscar r.enrutadores u with
  | none =>
    cases hb' : buscar r'.enrutadores u with
    | none => exact Or.inl ⟨rfl, rfl⟩
    | some e' => rw [hb, hb'] at hex; cases hex
  | some e =>
    cases hb' : buscar r'.enrutadores u with
    | none => rw [hb, hb'] at hex; cases hex
    | some e' =>
      rw [hb, hb'] at hco
      have hu := hbf.2 _ (mem_of_buscar _ _ _ hb)
      have hu' := hbf'.2 _ (mem_of_buscar _ _ _ hb')
      exact Or.inr ⟨e, e', rfl, rfl, perm_de_buscar _ _ hu hu' hco, hu⟩

theorem mismaTopologia_de_reordenada (r r' : Red) (hbf : r.bienFormada)
    (hbf' : r'.bienFormada) (h : r.reordenada r') : r.mismaTopologia r' := by
  obtain ⟨hlen, hall⟩ := h
  have hsub : claves r.enrutadores ⊆ claves r'.enrutadores := by
    intro a ha
    obtain ⟨p, hp, hpa⟩ := List.mem_map.1 ha
    obtain ⟨p', hp', hk, _⟩ := hall p hp
    exact List.mem_map.2 ⟨p', hp', hk.trans hpa⟩
  have hperm : (claves r.enrutadores).Perm (claves r'.enrutadores) :=
    (List.subperm_of_subset hbf.1 hsub).perm_of_length_le
      (by unfold claves; rw [List.length_map, List.length_map, hlen])
  have htab : ∀ a e, buscar r.enrutadores a = some e →
      ∃ e', buscar r'.enrutadores a = some e' ∧
        e'.tablaEnrutamiento.Perm e.tablaEnrutamiento := by
    intro a e he
    obtain ⟨p', hp', hk, hpt⟩ := hall _ (mem_of_buscar _ _ _ he)
    refine ⟨p'.2, buscar_of_mem _ _ _ hbf'.1 ?_, hpt⟩
    have : (a, p'.2) = p' := Prod.ext hk.symm rfl
    rw [this]; exact hp'
  have hex : ∀ a, r.existeEnrutador a = r'.existeEnrutador a := by
    intro a
    rw [Bool.eq_iff_iff, existe_iff_claves, existe_iff_claves]
    exact hperm.mem_iff
  refine ⟨hex, ?_⟩
  intro a b
  unfold Red.costoEnlace
  cases hb : buscar r.enrutadores a with
  | some e =>
    obtain ⟨e', he', hpt⟩ := htab a e hb
    rw [he']
    exact (buscar_perm _ _ (hbf'.2 _ (mem_of_buscar _ _ _ he')) hpt b).symm
  | none =>
    have h1 := hex a
    unfold Red.existeEnrutador at h1
    rw [hb] at h1
    cases hb' : buscar r'.enrutadores a with
    | none => rfl
    | some e' => rw [hb'] at h1; cases h1

theorem poner_conmuta {β : Type} (f : String → β) (a b : String) (x y : β) (h : a ≠ b) :
    poner (poner f a x) b y = poner (poner f b y) a x := by
  funext k
  unfold poner
  by_cases h1 : k = a
  · by_cases h2 : k = b
    · exact absurd (h1.symm.trans h2) h
    · simp [h1, h]
  · by_cases h2 : k = b
    · have h3 : ¬ b = a := fun e => h e.symm
      simp [h2, h3]
    · simp [h1, h2]

theorem poner_otro {β : Type} (f : String → β) (a b : String) (x : β) (h : b ≠ a) :
    poner f a x b = f b := by
  simp [poner, h]

theorem mismoEstado0_refl (s : Estado) : E0.mismoEstado s s :=
  ⟨rfl, rfl, fun _ => Iff.rfl⟩

theorem mismoEstado0_trans (a b c : Estado) (h1 : E0.mismoEstado a b)
    (h2 : E0.mismoEstado b c) : E0.mismoEstado a c :=
  ⟨h1.1.trans h2.1, h1.2.1.trans h2.2.1, fun e => (h1.2.2 e).trans (h2.2.2 e)⟩

theorem mismoEstado1_refl (s : Estado) : E1.mismoEstado s s :=
  ⟨rfl, rfl, List.Perm.refl _⟩

theorem mismoEstado1_trans (a b c : Estado) (h1 : E1.mismoEstado a b)
    (h2 : E1.mismoEstado b c) : E1.mismoEstado a c :=
  ⟨h1.1.trans h2.1, h1.2.1.trans h2.2.1, h1.2.2.trans h2.2.2⟩

theorem relajar0_respeta (d : Int) (u : String) (s t : Estado) (p : String × Int)
    (h : E0.mismoEstado s t) : E0.mismoEstado (E0.relajar d u s p) (E0.relajar d u t p) := by
  obtain ⟨hd, ha, hq⟩ := h
  unfold E0.relajar
  simp only
  rw [hd]
  by_cases hc : envolver (d + p.2) < t.distancias p.1
  · simp only [hc, if_true]
    refine ⟨rfl, by simp only [ha], ?_⟩
    intro e
    simp only [mem_insertar, mem_quitar, hq]
  · simp only [hc, if_false]
    exact ⟨hd, ha, hq⟩

theorem relajar1_respeta (d : Int) (u : String) (s t : Estado) (p : String × Int)
    (h : E1.mismoEstado s t) : E1.mismoEstado (E1.relajar d u s p) (E1.relajar d u t p) := by
  obtain ⟨hd, ha, hq⟩ := h
  unfold E1.relajar
  simp only
  rw [hd]
  by_cases hc : envolver (d + p.2) < t.distancias p.1
  · simp only [hc, if_true]
    exact ⟨rfl, by simp only [ha], List.Perm.cons _ hq⟩
  · simp only [hc, if_false]
    exact ⟨hd, ha, hq⟩

theorem relajar0_conmuta (d : Int) (u : String) (s : Estado) (p q : String × Int)
    (hne : p.1 ≠ q.1) :
    E0.mismoEstado (E0.relajar d u (E0.relajar d u s p) q)
      (E0.relajar d u (E0.relajar d u s q) p) := by
  have hne' : q.1 ≠ p.1 := fun e => hne e.symm
  unfold E0.relajar
  simp only
  by_cases hp : envolver (d + p.2) < s.distancias p.1
  · by_cases hq : envolver (d + q.2) < s.distancias q.1
    · simp only [hp, hq, if_true, poner_otro _ _ _ _ hne, poner_otro _ _ _ _ hne']
      refine ⟨poner_conmuta _ _ _ _ _ hne, poner_conmuta _ _ _ _ _ hne, ?_⟩
      intro e
      simp only [mem_insertar, mem_quitar]
      have h1 : (envolver (d + p.2), p.1) ≠ (s.distancias q.1, q.1) :=
        fun h => hne (congrArg Prod.snd h)
      have h2 : (envolver (d + q.2), q.1) ≠ (s.distancias p.1, p.1) :=
        fun h => hne' (congrArg Prod.snd h)
      constructor
      · rintro (h | ⟨h | ⟨h3, h4⟩, h5⟩)
        · exact Or.inr ⟨Or.inl h, h ▸ h2⟩
        · exact Or.inl h
        · exact Or.inr ⟨Or.inr ⟨h3, h5⟩, h4⟩
      · rintro (h | ⟨h | ⟨h3, h4⟩, h5⟩)
        · exact Or.inr ⟨Or.inl h, h ▸ h1⟩
        · exact Or.inl h
        · exact Or.inr ⟨Or.inr ⟨h3, h5⟩, h4⟩
    · simp only [hp, hq, if_true, if_false, poner_otro _ _ _ _ hne, poner_otro _ _ _ _ hne']
      exact mismoEstado0_refl _
  · by_cases hq : envolver (d + q.2) < s.distancias q.1
    · simp only [hp, hq, if_true, if_false, poner_otro _ _ _ _ hne, poner_otro _ _ _ _ hne']
      exact mismoEstado0_refl _
    · simp only [hp, hq, if_false]
      exact mismoEstado0_refl _

theorem relajar1_conmuta (d : Int) (u : String) (s : Estado) (p q : String × Int)
    (hne : p.1 ≠ q.1) :
    E1.mismoEstado (E1.relajar d u (E1.relajar d u s p) q)
      (E1.relajar d u (E1.relajar d u s q) p) := by
  have hne' : q.1 ≠ p.1 := fun e => hne e.symm
  unfold E1.relajar
  simp only
  by_cases hp : envolver (d + p.2) < s.distancias p.1
  · by_cases hq : envolver (d + q.2) < s.distancias q.1
    · simp only [hp, hq, if_true, poner_otro _ _ _ _ hne, poner_otro _ _ _ _ hne']
      exact ⟨poner_conmuta _ _ _ _ _ hne, poner_conmuta _ _ _ _ _ hne, List.Perm.swap _ _ _⟩
    · simp only [hp, hq, if_true, if_false, poner_otro _ _ _ _ hne, poner_otro _ _ _ _ hne']
      exact mismoEstado1_refl _
  · by_cases hq : envolver (d + q.2) < s.distancias q.1
    · simp only [hp, hq, if_true, if_false, poner_otro _ _ _ _ hne, poner_otro _ _ _ _ hne']
      exact mismoEstado1_refl _
    · simp only [hp, hq, if_false]
      exact mismoEstado1_refl _

theorem paso0_congr (r r' : Red) (hbf : r.bienFormada) (hbf' : r'.bienFormada)
    (h : r.mismaTopologia r') (d : String) (s t : Estado) (hst : E0.mismoEstado s t) :
    mismoPaso E0.mismoEstado (E0.paso r d s) (E0.paso r' d t) := by
  obtain ⟨hd, ha, hq⟩ := hst
  unfold E0.paso
  rw [minimo_congr _ _ hq]
  cases hm : minimo t.nodosActivos with
  | none => exact ⟨hd, ha, hq⟩
  | some m =>
    obtain ⟨dist, actual⟩ := m
    have h1 : E0.mismoEstado { s with nodosActivos := E0.quitar (dist, actual) s.nodosActivos }
        { t with nodosActivos := E0.quitar (dist, actual) t.nodosActivos } :=
      ⟨hd, ha, fun e => by simp only [mem_quitar, hq]⟩
    simp only
    by_cases hdest : actual = d
    · simp only [hdest, if_true]
      rw [hdest] at h1
      exact h1
    · simp only [hdest, if_false]
      rcases tablas_de_mismaTopologia r r' hbf hbf' h actual with ⟨h2, h3⟩ | ⟨e, e', h2, h3, h4, h5⟩
      · rw [h2, h3]
        exact rfl
      · rw [h2, h3]
        exact foldl_reordenado E0.mismoEstado (E0.relajar dist actual) mismoEstado0_refl
          mismoEstado0_trans (fun s t p => relajar0_respeta dist actual s t p)
          (fun s p q => relajar0_conmuta dist actual s p q) _ _ h4 h5 _ _ h1

theorem erase_perm (q q' : List (Int × String)) (e : Int × String) (hq : q.Perm q') :
    (q.erase e).Perm (q'.erase e) := by
  have h : ∀ l : List (Int × String),
      l.erase e = @List.erase _ instBEqOfDecidableEq l e := by
    intro l
    induction l with
    | nil => rfl
    | cons a l ih =>
      rw [@List.erase_cons _ instBEqProd, @List.erase_cons _ instBEqOfDecidableEq, ih]
      by_cases hae : a = e
      · have h1 : @BEq.beq _ instBEqProd a e = true := by rw [hae]; exact beq_self_eq_true e
        have h2 : @BEq.beq _ instBEqOfDecidableEq a e = true := by
          rw [hae]; exact decide_eq_true rfl
        rw [if_pos h1, if_pos h2]
      · have h1 : ¬ @BEq.beq _ instBEqProd a e = true := fun hc => hae (eq_of_beq hc)
        have h2 : ¬ @BEq.beq _ instBEqOfDecidableEq a e = true :=
          fun hc => hae (of_decide_eq_true hc)
        rw [if_neg h1, if_neg h2]
  rw [h q, h q']
  exact List.Perm.erase e hq

theorem paso1_congr (r r' : Red) (hbf : r.bienFormada) (hbf' : r'.bienFormada)
    (h : r.mismaTopologia r') (d : String) (s t : Estado) (hst : E1.mismoEstado s t) :
    mismoPaso E1.mismoEstado (E1.paso r d s) (E1.paso r' d t) := by
  obtain ⟨hd, ha, hq⟩ := hst
  unfold E1.paso
  rw [minimo_congr _ _ (fun e => hq.mem_iff)]
  cases hm : minimo t.nodosActivos with
  | none => exact ⟨hd, ha, hq⟩
  | some m =>
    obtain ⟨dist, actual⟩ := m
    have h1 : E1.mismoEstado { s with nodosActivos := s.nodosActivos.erase (dist, actual) }
        { t with nodosActivos := t.nodosActivos.erase (dist, actual) } :=
      ⟨hd, ha, erase_perm _ _ (dist, actual) hq⟩
    simp only
    by_cases hdest : actual = d
    · simp only [hdest, if_true]
      rw [hdest] at h1
      exact h1
    · simp only [hdest, if_false]
      by_cases hviejo : dist > t.distancias actual
      · have hviejo' : dist > s.distancias actual := by rw [hd]; exact hviejo
        simp only [hviejo, hviejo', if_true]
        exact h1
      · have hviejo' : ¬ dist > s.distancias actual := by rw [hd]; exact hviejo
        simp only [hviejo, hviejo', if_false]
        rcases tablas_de_mismaTopologia r r' hbf hbf' h actual with
          ⟨h2, h3⟩ | ⟨e, e', h2, h3, h4, h5⟩
        · rw [h2, h3]
          exact rfl
        · rw [h2, h3]
          exact foldl_reordenado E1.mismoEstado (E1.relajar dist actual) mismoEstado1_refl
            mismoEstado1_trans (fun s t p => relajar1_respeta dist actual s t p)
            (fun s p q => relajar1_conmuta dist actual s p q) _ _ h4 h5 _ _ h1

theorem iterar_congr (R : Estado → Estado → Prop) (p p' : Estado → Paso)
    (h : ∀ s t, R s t → mismoPaso R (p s) (p' t)) :
    ∀ (n : Nat) (s t : Estado), R s t → mismoFinal R (iterar p n s) (iterar p' n t) := by
  intro n
  induction n with
  | zero => intro s t _; exact trivial
  | succ n ih =>
    intro s t hst
    have h1 := h s t hst
    unfold iterar
    cases hp : p s with
    | fin s1 =>
      cases hp' : p' t with
      | fin t1 => rw [hp, hp'] at h1; exact h1
      | sigue t1 => rw [hp, hp'] at h1; exact h1.elim
      | falla e => rw [hp, hp'] at h1; exact h1.elim
    | sigue s1 =>
      cases hp' : p' t with
      | fin t1 => rw [hp, hp'] at h1; exact h1.elim
      | sigue t1 => rw [hp, hp'] at h1; exact ih s1 t1 h1
      | falla e => rw [hp, hp'] at h1; exact h1.elim
    | falla e =>
      cases hp' : p' t with
      | fin t1 => rw [hp, hp'] at h1; exact h1.elim
      | sigue t1 => rw [hp, hp'] at h1; exact h1.elim
      | falla e' => rw [hp, hp'] at h1; exact h1

theorem estadoInicial_congr (r r' : Red) (h : r.mismaTopologia r') (o : String) :
    estadoInicial r o = estadoInicial r' o := by
  have hd : (estadoInicial r o).distancias = (estadoInicial r' o).distancias := by
    funext v
    rw [distancias_inicial, distancias_inicial]
    have h1 : v ∈ claves r.enrutadores ↔ v ∈ claves r'.enrutadores := by
      rw [← existe_iff_claves, ← existe_iff_claves, h.1 v]
    simp only [h1]
  unfold estadoInicial at hd ⊢
  simp only at hd
  rw [hd]

/-- The answer of enrutador0.cpp is the same on two stores with the same routers and links. -/
theorem busqueda0_congr (r r' : Red) (hbf : r.bienFormada) (hbf' : r'.bienFormada)
    (h : r.mismaTopologia r') (fuel : Nat) (o d : String) :
    E0.encontrarRutaMasCorta fuel r o d = E0.encontrarRutaMasCorta fuel r' o d := by
  have h1 := iterar_congr E0.mismoEstado (E0.paso r d) (E0.paso r' d)
    (paso0_congr r r' hbf hbf' h d) fuel (estadoInicial r o) (estadoInicial r o)
    (mismoEstado0_refl _)
  unfold E0.encontrarRutaMasCorta
  rw [h.1 o, h.1 d, ← estadoInicial_congr r r' h o]
  cases hi : iterar (E0.paso r d) fuel (estadoInicial r o) with
  | none =>
    cases hi' : iterar (E0.paso r' d) fuel (estadoInicial r o) with
    | none => rfl
    | some x => rw [hi, hi'] at h1; cases x <;> exact h1.elim
  | some x =>
    cases hi' : iterar (E0.paso r' d) fuel (estadoInicial r o) with
    | none => rw [hi, hi'] at h1; cases x <;> exact h1.elim
    | some y =>
      rw [hi, hi'] at h1
      cases x with
      | error e =>
        cases y with
        | error e' => have : e = e' := h1; rw [this]
        | ok t => exact h1.elim
      | ok s =>
        cases y with
        | error e' => exact h1.elim
        | ok t =>
          have h2 : E0.mismoEstado s t := h1
          simp only [h2.1, h2.2.1]

/-- The answer of enrutador1.cpp is the same on two stores with the same routers and links. -/
theorem busqueda1_congr (r r' : Red) (hbf : r.bienFormada) (hbf' : r'.bienFormada)
    (h : r.mismaTopologia r') (fuel : Nat) (o d : String) :
    E1.encontrarRutaMasCorta fuel r o d = E1.encontrarRutaMasCorta fuel r' o d := by
  have h1 := iterar_congr E1.mismoEstado (E1.paso r d) (E1.paso r' d)
    (paso1_congr r r' hbf hbf' h d) fuel (estadoInicial r o) (estadoInicial r o)
    (mismoEstado1_refl _)
  unfold E1.encontrarRutaMasCorta
  rw [h.1 o, h.1 d, ← estadoInicial_congr r r' h o]
  cases hi : iterar (E1.paso r d) fuel (estadoInicial r o) with
  | none =>
    cases hi' : iterar (E1.paso r' d) fuel (estadoInicial r o) with
    | none => rfl
    | some x => rw [hi, hi'] at h1; cases x <;> exact h1.elim
  | some x =>
    cases hi' : iterar (E1.paso r' d) fuel (estadoInicial r o) with
    | none => rw [hi, hi'] at h1; cases x <;> exact h1.elim
    | some y =>
      rw [hi, hi'] at h1
      cases x with
      | error e =>
        cases y with
        | error e' => have : e = e' := h1; rw [this]
        | ok t => exact h1.elim
      | ok s =>
        cases y with
        | error e' => exact h1.elim
        | ok t =>
          have h2 : E1.mismoEstado s t := h1
          simp only [h2.1, h2.2.1]

/-- C15. Determinism under enumeration order: two well-formed stores that hold
    the same routers and the same links (the same `existeEnrutador` and the same
    `costoEnlace` everywhere), in whatever order their maps and routing tables
    list them, give the same outcome of `encontrarRutaMasCorta` for every query
    and every fuel: the same cost and the same router sequence, the same
    exception, or no result for either; both source files. Neither the sign of
    the costs nor the existence of the two routers is needed. -/
theorem C15_independiente_del_orden (r r' : Red) (hbf : r.bienFormada)
    (hbf' : r'.bienFormada) (h : r.mismaTopologia r') (fuel : Nat) (o d : String) :
    E0.encontrarRutaMasCorta fuel r o d = E0.encontrarRutaMasCorta fuel r' o d ∧
      E1.encontrarRutaMasCorta fuel r o d = E1.encontrarRutaMasCorta fuel r' o d :=
  ⟨busqueda0_congr r r' hbf hbf' h fuel o d, busqueda1_congr r r' hbf hbf' h fuel o d⟩

theorem C15_independiente_del_orden_witness :
    ciclo4.enrutadores ≠ ciclo4Inverso.enrutadores ∧
      E0.encontrarRutaMasCorta 9 ciclo4Inverso "A" "C" = some (.ok (2, ["A", "B", "C"])) ∧
      (E0.encontrarRutaMasCorta 9 ciclo4 "A" "C"
          = E0.encontrarRutaMasCorta 9 ciclo4Inverso "A" "C" ∧
        E1.encontrarRutaMasCorta 9 ciclo4 "A" "C"
          = E1.encontrarRutaMasCorta 9 ciclo4Inverso "A" "C") :=
  ⟨by decide, rfl,
    C15_independiente_del_orden ciclo4 ciclo4Inverso (invariante_tras _).1
      (invariante_tras _).1
      (mismaTopologia_de_reordenada _ _ (invariante_tras _).1 (invariante_tras _).1
        (by decide)) 9 "A" "C"⟩

/-! ## The random topology generator -/

theorem digitChar_valor (k : Nat) (h : k < 10) : (Nat.digitChar k).toNat - 48 = k := by
  interval_cases k <;> rfl

theorem valor_toDigitsCore (fuel n : Nat) (ds : List Char) (h : n < fuel) :
    valorDigitos 0 (Nat.toDigitsCore 10 fuel n ds) = valorDigitos n ds := by
  induction fuel generalizing n ds with
  | zero => omega
  | succ fuel ih =>
    unfold Nat.toDigitsCore
    simp only
    by_cases h0 : n / 10 = 0
    · simp only [h0, if_true]
      have hn : n % 10 = n := Nat.mod_eq_of_lt (by omega)
      unfold valorDigitos
      rw [List.foldl_cons, digitChar_valor _ (Nat.mod_lt _ (by decide)), hn]
      simp
    · simp only [h0, if_false]
      rw [ih (n / 10) _ (by omega)]
      unfold valorDigitos
      rw [List.foldl_cons, digitChar_valor _ (Nat.mod_lt _ (by decide))]
      congr 1
      omega

theorem nombreE_inyectiva (i j : Nat) (h : nombreE i = nombreE j) : i = j := by
  unfold nombreE at h
  have h1 : (toString i).data = (toString j).data := by
    have h2 := congrArg String.data h
    simpa using h2
  have h3 : Nat.toDigits 10 i = Nat.toDigits 10 j := h1
  have h4 := congrArg (valorDigitos 0) h3
  unfold Nat.toDigits at h4
  rw [valor_toDigitsCore _ _ _ (Nat.lt_succ_self i), valor_toDigitsCore _ _ _ (Nat.lt_succ_self j)] at h4
  simpa [valorDigitos] using h4

theorem nombreE_no_vacio (i : Nat) : nombreE i ≠ "" := by
  unfold nombreE
  intro h
  have h2 := congrArg String.length h
  simp at h2
  exact absurd h2.1 (by decide)

theorem actualizarEnlace_exito (r : Red) (a b : String) (c : Int)
    (h : (r.actualizarEnlace a b c).1 = .ok ()) :
    r.existeEnrutador a = true ∧ r.existeEnrutador b = true ∧ 0 ≤ c := by
  by_cases ha : r.existeEnrutador a = true
  · by_cases hb : r.existeEnrutador b = true
    · by_cases hc : c < 0
      · simp [Red.actualizarEnlace, ha, hb, hc] at h
      · exact ⟨ha, hb, not_lt.1 hc⟩
    · simp [Red.actualizarEnlace, ha, hb] at h
  · simp [Red.actualizarEnlace, ha] at h

theorem actualizarEnlace_resultado (r : Red) (a b : String) (c : Int)
    (ha : r.existeEnrutador a = true) (hb : r.existeEnrutador b = true) (hc : 0 ≤ c) :
    (r.actualizarEnlace a b c).1 = .ok () := by
  obtain ⟨ea, eb, _, _, h⟩ := actualizarEnlace_ok r a b c ha hb hc
  rw [h]

theorem generada_existe (n : Nat) (r : Red) (hG : Generada n r) (i : Nat) (hi : i < n) :
    r.existeEnrutador (nombreE i) = true :=
  (hG.2.1 _).2 ⟨i, hi, rfl⟩

/-- A successful link between two distinct generated routers keeps the store a
    generated one and changes the cost of that pair only. -/
theorem generada_enlazar (n : Nat) (r : Red) (i j : Nat) (c : Int) (hG : Generada n r)
    (hi : i < n) (hj : j < n) (hij : i ≠ j) (hc : 0 ≤ c) :
    Generada n (r.actualizarEnlace (nombreE i) (nombreE j) c).2 ∧
      ∀ x y, (r.actualizarEnlace (nombreE i) (nombreE j) c).2.costoEnlace x y =
        if (x = nombreE i ∧ y = nombreE j) ∨ (x = nombreE j ∧ y = nombreE i) then some c
        else r.costoEnlace x y := by
  have hce := costoEnlace_actualizarEnlace r (nombreE i) (nombreE j) c
    (generada_existe n r hG i hi) (generada_existe n r hG j hj) hc
  refine ⟨⟨invariante_enlazar r _ _ c hG.1, ?_, ?_⟩, hce⟩
  · intro x
    rw [existe_actualizarEnlace]
    exact hG.2.1 x
  · intro x
    rw [hce]
    have hne : ¬ ((x = nombreE i ∧ x = nombreE j) ∨ (x = nombreE j ∧ x = nombreE i)) := by
      rintro (⟨h1, h2⟩ | ⟨h1, h2⟩)
      · exact hij (nombreE_inyectiva _ _ (h1.symm.trans h2))
      · exact hij (nombreE_inyectiva _ _ (h2.symm.trans h1))
    rw [if_neg hne]
    exact hG.2.2 x

theorem crearEnrutadores_ok (k i : Nat) (r : Red)
    (hc : claves r.enrutadores = (List.range i).map nombreE)
    (ht : ∀ p ∈ r.enrutadores, p.2.tablaEnrutamiento = []) :
    ∃ r1, Red.crearEnrutadores k i r = (.ok (), r1) ∧
      claves r1.enrutadores = (List.range (i + k)).map nombreE ∧
      ∀ p ∈ r1.enrutadores, p.2.tablaEnrutamiento = [] := by
  induction k generalizing i r with
  | zero => exact ⟨r, rfl, hc, ht⟩
  | succ k ih =>
    have hno : r.existeEnrutador (nombreE i) = false := by
      rw [Bool.eq_false_iff]
      intro h
      rw [existe_iff_claves, hc] at h
      obtain ⟨m, hm, hmi⟩ := List.mem_map.1 h
      have := nombreE_inyectiva _ _ hmi
      rw [List.mem_range] at hm
      omega
    have hag := agregarEnrutador_ok r (nombreE i) (nombreE_no_vacio i) hno
    have hc1 : claves (⟨r.enrutadores ++ [(nombreE i, ⟨[], nombreE i⟩)]⟩ : Red).enrutadores
        = (List.range (i + 1)).map nombreE := by
      unfold claves at hc ⊢
      rw [List.map_append, hc, List.range_succ, List.map_append]
      rfl
    have ht1 : ∀ p ∈ (⟨r.enrutadores ++ [(nombreE i, ⟨[], nombreE i⟩)]⟩ : Red).enrutadores,
        p.2.tablaEnrutamiento = [] := by
      intro p hp
      rcases List.mem_append.1 hp with h | h
      · exact ht p h
      · rw [List.mem_singleton] at h
        rw [h]
    obtain ⟨r1, h1, h2, h3⟩ := ih (i + 1) _ hc1 ht1
    refine ⟨r1, ?_, ?_, h3⟩
    · unfold Red.crearEnrutadores
      rw [hag]
      exact h1
    · rw [h2]
      congr 2
      omega

theorem generada_inicial (n : Nat) (r : Red)
    (hc : claves r.enrutadores = (List.range n).map nombreE)
    (ht : ∀ p ∈ r.enrutadores, p.2.tablaEnrutamiento = []) :
    Generada n r ∧ ∀ x y, r.costoEnlace x y = none := by
  have hnone : ∀ x y, r.costoEnlace x y = none := by
    intro x y
    unfold Red.costoEnlace
    cases hb : buscar r.enrutadores x with
    | none => rfl
    | some e =>
      simp only
      rw [ht _ (mem_of_buscar _ _ _ hb)]
      rfl
  refine ⟨⟨⟨⟨?_, ?_⟩, ?_, ?_⟩, ?_, fun x => hnone x x⟩, hnone⟩
  · unfold clavesUnicas
    rw [hc]
    exact (List.nodup_range n).map (fun a b h => nombreE_inyectiva a b h)
  · intro p hp
    rw [ht p hp]
    exact List.nodup_nil
  · intro a b c
    rw [hnone, hnone]
  · intro p hp q hq
    rw [ht p hp] at hq
    cases hq
  · intro x
    rw [existe_iff_claves, hc, List.mem_map]
    constructor
    · rintro ⟨i, hi, h⟩
      exact ⟨i, List.mem_range.1 hi, h.symm⟩
    · rintro ⟨i, hi, h⟩
      exact ⟨i, List.mem_range.2 hi, h.symm⟩

theorem rand_cota (azar : Nat → Nat) (k : Nat) : rand azar k ≤ 2147483647 := by
  unfold rand RAND_MAX
  have := Nat.mod_lt (azar k) (show 0 < 2147483647 + 1 by decide)
  omega

theorem costoAleatorio_rango (cm : Int) (azar : Nat → Nat) (k : Nat) (h0 : 0 < cm)
    (h1 : cm ≤ INT_MAX) :
    1 ≤ costoAleatorio cm azar k ∧ costoAleatorio cm azar k ≤ cm := by
  unfold costoAleatorio
  unfold INT_MAX at h1
  have h2 : (0 : Int) ≤ (rand azar k : Int) := Int.ofNat_nonneg _
  have h3 := Int.tmod_nonneg cm h2
  have h4 := Int.tmod_lt_of_pos (rand azar k : Int) h0
  rw [envolver_id _ (by omega) (by omega)]
  omega

theorem encadenar_succ (cm : Int) (azar : Nat → Nat) (k i : Nat) (r r2 : Red)
    (h : Red.encadenar cm azar (k + 1) i r = (.ok (), r2)) :
    (r.actualizarEnlace (nombreE i) (nombreE (i + 1)) (costoAleatorio cm azar i)).1 = .ok () ∧
      Red.encadenar cm azar k (i + 1)
        (r.actualizarEnlace (nombreE i) (nombreE (i + 1)) (costoAleatorio cm azar i)).2
          = (.ok (), r2) := by
  unfold Red.encadenar at h
  cases hact : r.actualizarEnlace (nombreE i) (nombreE (i + 1)) (costoAleatorio cm azar i) with
  | mk out r1 =>
    rw [hact] at h
    cases out with
    | error e => simp at h
    | ok u => exact ⟨rfl, h⟩

/-- The chain loop keeps the store a generated one, keeps every link it finds
    and links each router of its range to the next one. -/
theorem encadenar_ok (cm : Int) (azar : Nat → Nat) (n : Nat) (k : Nat) :
    ∀ (i : Nat) (r r2 : Red), Red.encadenar cm azar k i r = (.ok (), r2) → i + k < n →
      Generada n r →
      Generada n r2 ∧
        (∀ x y, (r.costoEnlace x y).isSome = true → (r2.costoEnlace x y).isSome = true) ∧
        ∀ m, i ≤ m → m < i + k →
          (r2.costoEnlace (nombreE m) (nombreE (m + 1))).isSome = true := by
  induction k with
  | zero =>
    intro i r r2 h _ hG
    have : r2 = r := by
      unfold Red.encadenar at h
      exact (Prod.mk.inj h).2.symm
    subst this
    exact ⟨hG, fun _ _ h => h, fun m h1 h2 => by omega⟩
  | succ k ih =>
    intro i r r2 h hik hG
    obtain ⟨hout, hrest⟩ := encadenar_succ cm azar k i r r2 h
    obtain ⟨_, _, hc⟩ := actualizarEnlace_exito _ _ _ _ hout
    obtain ⟨hG1, hce⟩ := generada_enlazar n r i (i + 1) _ hG (by omega) (by omega)
      (by omega) hc
    obtain ⟨hG2, hmono, hlinks⟩ := ih (i + 1) _ r2 hrest (by omega) hG1
    refine ⟨hG2, ?_, ?_⟩
    · intro x y hxy
      apply hmono
      rw [hce]
      split
      · rfl
      · exact hxy
    · intro m h1 h2
      by_cases hm : m = i
      · subst hm
        apply hmono
        rw [hce, if_pos (Or.inl ⟨rfl, rfl⟩)]
        rfl
      · exact hlinks m (by omega) (by omega)

theorem indexar_existente (r : Red) (a : String) (h : r.existeEnrutador a = true) :
    ∃ e, buscar r.enrutadores a = some e ∧ r.indexar a = (e, r) := by
  obtain ⟨e, he⟩ := (existe_iff r a).1 h
  exact ⟨e, he, by unfold Red.indexar; rw [he]⟩

/-- One turn of the `while` of the generator on a generated store: either the
    draw is passed over and the store stays, or a pair of distinct routers whose
    `obtenerCosto` is the sentinel is linked and the counter grows by one. -/
theorem completar_succ (n : Nat) (cm obj : Int) (azar : Nat → Nat) (fuel : Nat) (act : Int)
    (pos : Nat) (r r' : Red) (hn : 0 < n) (hG : Generada n r)
    (h : Red.completar n cm obj azar (fuel + 1) act pos r = some (.ok (), r')) :
    (¬ act < obj ∧ r' = r) ∨
      (act < obj ∧
        (Red.completar n cm obj azar fuel act (pos + 2) r = some (.ok (), r') ∨
          ∃ i j, i < n ∧ j < n ∧ i ≠ j ∧
            (r.costoEnlace (nombreE i) (nombreE j)).getD INT_MAX = INT_MAX ∧
            (r.actualizarEnlace (nombreE i) (nombreE j)
              (costoAleatorio cm azar (pos + 2))).1 = .ok () ∧
            Red.completar n cm obj azar fuel (envolver (act + 1)) (pos + 3)
              (r.actualizarEnlace (nombreE i) (nombreE j)
                (costoAleatorio cm azar (pos + 2))).2 = some (.ok (), r'))) := by
  unfold Red.completar at h
  by_cases hlt : act < obj
  swap
  · left
    rw [if_neg hlt] at h
    exact ⟨hlt, (Prod.mk.inj (Option.some.inj h)).2.symm⟩
  right
  refine ⟨hlt, ?_⟩
  rw [if_pos hlt] at h
  simp only at h
  by_cases hij : rand azar pos % n ≠ rand azar (pos + 1) % n
  swap
  · left
    rw [if_neg hij] at h
    exact h
  rw [if_pos hij] at h
  have hi : rand azar pos % n < n := Nat.mod_lt _ hn
  have hj : rand azar (pos + 1) % n < n := Nat.mod_lt _ hn
  obtain ⟨e, he, hidx⟩ := indexar_existente r _ (generada_existe n r hG _ hi)
  rw [hidx] at h
  simp only at h
  have hcosto := obtenerCosto_eq r (nombreE (rand azar pos % n))
    (nombreE (rand azar (pos + 1) % n)) e he
  by_cases hs : e.obtenerCosto (nombreE (rand azar (pos + 1) % n)) = INT_MAX
  swap
  · left
    rw [if_neg hs] at h
    exact h
  rw [if_pos hs] at h
  right
  refine ⟨_, _, hi, hj, hij, hcosto ▸ hs, ?_⟩
  cases hact : r.actualizarEnlace (nombreE (rand azar pos % n))
      (nombreE (rand azar (pos + 1) % n)) (costoAleatorio cm azar (pos + 2)) with
  | mk out r1 =>
    rw [hact] at h
    cases out with
    | error x => simp at h
    | ok u => exact ⟨rfl, h⟩

/-- The `while` of the generator keeps the store a generated one and keeps every
    link it finds. -/
theorem completar_ok (n : Nat) (cm obj : Int) (azar : Nat → Nat) (hn : 0 < n) (fuel : Nat) :
    ∀ (act : Int) (pos : Nat) (r r' : Red),
      Red.completar n cm obj azar fuel act pos r = some (.ok (), r') → Generada n r →
      Generada n r' ∧
        ∀ x y, (r.costoEnlace x y).isSome = true → (r'.costoEnlace x y).isSome = true := by
  induction fuel with
  | zero =>
    intro act pos r r' h
    unfold Red.completar at h
    cases h
  | succ fuel ih =>
    intro act pos r r' h hG
    rcases completar_succ n cm obj azar fuel act pos r r' hn hG h with
      ⟨_, h1⟩ | ⟨_, h1 | ⟨i, j, hi, hj, hij, _, hout, h1⟩⟩
    · subst h1
      exact ⟨hG, fun _ _ h => h⟩
    · exact ih _ _ _ _ h1 hG
    · obtain ⟨_, _, hc⟩ := actualizarEnlace_exito _ _ _ _ hout
      obtain ⟨hG1, hce⟩ := generada_enlazar n r i j _ hG hi hj hij hc
      obtain ⟨hG2, hmono⟩ := ih _ _ _ _ h1 hG1
      refine ⟨hG2, ?_⟩
      intro x y hxy
      apply hmono
      rw [hce]
      split
      · rfl
      · exact hxy

/-- A run of the generator that returns went through its three loops. -/
theorem generar_fases (fuel : Nat) (r : Red) (nE cm : Int) (dens : Densidad)
    (azar : Nat → Nat) (r' : Red)
    (h : Red.generarRedAleatoria fuel r nE cm dens azar = some (.ok (), r')) :
    0 < nE ∧ 0 < cm ∧ dens.fueraDeRango = false ∧
      ∃ r1 r2, Red.crearEnrutadores nE.toNat 0 Red.vacia = (.ok (), r1) ∧
        Red.encadenar cm azar (nE.toNat - 1) 0 r1 = (.ok (), r2) ∧
        Red.completar nE.toNat cm (dens.escalar (Int.tdiv (envolver (nE * (nE - 1))) 2)) azar
          fuel (nE - 1) (nE.toNat - 1) r2 = some (.ok (), r') := by
  unfold Red.generarRedAleatoria at h
  by_cases hp : nE ≤ 0 ∨ cm ≤ 0 ∨ dens.fueraDeRango = true
  · rw [if_pos hp] at h
    simp at h
  rw [if_neg hp] at h
  simp only [not_or, not_le, Bool.not_eq_true] at hp
  refine ⟨hp.1, hp.2.1, hp.2.2, ?_⟩
  cases h1 : Red.crearEnrutadores nE.toNat 0 Red.vacia with
  | mk out1 r1 =>
    rw [h1] at h
    cases out1 with
    | error e => simp at h
    | ok u =>
      simp only at h
      cases h2 : Red.encadenar cm azar (nE.toNat - 1) 0 r1 with
      | mk out2 r2 =>
        rw [h2] at h
        cases out2 with
        | error e => simp at h
        | ok u2 => exact ⟨r1, r2, rfl, h2, h⟩

/-- Where the store of a run of the generator that returns stands: a generated
    store whose consecutive routers are linked. -/
theorem generar_cadena (fuel : Nat) (r : Red) (nE cm : Int) (dens : Densidad)
    (azar : Nat → Nat) (r' : Red)
    (h : Red.generarRedAleatoria fuel r nE cm dens azar = some (.ok (), r')) :
    Generada nE.toNat r' ∧
      ∀ m, m + 1 < nE.toNat → (r'.costoEnlace (nombreE m) (nombreE (m + 1))).isSome = true := by
  obtain ⟨hn, _, _, r1, r2, h1, h2, h3⟩ := generar_fases fuel r nE cm dens azar r' h
  have hn' : 0 < nE.toNat := by omega
  obtain ⟨r1', h1', hc, ht⟩ := crearEnrutadores_ok nE.toNat 0 Red.vacia rfl
    (fun p hp => by cases hp)
  rw [h1] at h1'
  have hr1 : r1 = r1' := (Prod.mk.inj h1').2
  subst hr1
  rw [Nat.zero_add] at hc
  have hG1 := (generada_inicial nE.toNat r1 hc ht).1
  obtain ⟨hG2, _, hl2⟩ := encadenar_ok cm azar nE.toNat (nE.toNat - 1) 0 r1 r2 h2
    (by omega) hG1
  obtain ⟨hG3, hmono⟩ := completar_ok nE.toNat cm _ azar hn' fuel _ _ r2 r' h3 hG2
  exact ⟨hG3, fun m hm => hmono _ _ (hl2 m (Nat.zero_le _) (by omega))⟩

theorem cadena_conectados (n : Nat) (r : Red)
    (hl : ∀ m, m + 1 < n → (r.costoEnlace (nombreE m) (nombreE (m + 1))).isSome = true) :
    ∀ m, m < n → r.conectados (nombreE 0) (nombreE m) := by
  intro m
  induction m with
  | zero => intro _; exact Relation.ReflTransGen.refl
  | succ m ih =>
    intro hm
    exact Relation.ReflTransGen.tail (ih (by omega)) (hl m hm)

/-- C17. Generated networks are connected: whenever `generarRedAleatoria`
    (enrutador1.cpp) returns, for any router count, maximum cost, density and
    draws, router `Ei` and router `E(i+1)` are linked in both directions for
    every `i` from `0` to `numEnrutadores - 2`, and `esRedConectada`
    (enrutador0.cpp) returns `true` on the resulting store. -/
theorem C17_red_generada_conectada (fuel : Nat) (r : Red) (nE cm : Int) (dens : Densidad)
    (azar : Nat → Nat) (r' : Red)
    (h : Red.generarRedAleatoria fuel r nE cm dens azar = some (.ok (), r')) :
    (∀ i : Nat, (i : Int) + 1 < nE →
      (r'.costoEnlace (nombreE i) (nombreE (i + 1))).isSome = true ∧
      (r'.costoEnlace (nombreE (i + 1)) (nombreE i)).isSome = true) ∧
    ∀ fuel', cotaConexion r' ≤ fuel' → r'.esRedConectada fuel' = some (.ok true) := by
  obtain ⟨hG, hl⟩ := generar_cadena fuel r nE cm dens azar r' h
  have hsim : ∀ a b, (r'.costoEnlace a b).isSome = true → (r'.costoEnlace b a).isSome = true := by
    intro a b hab
    cases hc : r'.costoEnlace a b with
    | none => rw [hc] at hab; cases hab
    | some c => rw [(hG.1.2.1 a b c).1 hc]; rfl
  refine ⟨?_, ?_⟩
  · intro i hi
    have h1 := hl i (by omega)
    exact ⟨h1, hsim _ _ h1⟩
  · intro fuel' hf
    obtain ⟨b, hb, hiff⟩ := veredicto r' fuel' hG.1 hf
    have hb' : b = true := by
      rw [hiff]
      intro x y hx hy
      obtain ⟨i, hi, rfl⟩ := (hG.2.1 x).1 hx
      obtain ⟨j, hj, rfl⟩ := (hG.2.1 y).1 hy
      exact Relation.ReflTransGen.trans
        (conectados_simetrico r' hG.1.2.1 _ _ (cadena_conectados _ r' hl i hi))
        (cadena_conectados _ r' hl j hj)
    rw [hb, hb']

theorem C17_red_generada_conectada_witness :
    Red.generarRedAleatoria 1 Red.vacia 3 10 ⟨false, fun m => Int.tdiv (m * 6) 10⟩
        (azarDe [3, 0]) = some (.ok (), redCadena) ∧
    ((∀ i : Nat, (i : Int) + 1 < 3 →
      (redCadena.costoEnlace (nombreE i) (nombreE (i + 1))).isSome = true ∧
      (redCadena.costoEnlace (nombreE (i + 1)) (nombreE i)).isSome = true) ∧
    ∀ fuel', cotaConexion redCadena ≤ fuel' →
      redCadena.esRedConectada fuel' = some (.ok true)) :=
  ⟨by rfl, C17_red_generada_conectada 1 Red.vacia 3 10
    ⟨false, fun m => Int.tdiv (m * 6) 10⟩ (azarDe [3, 0]) redCadena (by rfl)⟩

theorem simetrica_none (r : Red) (hs : r.simetrica) (a b : String)
    (h : r.costoEnlace a b = none) : r.costoEnlace b a = none := by
  cases hc : r.costoEnlace b a with
  | none => rfl
  | some c => rw [(hs b a c).1 hc] at h; cases h

theorem mem_enlacesDirigidos (n : Nat) (r : Red) (p : Nat × Nat) :
    p ∈ enlacesDirigidos n r ↔
      p.1 < n ∧ p.2 < n ∧ (r.costoEnlace (nombreE p.1) (nombreE p.2)).isSome = true := by
  unfold enlacesDirigidos
  rw [Finset.mem_filter, Finset.mem_product, Finset.mem_range, Finset.mem_range]
  exact and_assoc

/-- Linking two generated routers that were not linked adds two ordered pairs. -/
theorem dirigidos_nuevo (n : Nat) (r : Red) (i j : Nat) (c : Int) (hG : Generada n r)
    (hi : i < n) (hj : j < n) (hij : i ≠ j) (hc : 0 ≤ c)
    (hnone : r.costoEnlace (nombreE i) (nombreE j) = none) :
    (enlacesDirigidos n (r.actualizarEnlace (nombreE i) (nombreE j) c).2).card =
      (enlacesDirigidos n r).card + 2 := by
  obtain ⟨_, hce⟩ := generada_enlazar n r i j c hG hi hj hij hc
  have hnone' := simetrica_none r hG.1.2.1 _ _ hnone
  have h1 : (j, i) ∉ enlacesDirigidos n r := by
    rw [mem_enlacesDirigidos]
    rintro ⟨_, _, h⟩
    rw [hnone'] at h
    cases h
  have h2 : (i, j) ∉ insert (j, i) (enlacesDirigidos n r) := by
    rw [Finset.mem_insert, mem_enlacesDirigidos]
    rintro (h | ⟨_, _, h⟩)
    · exact hij (congrArg Prod.fst h)
    · rw [hnone] at h
      cases h
  have h3 : enlacesDirigidos n (r.actualizarEnlace (nombreE i) (nombreE j) c).2 =
      insert (i, j) (insert (j, i) (enlacesDirigidos n r)) := by
    ext p
    obtain ⟨a, b⟩ := p
    rw [Finset.mem_insert, Finset.mem_insert, mem_enlacesDirigidos, mem_enlacesDirigidos, hce]
    simp only [Prod.mk.injEq]
    constructor
    · rintro ⟨ha, hb, h⟩
      by_cases hcond : (nombreE a = nombreE i ∧ nombreE b = nombreE j) ∨
          (nombreE a = nombreE j ∧ nombreE b = nombreE i)
      · rcases hcond with ⟨h4, h5⟩ | ⟨h4, h5⟩
        · exact Or.inl ⟨nombreE_inyectiva _ _ h4, nombreE_inyectiva _ _ h5⟩
        · exact Or.inr (Or.inl ⟨nombreE_inyectiva _ _ h4, nombreE_inyectiva _ _ h5⟩)
      · rw [if_neg hcond] at h
        exact Or.inr (Or.inr ⟨ha, hb, h⟩)
    · rintro (⟨h4, h5⟩ | ⟨h4, h5⟩ | ⟨ha, hb, h⟩)
      · subst h4 h5
        exact ⟨hi, hj, by rw [if_pos (Or.inl ⟨rfl, rfl⟩)]; rfl⟩
      · subst h4 h5
        exact ⟨hj, hi, by rw [if_pos (Or.inr ⟨rfl, rfl⟩)]; rfl⟩
      · refine ⟨ha, hb, ?_⟩
        split
        · rfl
        · exact h
  rw [h3, Finset.card_insert_of_not_mem h2, Finset.card_insert_of_not_mem h1]

/-- The chain loop under a maximum cost below the sentinel: every turn adds two
    ordered pairs, and no cost in the store is the sentinel. -/
theorem encadenar_cuenta (cm : Int) (azar : Nat → Nat) (n : Nat) (hcm0 : 0 < cm)
    (hcm : cm < INT_MAX) (k : Nat) :
    ∀ (i : Nat) (r r2 : Red), Red.encadenar cm azar k i r = (.ok (), r2) → i + k < n →
      Generada n r →
      (∀ m, i < m → m < n → ∀ y, r.costoEnlace (nombreE m) y = none) →
      (∀ x y c, r.costoEnlace x y = some c → c < INT_MAX) →
      (enlacesDirigidos n r2).card = (enlacesDirigidos n r).card + 2 * k ∧
        ∀ x y c, r2.costoEnlace x y = some c → c < INT_MAX := by
  induction k with
  | zero =>
    intro i r r2 h _ _ _ hsen
    have : r2 = r := by
      unfold Red.encadenar at h
      exact (Prod.mk.inj h).2.symm
    subst this
    exact ⟨rfl, hsen⟩
  | succ k ih =>
    intro i r r2 h hik hG hlib hsen
    obtain ⟨hout, hrest⟩ := encadenar_succ cm azar k i r r2 h
    obtain ⟨_, _, hc⟩ := actualizarEnlace_exito _ _ _ _ hout
    obtain ⟨hG1, hce⟩ := generada_enlazar n r i (i + 1) _ hG (by omega) (by omega)
      (by omega) hc
    have hnone : r.costoEnlace (nombreE i) (nombreE (i + 1)) = none :=
      simetrica_none r hG.1.2.1 _ _ (hlib (i + 1) (by omega) (by omega) _)
    have hcard := dirigidos_nuevo n r i (i + 1) _ hG (by omega) (by omega) (by omega) hc hnone
    have hlib1 : ∀ m, i + 1 < m → m < n → ∀ y,
        (r.actualizarEnlace (nombreE i) (nombreE (i + 1))
          (costoAleatorio cm azar i)).2.costoEnlace (nombreE m) y = none := by
      intro m hm1 hm2 y
      rw [hce]
      have hne : ¬ ((nombreE m = nombreE i ∧ y = nombreE (i + 1)) ∨
          (nombreE m = nombreE (i + 1) ∧ y = nombreE i)) := by
        rintro (⟨h1, _⟩ | ⟨h1, _⟩)
        · have := nombreE_inyectiva _ _ h1; omega
        · have := nombreE_inyectiva _ _ h1; omega
      rw [if_neg hne]
      exact hlib m (by omega) hm2 y
    have hsen1 : ∀ x y c, (r.actualizarEnlace (nombreE i) (nombreE (i + 1))
          (costoAleatorio cm azar i)).2.costoEnlace x y = some c → c < INT_MAX := by
      intro x y c hxy
      rw [hce] at hxy
      split at hxy
      · have := (costoAleatorio_rango cm azar i hcm0 (le_of_lt hcm)).2
        have h5 : costoAleatorio cm azar i = c := Option.some.inj hxy
        omega
      · exact hsen x y c hxy
    obtain ⟨h6, h7⟩ := ih (i + 1) _ r2 hrest (by omega) hG1 hlib1 hsen1
    refine ⟨?_, h7⟩
    rw [h6, hcard]
    omega

/-- The `while` of the generator under a maximum cost below the sentinel: the
    counter is half the number of ordered linked pairs, and it has reached the
    target when the loop returns. -/
theorem completar_cuenta (n : Nat) (cm obj : Int) (azar : Nat → Nat) (hn : 0 < n)
    (hcm0 : 0 < cm) (hcm : cm < INT_MAX) (hobj : obj ≤ INT_MAX) (fuel : Nat) :
    ∀ (act : Int) (pos : Nat) (r r' : Red),
      Red.completar n cm obj azar fuel act pos r = some (.ok (), r') → Generada n r →
      (∀ x y c, r.costoEnlace x y = some c → c < INT_MAX) →
      ((enlacesDirigidos n r).card : Int) = 2 * act →
      ∃ act', obj ≤ act' ∧ ((enlacesDirigidos n r').card : Int) = 2 * act' := by
  induction fuel with
  | zero =>
    intro act pos r r' h
    unfold Red.completar at h
    cases h
  | succ fuel ih =>
    intro act pos r r' h hG hsen hcard
    rcases completar_succ n cm obj azar fuel act pos r r' hn hG h with
      ⟨h0, h1⟩ | ⟨hlt, h1 | ⟨i, j, hi, hj, hij, hcosto, hout, h1⟩⟩
    · subst h1
      exact ⟨act, not_lt.1 h0, hcard⟩
    · exact ih _ _ _ _ h1 hG hsen hcard
    · obtain ⟨_, _, hc⟩ := actualizarEnlace_exito _ _ _ _ hout
      obtain ⟨hG1, hce⟩ := generada_enlazar n r i j _ hG hi hj hij hc
      have hnone : r.costoEnlace (nombreE i) (nombreE j) = none := by
        cases hv : r.costoEnlace (nombreE i) (nombreE j) with
        | none => rfl
        | some c =>
          rw [hv] at hcosto
          have h2 := hsen _ _ c hv
          have h3 : c = INT_MAX := hcosto
          omega
      have hcard1 := dirigidos_nuevo n r i j _ hG hi hj hij hc hnone
      have hsen1 : ∀ x y c, (r.actualizarEnlace (nombreE i) (nombreE j)
          (costoAleatorio cm azar (pos + 2))).2.costoEnlace x y = some c → c < INT_MAX := by
        intro x y c hxy
        rw [hce] at hxy
        split at hxy
        · have := (costoAleatorio_rango cm azar (pos + 2) hcm0 (le_of_lt hcm)).2
          have h5 : costoAleatorio cm azar (pos + 2) = c := Option.some.inj hxy
          omega
        · exact hsen x y c hxy
      have hact : envolver (act + 1) = act + 1 := by
        unfold INT_MAX at hobj
        exact envolver_id _ (by omega) (by omega)
      refine ih _ _ _ _ h1 hG1 hsen1 ?_
      rw [hcard1, hact]
      push_cast
      omega

/-- At density `1.0`, within the range of `int` and with a maximum cost below
    the sentinel, a run of the generator that returns has linked every pair of
    distinct routers. -/
theorem generar_completa (fuel : Nat) (r : Red) (nE cm : Int) (azar : Nat → Nat) (r' : Red)
    (hN : nE * (nE - 1) ≤ INT_MAX) (hcm : cm < INT_MAX)
    (h : Red.generarRedAleatoria fuel r nE cm Densidad.uno azar = some (.ok (), r')) :
    Generada nE.toNat r' ∧
      ∀ i j, i < nE.toNat → j < nE.toNat → i ≠ j →
        (r'.costoEnlace (nombreE i) (nombreE j)).isSome = true := by
  obtain ⟨hn, hcm0, _, r1, r2, h1, h2, h3⟩ := generar_fases fuel r nE cm _ azar r' h
  have hn' : 0 < nE.toNat := by omega
  have hcast : (nE.toNat : Int) = nE := Int.toNat_of_nonneg (le_of_lt hn)
  obtain ⟨r1', h1', hc, ht⟩ := crearEnrutadores_ok nE.toNat 0 Red.vacia rfl
    (fun p hp => by cases hp)
  rw [h1] at h1'
  have hr1 : r1 = r1' := (Prod.mk.inj h1').2
  subst hr1
  rw [Nat.zero_add] at hc
  obtain ⟨hG1, hnone1⟩ := generada_inicial nE.toNat r1 hc ht
  have hvacio : (enlacesDirigidos nE.toNat r1).card = 0 := by
    rw [Finset.card_eq_zero, Finset.eq_empty_iff_forall_not_mem]
    intro p hp
    have := ((mem_enlacesDirigidos _ _ _).1 hp).2.2
    rw [hnone1] at this
    cases this
  obtain ⟨hG2, _, _⟩ := encadenar_ok cm azar nE.toNat (nE.toNat - 1) 0 r1 r2 h2
    (by omega) hG1
  obtain ⟨hcard2, hsen2⟩ := encadenar_cuenta cm azar nE.toNat hcm0 hcm (nE.toNat - 1) 0 r1 r2
    h2 (by omega) hG1 (fun m _ _ y => hnone1 _ y)
    (fun x y c hxy => by rw [hnone1] at hxy; cases hxy)
  obtain ⟨hG3, _⟩ := completar_ok nE.toNat cm _ azar hn' fuel _ _ r2 r' h3 hG2
  have hX0 : 0 ≤ nE * (nE - 1) := mul_nonneg (le_of_lt hn) (by omega)
  obtain ⟨q, hq⟩ := Nat.even_mul_pred_self nE.toNat
  have hXq : nE * (nE - 1) = 2 * (q : Int) := by
    have h4 : ((nE.toNat * (nE.toNat - 1) : Nat) : Int) = ((q + q : Nat) : Int) := by rw [hq]
    rw [Nat.cast_mul, Nat.cast_sub hn', hcast] at h4
    rw [Nat.cast_add, Nat.cast_one] at h4
    omega
  have hobj : Densidad.uno.escalar (Int.tdiv (envolver (nE * (nE - 1))) 2) = q := by
    unfold Densidad.uno
    simp only
    unfold INT_MAX at hN
    rw [envolver_id _ (by omega) (by omega), hXq, Int.tdiv_eq_ediv (by omega) (by omega)]
    omega
  rw [hobj] at h3
  obtain ⟨act', hact', hcard3⟩ := completar_cuenta nE.toNat cm q azar hn' hcm0 hcm
    (by unfold INT_MAX at hN ⊢; omega) fuel _ _ r2 r' h3 hG2 hsen2
    (by rw [hcard2, hvacio]; push_cast; omega)
  have hsub : enlacesDirigidos nE.toNat r' ⊆ (Finset.range nE.toNat).offDiag := by
    intro p hp
    obtain ⟨hp1, hp2, hp3⟩ := (mem_enlacesDirigidos _ _ _).1 hp
    rw [Finset.mem_offDiag, Finset.mem_range, Finset.mem_range]
    refine ⟨hp1, hp2, ?_⟩
    intro heq
    rw [heq, hG3.2.2] at hp3
    cases hp3
  have hle : (Finset.range nE.toNat).offDiag.card ≤ (enlacesDirigidos nE.toNat r').card := by
    rw [Finset.offDiag_card, Finset.card_range, ← Nat.mul_sub_one, hq]
    omega
  have heq := Finset.eq_of_subset_of_card_le hsub hle
  refine ⟨hG3, ?_⟩
  intro i j hi hj hij
  have hmem : (i, j) ∈ enlacesDirigidos nE.toNat r' := by
    rw [heq, Finset.mem_offDiag, Finset.mem_range, Finset.mem_range]
    exact ⟨hi, hj, hij⟩
  exact ((mem_enlacesDirigidos _ _ _).1 hmem).2.2

theorem contar_tabla (l : List (String × Int)) :
    ∀ t : Int, 0 ≤ t → t + l.length ≤ INT_MAX →
      l.foldl (fun t _ => envolver (t + 1)) t = t + l.length := by
  induction l with
  | nil => intro t _ _; simp
  | cons p l ih =>
    intro t h0 h1
    unfold INT_MAX at h1
    rw [List.length_cons] at h1
    push_cast at h1
    rw [List.foldl_cons, envolver_id _ (by omega) (by omega),
      ih (t + 1) (by omega) (by unfold INT_MAX; omega), List.length_cons]
    push_cast
    omega

theorem contar_red (d : Nat) (m : List (String × Enrutador)) :
    ∀ t : Int, (∀ p ∈ m, p.2.tablaEnrutamiento.length = d) → 0 ≤ t →
      t + ((m.length * d : Nat) : Int) ≤ INT_MAX →
      m.foldl (fun total p =>
        p.2.tablaEnrutamiento.foldl (fun t _ => envolver (t + 1)) total) t
        = t + ((m.length * d : Nat) : Int) := by
  induction m with
  | nil => intro t _ _ _; simp
  | cons p m ih =>
    intro t hd h0 h1
    have hp := hd p (List.mem_cons_self _ _)
    rw [List.length_cons, Nat.add_mul, Nat.one_mul] at h1 ⊢
    push_cast at h1 ⊢
    have he : (0 : Int) ≤ (m.length : Int) * (d : Int) := by positivity
    rw [List.foldl_cons, contar_tabla _ t h0 (by rw [hp]; omega), hp,
      ih (t + d) (fun q hq => hd q (List.mem_cons_of_mem _ hq)) (by omega)
        (by push_cast; omega)]
    push_cast
    omega

theorem longitud_nombres (l : List String) (s : Finset Nat) (hl : l.Nodup)
    (h : ∀ y, y ∈ l ↔ ∃ j, j ∈ s ∧ y = nombreE j) : l.length = s.card := by
  have h1 : l.toFinset = s.image nombreE := by
    ext y
    rw [List.mem_toFinset, Finset.mem_image, h]
    constructor
    · rintro ⟨j, hj, hy⟩; exact ⟨j, hj, hy.symm⟩
    · rintro ⟨j, hj, hy⟩; exact ⟨j, hj, hy.symm⟩
  rw [← List.toFinset_card_of_nodup hl, h1,
    Finset.card_image_of_injective _ (fun a b hab => nombreE_inyectiva a b hab)]

/-- On a generated store where every pair of distinct routers is linked, the
    link count of `obtenerEstadisticas` is the number of pairs. -/
theorem totalEnlaces_completa (n : Nat) (r : Red) (hG : Generada n r)
    (hN : ((n * (n - 1) : Nat) : Int) ≤ INT_MAX)
    (hcomp : ∀ i j, i < n → j < n → i ≠ j →
      (r.costoEnlace (nombreE i) (nombreE j)).isSome = true) :
    r.enrutadores.length = n ∧
      r.totalEnlaces = Int.tdiv ((n * (n - 1) : Nat) : Int) 2 := by
  obtain ⟨⟨⟨hu, ht⟩, hsim, hcol⟩, hex, hself⟩ := hG
  have hlen : r.enrutadores.length = n := by
    have := longitud_nombres (claves r.enrutadores) (Finset.range n) hu (by
      intro y
      rw [← existe_iff_claves, hex]
      constructor
      · rintro ⟨j, hj, hy⟩; exact ⟨j, Finset.mem_range.2 hj, hy⟩
      · rintro ⟨j, hj, hy⟩; exact ⟨j, Finset.mem_range.1 hj, hy⟩)
    rw [Finset.card_range] at this
    rw [← this]
    unfold claves
    rw [List.length_map]
  have htab : ∀ p ∈ r.enrutadores, p.2.tablaEnrutamiento.length = n - 1 := by
    intro p hp
    have hp1 : r.existeEnrutador p.1 = true := by
      rw [existe_iff_claves]
      exact List.mem_map.2 ⟨p, hp, rfl⟩
    obtain ⟨i, hi, hpi⟩ := (hex p.1).1 hp1
    have hb : buscar r.enrutadores (nombreE i) = some p.2 := by
      rw [← hpi]
      exact buscar_of_mem _ _ _ hu hp
    have hce : ∀ y, r.costoEnlace (nombreE i) y = buscar p.2.tablaEnrutamiento y := by
      intro y
      unfold Red.costoEnlace
      rw [hb]
    have := longitud_nombres (claves p.2.tablaEnrutamiento) ((Finset.range n).erase i)
      (ht p hp) (by
        intro y
        rw [← buscar_isSome_iff, ← hce]
        constructor
        · intro hy
          cases hc : r.costoEnlace (nombreE i) y with
          | none => rw [hc] at hy; cases hy
          | some c =>
            obtain ⟨j, hj, hyj⟩ := (hex y).1 (existe_of_costoEnlace r _ _ c hcol hc)
            refine ⟨j, ?_, hyj⟩
            rw [Finset.mem_erase, Finset.mem_range]
            refine ⟨?_, hj⟩
            intro hji
            rw [hyj, hji, hself] at hc
            cases hc
        · rintro ⟨j, hj, hy⟩
          rw [Finset.mem_erase, Finset.mem_range] at hj
          rw [hy]
          exact hcomp i j hi hj.2 (fun e => hj.1 e.symm))
    rw [Finset.card_erase_of_mem (Finset.mem_range.2 hi), Finset.card_range] at this
    rw [← this]
    unfold claves
    rw [List.length_map]
  refine ⟨hlen, ?_⟩
  unfold Red.totalEnlaces
  rw [contar_red (n - 1) r.enrutadores 0 htab (le_refl _) (by rw [hlen]; omega), hlen]
  simp

theorem encadenar_termina (cm : Int) (azar : Nat → Nat) (n : Nat) (hcm0 : 0 < cm)
    (hcm : cm ≤ INT_MAX) (k : Nat) :
    ∀ (i : Nat) (r : Red), i + k < n → Generada n r →
      ∃ r2, Red.encadenar cm azar k i r = (.ok (), r2) ∧
        ∀ x y, (r2.costoEnlace x y).isSome = true →
          (r.costoEnlace x y).isSome = true ∨
            ∃ m, (x = nombreE m ∧ y = nombreE (m + 1)) ∨ (x = nombreE (m + 1) ∧ y = nombreE m) := by
  induction k with
  | zero => intro i r _ _; exact ⟨r, rfl, fun x y h => Or.inl h⟩
  | succ k ih =>
    intro i r hik hG
    have hc : 0 ≤ costoAleatorio cm azar i := by
      have := (costoAleatorio_rango cm azar i hcm0 hcm).1
      omega
    have hout := actualizarEnlace_resultado r (nombreE i) (nombreE (i + 1)) _
      (generada_existe n r hG i (by omega)) (generada_existe n r hG (i + 1) (by omega)) hc
    obtain ⟨hG1, hce⟩ := generada_enlazar n r i (i + 1) _ hG (by omega) (by omega)
      (by omega) hc
    obtain ⟨r2, h2, hsolo⟩ := ih (i + 1) _ (by omega) hG1
    refine ⟨r2, ?_, ?_⟩
    · unfold Red.encadenar
      cases hact : r.actualizarEnlace (nombreE i) (nombreE (i + 1))
          (costoAleatorio cm azar i) with
      | mk out r1 =>
        rw [hact] at hout h2
        simp only at hout
        rw [hout]
        exact h2
    · intro x y hxy
      rcases hsolo x y hxy with h3 | h3
      · rw [hce] at h3
        split at h3
        · rename_i hcond
          exact Or.inr ⟨i, hcond⟩
        · exact Or.inl h3
      · exact Or.inr h3

/-- When the target of the `while` is not above the length of the chain, the
    generator returns the chain alone. -/
theorem generar_solo_cadena (fuel : Nat) (r : Red) (nE cm : Int) (dens : Densidad)
    (azar : Nat → Nat) (hn : 0 < nE) (hcm0 : 0 < cm) (hcm : cm ≤ INT_MAX)
    (hd : dens.fueraDeRango = false)
    (hobj : dens.escalar (Int.tdiv (envolver (nE * (nE - 1))) 2) ≤ nE - 1) :
    ∃ r', Red.generarRedAleatoria (fuel + 1) r nE cm dens azar = some (.ok (), r') ∧
      ∀ i j, (r'.costoEnlace (nombreE i) (nombreE j)).isSome = true → j = i + 1 ∨ i = j + 1 := by
  obtain ⟨r1, h1, hc, ht⟩ := crearEnrutadores_ok nE.toNat 0 Red.vacia rfl
    (fun p hp => by cases hp)
  rw [Nat.zero_add] at hc
  obtain ⟨hG1, hnone1⟩ := generada_inicial nE.toNat r1 hc ht
  obtain ⟨r2, h2, hsolo⟩ := encadenar_termina cm azar nE.toNat hcm0 hcm (nE.toNat - 1) 0 r1
    (by omega) hG1
  refine ⟨r2, ?_, ?_⟩
  · unfold Red.generarRedAleatoria
    have hp : ¬ (nE ≤ 0 ∨ cm ≤ 0 ∨ dens.fueraDeRango = true) := by
      rw [hd]
      simp only [not_or, not_le]
      exact ⟨hn, hcm0, by decide⟩
    rw [if_neg hp, h1]
    simp only
    rw [h2]
    simp only
    unfold Red.completar
    rw [if_neg (not_lt.2 hobj)]
  · intro i j hij
    rcases hsolo _ _ hij with h3 | ⟨m, ⟨h4, h5⟩ | ⟨h4, h5⟩⟩
    · rw [hnone1] at h3
      cases h3
    · have := nombreE_inyectiva _ _ h4
      have := nombreE_inyectiva _ _ h5
      left; omega
    · have := nombreE_inyectiva _ _ h4
      have := nombreE_inyectiva _ _ h5
      right; omega

/-- C16, as stated, fails. With maximum cost `INT_MAX` the chain link `E0-E1`
    can get the cost `INT_MAX`, which `obtenerCosto` also returns for a missing
    link: the `while` links `E0-E1` again, counts it as new and returns with
    `E0` and `E2` not linked and two links instead of three. With 46342
    routers the product `numEnrutadores * (numEnrutadores - 1)` leaves the range
    of `int`, the target is negative and the run returns the chain alone. -/
theorem C16_contraejemplo :
    (Red.generarRedAleatoria 2 Red.vacia 3 2147483647 Densidad.uno
        (azarDe [2147483646, 0, 0, 1, 4]) = some (.ok (), redIncompleta) ∧
      redIncompleta.costoEnlace (nombreE 0) (nombreE 2) = none ∧
      redIncompleta.totalEnlaces = 2) ∧
    ∃ r', Red.generarRedAleatoria 1 Red.vacia 46342 1 Densidad.uno (fun _ => 0)
        = some (.ok (), r') ∧
      r'.costoEnlace (nombreE 0) (nombreE 2) = none := by
  refine ⟨⟨by rfl, by rfl, by rfl⟩, ?_⟩
  obtain ⟨r', h, hsolo⟩ := generar_solo_cadena 0 Red.vacia 46342 1 Densidad.uno (fun _ => 0)
    (by decide) (by decide) (by decide) rfl (by decide)
  refine ⟨r', h, ?_⟩
  cases hc : r'.costoEnlace (nombreE 0) (nombreE 2) with
  | none => rfl
  | some c =>
    have := hsolo 0 2 (by rw [hc]; rfl)
    omega

/-- C16 (amended). Complete graph at density `1.0`: whenever
    `generarRedAleatoria(N, maxCost, 1.0)` returns, with `N * (N - 1)` within
    the range of `int` and `maxCost` below `INT_MAX`, the routers of the
    resulting store are exactly `E0..E(N-1)` (`N` of them), every pair of
    distinct routers is directly linked, and the link count of
    `obtenerEstadisticas` is `N * (N - 1) / 2`. A run returns only for
    `N ≥ 1` and `maxCost ≥ 1`. -/
theorem C16_red_completa (fuel : Nat) (r : Red) (nE cm : Int) (azar : Nat → Nat) (r' : Red)
    (hN : nE * (nE - 1) ≤ INT_MAX) (hcm : cm < INT_MAX)
    (h : Red.generarRedAleatoria fuel r nE cm Densidad.uno azar = some (.ok (), r')) :
    (∀ x, r'.existeEnrutador x = true ↔ ∃ i : Nat, (i : Int) < nE ∧ x = nombreE i) ∧
    (r'.enrutadores.length : Int) = nE ∧
    (∀ i j : Nat, (i : Int) < nE → (j : Int) < nE → i ≠ j →
      (r'.costoEnlace (nombreE i) (nombreE j)).isSome = true) ∧
    r'.totalEnlaces = Int.tdiv (nE * (nE - 1)) 2 := by
  obtain ⟨hn, _, _, _⟩ := generar_fases fuel r nE cm _ azar r' h
  obtain ⟨hG, hcomp⟩ := generar_completa fuel r nE cm azar r' hN hcm h
  have hcast : (nE.toNat : Int) = nE := Int.toNat_of_nonneg (le_of_lt hn)
  have hX : ((nE.toNat * (nE.toNat - 1) : Nat) : Int) = nE * (nE - 1) := by
    rw [Nat.cast_mul, Nat.cast_sub (by omega), hcast, Nat.cast_one]
  obtain ⟨hlen, htot⟩ := totalEnlaces_completa nE.toNat r' hG (by rw [hX]; exact hN) hcomp
  refine ⟨?_, by rw [hlen, hcast], ?_, by rw [htot, hX]⟩
  · intro x
    rw [hG.2.1]
    constructor
    · rintro ⟨i, hi, hx⟩; exact ⟨i, by omega, hx⟩
    · rintro ⟨i, hi, hx⟩; exact ⟨i, by omega, hx⟩
  · intro i j hi hj hij
    exact hcomp i j (by omega) (by omega) hij

theorem C16_red_completa_witness :
    Red.generarRedAleatoria 2 Red.vacia 3 10 Densidad.uno (azarDe [3, 0, 0, 2, 7])
        = some (.ok (), redCompleta) ∧
    ((∀ x, redCompleta.existeEnrutador x = true ↔ ∃ i : Nat, (i : Int) < 3 ∧ x = nombreE i) ∧
    (redCompleta.enrutadores.length : Int) = 3 ∧
    (∀ i j : Nat, (i : Int) < 3 → (j : Int) < 3 → i ≠ j →
      (redCompleta.costoEnlace (nombreE i) (nombreE j)).isSome = true) ∧
    redCompleta.totalEnlaces = Int.tdiv (3 * (3 - 1)) 2) :=
  ⟨by rfl, C16_red_completa 2 Red.vacia 3 10 (azarDe [3, 0, 0, 2, 7]) redCompleta
    (by decide) (by decide) (by rfl)⟩

/-! ## Frame of `eliminarEnrutador` -/

theorem buscar_tras_eliminar (r : Red) (x a : String) (hx : r.existeEnrutador x = true) :
    buscar (r.eliminarEnrutador x).2.enrutadores a =
      if a = x then none else (buscar r.enrutadores a).map (fun e => e.eliminarRuta x) := by
  rw [eliminarEnrutador_ok r x hx]
  exact buscar_eliminado r.enrutadores x a

/-- C25. `eliminarEnrutador` touches nothing else: after `eliminarEnrutador x` on a
    store that holds `x`, the call has succeeded, a name other than `x` is a router
    exactly when it was one before, and for all names `a` and `b` other than `x`
    the entry for `b` in the routing table of `a` (its cost, or its absence) is
    the one of before the call; the same code in both source files. -/
theorem C25_eliminar_no_toca_lo_demas (r : Red) (x : String)
    (hx : r.existeEnrutador x = true) :
    (r.eliminarEnrutador x).1 = .ok () ∧
    (∀ a, a ≠ x → (r.eliminarEnrutador x).2.existeEnrutador a = r.existeEnrutador a) ∧
    (∀ a b, a ≠ x → b ≠ x →
      (r.eliminarEnrutador x).2.costoEnlace a b = r.costoEnlace a b) := by
  refine ⟨by rw [eliminarEnrutador_ok r x hx], ?_, ?_⟩
  · intro a ha
    unfold Red.existeEnrutador
    rw [buscar_tras_eliminar r x a hx, if_neg ha]
    cases buscar r.enrutadores a <;> rfl
  · intro a b ha hb
    unfold Red.costoEnlace
    rw [buscar_tras_eliminar r x a hx, if_neg ha]
    cases hba : buscar r.enrutadores a with
    | none => rfl
    | some e =>
      simp only [Option.map_some']
      rw [buscar_eliminarRuta, if_neg hb]

theorem C25_eliminar_no_toca_lo_demas_witness :
    (ciclo4.eliminarEnrutador "B").1 = .ok () ∧
    (∀ a, a ≠ "B" → (ciclo4.eliminarEnrutador "B").2.existeEnrutador a
      = ciclo4.existeEnrutador a) ∧
    (∀ a b, a ≠ "B" → b ≠ "B" →
      (ciclo4.eliminarEnrutador "B").2.costoEnlace a b = ciclo4.costoEnlace a b) :=
  C25_eliminar_no_toca_lo_demas ciclo4 "B" (by decide)

/-! ## The connectivity check never misses a key -/

theorem poner_isSome (ant : String → Option String) (k u x : String)
    (h : (ant x).isSome = true) : (poner ant k (some u) x).isSome = true := by
  unfold poner
  by_cases hx : x = k
  · simp [hx]
  · simpa [hx] using h

theorem recorrer_parcial (r : Red) (I : Recorrido → Prop)
    (hstep : ∀ st st', I st → r.pasoConexion st = some (.ok st') → I st') :
    ∀ (n : Nat) (st : Recorrido) (res : Except Excepcion Recorrido), I st →
      r.recorrer n st = some res →
      (∃ st1, I st1 ∧ r.pasoConexion st1 = none ∧ res = .ok st1) ∨
      (∃ st1 e, I st1 ∧ r.pasoConexion st1 = some (.error e) ∧ res = .error e) := by
  intro n
  induction n with
  | zero => intro st res _ h; simp [Red.recorrer] at h
  | succ n ih =>
    intro st res hI h
    unfold Red.recorrer at h
    cases hp : r.pasoConexion st with
    | none =>
      rw [hp] at h
      simp only [Option.some.injEq] at h
      exact Or.inl ⟨st, hI, hp, h.symm⟩
    | some x =>
      rw [hp] at h
      cases x with
      | error e =>
        simp only [Option.some.injEq] at h
        exact Or.inr ⟨st, e, hI, hp, h.symm⟩
      | ok st' => exact ih st' res (hstep st st' hI hp) h

/-- On a store without dangling names the traversal never misses a key, and it
    ends. -/
theorem conexion_sin_fallo (r : Red) (hcol : r.sinColgantes) :
    (∀ fuel e, r.esRedConectada fuel ≠ some (.error e)) ∧
      ∀ fuel, cotaConexion r ≤ fuel → ∃ b, r.esRedConectada fuel = some (.ok b) := by
  have hno : ∀ s st1 e, Explorado r s st1 → r.pasoConexion st1 ≠ some (.error e) := by
    intro s st1 e hI hp
    obtain ⟨actual, resto, hpila, hb⟩ := pasoConexion_error r st1 e hp
    have := (hI.2.1 actual (Or.inr (by rw [hpila]; exact List.mem_cons_self _ _))).2
    simp [Red.existeEnrutador, hb] at this
  unfold Red.esRedConectada
  cases hm : r.enrutadores with
  | nil => exact ⟨fun fuel e h => by simp at h, fun fuel _ => ⟨true, rfl⟩⟩
  | cons p0 m =>
    obtain ⟨s, e0⟩ := p0
    simp only
    have hs : r.existeEnrutador s = true := by
      simp [Red.existeEnrutador, hm, buscar]
    constructor
    · intro fuel e h
      cases hr : r.recorrer fuel ⟨[], [s]⟩ with
      | none => rw [hr] at h; simp at h
      | some res =>
        rw [hr] at h
        rcases recorrer_parcial r (Explorado r s)
          (fun st st' hI hp => explorado_paso r s hcol st st' hI hp) fuel _ res
          (explorado_inicial r s hs) hr with ⟨st1, _, _, h1⟩ | ⟨st1, e', hI, hp, _⟩
        · rw [h1] at h; simp at h
        · exact hno s st1 e' hI hp
    · intro fuel hf
      rcases recorrer_termina r (potencialConexion r) (Explorado r s)
        (fun st st' hI hp => ⟨explorado_paso r s hcol st st' hI hp,
          potencialConexion_baja r st st' hp⟩) fuel ⟨[], [s]⟩ (explorado_inicial r s hs)
        (lt_of_lt_of_le (potencialConexion_inicial r s) hf) with
        ⟨st1, _, _, hrec⟩ | ⟨st1, e, hI, hp, _⟩
      · rw [hrec]
        exact ⟨_, rfl⟩
      · exact absurd hp (hno s st1 e hI)

/-! ## The frontier loop ends on every store -/

/-- The frontier loop of either source file ends on every store. -/
theorem bucle_termina (r : Red) (o dest : String) (fuel : Nat) (hf : cotaBusqueda r ≤ fuel) :
    (∃ res, iterar (E0.paso r dest) fuel (estadoInicial r o) = some res) ∧
      (∃ res, iterar (E1.paso r dest) fuel (estadoInicial r o) = some res) := by
  constructor
  · rcases iterar_termina (E0.paso r dest) (potencial r) (fun _ => True)
      (fun st st' _ hp => ⟨trivial, potencial_paso0 r dest st st' hp⟩)
      fuel (estadoInicial r o) trivial (lt_of_lt_of_le (potencial_inicial r o) hf)
      with ⟨_, st2, _, _, hit⟩ | ⟨_, e, _, _, hit⟩
    · exact ⟨_, hit⟩
    · exact ⟨_, hit⟩
  · rcases iterar_termina (E1.paso r dest) (potencial r) (fun _ => True)
      (fun st st' _ hp => ⟨trivial, potencial_paso1 r dest st st' hp⟩)
      fuel (estadoInicial r o) trivial (lt_of_lt_of_le (potencial_inicial r o) hf)
      with ⟨_, st2, _, _, hit⟩ | ⟨_, e, _, _, hit⟩
    · exact ⟨_, hit⟩
    · exact ⟨_, hit⟩

theorem camino_andado (p : List String) (o : String) (h : p.head? = some o) (hn : p.Nodup) :
    p.reverse.dropLast ++ [o] = p.reverse ∧ (p.reverse.dropLast ++ [o]).Nodup := by
  have h1 := reverso_sin_ultimo p o h
  have h2 : p.reverse.dropLast ++ [o] = p.reverse := by
    have h3 := congrArg List.reverse h1
    rw [List.reverse_reverse] at h3
    exact h3
  exact ⟨h2, by rw [h2]; exact List.nodup_reverse.2 hn⟩

theorem redLazo_sinDesborde (o dest : String) : redLazo.sinDesborde o dest :=
  sinDesborde_de_cota redLazo o dest 2 (by decide) (by unfold Red.costosHasta; decide)
    (by decide)

/-! ## Stores with a direct link -/

theorem redTope_estado0 : ∃ st,
    iterar (E0.paso redTope "B") 2 (estadoInicial redTope "A") = some (.ok st) ∧
    st.distancias "B" = INT_MAX :=
  ⟨_, rfl, by decide⟩

theorem redTope_estado1 : ∃ st,
    iterar (E1.paso redTope "B") 2 (estadoInicial redTope "A") = some (.ok st) ∧
    st.distancias "B" = INT_MAX :=
  ⟨_, rfl, by decide⟩

theorem redTope_sin_ruta (fuel : Nat) (hf : 2 ≤ fuel) :
    E0.encontrarRutaMasCorta fuel redTope "A" "B" = some (.ok (-1, [])) ∧
      E1.encontrarRutaMasCorta fuel redTope "A" "B" = some (.ok (-1, [])) := by
  obtain ⟨k, rfl⟩ := Nat.exists_eq_add_of_le hf
  have hA : redTope.existeEnrutador "A" = true := by decide
  have hB : redTope.existeEnrutador "B" = true := by decide
  constructor
  · obtain ⟨st, hst, h1⟩ := redTope_estado0
    have hit := iterar_mono _ _ _ _ hst k
    unfold E0.encontrarRutaMasCorta
    simp only [hA, hB, Bool.not_true, Bool.or_self, Bool.false_eq_true, if_false, hit, h1,
      if_true]
  · obtain ⟨st, hst, h1⟩ := redTope_estado1
    have hit := iterar_mono _ _ _ _ hst k
    unfold E1.encontrarRutaMasCorta
    simp only [hA, hB, Bool.not_true, Bool.or_self, Bool.false_eq_true, if_false, hit, h1,
      if_true]

theorem bienFormada_enlazar (r : Red) (a b : String) (c : Int) (h : r.bienFormada) :
    (r.actualizarEnlace a b c).2.bienFormada := by
  by_cases hok : r.existeEnrutador a = true ∧ r.existeEnrutador b = true ∧ 0 ≤ c
  swap
  · rw [actualizarEnlace_falla r a b c hok]; exact h
  obtain ⟨ha, hb, hc⟩ := hok
  obtain ⟨ea, eb, hea, heb, hres⟩ := actualizarEnlace_ok r a b c ha hb hc
  rw [hres]
  obtain ⟨hu, ht⟩ := h
  have hta : clavesUnicas (asignar ea.tablaEnrutamiento b c) :=
    clavesUnicas_asignar _ _ _ (ht _ (mem_of_buscar _ _ _ hea))
  have h1 : ∀ p ∈ asignar r.enrutadores a ⟨asignar ea.tablaEnrutamiento b c, ea.nombre⟩,
      clavesUnicas p.2.tablaEnrutamiento := by
    intro p hp
    rcases mem_asignar _ _ _ _ hp with h2 | h2
    · rw [h2]; exact hta
    · exact ht p h2
  refine ⟨clavesUnicas_asignar _ _ _ (clavesUnicas_asignar _ _ _ hu), ?_⟩
  intro p hp
  rcases mem_asignar _ _ _ _ hp with h2 | h2
  · rw [h2]
    exact clavesUnicas_asignar _ _ _ (h1 _ (mem_of_buscar _ _ _ heb))
  · exact h1 p h2

/-- A link that was just set is a route of two routers. -/
theorem ruta_directa (r : Red) (a b : String) (c : Int)
    (ha : r.existeEnrutador a = true) (hb : r.existeEnrutador b = true) (hc : 0 ≤ c) :
    (r.actualizarEnlace a b c).2.esRuta a b [a, b] c ∧
      (r.actualizarEnlace a b c).2.conectados a b := by
  have hce := costoEnlace_actualizarEnlace r a b c ha hb hc a b
  rw [if_pos (Or.inl ⟨rfl, rfl⟩)] at hce
  refine ⟨⟨rfl, rfl, ?_⟩, ?_⟩
  · rw [costoRuta_cons_iff]
    exact ⟨c, 0, hce, costoRuta_uno _ _, by omega⟩
  · exact Relation.ReflTransGen.single (by rw [hce]; rfl)

/-! ## Simulation of one search by the other -/

theorem minimo_de_cota (q : List (Int × String)) (m : Int × String) (hm : m ∈ q)
    (h : ∀ e ∈ q, ¬ menorPar e m = true) : minimo q = some m := by
  cases hq : minimo q with
  | none =>
    rw [minimo_none q hq] at hm
    cases hm
  | some m' =>
    have h1 := minimo_cota q m' hq m hm
    have h2 := h m' (minimo_mem q m' hq)
    rw [menorPar_total _ _ h2 h1]

theorem simulado_relajar (d : Int) (u : String) (s0 s1 : Estado) (p : String × Int)
    (h : Simulado s0 s1) : Simulado (E0.relajar d u s0 p) (E1.relajar d u s1 p) := by
  obtain ⟨hd, ha, hq⟩ := h
  unfold E0.relajar E1.relajar
  simp only
  rw [hd]
  by_cases hc : envolver (d + p.2) < s1.distancias p.1
  swap
  · simp only [hc, if_false]
    exact ⟨hd, ha, hq⟩
  simp only [hc, if_true]
  refine ⟨rfl, by simp only [ha], ?_⟩
  intro e
  simp only [mem_insertar, mem_quitar, List.mem_cons, hq]
  by_cases he : e = (envolver (d + p.2), p.1)
  · subst he
    simp [poner]
  · by_cases hv : e.2 = p.1
    · have h1 : ¬ e.1 = poner s1.distancias p.1 (envolver (d + p.2)) e.2 := by
        intro h2
        apply he
        simp only [poner, hv, if_true] at h2
        exact Prod.ext h2 hv
      have h3 : ¬ ((e ∈ s1.nodosActivos ∧ e.1 = s1.distancias e.2) ∧
          e ≠ (s1.distancias p.1, p.1)) := by
        rintro ⟨⟨_, h4⟩, h5⟩
        apply h5
        rw [hv] at h4
        exact Prod.ext h4 hv
      simp only [he, false_or, h1, and_false, h3]
    · have h1 : poner s1.distancias p.1 (envolver (d + p.2)) e.2 = s1.distancias e.2 := by
        simp [poner, hv]
      have h2 : e ≠ (s1.distancias p.1, p.1) := fun h => hv (congrArg Prod.snd h)
      simp only [he, false_or, h1, h2, ne_eq, not_false_eq_true, and_true]

theorem simulado_foldl (d : Int) (u : String) (t : List (String × Int)) :
    ∀ s0 s1, Simulado s0 s1 →
      Simulado (t.foldl (E0.relajar d u) s0) (t.foldl (E1.relajar d u) s1) := by
  induction t with
  | nil => intro s0 s1 h; exact h
  | cons p t ih => intro s0 s1 h; exact ih _ _ (simulado_relajar d u s0 s1 p h)

theorem destinoVivo_relajar (dest : String) (d : Int) (u : String) (st : Estado)
    (p : String × Int) (h : DestinoVivo dest st) : DestinoVivo dest (E1.relajar d u st p) := by
  unfold E1.relajar
  simp only
  by_cases hc : envolver (d + p.2) < st.distancias p.1
  swap
  · simp only [hc, if_false]
    exact h
  simp only [hc, if_true]
  intro e he hed
  by_cases hv : p.1 = dest
  · simp only [poner, hv, if_true]
    exact List.mem_cons_self _ _
  · have hv' : ¬ dest = p.1 := fun h1 => hv h1.symm
    simp only [poner, hv', if_false]
    rcases List.mem_cons.1 he with he | he
    · exact absurd (by rw [he] at hed; exact hed) hv
    · exact List.mem_cons_of_mem _ (h e he hed)

/-- The queue of enrutador1.cpp after its least entry, not of the destination,
    is popped. -/
theorem cola_sin_cabeza (dest : String) (st : Estado) (d : Int) (u : String)
    (hO : Ordenada st) (hV : DestinoVivo dest st) (hu : u ≠ dest) :
    Ordenada { st with nodosActivos := st.nodosActivos.erase (d, u) } ∧
      DestinoVivo dest { st with nodosActivos := st.nodosActivos.erase (d, u) } := by
  refine ⟨⟨hO.1.erase _, fun e he => hO.2 e (List.mem_of_mem_erase he)⟩, ?_⟩
  intro e he hed
  have h1 := hV e (List.mem_of_mem_erase he) hed
  have hne : (st.distancias dest, dest) ≠ (d, u) := fun h => hu (congrArg Prod.snd h).symm
  exact (List.mem_erase_of_ne hne).2 h1

theorem cola_tras_relajar (dest : String) (d : Int) (u : String) (t : List (String × Int))
    (st : Estado) (h : Ordenada st ∧ DestinoVivo dest st) :
    Ordenada (t.foldl (E1.relajar d u) st) ∧
      DestinoVivo dest (t.foldl (E1.relajar d u) st) :=
  foldl_preserva (fun s => Ordenada s ∧ DestinoVivo dest s) (E1.relajar d u) t
    (fun s p _ hs => ⟨ordenada_relajar d u s p hs.1, destinoVivo_relajar dest d u s p hs.2⟩)
    st h

/-- One turn of the loop of enrutador1.cpp against the loop of enrutador0.cpp:
    a stale entry is dropped while the other version waits, and otherwise both
    versions take the same turn. -/
theorem paso_simulado (r : Red) (dest : String) (s0 s1 : Estado)
    (hS : Simulado s0 s1) (hO : Ordenada s1) (hV : DestinoVivo dest s1) :
    (∃ t0 t1, E1.paso r dest s1 = .fin t1 ∧ E0.paso r dest s0 = .fin t0 ∧
      t0.distancias = t1.distancias ∧ t0.anterior = t1.anterior) ∨
    (∃ e, E1.paso r dest s1 = .falla e ∧ E0.paso r dest s0 = .falla e) ∨
    (∃ t1, E1.paso r dest s1 = .sigue t1 ∧ Simulado s0 t1 ∧ Ordenada t1 ∧
      DestinoVivo dest t1) ∨
    (∃ t0 t1, E1.paso r dest s1 = .sigue t1 ∧ E0.paso r dest s0 = .sigue t0 ∧
      Simulado t0 t1 ∧ Ordenada t1 ∧ DestinoVivo dest t1) := by
  obtain ⟨hd, ha, hq⟩ := hS
  cases hm : minimo s1.nodosActivos with
  | none =>
    left
    have hnil := minimo_none _ hm
    have hnil0 : s0.nodosActivos = [] := by
      apply List.eq_nil_iff_forall_not_mem.2
      intro e he
      have := ((hq e).1 he).1
      rw [hnil] at this
      cases this
    refine ⟨s0, s1, ?_, ?_, hd, ha⟩
    · unfold E1.paso; rw [hm]
    · unfold E0.paso; rw [hnil0]; rfl
  | some m =>
    obtain ⟨d, u⟩ := m
    have hmem := minimo_mem _ _ hm
    have hcota := minimo_cota _ _ hm
    have hle := hO.2 _ hmem
    by_cases hvivo : d = s1.distancias u
    · -- the entry carries the current distance: both versions pop it
      have hmem0 : (d, u) ∈ s0.nodosActivos := (hq _).2 ⟨hmem, hvivo⟩
      have hm0 : minimo s0.nodosActivos = some (d, u) :=
        minimo_de_cota _ _ hmem0 (fun e he => hcota e ((hq e).1 he).1)
      have hS1 : Simulado { s0 with nodosActivos := E0.quitar (d, u) s0.nodosActivos }
          { s1 with nodosActivos := s1.nodosActivos.erase (d, u) } := by
        refine ⟨hd, ha, ?_⟩
        intro e
        simp only [mem_quitar, hq, hO.1.mem_erase_iff]
        tauto
      by_cases hdest : u = dest
      · left
        refine ⟨{ s0 with nodosActivos := E0.quitar (d, u) s0.nodosActivos },
          { s1 with nodosActivos := s1.nodosActivos.erase (d, u) }, ?_, ?_, hd, ha⟩
        · unfold E1.paso; rw [hm]; simp only [hdest, if_true]
        · unfold E0.paso; rw [hm0]; simp only [hdest, if_true]
      · have hviejo : ¬ d > s1.distancias u := by omega
        cases hb : buscar r.enrutadores u with
        | none =>
          right; left
          refine ⟨.out_of_range, ?_, ?_⟩
          · unfold E1.paso; rw [hm]; simp only [hdest, if_false, hviejo, hb]
          · unfold E0.paso; rw [hm0]; simp only [hdest, if_false, hb]
        | some e =>
          right; right; right
          have hcola := cola_tras_relajar dest d u e.tablaEnrutamiento _
            (cola_sin_cabeza dest s1 d u hO hV hdest)
          refine ⟨_, _, ?_, ?_, simulado_foldl d u e.tablaEnrutamiento _ _ hS1, hcola.1, hcola.2⟩
          · unfold E1.paso; rw [hm]; simp only [hdest, if_false, hviejo, hb]
          · unfold E0.paso; rw [hm0]; simp only [hdest, if_false, hb]
    · -- a stale entry: enrutador1.cpp drops it
      have hviejo : d > s1.distancias u := lt_of_le_of_ne hle (fun h => hvivo h.symm)
      have hdest : u ≠ dest := by
        intro hud
        subst hud
        have h1 := hV _ hmem rfl
        exact hcota _ h1 (by rw [menorPar_iff]; exact Or.inl hviejo)
      right; right; left
      have hcola := cola_sin_cabeza dest s1 d u hO hV hdest
      refine ⟨{ s1 with nodosActivos := s1.nodosActivos.erase (d, u) }, ?_, ⟨hd, ha, ?_⟩,
        hcola.1, hcola.2⟩
      · unfold E1.paso; rw [hm]; simp only [hdest, if_false, hviejo, if_true]
      · intro e
        rw [hq]
        constructor
        · rintro ⟨h1, h2⟩
          have hne : e ≠ (d, u) := by
            intro h3
            rw [h3] at h2
            exact hvivo h2
          exact ⟨(List.mem_erase_of_ne hne).2 h1, h2⟩
        · rintro ⟨h1, h2⟩
          exact ⟨List.mem_of_mem_erase h1, h2⟩

/-- Whatever state the loop of enrutador1.cpp ends in, the loop of enrutador0.cpp
    ends, with no more fuel, in a state with the same distances and the same
    predecessors; and the two loops fail together. -/
theorem iterar_simulado (r : Red) (dest : String) (n : Nat) :
    ∀ (s0 s1 : Estado) (res1 : Except Excepcion Estado), Simulado s0 s1 → Ordenada s1 →
      DestinoVivo dest s1 → iterar (E1.paso r dest) n s1 = some res1 →
      (∃ t0 t1, res1 = .ok t1 ∧ iterar (E0.paso r dest) n s0 = some (.ok t0) ∧
        t0.distancias = t1.distancias ∧ t0.anterior = t1.anterior) ∨
      (∃ e, res1 = .error e ∧ iterar (E0.paso r dest) n s0 = some (.error e)) := by
  induction n with
  | zero => intro s0 s1 res1 _ _ _ h; simp [iterar] at h
  | succ n ih =>
    intro s0 s1 res1 hS hO hV h
    rcases paso_simulado r dest s0 s1 hS hO hV with
      ⟨t0, t1, h1, h0, hd, ha⟩ | ⟨e, h1, h0⟩ | ⟨t1, h1, hS', hO', hV'⟩ |
      ⟨t0, t1, h1, h0, hS', hO', hV'⟩
    · left
      unfold iterar at h ⊢
      rw [h1] at h
      rw [h0]
      simp only [Option.some.injEq] at h
      exact ⟨t0, t1, h.symm, rfl, hd, ha⟩
    · right
      unfold iterar at h ⊢
      rw [h1] at h
      rw [h0]
      simp only [Option.some.injEq] at h
      exact ⟨e, h.symm, rfl⟩
    · have h2 : iterar (E1.paso r dest) n t1 = some res1 := by
        unfold iterar at h
        rw [h1] at h
        exact h
      rcases ih s0 t1 res1 hS' hO' hV' h2 with ⟨t0, t1', h3, h4, h5⟩ | ⟨e, h3, h4⟩
      · exact Or.inl ⟨t0, t1', h3, iterar_mono _ _ _ _ h4 1, h5⟩
      · exact Or.inr ⟨e, h3, iterar_mono _ _ _ _ h4 1⟩
    · have h2 : iterar (E1.paso r dest) n t1 = some res1 := by
        unfold iterar at h
        rw [h1] at h
        exact h
      have h6 : iterar (E0.paso r dest) (n + 1) s0 = iterar (E0.paso r dest) n t0 := by
        rw [iterar, h0]
      rw [h6]
      exact ih t0 t1 res1 hS' hO' hV' h2

theorem simulado_inicial (r : Red) (o dest : String) :
    Simulado (estadoInicial r o) (estadoInicial r o) ∧ Ordenada (estadoInicial r o) ∧
      DestinoVivo dest (estadoInicial r o) := by
  have hq : (estadoInicial r o).nodosActivos = [(0, o)] := rfl
  have h0 := distancias_inicial_origen r o
  refine ⟨⟨rfl, rfl, ?_⟩, ⟨?_, ?_⟩, ?_⟩
  · intro e
    rw [hq, List.mem_singleton]
    constructor
    · intro he
      rw [he]
      exact ⟨rfl, h0.symm⟩
    · exact fun h => h.1
  · rw [hq]
    exact List.nodup_singleton _
  · intro e he
    rw [hq, List.mem_singleton] at he
    rw [he, h0]
  · intro e he hed
    rw [hq, List.mem_singleton] at he ⊢
    rw [he] at hed
    simp only at hed
    rw [← hed, h0]

/-! ## The predecessor map on any store -/

theorem rastreable_relajado (r : Red) (o u : String) (d : Int) (st st' : Estado)
    (p : String × Int) (hl : (r.costoEnlace u p.1).isSome = true)
    (hR : Relajado d u p st st')
    (h : Rastreable r o st ∧ (u = o ∨ (st.anterior u).isSome = true)) :
    Rastreable r o st' ∧ (u = o ∨ (st'.anterior u).isSome = true) := by
  obtain ⟨⟨h1, h2, h3⟩, hu⟩ := h
  rcases hR with ⟨_, rfl⟩ | ⟨_, hdist, hant, hq1, _, _⟩
  · exact ⟨⟨h1, h2, h3⟩, hu⟩
  have hu' : u = o ∨ (st'.anterior u).isSome = true := by
    rw [hant]
    exact hu.imp id (poner_isSome _ _ _ _)
  refine ⟨⟨?_, ?_, ?_⟩, hu'⟩
  · intro e he
    rw [hant]
    rcases hq1 e he with he | he
    · right
      rw [he]
      simp [poner]
    · exact (h1 e he).imp id (poner_isSome _ _ _ _)
  · intro v w hvw
    rw [hant] at hvw
    by_cases hv : v = p.1
    · simp only [poner, hv, if_true, Option.some.injEq] at hvw
      rw [← hvw, hv]
      exact ⟨hu', hl⟩
    · simp only [poner, hv, if_false] at hvw
      rw [hant]
      exact ⟨(h2 v w hvw).1.imp id (poner_isSome _ _ _ _), (h2 v w hvw).2⟩
  · intro v
    rw [hdist, hant]
    by_cases hv : v = p.1
    · right
      simp [poner, hv]
    · rcases h3 v with h | h
      · left
        simp only [poner, hv, if_false]
        exact h
      · exact Or.inr (poner_isSome _ _ _ _ h)

theorem enlace_presente (r : Red) (u : String) (e : Enrutador) (q : String × Int)
    (hb : buscar r.enrutadores u = some e) (hq : q ∈ e.tablaEnrutamiento) :
    (r.costoEnlace u q.1).isSome = true :=
  (costoEnlace_isSome_iff r u q.1 e hb).2 (List.mem_map.2 ⟨q, hq, rfl⟩)

theorem rastreable_foldl (r : Red) (o u : String) (d : Int) (e : Enrutador)
    (hb : buscar r.enrutadores u = some e)
    (f : Estado → String × Int → Estado) (hf : ∀ st p, Relajado d u p st (f st p))
    (st : Estado) (h : Rastreable r o st ∧ (u = o ∨ (st.anterior u).isSome = true)) :
    Rastreable r o (e.tablaEnrutamiento.foldl f st) :=
  (foldl_preserva (fun s => Rastreable r o s ∧ (u = o ∨ (s.anterior u).isSome = true))
    f e.tablaEnrutamiento
    (fun s p hp hs => rastreable_relajado r o u d s (f s p) p
      (enlace_presente r u e p hb hp) (hf s p) hs) st h).1

theorem rastreable_paso0 (r : Red) (o dest : String) (st st' : Estado)
    (h : Rastreable r o st) (hp : E0.paso r dest st = .sigue st') : Rastreable r o st' := by
  obtain ⟨d, u, e, hm, _, hb, rfl⟩ := paso0_sigue r dest st st' hp
  have hmem := minimo_mem _ _ hm
  have h0 : Rastreable r o { st with nodosActivos := E0.quitar (d, u) st.nodosActivos } :=
    ⟨fun x hx => h.1 x ((mem_quitar _ _ _).1 hx).1, h.2.1, h.2.2⟩
  exact rastreable_foldl r o u d e hb _ (relajado0 d u) _ ⟨h0, h.1 _ hmem⟩

theorem rastreable_paso1 (r : Red) (o dest : String) (st st' : Estado)
    (h : Rastreable r o st) (hp : E1.paso r dest st = .sigue st') : Rastreable r o st' := by
  obtain ⟨d, u, hm, _, hcase⟩ := paso1_sigue r dest st st' hp
  have hmem := minimo_mem _ _ hm
  have h0 : Rastreable r o { st with nodosActivos := st.nodosActivos.erase (d, u) } :=
    ⟨fun e he => h.1 e (List.mem_of_mem_erase he), h.2.1, h.2.2⟩
  rcases hcase with ⟨_, rfl⟩ | ⟨_, e, hb, rfl⟩
  · exact h0
  · exact rastreable_foldl r o u d e hb _ (relajado1 d u) _ ⟨h0, h.1 _ hmem⟩

theorem rastreable_inicial (r : Red) (o : String) : Rastreable r o (estadoInicial r o) := by
  refine ⟨?_, ?_, fun v => Or.inl rfl⟩
  · intro e he
    left
    have : e = (0, o) := by simpa [estadoInicial] using he
    rw [this]
  · intro v u hvu
    simp [estadoInicial] at hvu

/-- What the walk needs of the state the loop ends in: every predecessor is the
    origin or has a predecessor itself and is linked to its successor, and a
    destination that was reached is the origin or has a predecessor. -/
theorem rastro_final (r : Red) (o dest : String) (st1 st2 : Estado)
    (hd : r.existeEnrutador dest = true) (h : Rastreable r o st1)
    (hdist : st2.distancias = st1.distancias) (hant : st2.anterior = st1.anterior) :
    (∀ v u, st2.anterior v = some u →
      (u = o ∨ (st2.anterior u).isSome = true) ∧ (r.costoEnlace u v).isSome = true) ∧
    (st2.distancias dest ≠ INT_MAX → dest = o ∨ (st2.anterior dest).isSome = true) := by
  rw [hdist, hant]
  refine ⟨h.2.1, fun hmax => ?_⟩
  rcases h.2.2 dest with h2 | h2
  · by_cases hdo : dest = o
    · exact Or.inl hdo
    · rw [distancias_inicial] at h2
      simp only [hdo, if_false, (existe_iff_claves r dest).1 hd, if_true] at h2
      exact absurd h2 hmax
  · exact Or.inr h2

theorem rastro_final0 (r : Red) (o dest : String) (hd : r.existeEnrutador dest = true)
    (fuel : Nat) (st : Estado)
    (h : iterar (E0.paso r dest) fuel (estadoInicial r o) = some (.ok st)) :
    (∀ v u, st.anterior v = some u →
      (u = o ∨ (st.anterior u).isSome = true) ∧ (r.costoEnlace u v).isSome = true) ∧
    (st.distancias dest ≠ INT_MAX → dest = o ∨ (st.anterior dest).isSome = true) := by
  rcases iterar_parcial (E0.paso r dest) (Rastreable r o)
    (fun s s' hI hp => rastreable_paso0 r o dest s s' hI hp) fuel _ _
    (rastreable_inicial r o) h with ⟨st1, st2, hI, hp, h1⟩ | ⟨_, e, _, _, h1⟩
  · simp only [Except.ok.injEq] at h1
    subst h1
    rcases paso0_fin r dest st1 st hp with ⟨_, rfl⟩ | ⟨d, _, rfl⟩
    · exact rastro_final r o dest _ _ hd hI rfl rfl
    · exact rastro_final r o dest st1 _ hd hI rfl rfl
  · simp at h1

theorem rastro_final1 (r : Red) (o dest : String) (hd : r.existeEnrutador dest = true)
    (fuel : Nat) (st : Estado)
    (h : iterar (E1.paso r dest) fuel (estadoInicial r o) = some (.ok st)) :
    (∀ v u, st.anterior v = some u →
      (u = o ∨ (st.anterior u).isSome = true) ∧ (r.costoEnlace u v).isSome = true) ∧
    (st.distancias dest ≠ INT_MAX → dest = o ∨ (st.anterior dest).isSome = true) := by
  rcases iterar_parcial (E1.paso r dest) (Rastreable r o)
    (fun s s' hI hp => rastreable_paso1 r o dest s s' hI hp) fuel _ _
    (rastreable_inicial r o) h with ⟨st1, st2, hI, hp, h1⟩ | ⟨_, e, _, _, h1⟩
  · simp only [Except.ok.injEq] at h1
    subst h1
    rcases paso1_fin r dest st1 st hp with ⟨_, rfl⟩ | ⟨d, _, rfl⟩
    · exact rastro_final r o dest _ _ hd hI rfl rfl
    · exact rastro_final r o dest st1 _ hd hI rfl rfl
  · simp at h1

/-! ## The predecessor walk on any predecessor map -/

theorem reconstruir_comun (ant : String → Option String) (o : String)
    (hcl : ∀ v u, ant v = some u → u = o ∨ (ant u).isSome = true) :
    ∀ (n : Nat) (v : String) (acc : List String), (v = o ∨ (ant v).isSome = true) →
      E0.reconstruir ant o n v acc = E1.reconstruir ant o n v acc := by
  intro n
  induction n with
  | zero => intro v acc _; simp [E0.reconstruir, E1.reconstruir]
  | succ n ih =>
    intro v acc hv
    unfold E0.reconstruir E1.reconstruir
    by_cases hvo : v = o
    · simp [hvo]
    · simp only [hvo, if_false]
      by_cases hva : v ∈ acc
      · simp [hva]
      · simp only [hva, if_false]
        rcases hv with hv | hv
        · exact absurd hv hvo
        · obtain ⟨a, ha⟩ := Option.isSome_iff_exists.1 hv
          simp only [ha, Option.getD_some]
          exact ih a _ (hcl v a ha)

theorem reconstruir0_error (ant : String → Option String) (o : String) :
    ∀ (n : Nat) (v : String) (acc : List String) (x : Excepcion),
      E0.reconstruir ant o n v acc = some (.error x) → x = .bad_alloc := by
  intro n
  induction n with
  | zero => intro v acc x h; simp [E0.reconstruir] at h
  | succ n ih =>
    intro v acc x h
    unfold E0.reconstruir at h
    by_cases hvo : v = o
    · simp [hvo] at h
    · simp only [hvo, if_false] at h
      by_cases hva : v ∈ acc
      · simp only [hva, if_true, Option.some.injEq, Except.error.injEq] at h
        exact h.symm
      · simp only [hva, if_false] at h
        exact ih _ _ x h

theorem reconstruir1_error (ant : String → Option String) (o : String)
    (hcl : ∀ v u, ant v = some u → u = o ∨ (ant u).isSome = true) :
    ∀ (n : Nat) (v : String) (acc : List String) (x : Excepcion),
      (v = o ∨ (ant v).isSome = true) →
      E1.reconstruir ant o n v acc = some (.error x) → x = .bad_alloc := by
  intro n v acc x hv h
  rw [← reconstruir_comun ant o hcl n v acc hv] at h
  exact reconstruir0_error ant o n v acc x h

theorem reconstruir0_mono (ant : String → Option String) (o : String) :
    ∀ (n : Nat) (v : String) (acc : List String) (x : Except Excepcion (List String)),
      E0.reconstruir ant o n v acc = some x →
      ∀ k, E0.reconstruir ant o (n + k) v acc = some x := by
  intro n
  induction n with
  | zero => intro v acc x h; simp [E0.reconstruir] at h
  | succ n ih =>
    intro v acc x h k
    have hnk : n + 1 + k = (n + k) + 1 := by omega
    rw [hnk]
    unfold E0.reconstruir at h ⊢
    by_cases hvo : v = o
    · simpa [hvo] using h
    · simp only [hvo, if_false] at h ⊢
      by_cases hva : v ∈ acc
      · simpa [hva] using h
      · simp only [hva, if_false] at h ⊢
        exact ih _ _ x h k

theorem reconstruir1_mono (ant : String → Option String) (o : String) :
    ∀ (n : Nat) (v : String) (acc : List String) (x : Except Excepcion (List String)),
      E1.reconstruir ant o n v acc = some x →
      ∀ k, E1.reconstruir ant o (n + k) v acc = some x := by
  intro n
  induction n with
  | zero => intro v acc x h; simp [E1.reconstruir] at h
  | succ n ih =>
    intro v acc x h k
    have hnk : n + 1 + k = (n + k) + 1 := by omega
    rw [hnk]
    unfold E1.reconstruir at h ⊢
    by_cases hvo : v = o
    · simpa [hvo] using h
    · simp only [hvo, if_false] at h ⊢
      by_cases hva : v ∈ acc
      · simpa [hva] using h
      · simp only [hva, if_false] at h ⊢
        cases ha : ant v with
        | none => simpa [ha] using h
        | some a =>
          rw [ha] at h
          exact ih _ _ x h k

/-- The walk ends: it pushes no router twice, so it takes no more turns than
    there are routers to push. -/
theorem reconstruir1_termina (ant : String → Option String) (o : String)
    (hcl : ∀ v u, ant v = some u → u = o ∨ (ant u).isSome = true)
    (S : List String) (hS : ∀ v u, ant v = some u → u ∈ S) :
    ∀ (n : Nat) (v : String) (acc : List String), (v = o ∨ (ant v).isSome = true) →
      v ∈ S → acc.Nodup → (∀ x ∈ acc, x ∈ S) → S.length < n + acc.length →
      ∃ res, E1.reconstruir ant o n v acc = some res := by
  intro n
  induction n with
  | zero =>
    intro v acc _ _ hnd hsub hlen
    have := (List.subperm_of_subset hnd hsub).length_le
    omega
  | succ n ih =>
    intro v acc hv hvS hnd hsub hlen
    unfold E1.reconstruir
    by_cases hvo : v = o
    · exact ⟨.ok acc, by simp [hvo]⟩
    · simp only [hvo, if_false]
      by_cases hva : v ∈ acc
      · exact ⟨.error .bad_alloc, by simp [hva]⟩
      · simp only [hva, if_false]
        rcases hv with hv | hv
        · exact absurd hv hvo
        · obtain ⟨a, ha⟩ := Option.isSome_iff_exists.1 hv
          simp only [ha]
          refine ih a (acc ++ [v]) (hcl v a ha) (hS v a ha) ?_ ?_ ?_
          · exact List.nodup_append.2 ⟨hnd, by simp, by
              intro x hx hx2
              rw [List.mem_singleton] at hx2
              exact hva (hx2 ▸ hx)⟩
          · intro x hx
            rcases List.mem_append.1 hx with h1 | h1
            · exact hsub x h1
            · rw [List.mem_singleton] at h1
              rw [h1]
              exact hvS
          · simp only [List.length_append, List.length_singleton]
            omega

/-- A walk that ends at the origin has pushed, from the router it started at, a
    chain of predecessors that leads to the origin, each router once. -/
theorem reconstruir1_traza (ant : String → Option String) (o : String) :
    ∀ (n : Nat) (v : String) (acc ruta : List String),
      E1.reconstruir ant o n v acc = some (.ok ruta) →
      ∃ w, ruta = acc ++ w ∧ (w ++ [o]).head? = some v ∧
        List.Chain' (fun x a => ant x = some a) (w ++ [o]) ∧
        (acc.Nodup → o ∉ acc → (ruta ++ [o]).Nodup) := by
  intro n
  induction n with
  | zero => intro v acc ruta h; simp [E1.reconstruir] at h
  | succ n ih =>
    intro v acc ruta h
    unfold E1.reconstruir at h
    by_cases hvo : v = o
    · simp only [hvo, if_true, Option.some.injEq, Except.ok.injEq] at h
      subst h
      refine ⟨[], by simp, by simp [hvo], by simp, ?_⟩
      intro hnd ho
      exact List.nodup_append.2 ⟨hnd, by simp, by
        intro x hx hx2
        rw [List.mem_singleton] at hx2
        exact ho (hx2 ▸ hx)⟩
    · simp only [hvo, if_false] at h
      by_cases hva : v ∈ acc
      · simp [hva] at h
      · simp only [hva, if_false] at h
        cases ha : ant v with
        | none => simp [ha] at h
        | some a =>
          rw [ha] at h
          obtain ⟨w, h1, h2, h3, h4⟩ := ih a (acc ++ [v]) ruta h
          refine ⟨v :: w, by simp [h1], by simp, ?_, ?_⟩
          · rw [List.cons_append]
            refine List.Chain'.cons' h3 ?_
            intro y hy
            rw [h2] at hy
            simp only [Option.mem_def, Option.some.injEq] at hy
            rw [← hy]
            exact ha
          · intro hnd ho
            refine h4 ?_ ?_
            · exact List.nodup_append.2 ⟨hnd, by simp, by
                intro x hx hx2
                rw [List.mem_singleton] at hx2
                exact hva (hx2 ▸ hx)⟩
            · intro hm
              rcases List.mem_append.1 hm with h5 | h5
              · exact ho h5
              · rw [List.mem_singleton] at h5
                exact hvo h5.symm

/-! ## The path query on any store -/

theorem existe_de_enlace (r : Red) (u v : String)
    (h : (r.costoEnlace u v).isSome = true) : r.existeEnrutador u = true := by
  obtain ⟨c, hc⟩ := Option.isSome_iff_exists.1 h
  exact existe_of_costoEnlace_izq r u v c hc

theorem claves_lt_cota (r : Red) : (claves r.enrutadores).length < cotaBusqueda r := by
  have h1 : (claves r.enrutadores).length = r.enrutadores.length := by simp [claves]
  have h2 : r.enrutadores.length ≤ r.nombres.length := by
    unfold Red.nombres
    induction r.enrutadores with
    | nil => simp
    | cons p l ih =>
      simp only [List.flatMap_cons, List.length_append, List.length_cons]
      omega
  unfold cotaBusqueda
  omega

theorem ambos_existen (r : Red) (o dest : String)
    (hex : ¬ (!r.existeEnrutador o || !r.existeEnrutador dest) = true) :
    r.existeEnrutador o = true ∧ r.existeEnrutador dest = true := by
  cases h1 : r.existeEnrutador o <;> cases h2 : r.existeEnrutador dest <;>
    simp [h1, h2] at hex ⊢

theorem enc0_mono (r : Red) (o dest : String) (n : Nat)
    (x : Except Excepcion (Int × List String))
    (h : E0.encontrarRutaMasCorta n r o dest = some x) (k : Nat) :
    E0.encontrarRutaMasCorta (n + k) r o dest = some x := by
  unfold E0.encontrarRutaMasCorta at h ⊢
  by_cases hex : (!r.existeEnrutador o || !r.existeEnrutador dest) = true
  · rw [if_pos hex] at h ⊢
    exact h
  rw [if_neg hex] at h ⊢
  cases hit : iterar (E0.paso r dest) n (estadoInicial r o) with
  | none => rw [hit] at h; simp at h
  | some res =>
    rw [hit] at h
    rw [iterar_mono _ _ _ _ hit k]
    cases res with
    | error e => exact h
    | ok st =>
      simp only at h ⊢
      by_cases hmax : st.distancias dest = INT_MAX
      · simp only [hmax, if_true] at h ⊢
        exact h
      · simp only [hmax, if_false] at h ⊢
        cases hr : E0.reconstruir st.anterior o n dest [] with
        | none => rw [hr] at h; simp at h
        | some rr =>
          rw [hr] at h
          rw [reconstruir0_mono _ _ _ _ _ _ hr k]
          exact h

theorem enc1_mono (r : Red) (o dest : String) (n : Nat)
    (x : Except Excepcion (Int × List String))
    (h : E1.encontrarRutaMasCorta n r o dest = some x) (k : Nat) :
    E1.encontrarRutaMasCorta (n + k) r o dest = some x := by
  unfold E1.encontrarRutaMasCorta at h ⊢
  by_cases hex : (!r.existeEnrutador o || !r.existeEnrutador dest) = true
  · rw [if_pos hex] at h ⊢
    exact h
  rw [if_neg hex] at h ⊢
  cases hit : iterar (E1.paso r dest) n (estadoInicial r o) with
  | none => rw [hit] at h; simp at h
  | some res =>
    rw [hit] at h
    rw [iterar_mono _ _ _ _ hit k]
    cases res with
    | error e => exact h
    | ok st =>
      simp only at h ⊢
      by_cases hmax : st.distancias dest = INT_MAX
      · simp only [hmax, if_true] at h ⊢
        exact h
      · simp only [hmax, if_false] at h ⊢
        cases hr : E1.reconstruir st.anterior o n dest [] with
        | none => rw [hr] at h; simp at h
        | some rr =>
          rw [hr] at h
          rw [reconstruir1_mono _ _ _ _ _ _ hr k]
          exact h

/-- With more fuel than a run needed, the outcome is that of the run. -/
theorem consulta_desde (r : Red) (o dest : String) (n : Nat)
    (x : Except Excepcion (Int × List String))
    (h0 : E0.encontrarRutaMasCorta n r o dest = some x)
    (h1 : E1.encontrarRutaMasCorta n r o dest = some x) (fuel : Nat) (hf : n ≤ fuel) :
    E0.encontrarRutaMasCorta fuel r o dest = some x ∧
      E1.encontrarRutaMasCorta fuel r o dest = some x := by
  obtain ⟨k, rfl⟩ := Nat.exists_eq_add_of_le hf
  exact ⟨enc0_mono r o dest n x h0 k, enc1_mono r o dest n x h1 k⟩

/-- On any store, whatever enrutador1.cpp answers, a result or an error, is what
    enrutador0.cpp answers with the same fuel. -/
theorem respuesta_comun (r : Red) (o dest : String) (fuel : Nat)
    (res : Except Excepcion (Int × List String))
    (h : E1.encontrarRutaMasCorta fuel r o dest = some res) :
    E0.encontrarRutaMasCorta fuel r o dest = some res := by
  unfold E1.encontrarRutaMasCorta at h
  unfold E0.encontrarRutaMasCorta
  by_cases hex : (!r.existeEnrutador o || !r.existeEnrutador dest) = true
  · rw [if_pos hex] at h ⊢
    exact h
  rw [if_neg hex] at h
  rw [if_neg hex]
  obtain ⟨_, hd⟩ := ambos_existen r o dest hex
  cases hit : iterar (E1.paso r dest) fuel (estadoInicial r o) with
  | none => rw [hit] at h; simp at h
  | some res1 =>
    rw [hit] at h
    obtain ⟨hS, hO, hV⟩ := simulado_inicial r o dest
    rcases iterar_simulado r dest fuel _ _ res1 hS hO hV hit with
      ⟨t0, t1, rfl, h0, hdd, ha⟩ | ⟨e, rfl, h0⟩
    swap
    · rw [h0]
      exact h
    rw [h0]
    simp only at h ⊢
    rw [hdd, ha]
    by_cases hmax : t1.distancias dest = INT_MAX
    · simp only [hmax, if_true] at h ⊢
      exact h
    · simp only [hmax, if_false] at h ⊢
      obtain ⟨hcl, hdest⟩ := rastro_final1 r o dest hd fuel t1 hit
      rw [reconstruir_comun t1.anterior o (fun v u hvu => (hcl v u hvu).1) fuel dest []
        (hdest hmax)]
      exact h

/-- On any store the query of enrutador1.cpp ends: the loop ends, and the walk
    pushes no router twice. -/
theorem consulta_termina1 (r : Red) (o dest : String) (fuel : Nat)
    (hf : cotaBusqueda r ≤ fuel) :
    ∃ res, E1.encontrarRutaMasCorta fuel r o dest = some res := by
  unfold E1.encontrarRutaMasCorta
  by_cases hex : (!r.existeEnrutador o || !r.existeEnrutador dest) = true
  · rw [if_pos hex]
    exact ⟨_, rfl⟩
  rw [if_neg hex]
  obtain ⟨_, hd⟩ := ambos_existen r o dest hex
  obtain ⟨res1, hit⟩ := (bucle_termina r o dest fuel hf).2
  rw [hit]
  cases res1 with
  | error e => exact ⟨_, rfl⟩
  | ok st =>
    simp only
    by_cases hmax : st.distancias dest = INT_MAX
    · simp only [hmax, if_true]
      exact ⟨_, rfl⟩
    · simp only [hmax, if_false]
      obtain ⟨hcl, hdest⟩ := rastro_final1 r o dest hd fuel st hit
      obtain ⟨rr, hr⟩ := reconstruir1_termina st.anterior o (fun v u h => (hcl v u h).1)
        (claves r.enrutadores)
        (fun v u h => (existe_iff_claves r u).1 (existe_de_enlace r u v (hcl v u h).2))
        fuel dest [] (hdest hmax) ((existe_iff_claves r dest).1 hd) List.nodup_nil
        (by simp) (by
          have := claves_lt_cota r
          simp only [List.length_nil]
          omega)
      rw [hr]
      cases rr with
      | error e => exact ⟨_, rfl⟩
      | ok ruta => exact ⟨_, rfl⟩

/-- On any store, from `cotaBusqueda r` fuel on, both versions end, and with the
    same outcome. -/
theorem consulta_termina (r : Red) (o dest : String) (fuel : Nat)
    (hf : cotaBusqueda r ≤ fuel) :
    ∃ res, E0.encontrarRutaMasCorta fuel r o dest = some res ∧
      E1.encontrarRutaMasCorta fuel r o dest = some res := by
  obtain ⟨res, h⟩ := consulta_termina1 r o dest fuel hf
  exact ⟨res, respuesta_comun r o dest fuel res h, h⟩

/-- The route a walk hands back, read from the origin: it starts at the origin,
    ends at the router the walk started from, links every two consecutive
    routers and holds no router twice. -/
theorem ruta_de_traza (r : Red) (o dest : String) (ant : String → Option String)
    (hcl : ∀ v u, ant v = some u → (r.costoEnlace u v).isSome = true)
    (fuel : Nat) (ruta : List String)
    (h : E1.reconstruir ant o fuel dest [] = some (.ok ruta)) :
    ((ruta ++ [o]).reverse).head? = some o ∧ ((ruta ++ [o]).reverse).getLast? = some dest ∧
      List.Chain' (fun a b => (r.costoEnlace a b).isSome = true) ((ruta ++ [o]).reverse) ∧
      ((ruta ++ [o]).reverse).Nodup := by
  obtain ⟨w, h1, h2, h3, h4⟩ := reconstruir1_traza ant o fuel dest [] ruta h
  rw [List.nil_append] at h1
  subst h1
  refine ⟨by simp, ?_, ?_, ?_⟩
  · rw [List.getLast?_reverse]
    exact h2
  · rw [List.chain'_reverse]
    exact h3.imp (fun x a hxa => hcl x a hxa)
  · rw [List.nodup_reverse]
    exact h4 List.nodup_nil (by simp)

theorem ruta_estructura1 (r : Red) (o dest : String) (fuel : Nat) (c : Int)
    (p : List String) (h : E1.encontrarRutaMasCorta fuel r o dest = some (.ok (c, p))) :
    (c = -1 ∧ p = []) ∨
    (p.head? = some o ∧ p.getLast? = some dest ∧
      List.Chain' (fun a b => (r.costoEnlace a b).isSome = true) p ∧ p.Nodup) := by
  unfold E1.encontrarRutaMasCorta at h
  by_cases hex : (!r.existeEnrutador o || !r.existeEnrutador dest) = true
  · rw [if_pos hex] at h
    simp at h
  rw [if_neg hex] at h
  obtain ⟨_, hd⟩ := ambos_existen r o dest hex
  cases hit : iterar (E1.paso r dest) fuel (estadoInicial r o) with
  | none => rw [hit] at h; simp at h
  | some res1 =>
    rw [hit] at h
    cases res1 with
    | error e => simp at h
    | ok st =>
      simp only at h
      by_cases hmax : st.distancias dest = INT_MAX
      · simp only [hmax, if_true, Option.some.injEq, Except.ok.injEq, Prod.mk.injEq] at h
        exact Or.inl ⟨h.1.symm, h.2.symm⟩
      · simp only [hmax, if_false] at h
        obtain ⟨hcl, _⟩ := rastro_final1 r o dest hd fuel st hit
        cases hr : E1.reconstruir st.anterior o fuel dest [] with
        | none => rw [hr] at h; simp at h
        | some rr =>
          rw [hr] at h
          cases rr with
          | error e => simp at h
          | ok ruta =>
            simp only [Option.some.injEq, Except.ok.injEq, Prod.mk.injEq] at h
            rw [← h.2]
            exact Or.inr (ruta_de_traza r o dest st.anterior
              (fun v u hvu => (hcl v u hvu).2) fuel ruta hr)

theorem ruta_estructura0 (r : Red) (o dest : String) (fuel : Nat) (c : Int)
    (p : List String) (h : E0.encontrarRutaMasCorta fuel r o dest = some (.ok (c, p))) :
    (c = -1 ∧ p = []) ∨
    (p.head? = some o ∧ p.getLast? = some dest ∧
      List.Chain' (fun a b => (r.costoEnlace a b).isSome = true) p ∧ p.Nodup) := by
  unfold E0.encontrarRutaMasCorta at h
  by_cases hex : (!r.existeEnrutador o || !r.existeEnrutador dest) = true
  · rw [if_pos hex] at h
    simp at h
  rw [if_neg hex] at h
  obtain ⟨_, hd⟩ := ambos_existen r o dest hex
  cases hit : iterar (E0.paso r dest) fuel (estadoInicial r o) with
  | none => rw [hit] at h; simp at h
  | some res1 =>
    rw [hit] at h
    cases res1 with
    | error e => simp at h
    | ok st =>
      simp only at h
      by_cases hmax : st.distancias dest = INT_MAX
      · simp only [hmax, if_true, Option.some.injEq, Except.ok.injEq, Prod.mk.injEq] at h
        exact Or.inl ⟨h.1.symm, h.2.symm⟩
      · simp only [hmax, if_false] at h
        obtain ⟨hcl, hdest⟩ := rastro_final0 r o dest hd fuel st hit
        rw [reconstruir_comun st.anterior o (fun v u hvu => (hcl v u hvu).1) fuel dest []
          (hdest hmax)] at h
        cases hr : E1.reconstruir st.anterior o fuel dest [] with
        | none => rw [hr] at h; simp at h
        | some rr =>
          rw [hr] at h
          cases rr with
          | error e => simp at h
          | ok ruta =>
            simp only [Option.some.injEq, Except.ok.injEq, Prod.mk.injEq] at h
            rw [← h.2]
            exact Or.inr (ruta_de_traza r o dest st.anterior
              (fun v u hvu => (hcl v u hvu).2) fuel ruta hr)

/-! ## Errors of the path query -/

theorem error_busqueda0 (r : Red) (o dest : String) (fuel : Nat) (x : Excepcion)
    (ho : r.existeEnrutador o = true) (hd : r.existeEnrutador dest = true)
    (h : E0.encontrarRutaMasCorta fuel r o dest = some (.error x)) :
    (x = .out_of_range ∧
      iterar (E0.paso r dest) fuel (estadoInicial r o) = some (.error x)) ∨
    x = .bad_alloc := by
  unfold E0.encontrarRutaMasCorta at h
  simp only [ho, hd, Bool.not_true, Bool.or_self, Bool.false_eq_true, if_false] at h
  cases hit : iterar (E0.paso r dest) fuel (estadoInicial r o) with
  | none => simp [hit] at h
  | some res =>
    rw [hit] at h
    cases res with
    | error e =>
      simp only [Option.some.injEq, Except.error.injEq] at h
      subst h
      left
      refine ⟨?_, rfl⟩
      rcases iterar_parcial (E0.paso r dest) (fun _ => True) (fun _ _ _ _ => trivial)
        fuel _ _ trivial hit with ⟨_, _, _, _, h1⟩ | ⟨st1, e', _, hp, h1⟩
      · simp at h1
      · simp only [Except.error.injEq] at h1
        rw [h1]
        exact paso0_falla_tipo r dest st1 e' hp
    | ok st =>
      simp only at h
      by_cases hmax : st.distancias dest = INT_MAX
      · simp [hmax] at h
      · simp only [hmax, if_false] at h
        cases hr : E0.reconstruir st.anterior o fuel dest [] with
        | none => simp [hr] at h
        | some rr =>
          rw [hr] at h
          cases rr with
          | error e =>
            simp only [Option.some.injEq, Except.error.injEq] at h
            subst h
            exact Or.inr (reconstruir0_error _ _ _ _ _ _ hr)
          | ok ruta => simp at h

theorem error_busqueda1 (r : Red) (o dest : String) (fuel : Nat) (x : Excepcion)
    (ho : r.existeEnrutador o = true) (hd : r.existeEnrutador dest = true)
    (h : E1.encontrarRutaMasCorta fuel r o dest = some (.error x)) :
    (x = .out_of_range ∧
      iterar (E1.paso r dest) fuel (estadoInicial r o) = some (.error x)) ∨
    x = .bad_alloc := by
  unfold E1.encontrarRutaMasCorta at h
  simp only [ho, hd, Bool.not_true, Bool.or_self, Bool.false_eq_true, if_false] at h
  cases hit : iterar (E1.paso r dest) fuel (estadoInicial r o) with
  | none => simp [hit] at h
  | some res =>
    rw [hit] at h
    cases res with
    | error e =>
      simp only [Option.some.injEq, Except.error.injEq] at h
      subst h
      left
      refine ⟨?_, rfl⟩
      rcases iterar_parcial (E1.paso r dest) (fun _ => True) (fun _ _ _ _ => trivial)
        fuel _ _ trivial hit with ⟨_, _, _, _, h1⟩ | ⟨st1, e', _, hp, h1⟩
      · simp at h1
      · simp only [Except.error.injEq] at h1
        rw [h1]
        exact paso1_falla_tipo r dest st1 e' hp
    | ok st =>
      simp only at h
      by_cases hmax : st.distancias dest = INT_MAX
      · simp [hmax] at h
      · simp only [hmax, if_false] at h
        obtain ⟨hcl, hdest⟩ := rastro_final1 r o dest hd fuel st hit
        cases hr : E1.reconstruir st.anterior o fuel dest [] with
        | none => simp [hr] at h
        | some rr =>
          rw [hr] at h
          cases rr with
          | error e =>
            simp only [Option.some.injEq, Except.error.injEq] at h
            subst h
            exact Or.inr (reconstruir1_error _ _ (fun v u hvu => (hcl v u hvu).1)
              _ _ _ _ (hdest hmax) hr)
          | ok ruta => simp at h

/-- On a store without dangling names the frontier loop of either source file
    never misses a key: it ends, and it ends in a state. -/
theorem bucle_sin_fallo (r : Red) (o dest : String) (hcol : r.sinColgantes)
    (ho : r.existeEnrutador o = true) :
    (∀ fuel res, iterar (E0.paso r dest) fuel (estadoInicial r o) = some res →
      ∃ st, res = .ok st) ∧
    (∀ fuel res, iterar (E1.paso r dest) fuel (estadoInicial r o) = some res →
      ∃ st, res = .ok st) ∧
    (∀ fuel, cotaBusqueda r ≤ fuel →
      (∃ st, iterar (E0.paso r dest) fuel (estadoInicial r o) = some (.ok st)) ∧
      (∃ st, iterar (E1.paso r dest) fuel (estadoInicial r o) = some (.ok st))) := by
  have hno0 : ∀ st1 e, Alcance r o st1 → E0.paso r dest st1 ≠ .falla e := by
    intro st1 e hI hp
    obtain ⟨d, u, hm, hb⟩ := paso0_falla r dest st1 e hp
    have := (hI.1 _ (minimo_mem _ _ hm)).2
    simp [Red.existeEnrutador, hb] at this
  have hno1 : ∀ st1 e, Alcance r o st1 → E1.paso r dest st1 ≠ .falla e := by
    intro st1 e hI hp
    obtain ⟨d, u, hm, hb⟩ := paso1_falla r dest st1 e hp
    have := (hI.1 _ (minimo_mem _ _ hm)).2
    simp [Red.existeEnrutador, hb] at this
  have h0 : ∀ fuel res, iterar (E0.paso r dest) fuel (estadoInicial r o) = some res →
      ∃ st, res = .ok st := by
    intro fuel res h
    rcases iterar_parcial (E0.paso r dest) (Alcance r o)
      (fun st st' hI hp => alcance_paso0 r o dest hcol st st' hI hp) fuel _ res
      (alcance_inicial r o ho) h with ⟨_, st2, _, _, h1⟩ | ⟨st1, e, hI, hp, _⟩
    · exact ⟨st2, h1⟩
    · exact absurd hp (hno0 st1 e hI)
  have h1 : ∀ fuel res, iterar (E1.paso r dest) fuel (estadoInicial r o) = some res →
      ∃ st, res = .ok st := by
    intro fuel res h
    rcases iterar_parcial (E1.paso r dest) (Alcance r o)
      (fun st st' hI hp => alcance_paso1 r o dest hcol st st' hI hp) fuel _ res
      (alcance_inicial r o ho) h with ⟨_, st2, _, _, h1⟩ | ⟨st1, e, hI, hp, _⟩
    · exact ⟨st2, h1⟩
    · exact absurd hp (hno1 st1 e hI)
  refine ⟨h0, h1, ?_⟩
  intro fuel hf
  obtain ⟨⟨res0, hr0⟩, ⟨res1, hr1⟩⟩ := bucle_termina r o dest fuel hf
  obtain ⟨st0, rfl⟩ := h0 fuel res0 hr0
  obtain ⟨st1, rfl⟩ := h1 fuel res1 hr1
  exact ⟨⟨st0, hr0⟩, ⟨st1, hr1⟩⟩

/-- On a store without dangling names, with existing origin and destination, no
    keyed lookup of the query fails: the one error left is the allocation failure
    of a walk that cycles. -/
theorem fallo_de_consulta (r : Red) (o dest : String) (hcol : r.sinColgantes)
    (ho : r.existeEnrutador o = true) (hd : r.existeEnrutador dest = true) (fuel : Nat)
    (x : Excepcion) :
    (E0.encontrarRutaMasCorta fuel r o dest = some (.error x) → x = .bad_alloc) ∧
      (E1.encontrarRutaMasCorta fuel r o dest = some (.error x) → x = .bad_alloc) := by
  obtain ⟨h0, h1, _⟩ := bucle_sin_fallo r o dest hcol ho
  constructor
  · intro h
    rcases error_busqueda0 r o dest fuel x ho hd h with ⟨_, hit⟩ | h2
    · obtain ⟨st, hst⟩ := h0 fuel _ hit
      simp at hst
    · exact h2
  · intro h
    rcases error_busqueda1 r o dest fuel x ho hd h with ⟨_, hit⟩ | h2
    · obtain ⟨st, hst⟩ := h1 fuel _ hit
      simp at hst
    · exact h2

/-! ## The query under the conditions of the correctness proof -/

/-- Under the conditions of the correctness proof the query of enrutador0.cpp
    ends: the loop ends in a state, and unless the destination was not reached
    the predecessor walk ends at the origin having visited no router twice. -/
theorem termina0 (r : Red) (o dest : String)
    (hbf : r.bienFormada) (hnn : r.costosNoNegativos) (hso : r.sinDesborde o dest)
    (ho : r.existeEnrutador o = true) (hd : r.existeEnrutador dest = true)
    (fuel : Nat) (hf : cotaBusqueda r ≤ fuel) :
    ∃ st, iterar (E0.paso r dest) fuel (estadoInicial r o) = some (.ok st) ∧
      ((st.distancias dest = INT_MAX ∧
          E0.encontrarRutaMasCorta fuel r o dest = some (.ok (-1, []))) ∨
        ∃ ruta, E0.reconstruir st.anterior o fuel dest [] = some (.ok ruta) ∧
          (ruta ++ [o]).Nodup ∧
          E0.encontrarRutaMasCorta fuel r o dest
            = some (.ok (st.distancias dest, (ruta ++ [o]).reverse))) := by
  obtain ⟨res, hit⟩ := (bucle_termina r o dest fuel hf).1
  obtain ⟨st2, rfl, h1, h2, h3, h4, h5⟩ := final0 r o dest hbf hnn hso ho hd fuel _ hit
  refine ⟨st2, hit, ?_⟩
  unfold E0.encontrarRutaMasCorta
  simp only [ho, hd, Bool.not_true, Bool.or_self, Bool.false_eq_true, if_false, hit]
  by_cases hmax : st2.distancias dest = INT_MAX
  · left
    exact ⟨hmax, by simp only [hmax, if_true]⟩
  · right
    simp only [hmax, if_false]
    obtain ⟨p, hp⟩ := h3 (lt_of_le_of_ne h2 hmax)
    have hlen := le_trans (cadena_length r o st2 p dest hp hd) hf
    have hrec := (reconstruir0_cadena r o st2 p dest hp fuel [] (by simp)).1 hlen
    rw [List.nil_append] at hrec
    refine ⟨_, hrec, (camino_andado p o (cadena_head _ _ _ _ _ hp)
      (cadena_nodup _ _ _ _ _ hp)).2, ?_⟩
    rw [hrec]

/-- Under the conditions of the correctness proof the query of enrutador1.cpp
    ends: the loop ends in a state, and unless the destination was not reached
    the predecessor walk ends at the origin having visited no router twice. -/
theorem termina1 (r : Red) (o dest : String)
    (hbf : r.bienFormada) (hnn : r.costosNoNegativos) (hso : r.sinDesborde o dest)
    (ho : r.existeEnrutador o = true) (hd : r.existeEnrutador dest = true)
    (fuel : Nat) (hf : cotaBusqueda r ≤ fuel) :
    ∃ st, iterar (E1.paso r dest) fuel (estadoInicial r o) = some (.ok st) ∧
      ((st.distancias dest = INT_MAX ∧
          E1.encontrarRutaMasCorta fuel r o dest = some (.ok (-1, []))) ∨
        ∃ ruta, E1.reconstruir st.anterior o fuel dest [] = some (.ok ruta) ∧
          (ruta ++ [o]).Nodup ∧
          E1.encontrarRutaMasCorta fuel r o dest
            = some (.ok (st.distancias dest, (ruta ++ [o]).reverse))) := by
  obtain ⟨res, hit⟩ := (bucle_termina r o dest fuel hf).2
  obtain ⟨st2, rfl, h1, h2, h3, h4, h5⟩ := final1 r o dest hbf hnn hso ho hd fuel _ hit
  refine ⟨st2, hit, ?_⟩
  unfold E1.encontrarRutaMasCorta
  simp only [ho, hd, Bool.not_true, Bool.or_self, Bool.false_eq_true, if_false, hit]
  by_cases hmax : st2.distancias dest = INT_MAX
  · left
    exact ⟨hmax, by simp only [hmax, if_true]⟩
  · right
    simp only [hmax, if_false]
    obtain ⟨p, hp⟩ := h3 (lt_of_le_of_ne h2 hmax)
    have hlen := le_trans (cadena_length r o st2 p dest hp hd) hf
    have hrec := (reconstruir1_cadena r o st2 p dest hp fuel [] (by simp)).1 hlen
    rw [List.nil_append] at hrec
    refine ⟨_, hrec, (camino_andado p o (cadena_head _ _ _ _ _ hp)
      (cadena_nodup _ _ _ _ _ hp)).2, ?_⟩
    rw [hrec]

/-- Under the conditions of the correctness proof both versions return a result,
    never an error. -/
theorem resultado_sin_error (r : Red) (o dest : String)
    (hbf : r.bienFormada) (hnn : r.costosNoNegativos) (hso : r.sinDesborde o dest)
    (ho : r.existeEnrutador o = true) (hd : r.existeEnrutador dest = true)
    (fuel : Nat) (hf : cotaBusqueda r ≤ fuel) :
    ∃ c p, E0.encontrarRutaMasCorta fuel r o dest = some (.ok (c, p)) ∧
      E1.encontrarRutaMasCorta fuel r o dest = some (.ok (c, p)) := by
  obtain ⟨h1, h2⟩ := busqueda1 r o dest hbf hnn hso ho hd
  obtain ⟨res, hres⟩ := h2 fuel hf
  rcases h1 fuel res hres with ⟨rfl, _⟩ | ⟨c, p, rfl, _, _⟩
  · exact ⟨_, _, respuesta_comun r o dest fuel _ hres, hres⟩
  · exact ⟨c, p, respuesta_comun r o dest fuel _ hres, hres⟩

/-! ## Stores whose paths stay below `INT_MAX` -/

theorem ruta_en_nombres (r : Red) :
    ∀ (p : List String) (t : Int), r.costoRuta p = some t → 2 ≤ p.length →
      ∀ x ∈ p, x ∈ r.nombres := by
  intro p
  induction p with
  | nil => intro t _ hlen; simp at hlen
  | cons a p ih =>
    intro t ht hlen x hx
    cases p with
    | nil => simp at hlen
    | cons b l =>
      obtain ⟨c, t', hl, ht', _⟩ := (costoRuta_cons_iff _ _ _ _ _).1 ht
      have hab : a ∈ r.nombres ∧ b ∈ r.nombres := by
        unfold Red.costoEnlace at hl
        cases hb : buscar r.enrutadores a with
        | none => simp [hb] at hl
        | some e =>
          rw [hb] at hl
          exact ⟨mem_nombres_clave r a e (mem_of_buscar _ _ _ hb),
            mem_nombres_vecino r a e (b, c) (mem_of_buscar _ _ _ hb) (mem_of_buscar _ _ _ hl)⟩
      rcases List.mem_cons.1 hx with rfl | hx
      · exact hab.1
      · cases l with
        | nil =>
          have : x = b := by simpa using hx
          rw [this]
          exact hab.2
        | cons c2 l2 => exact ih t' ht' (by simp) x hx

/-- A store all of whose names are in `L` keeps its path totals below `INT_MAX`
    as soon as every arrangement of distinct names of `L` does. -/
theorem totales_de_lista (r : Red) (L : List String) (hL : ∀ x ∈ r.nombres, x ∈ L)
    (h : (L.sublists.flatMap List.permutations').all (fun p =>
      match r.costoRuta p with
      | some t => decide (t < INT_MAX)
      | none => true) = true) : r.totalesAcotados := by
  intro p t hnd ht
  by_cases hlen : 2 ≤ p.length
  · have hsub : p ⊆ L := fun x hx => hL x (ruta_en_nombres r p t ht hlen x hx)
    obtain ⟨l, hperm, hsl⟩ := List.subperm_of_subset hnd hsub
    have hmem : p ∈ L.sublists.flatMap List.permutations' :=
      List.mem_flatMap.2 ⟨l, (List.mem_sublists).2 hsl, List.mem_permutations'.2 hperm.symm⟩
    have := List.all_eq_true.1 h p hmem
    rw [ht] at this
    simpa using this
  · have ht0 : t = 0 := by
      cases p with
      | nil => simpa [Red.costoRuta] using ht.symm
      | cons a l =>
        cases l with
        | nil =>
          rw [costoRuta_uno] at ht
          simpa using ht.symm
        | cons b l2 => simp at hlen
    rw [ht0]
    decide

theorem redVuelta_totales : redVuelta.totalesAcotados :=
  totales_de_lista redVuelta ["A", "B", "C"] (by decide) (by rfl)

theorem redRebote_totales : redRebote.totalesAcotados :=
  totales_de_lista redRebote ["O", "A", "B", "X"] (by decide) (by rfl)

/-! ## Optimal and valid routes -/

theorem existen_de_resultado (r : Red) (o dest : String) (fuel : Nat) (x : Int × List String)
    (h : E0.encontrarRutaMasCorta fuel r o dest = some (.ok x) ∨
      E1.encontrarRutaMasCorta fuel r o dest = some (.ok x)) :
    r.existeEnrutador o = true ∧ r.existeEnrutador dest = true := by
  by_contra hne
  have hex : r.existeEnrutador o = false ∨ r.existeEnrutador dest = false := by
    cases h1 : r.existeEnrutador o <;> cases h2 : r.existeEnrutador dest <;>
      simp [h1, h2] at hne ⊢
  obtain ⟨h0, h1⟩ := no_existe_busqueda r o dest fuel hex
  rcases h with h | h
  · rw [h0] at h
    simp at h
  · rw [h1] at h
    simp at h

/-- C1, counterexample. On the chain A-B-C with costs `2^30` and 1, built by the
    public calls, every cost is non-negative and every path totals at most
    `2^30 + 1`, below `INT_MAX`; `A` and `C` exist and the path A, B, C joins them
    at cost 1073741825. No route from `A` to `C` costs less than 0, yet both
    source files answer the query (A, C) with the cost -1073741823: the link
    `A`-`B` is relaxed back from `B` towards `A`, and `2^30 + 2^30` wraps around. -/
theorem C1_contraejemplo :
    redVuelta.invariante ∧ redVuelta.costosNoNegativos ∧ redVuelta.totalesAcotados ∧
    redVuelta.existeEnrutador "A" = true ∧ redVuelta.existeEnrutador "C" = true ∧
    redVuelta.esRuta "A" "C" ["A", "B", "C"] 1073741825 ∧
    (∀ q t, redVuelta.esRuta "A" "C" q t → 0 ≤ t) ∧
    ∀ fuel, 5 ≤ fuel →
      E0.encontrarRutaMasCorta fuel redVuelta "A" "C"
        = some (.ok (-1073741823, ["A", "B", "C"])) ∧
      E1.encontrarRutaMasCorta fuel redVuelta "A" "C"
        = some (.ok (-1073741823, ["A", "B", "C"])) :=
  ⟨invariante_tras _, noNegativos_tras _, redVuelta_totales, by decide, by decide,
    ⟨rfl, rfl, rfl⟩,
    fun q t hq => camino_no_negativo _ (noNegativos_tras _) _ _ _
      (camino_de_ruta _ q "A" "C" t hq.1 hq.2.1 hq.2.2),
    fun fuel hf => consulta_desde redVuelta "A" "C" 5 _ (by rfl) (by rfl) fuel hf⟩

/-- C1, amended. Shortest-path optimality: on a store with non-negative costs on
    which every route that starts at `o`, visits no router twice before its last
    hop and does not pass through `dest` before its last hop totals less than
    `INT_MAX`, for existing routers `o` and `dest` joined by some sequence of
    links, `encontrarRutaMasCorta` returns a route from `o` to `dest` together
    with its cost, and no route from `o` to `dest` costs less; both source files,
    any fuel from `cotaBusqueda r` on. -/
theorem C1_ruta_optima (r : Red) (o dest : String) (fuel : Nat)
    (hbf : r.bienFormada) (hnn : r.costosNoNegativos) (hso : r.sinDesborde o dest)
    (ho : r.existeEnrutador o = true) (hd : r.existeEnrutador dest = true)
    (hc : r.conectados o dest) (hf : cotaBusqueda r ≤ fuel) :
    (∃ c p, E0.encontrarRutaMasCorta fuel r o dest = some (.ok (c, p)) ∧
      r.esRuta o dest p c ∧ ∀ q t, r.esRuta o dest q t → c ≤ t) ∧
    (∃ c p, E1.encontrarRutaMasCorta fuel r o dest = some (.ok (c, p)) ∧
      r.esRuta o dest p c ∧ ∀ q t, r.esRuta o dest q t → c ≤ t) := by
  constructor
  · obtain ⟨h1, h2⟩ := busqueda0 r o dest hbf hnn hso ho hd
    obtain ⟨res, hres⟩ := h2 fuel hf
    rcases h1 fuel res hres with ⟨_, hno⟩ | ⟨c, p, rfl, h3, h4⟩
    · exact absurd hc hno
    · exact ⟨c, p, hres, h3, h4⟩
  · obtain ⟨h1, h2⟩ := busqueda1 r o dest hbf hnn hso ho hd
    obtain ⟨res, hres⟩ := h2 fuel hf
    rcases h1 fuel res hres with ⟨_, hno⟩ | ⟨c, p, rfl, h3, h4⟩
    · exact absurd hc hno
    · exact ⟨c, p, hres, h3, h4⟩

theorem C1_ruta_optima_witness :
    ((∃ c p, E0.encontrarRutaMasCorta (cotaBusqueda ciclo4) ciclo4 "A" "C" = some (.ok (c, p)) ∧
        ciclo4.esRuta "A" "C" p c ∧ ∀ q t, ciclo4.esRuta "A" "C" q t → c ≤ t) ∧
      (∃ c p, E1.encontrarRutaMasCorta (cotaBusqueda ciclo4) ciclo4 "A" "C" = some (.ok (c, p)) ∧
        ciclo4.esRuta "A" "C" p c ∧ ∀ q t, ciclo4.esRuta "A" "C" q t → c ≤ t)) ∧
    E0.encontrarRutaMasCorta (cotaBusqueda ciclo4) ciclo4 "A" "C"
      = some (.ok (2, ["A", "B", "C"])) ∧
    E1.encontrarRutaMasCorta (cotaBusqueda ciclo4) ciclo4 "A" "C"
      = some (.ok (2, ["A", "B", "C"])) :=
  ⟨C1_ruta_optima ciclo4 "A" "C" (cotaBusqueda ciclo4) (invariante_tras _).1
      (by unfold Red.costosNoNegativos; decide) (ciclo4_sinDesborde "A" "C")
      (by decide) (by decide) ciclo4_conectados (le_refl _),
    rfl, rfl⟩

/-- C2, counterexample. On the chain A-B-D with costs 1 and `INT_MAX` the query
    (A, D) returns the cost `-2147483648` with the sequence A, B, D, whose links
    add up to `2147483648`: the sum `1 + INT_MAX` wrapped around. And on the chain
    A-B-C with costs `2^30` and 1, where every path totals less than `INT_MAX`,
    the query (A, C) returns the cost -1073741823 with the sequence A, B, C, whose
    links add up to 1073741825. -/
theorem C2_contraejemplo :
    (E0.encontrarRutaMasCorta (cotaBusqueda redDesborde) redDesborde "A" "D"
        = some (.ok (-2147483648, ["A", "B", "D"])) ∧
      E1.encontrarRutaMasCorta (cotaBusqueda redDesborde) redDesborde "A" "D"
        = some (.ok (-2147483648, ["A", "B", "D"])) ∧
      redDesborde.costoRuta ["A", "B", "D"] = some 2147483648) ∧
    (redVuelta.costosNoNegativos ∧ redVuelta.totalesAcotados ∧
      E0.encontrarRutaMasCorta (cotaBusqueda redVuelta) redVuelta "A" "C"
        = some (.ok (-1073741823, ["A", "B", "C"])) ∧
      E1.encontrarRutaMasCorta (cotaBusqueda redVuelta) redVuelta "A" "C"
        = some (.ok (-1073741823, ["A", "B", "C"])) ∧
      redVuelta.costoRuta ["A", "B", "C"] = some 1073741825) :=
  ⟨⟨rfl, rfl, rfl⟩, noNegativos_tras _, redVuelta_totales, rfl, rfl, rfl⟩

/-- C2, amended. Path validity: on every store, whenever the query returns
    anything but the no-path result (cost `-1`, empty sequence), the returned
    sequence starts with the origin, ends with the destination and links every
    two consecutive routers; and on a store with non-negative costs on which
    every route that starts at `o`, visits no router twice before its last hop
    and does not pass through `dest` before its last hop totals less than
    `INT_MAX`, the link costs of the returned sequence add up to the returned
    cost; both source files. -/
theorem C2_ruta_valida (r : Red) (o dest : String) :
    (∀ fuel c p,
      (E0.encontrarRutaMasCorta fuel r o dest = some (.ok (c, p)) ∨
        E1.encontrarRutaMasCorta fuel r o dest = some (.ok (c, p))) →
      (c, p) ≠ (-1, []) →
      p.head? = some o ∧ p.getLast? = some dest ∧
      List.Chain' (fun a b => (r.costoEnlace a b).isSome = true) p) ∧
    (r.bienFormada → r.costosNoNegativos → r.sinDesborde o dest →
      ∀ fuel c p,
        (E0.encontrarRutaMasCorta fuel r o dest = some (.ok (c, p)) ∨
          E1.encontrarRutaMasCorta fuel r o dest = some (.ok (c, p))) →
        (c, p) ≠ (-1, []) → r.costoRuta p = some c) := by
  constructor
  · intro fuel c p hres hne
    have hest : (c = -1 ∧ p = []) ∨
        (p.head? = some o ∧ p.getLast? = some dest ∧
          List.Chain' (fun a b => (r.costoEnlace a b).isSome = true) p ∧ p.Nodup) := by
      rcases hres with h | h
      · exact ruta_estructura0 r o dest fuel c p h
      · exact ruta_estructura1 r o dest fuel c p h
    rcases hest with ⟨h1, h2⟩ | ⟨h1, h2, h3, _⟩
    · exact absurd (by rw [h1, h2]) hne
    · exact ⟨h1, h2, h3⟩
  · intro hbf hnn hso fuel c p hres hne
    obtain ⟨ho, hd⟩ := existen_de_resultado r o dest fuel (c, p) hres
    have hgood : r.respuestaCorrecta o dest (.ok (c, p)) := by
      rcases hres with h | h
      · exact (busqueda0 r o dest hbf hnn hso ho hd).1 fuel _ h
      · exact (busqueda1 r o dest hbf hnn hso ho hd).1 fuel _ h
    rcases hgood with ⟨heq, _⟩ | ⟨c', p', heq, hr, _⟩
    · simp only [Except.ok.injEq] at heq
      exact absurd heq hne
    · simp only [Except.ok.injEq, Prod.mk.injEq] at heq
      obtain ⟨rfl, rfl⟩ := heq
      exact hr.2.2

theorem C2_ruta_valida_witness :
    ((["A", "B", "C"] : List String).head? = some "A" ∧
      (["A", "B", "C"] : List String).getLast? = some "C" ∧
      List.Chain' (fun a b => (redVuelta.costoEnlace a b).isSome = true) ["A", "B", "C"]) ∧
    ciclo4.costoRuta ["A", "B", "C"] = some 2 :=
  ⟨(C2_ruta_valida redVuelta "A" "C").1 5 (-1073741823) ["A", "B", "C"] (Or.inl (by rfl))
      (by decide),
    (C2_ruta_valida ciclo4 "A" "C").2 (invariante_tras _).1
      (by unfold Red.costosNoNegativos; decide) (ciclo4_sinDesborde "A" "C")
      (cotaBusqueda ciclo4) 2 ["A", "B", "C"] (Or.inl rfl) (by decide)⟩

/-! ## Which queries fail -/

/-- C13, counterexample. On the chain A-B-C-D with costs 1, `INT_MAX` and 0, which
    the public calls build, both routers of the query (A, D) are present, yet
    neither version returns a result: the wrapped sum `1 + INT_MAX` leaves `B` and
    `C` as each other's predecessor, the predecessor walk from `D` cycles and the
    query fails with `std::bad_alloc`. The same happens to the query (O, X) on
    the chain O-A-B-X with costs 0, `2^30` and 0, where every cost is non-negative
    and every path totals less than `INT_MAX`. -/
theorem C13_contraejemplo :
    (redCiclica.existeEnrutador "A" = true ∧ redCiclica.existeEnrutador "D" = true ∧
      ∀ fuel, 4 ≤ fuel →
        E0.encontrarRutaMasCorta fuel redCiclica "A" "D" = some (.error .bad_alloc) ∧
        E1.encontrarRutaMasCorta fuel redCiclica "A" "D" = some (.error .bad_alloc)) ∧
    (redRebote.costosNoNegativos ∧ redRebote.totalesAcotados ∧
      redRebote.existeEnrutador "O" = true ∧ redRebote.existeEnrutador "X" = true ∧
      ∀ fuel, 7 ≤ fuel →
        E0.encontrarRutaMasCorta fuel redRebote "O" "X" = some (.error .bad_alloc) ∧
        E1.encontrarRutaMasCorta fuel redRebote "O" "X" = some (.error .bad_alloc)) :=
  ⟨⟨by decide, by decide,
      fun fuel hf => consulta_desde redCiclica "A" "D" 4 _ (by rfl) (by rfl) fuel hf⟩,
    noNegativos_tras _, redRebote_totales, by decide, by decide,
    fun fuel hf => consulta_desde redRebote "O" "X" 7 _ (by rfl) (by rfl) fuel hf⟩

/-- C13, amended. The query fails with the router-not-found error exactly when the
    origin or the destination is not a router of the store; when both are present,
    on a store with non-negative costs on which every route that starts at `o`,
    visits no router twice before its last hop and does not pass through `dest`
    before its last hop totals less than `INT_MAX`, it returns a cost with a
    router sequence (the no-path result included) and does not fail; both source
    files. -/
theorem C13_falla_de_busqueda (r : Red) (o dest : String) :
    (∀ fuel,
      (E0.encontrarRutaMasCorta fuel r o dest
          = some (.error (.invalid_argument msgNoExiste)) ↔
        (r.existeEnrutador o = false ∨ r.existeEnrutador dest = false)) ∧
      (E1.encontrarRutaMasCorta fuel r o dest
          = some (.error (.invalid_argument msgNoExiste)) ↔
        (r.existeEnrutador o = false ∨ r.existeEnrutador dest = false))) ∧
    (r.bienFormada → r.costosNoNegativos → r.sinDesborde o dest →
      r.existeEnrutador o = true → r.existeEnrutador dest = true →
      ∀ fuel, cotaBusqueda r ≤ fuel →
        (∃ c p, E0.encontrarRutaMasCorta fuel r o dest = some (.ok (c, p))) ∧
        (∃ c p, E1.encontrarRutaMasCorta fuel r o dest = some (.ok (c, p)))) := by
  constructor
  · intro fuel
    have hback := no_existe_busqueda r o dest fuel
    have hboth : ¬ (r.existeEnrutador o = false ∨ r.existeEnrutador dest = false) →
        r.existeEnrutador o = true ∧ r.existeEnrutador dest = true := by
      intro h
      constructor
      · by_contra h1; exact h (Or.inl (by simpa using h1))
      · by_contra h1; exact h (Or.inr (by simpa using h1))
    constructor
    · constructor
      · intro h
        by_contra hne
        obtain ⟨ho, hd⟩ := hboth hne
        rcases error_busqueda0 r o dest fuel _ ho hd h with ⟨h1, _⟩ | h1
        · simp at h1
        · simp at h1
      · intro h; exact (hback h).1
    · constructor
      · intro h
        by_contra hne
        obtain ⟨ho, hd⟩ := hboth hne
        rcases error_busqueda1 r o dest fuel _ ho hd h with ⟨h1, _⟩ | h1
        · simp at h1
        · simp at h1
      · intro h; exact (hback h).2
  · intro hbf hnn hso ho hd fuel hf
    obtain ⟨c, p, h0, h1⟩ := resultado_sin_error r o dest hbf hnn hso ho hd fuel hf
    exact ⟨⟨c, p, h0⟩, ⟨c, p, h1⟩⟩

theorem C13_falla_de_busqueda_witness :
    (E0.encontrarRutaMasCorta 5 ciclo4 "A" "Z" = some (.error (.invalid_argument msgNoExiste)) ∧
      E1.encontrarRutaMasCorta 5 ciclo4 "A" "Z"
        = some (.error (.invalid_argument msgNoExiste))) ∧
    ((∃ c p, E0.encontrarRutaMasCorta (cotaBusqueda ciclo4) ciclo4 "A" "C" = some (.ok (c, p))) ∧
      (∃ c p, E1.encontrarRutaMasCorta (cotaBusqueda ciclo4) ciclo4 "A" "C"
        = some (.ok (c, p)))) :=
  ⟨⟨((C13_falla_de_busqueda ciclo4 "A" "Z").1 5).1.2 (Or.inr (by decide)),
    ((C13_falla_de_busqueda ciclo4 "A" "Z").1 5).2.2 (Or.inr (by decide))⟩,
   (C13_falla_de_busqueda ciclo4 "A" "C").2 (invariante_tras _).1
     (by unfold Red.costosNoNegativos; decide) (ciclo4_sinDesborde "A" "C")
     (by decide) (by decide) (cotaBusqueda ciclo4) (le_refl _)⟩

/-! ## Lookups on a store without dangling names -/

/-- C21, counterexample. The chain A-B-C-D with costs 1, `INT_MAX` and 0 satisfies
    the store invariant (every listed neighbour is an existing router) and holds
    `A` and `D`, yet the query (A, D) raises an error in both source files: no
    lookup misses its key, but the predecessor walk cycles between `B` and `C`
    and ends in `std::bad_alloc`. -/
theorem C21_contraejemplo :
    redCiclica.invariante ∧ redCiclica.sinColgantes ∧
    redCiclica.existeEnrutador "A" = true ∧ redCiclica.existeEnrutador "D" = true ∧
    ∀ fuel, 4 ≤ fuel →
      E0.encontrarRutaMasCorta fuel redCiclica "A" "D" = some (.error .bad_alloc) ∧
      E1.encontrarRutaMasCorta fuel redCiclica "A" "D" = some (.error .bad_alloc) :=
  ⟨invariante_tras _, (invariante_tras _).2.2, by decide, by decide,
    fun fuel hf => consulta_desde redCiclica "A" "D" 4 _ (by rfl) (by rfl) fuel hf⟩

/-- C21, amended. No lookup failure under the invariant: on a store in which
    every listed neighbour is an existing router, `esRedConectada` never raises
    an error and returns its verdict, and for existing origin and destination
    every keyed lookup of `encontrarRutaMasCorta` finds its key: the frontier
    loop ends without failure, the query ends, alike in both source files, and
    the only error it can end with is the allocation failure `std::bad_alloc` of
    a predecessor walk that cycles. It ends with no error at all when the costs
    are non-negative and every route that starts at `o`, visits no router twice
    before its last hop and does not pass through `dest` before its last hop
    totals less than `INT_MAX`. The store may be disconnected. -/
theorem C21_sin_fallo_de_consulta (r : Red) (hcol : r.sinColgantes) :
    ((∀ fuel e, r.esRedConectada fuel ≠ some (.error e)) ∧
      ∀ fuel, cotaConexion r ≤ fuel → ∃ b, r.esRedConectada fuel = some (.ok b)) ∧
    ∀ o dest, r.existeEnrutador o = true → r.existeEnrutador dest = true →
      (∀ fuel e,
        (E0.encontrarRutaMasCorta fuel r o dest = some (.error e) → e = .bad_alloc) ∧
        (E1.encontrarRutaMasCorta fuel r o dest = some (.error e) → e = .bad_alloc)) ∧
      (∀ fuel, cotaBusqueda r ≤ fuel →
        (∃ st, iterar (E0.paso r dest) fuel (estadoInicial r o) = some (.ok st)) ∧
        (∃ st, iterar (E1.paso r dest) fuel (estadoInicial r o) = some (.ok st)) ∧
        ∃ res, E0.encontrarRutaMasCorta fuel r o dest = some res ∧
          E1.encontrarRutaMasCorta fuel r o dest = some res) ∧
      (r.bienFormada → r.costosNoNegativos → r.sinDesborde o dest →
        ∀ fuel, cotaBusqueda r ≤ fuel →
          ∃ c p, E0.encontrarRutaMasCorta fuel r o dest = some (.ok (c, p)) ∧
            E1.encontrarRutaMasCorta fuel r o dest = some (.ok (c, p))) := by
  refine ⟨conexion_sin_fallo r hcol, ?_⟩
  intro o dest ho hd
  refine ⟨fun fuel e => fallo_de_consulta r o dest hcol ho hd fuel e, ?_, ?_⟩
  · intro fuel hf
    obtain ⟨h0, h1⟩ := (bucle_sin_fallo r o dest hcol ho).2.2 fuel hf
    exact ⟨h0, h1, consulta_termina r o dest fuel hf⟩
  · intro hbf hnn hso fuel hf
    exact resultado_sin_error r o dest hbf hnn hso ho hd fuel hf

theorem C21_sin_fallo_de_consulta_witness :
    ((∀ fuel e, redSeparada.esRedConectada fuel ≠ some (.error e)) ∧
      ∃ b, redSeparada.esRedConectada (cotaConexion redSeparada) = some (.ok b)) ∧
    (∀ fuel e,
      (E0.encontrarRutaMasCorta fuel redSeparada "A" "C" = some (.error e) → e = .bad_alloc) ∧
      (E1.encontrarRutaMasCorta fuel redSeparada "A" "C" = some (.error e) →
        e = .bad_alloc)) ∧
    ((∃ st, iterar (E0.paso redSeparada "C") (cotaBusqueda redSeparada)
        (estadoInicial redSeparada "A") = some (.ok st)) ∧
      (∃ st, iterar (E1.paso redSeparada "C") (cotaBusqueda redSeparada)
        (estadoInicial redSeparada "A") = some (.ok st)) ∧
      ∃ res, E0.encontrarRutaMasCorta (cotaBusqueda redSeparada) redSeparada "A" "C"
          = some res ∧
        E1.encontrarRutaMasCorta (cotaBusqueda redSeparada) redSeparada "A" "C"
          = some res) ∧
    E0.encontrarRutaMasCorta (cotaBusqueda redSeparada) redSeparada "A" "C"
      = some (.ok (-1, [])) :=
  ⟨⟨(C21_sin_fallo_de_consulta redSeparada (invariante_tras _).2.2).1.1,
      (C21_sin_fallo_de_consulta redSeparada (invariante_tras _).2.2).1.2 _ (le_refl _)⟩,
    ((C21_sin_fallo_de_consulta redSeparada (invariante_tras _).2.2).2 "A" "C"
      (by decide) (by decide)).1,
    ((C21_sin_fallo_de_consulta redSeparada (invariante_tras _).2.2).2 "A" "C"
      (by decide) (by decide)).2.1 _ (le_refl _),
    by rfl⟩

/-! ## Ending of the path query -/

/-- C22, counterexample. The chain A-B-C-D with costs 1, `INT_MAX` and 0 has
    non-negative costs and holds `A` and `D`. The frontier loop of the query
    (A, D) ends after four turns, in both source files, but it leaves `B` and `C`
    as each other's predecessor: the walk from `D` cycles, never reaches `A`, and
    the query ends in `std::bad_alloc`. The same happens to the query (O, X) on
    the chain O-A-B-X with costs 0, `2^30` and 0, where every path totals less
    than `INT_MAX`. -/
theorem C22_contraejemplo :
    (redCiclica.costosNoNegativos ∧ redCiclica.existeEnrutador "A" = true ∧
      redCiclica.existeEnrutador "D" = true ∧
      (∃ st, iterar (E0.paso redCiclica "D") 4 (estadoInicial redCiclica "A") = some (.ok st) ∧
        st.anterior "D" = some "C" ∧ st.anterior "C" = some "B" ∧
        st.anterior "B" = some "C" ∧
        E0.reconstruir st.anterior "A" 4 "D" [] = some (.error .bad_alloc)) ∧
      (∃ st, iterar (E1.paso redCiclica "D") 4 (estadoInicial redCiclica "A") = some (.ok st) ∧
        st.anterior "D" = some "C" ∧ st.anterior "C" = some "B" ∧
        st.anterior "B" = some "C" ∧
        E1.reconstruir st.anterior "A" 4 "D" [] = some (.error .bad_alloc)) ∧
      ∀ fuel, 4 ≤ fuel →
        E0.encontrarRutaMasCorta fuel redCiclica "A" "D" = some (.error .bad_alloc) ∧
        E1.encontrarRutaMasCorta fuel redCiclica "A" "D" = some (.error .bad_alloc)) ∧
    (redRebote.costosNoNegativos ∧ redRebote.totalesAcotados ∧
      redRebote.existeEnrutador "O" = true ∧ redRebote.existeEnrutador "X" = true ∧
      ∀ fuel, 7 ≤ fuel →
        E0.encontrarRutaMasCorta fuel redRebote "O" "X" = some (.error .bad_alloc) ∧
        E1.encontrarRutaMasCorta fuel redRebote "O" "X" = some (.error .bad_alloc)) :=
  ⟨⟨noNegativos_tras _, by decide, by decide,
      ⟨_, rfl, by decide, by decide, by decide, by rfl⟩,
      ⟨_, rfl, by decide, by decide, by decide, by rfl⟩,
      fun fuel hf => consulta_desde redCiclica "A" "D" 4 _ (by rfl) (by rfl) fuel hf⟩,
    noNegativos_tras _, redRebote_totales, by decide, by decide,
    fun fuel hf => consulta_desde redRebote "O" "X" 7 _ (by rfl) (by rfl) fuel hf⟩

/-- C22, amended. Termination of the path query: on every store the frontier loop
    of either source file ends; on a store with non-negative costs (zero-cost
    links and self-links included) on which every route that starts at `o`,
    visits no router twice before its last hop and does not pass through `dest`
    before its last hop totals less than `INT_MAX`, for existing origin and
    destination, the query returns: either the destination was not reached, or
    the walk along the predecessor links from the destination ends at the origin
    having visited no router twice. -/
theorem C22_consulta_termina (r : Red) (o dest : String) (fuel : Nat)
    (hf : cotaBusqueda r ≤ fuel) :
    ((∃ res, iterar (E0.paso r dest) fuel (estadoInicial r o) = some res) ∧
      (∃ res, iterar (E1.paso r dest) fuel (estadoInicial r o) = some res)) ∧
    (r.bienFormada → r.costosNoNegativos → r.sinDesborde o dest →
      r.existeEnrutador o = true → r.existeEnrutador dest = true →
      (∃ st, iterar (E0.paso r dest) fuel (estadoInicial r o) = some (.ok st) ∧
        ((st.distancias dest = INT_MAX ∧
            E0.encontrarRutaMasCorta fuel r o dest = some (.ok (-1, []))) ∨
          ∃ ruta, E0.reconstruir st.anterior o fuel dest [] = some (.ok ruta) ∧
            (ruta ++ [o]).Nodup ∧
            E0.encontrarRutaMasCorta fuel r o dest
              = some (.ok (st.distancias dest, (ruta ++ [o]).reverse)))) ∧
      (∃ st, iterar (E1.paso r dest) fuel (estadoInicial r o) = some (.ok st) ∧
        ((st.distancias dest = INT_MAX ∧
            E1.encontrarRutaMasCorta fuel r o dest = some (.ok (-1, []))) ∨
          ∃ ruta, E1.reconstruir st.anterior o fuel dest [] = some (.ok ruta) ∧
            (ruta ++ [o]).Nodup ∧
            E1.encontrarRutaMasCorta fuel r o dest
              = some (.ok (st.distancias dest, (ruta ++ [o]).reverse))))) :=
  ⟨bucle_termina r o dest fuel hf, fun hbf hnn hso ho hd =>
    ⟨termina0 r o dest hbf hnn hso ho hd fuel hf, termina1 r o dest hbf hnn hso ho hd fuel hf⟩⟩

theorem C22_consulta_termina_witness :
    ((∃ res, iterar (E0.paso redLazo "C") (cotaBusqueda redLazo)
        (estadoInicial redLazo "A") = some res) ∧
      (∃ res, iterar (E1.paso redLazo "C") (cotaBusqueda redLazo)
        (estadoInicial redLazo "A") = some res)) ∧
    ((∃ st, iterar (E0.paso redLazo "C") (cotaBusqueda redLazo)
          (estadoInicial redLazo "A") = some (.ok st) ∧
        ((st.distancias "C" = INT_MAX ∧
            E0.encontrarRutaMasCorta (cotaBusqueda redLazo) redLazo "A" "C"
              = some (.ok (-1, []))) ∨
          ∃ ruta, E0.reconstruir st.anterior "A" (cotaBusqueda redLazo) "C" []
              = some (.ok ruta) ∧
            (ruta ++ ["A"]).Nodup ∧
            E0.encontrarRutaMasCorta (cotaBusqueda redLazo) redLazo "A" "C"
              = some (.ok (st.distancias "C", (ruta ++ ["A"]).reverse)))) ∧
      (∃ st, iterar (E1.paso redLazo "C") (cotaBusqueda redLazo)
          (estadoInicial redLazo "A") = some (.ok st) ∧
        ((st.distancias "C" = INT_MAX ∧
            E1.encontrarRutaMasCorta (cotaBusqueda redLazo) redLazo "A" "C"
              = some (.ok (-1, []))) ∨
          ∃ ruta, E1.reconstruir st.anterior "A" (cotaBusqueda redLazo) "C" []
              = some (.ok ruta) ∧
            (ruta ++ ["A"]).Nodup ∧
            E1.encontrarRutaMasCorta (cotaBusqueda redLazo) redLazo "A" "C"
              = some (.ok (st.distancias "C", (ruta ++ ["A"]).reverse))))) :=
  ⟨(C22_consulta_termina redLazo "A" "C" (cotaBusqueda redLazo) (le_refl _)).1,
    (C22_consulta_termina redLazo "A" "C" (cotaBusqueda redLazo) (le_refl _)).2
      (invariante_tras _).1 (noNegativos_tras _) (redLazo_sinDesborde "A" "C")
      (by decide) (by decide)⟩

/-! ## A direct link in the path query -/

/-- When the only link of `a` leads to `b`, at a cost below `INT_MAX`, the query
    from `a` to `b` forms no sum that reaches `INT_MAX`. -/
theorem sinDesborde_directo (s : Red) (a b : String) (c : Int) (hc : c < INT_MAX)
    (h : ∀ x k, s.costoEnlace a x = some k → x = b ∧ k = c) : s.sinDesborde a b := by
  intro p t hhead hnd hdest ht
  cases p with
  | nil => simp at hhead
  | cons a' l =>
    have haa : a' = a := by simpa using hhead
    subst haa
    cases l with
    | nil =>
      rw [costoRuta_uno] at ht
      have : t = 0 := by simpa using ht.symm
      rw [this]
      decide
    | cons x l2 =>
      obtain ⟨k, t', hl, ht', rfl⟩ := (costoRuta_cons_iff _ _ _ _ _).1 ht
      obtain ⟨hx, hk⟩ := h x k hl
      subst hx hk
      cases l2 with
      | nil =>
        rw [costoRuta_uno] at ht'
        have : t' = 0 := by simpa using ht'.symm
        rw [this]
        omega
      | cons y l3 =>
        exfalso
        apply hdest
        simp [List.dropLast]

/-- C24, counterexample. A direct link of cost `INT_MAX` is never relaxed: after
    `actualizarEnlace("A", "B", INT_MAX)` on two fresh routers the query (A, B)
    returns the no-path result in both source files. And a direct link of cost 5
    does not help where another sum wraps: after `actualizarEnlace("A", "D", 5)` on
    `redCiclica` the query (A, D) returns no cost at all, it ends in
    `std::bad_alloc`. -/
theorem C24_contraejemplo :
    (((Red.tras [.agregar "A", .agregar "B"]).actualizarEnlace "A" "B" 2147483647).1 = .ok () ∧
      ∀ fuel, 2 ≤ fuel →
        E0.encontrarRutaMasCorta fuel redTope "A" "B" = some (.ok (-1, [])) ∧
        E1.encontrarRutaMasCorta fuel redTope "A" "B" = some (.ok (-1, []))) ∧
    ((redCiclica.actualizarEnlace "A" "D" 5).1 = .ok () ∧
      redAtajo.costoEnlace "A" "D" = some 5 ∧
      ∀ fuel, 4 ≤ fuel →
        E0.encontrarRutaMasCorta fuel redAtajo "A" "D" = some (.error .bad_alloc) ∧
        E1.encontrarRutaMasCorta fuel redAtajo "A" "D" = some (.error .bad_alloc)) :=
  ⟨⟨by rfl, redTope_sin_ruta⟩, by rfl, by decide,
    fun fuel hf => consulta_desde redAtajo "A" "D" 4 _ (by rfl) (by rfl) fuel hf⟩

/-- C24, amended. A direct link is usable by the path query: for a store with
    non-negative costs, distinct existing routers `a` and `b` and a cost `c ≥ 0`,
    the call `actualizarEnlace(a, b, c)` succeeds, and if on the store it leaves
    every route that starts at `a`, visits no router twice before its last hop
    and does not pass through `b` before its last hop totals less than `INT_MAX`
    (so `c < INT_MAX`), the query `(a, b)` returns, in both source files, a cost
    of at least 0 and at most `c` with a route from `a` to `b`: not the no-path
    result. -/
theorem C24_enlace_directo (r : Red) (a b : String) (c : Int) (fuel : Nat)
    (hbf : r.bienFormada) (hnn : r.costosNoNegativos) (hab : a ≠ b)
    (ha : r.existeEnrutador a = true) (hb : r.existeEnrutador b = true) (hc : 0 ≤ c)
    (hso : (r.actualizarEnlace a b c).2.sinDesborde a b)
    (hf : cotaBusqueda (r.actualizarEnlace a b c).2 ≤ fuel) :
    (r.actualizarEnlace a b c).1 = .ok () ∧ c < INT_MAX ∧
    (∃ t p, E0.encontrarRutaMasCorta fuel (r.actualizarEnlace a b c).2 a b = some (.ok (t, p)) ∧
      (r.actualizarEnlace a b c).2.esRuta a b p t ∧ 0 ≤ t ∧ t ≤ c) ∧
    (∃ t p, E1.encontrarRutaMasCorta fuel (r.actualizarEnlace a b c).2 a b = some (.ok (t, p)) ∧
      (r.actualizarEnlace a b c).2.esRuta a b p t ∧ 0 ≤ t ∧ t ≤ c) := by
  have hbf' := bienFormada_enlazar r a b c hbf
  have hnn' := noNegativos_enlazar r a b c hnn
  have ha' : (r.actualizarEnlace a b c).2.existeEnrutador a = true := by
    rw [existe_actualizarEnlace]; exact ha
  have hb' : (r.actualizarEnlace a b c).2.existeEnrutador b = true := by
    rw [existe_actualizarEnlace]; exact hb
  obtain ⟨hruta, hcon⟩ := ruta_directa r a b c ha hb hc
  have hout : (r.actualizarEnlace a b c).1 = .ok () := by
    obtain ⟨_, _, _, _, h⟩ := actualizarEnlace_ok r a b c ha hb hc
    rw [h]
  have hclt : c < INT_MAX :=
    hso [a, b] c rfl (by simp) (by simpa using Ne.symm hab) hruta.2.2
  have hpos : ∀ p t, (r.actualizarEnlace a b c).2.esRuta a b p t → 0 ≤ t := by
    intro p t hp
    exact camino_no_negativo _ hnn' _ _ _ (camino_de_ruta _ p a b t hp.1 hp.2.1 hp.2.2)
  refine ⟨hout, hclt, ?_, ?_⟩
  · obtain ⟨h1, h2⟩ := busqueda0 _ a b hbf' hnn' hso ha' hb'
    obtain ⟨res, hres⟩ := h2 fuel hf
    rcases h1 fuel res hres with ⟨_, hno⟩ | ⟨t, p, rfl, hp, hmin⟩
    · exact absurd hcon hno
    · exact ⟨t, p, hres, hp, hpos p t hp, hmin _ _ hruta⟩
  · obtain ⟨h1, h2⟩ := busqueda1 _ a b hbf' hnn' hso ha' hb'
    obtain ⟨res, hres⟩ := h2 fuel hf
    rcases h1 fuel res hres with ⟨_, hno⟩ | ⟨t, p, rfl, hp, hmin⟩
    · exact absurd hcon hno
    · exact ⟨t, p, hres, hp, hpos p t hp, hmin _ _ hruta⟩

theorem C24_enlace_directo_witness :
    ((Red.tras [.agregar "A", .agregar "B"]).actualizarEnlace "A" "B" 2147483646).1 = .ok () ∧
    (2147483646 : Int) < INT_MAX ∧
    (∃ t p, E0.encontrarRutaMasCorta
        (cotaBusqueda ((Red.tras [.agregar "A", .agregar "B"]).actualizarEnlace
          "A" "B" 2147483646).2)
        ((Red.tras [.agregar "A", .agregar "B"]).actualizarEnlace "A" "B" 2147483646).2
        "A" "B" = some (.ok (t, p)) ∧
      ((Red.tras [.agregar "A", .agregar "B"]).actualizarEnlace "A" "B" 2147483646).2.esRuta
        "A" "B" p t ∧ 0 ≤ t ∧ t ≤ 2147483646) ∧
    (∃ t p, E1.encontrarRutaMasCorta
        (cotaBusqueda ((Red.tras [.agregar "A", .agregar "B"]).actualizarEnlace
          "A" "B" 2147483646).2)
        ((Red.tras [.agregar "A", .agregar "B"]).actualizarEnlace "A" "B" 2147483646).2
        "A" "B" = some (.ok (t, p)) ∧
      ((Red.tras [.agregar "A", .agregar "B"]).actualizarEnlace "A" "B" 2147483646).2.esRuta
        "A" "B" p t ∧ 0 ≤ t ∧ t ≤ 2147483646) :=
  C24_enlace_directo (Red.tras [.agregar "A", .agregar "B"]) "A" "B" 2147483646 _
    (invariante_tras _).1 (noNegativos_tras _) (by decide) (by decide) (by decide) (by decide)
    (sinDesborde_directo _ "A" "B" 2147483646 (by decide) (by
      intro x k hk
      have hs : ((Red.tras [.agregar "A", .agregar "B"]).actualizarEnlace
          "A" "B" 2147483646).2.enrutadores
          = [("A", ⟨[("B", 2147483646)], "A"⟩), ("B", ⟨[("A", 2147483646)], "B"⟩)] := by
        rfl
      unfold Red.costoEnlace at hk
      rw [hs] at hk
      simp only [buscar, if_true] at hk
      by_cases hx : "B" = x
      · simp only [hx, if_true, Option.some.injEq] at hk
        exact ⟨hx.symm, hk.symm⟩
      · simp [hx] at hk))
    (le_refl _)

/-! ## Both versions answer alike -/

/-- C23, counterexample. The chain O-A-B-X with costs 0, `2^30` and 0, built by
    the public calls, has non-negative costs, and every path of it totals less
    than `INT_MAX`; `O` and `X` exist. Neither version returns a cost or a router
    sequence for the query (O, X): the link `A`-`B` is relaxed back from `B`
    towards `A`, the sum `2^30 + 2^30` wraps around, `A` and `B` become each
    other's predecessor and both versions end in `std::bad_alloc`. -/
theorem C23_contraejemplo :
    redRebote.invariante ∧ redRebote.costosNoNegativos ∧ redRebote.totalesAcotados ∧
    redRebote.existeEnrutador "O" = true ∧ redRebote.existeEnrutador "X" = true ∧
    ∀ fuel, 7 ≤ fuel →
      E0.encontrarRutaMasCorta fuel redRebote "O" "X" = some (.error .bad_alloc) ∧
      E1.encontrarRutaMasCorta fuel redRebote "O" "X" = some (.error .bad_alloc) :=
  ⟨invariante_tras _, noNegativos_tras _, redRebote_totales, by decide, by decide,
    fun fuel hf => consulta_desde redRebote "O" "X" 7 _ (by rfl) (by rfl) fuel hf⟩

/-- C23, amended. The two Dijkstra implementations agree: on every store and for
    every pair of names, the ordered-set version of enrutador0.cpp and the
    priority-queue version of enrutador1.cpp end with the same outcome, the same
    cost with the same router sequence or the same error, for any fuel from
    `cotaBusqueda r` on, and whatever the second answers with some fuel the first
    answers with that fuel. On a store with non-negative costs on which every
    route that starts at `o`, visits no router twice before its last hop and does
    not pass through `dest` before its last hop totals less than `INT_MAX`, for
    existing origin and destination, that outcome is a cost with a router
    sequence. -/
theorem C23_versiones_coinciden (r : Red) (o dest : String) :
    (∀ fuel, cotaBusqueda r ≤ fuel →
      ∃ res, E0.encontrarRutaMasCorta fuel r o dest = some res ∧
        E1.encontrarRutaMasCorta fuel r o dest = some res) ∧
    (∀ fuel res, E1.encontrarRutaMasCorta fuel r o dest = some res →
      E0.encontrarRutaMasCorta fuel r o dest = some res) ∧
    (r.bienFormada → r.costosNoNegativos → r.sinDesborde o dest →
      r.existeEnrutador o = true → r.existeEnrutador dest = true →
      ∀ fuel, cotaBusqueda r ≤ fuel →
        ∃ c p, E0.encontrarRutaMasCorta fuel r o dest = some (.ok (c, p)) ∧
          E1.encontrarRutaMasCorta fuel r o dest = some (.ok (c, p))) :=
  ⟨fun fuel hf => consulta_termina r o dest fuel hf,
    fun fuel res h => respuesta_comun r o dest fuel res h,
    fun hbf hnn hso ho hd fuel hf => resultado_sin_error r o dest hbf hnn hso ho hd fuel hf⟩

theorem C23_versiones_coinciden_witness :
    (∃ res, E0.encontrarRutaMasCorta (cotaBusqueda redVuelta) redVuelta "A" "C" = some res ∧
      E1.encontrarRutaMasCorta (cotaBusqueda redVuelta) redVuelta "A" "C" = some res) ∧
    E0.encontrarRutaMasCorta 9 ciclo4 "A" "C" = some (.ok (2, ["A", "B", "C"])) ∧
    ∃ c p, E0.encontrarRutaMasCorta (cotaBusqueda ciclo4) ciclo4 "A" "C" = some (.ok (c, p)) ∧
      E1.encontrarRutaMasCorta (cotaBusqueda ciclo4) ciclo4 "A" "C" = some (.ok (c, p)) :=
  ⟨(C23_versiones_coinciden redVuelta "A" "C").1 _ (le_refl _),
    (C23_versiones_coinciden ciclo4 "A" "C").2.1 9 _ (by rfl),
    (C23_versiones_coinciden ciclo4 "A" "C").2.2 (invariante_tras _).1 (noNegativos_tras _)
      (ciclo4_sinDesborde "A" "C") (by decide) (by decide) _ (le_refl _)⟩
